import Mathlib

/-! # Ottoman (lib/ottoman.js): marshalling, save and load

A shallow embedding of `lib/ottoman.js`.

* JavaScript values are trees: primitives, arrays, plain objects and, on the
  object side, model instances, which live in a heap and are named by their
  address.  Numbers are integers; an integer of magnitude above `2^53` stands
  for the JavaScript number nearest to it.  A plain object is the list of its
  own enumerable properties in enumeration order; an object cache also has
  the members it inherits from `Object.prototype` (`objectPrototype`).
* Every function that can throw returns `Except Err`.
* The recursive marshallers take a fuel argument that bounds the nesting of
  calls; running out of fuel is the error `Err.fuel`.
* `uuid.v4`, the conversion of strings to numbers and `toLowerCase` belong to
  the host and are fields of `Env`.
* The round trip is stated through the tree an object graph unfolds to
  (`reify`) and the encoder of trees (`encodeDeep`), which are not part of the
  source: they say which graphs the marshallers invert.
* The depth budget of `load` is stated through `Reach` and `Within`, which
  count the reference hops from a value and from the root of a call, and
  through `LoadRun`, the states a call goes through while the store answers;
  they are not part of the source either.
-/

namespace Ottoman

/-! ## Values -/

/-- Primitive JavaScript values. -/
inductive Prim where
  | undefined
  | null
  | bool (b : Bool)
  | num (n : Int)
  | str (s : String)
  deriving DecidableEq, Repr, Inhabited

/-- Store-side values (`obx`): what a document is made of. -/
inductive Obx where
  | prim (p : Prim)
  | arr (xs : List Obx)
  | obj (kvs : List (String × Obx))
  deriving Repr, Inhabited

/-- Object-side values (`obj`): like documents, and model instances by heap address. -/
inductive Val where
  | prim (p : Prim)
  | arr (xs : List Val)
  | map (kvs : List (String × Val))
  | inst (r : Nat)
  deriving Repr, Inhabited

mutual
/-- Decidable equality of documents. -/
def Obx.decEq : (a b : Obx) → Decidable (a = b)
  | .prim p, .prim q =>
    if h : p = q then isTrue (by rw [h]) else isFalse (by intro e; cases e; exact h rfl)
  | .arr xs, .arr ys =>
    match Obx.decEqList xs ys with
    | isTrue h => isTrue (by rw [h])
    | isFalse h => isFalse (by intro e; cases e; exact h rfl)
  | .obj xs, .obj ys =>
    match Obx.decEqFields xs ys with
    | isTrue h => isTrue (by rw [h])
    | isFalse h => isFalse (by intro e; cases e; exact h rfl)
  | .prim _, .arr _ => isFalse (by intro e; cases e)
  | .prim _, .obj _ => isFalse (by intro e; cases e)
  | .arr _, .prim _ => isFalse (by intro e; cases e)
  | .arr _, .obj _ => isFalse (by intro e; cases e)
  | .obj _, .prim _ => isFalse (by intro e; cases e)
  | .obj _, .arr _ => isFalse (by intro e; cases e)
/-- Decidable equality of lists of documents. -/
def Obx.decEqList : (a b : List Obx) → Decidable (a = b)
  | [], [] => isTrue rfl
  | [], _ :: _ => isFalse (by intro e; cases e)
  | _ :: _, [] => isFalse (by intro e; cases e)
  | x :: xs, y :: ys =>
    match Obx.decEq x y, Obx.decEqList xs ys with
    | isTrue h, isTrue h2 => isTrue (by rw [h, h2])
    | isFalse h, _ => isFalse (by intro e; cases e; exact h rfl)
    | _, isFalse h => isFalse (by intro e; cases e; exact h rfl)
/-- Decidable equality of property lists. -/
def Obx.decEqFields : (a b : List (String × Obx)) → Decidable (a = b)
  | [], [] => isTrue rfl
  | [], _ :: _ => isFalse (by intro e; cases e)
  | _ :: _, [] => isFalse (by intro e; cases e)
  | (k, x) :: xs, (l, y) :: ys =>
    if hk : k = l then
      match Obx.decEq x y, Obx.decEqFields xs ys with
      | isTrue h, isTrue h2 => isTrue (by rw [hk, h, h2])
      | isFalse h, _ => isFalse (by intro e; cases e; exact h rfl)
      | _, isFalse h => isFalse (by intro e; cases e; exact h rfl)
    else isFalse (by intro e; cases e; exact hk rfl)
end

instance : DecidableEq Obx := Obx.decEq

mutual
/-- Decidable equality of object-side values. -/
def Val.decEq : (a b : Val) → Decidable (a = b)
  | .prim p, .prim q =>
    if h : p = q then isTrue (by rw [h]) else isFalse (by intro e; cases e; exact h rfl)
  | .arr xs, .arr ys =>
    match Val.decEqList xs ys with
    | isTrue h => isTrue (by rw [h])
    | isFalse h => isFalse (by intro e; cases e; exact h rfl)
  | .map xs, .map ys =>
    match Val.decEqFields xs ys with
    | isTrue h => isTrue (by rw [h])
    | isFalse h => isFalse (by intro e; cases e; exact h rfl)
  | .inst r, .inst s =>
    if h : r = s then isTrue (by rw [h]) else isFalse (by intro e; cases e; exact h rfl)
  | .prim _, .arr _ => isFalse (by intro e; cases e)
  | .prim _, .map _ => isFalse (by intro e; cases e)
  | .prim _, .inst _ => isFalse (by intro e; cases e)
  | .arr _, .prim _ => isFalse (by intro e; cases e)
  | .arr _, .map _ => isFalse (by intro e; cases e)
  | .arr _, .inst _ => isFalse (by intro e; cases e)
  | .map _, .prim _ => isFalse (by intro e; cases e)
  | .map _, .arr _ => isFalse (by intro e; cases e)
  | .map _, .inst _ => isFalse (by intro e; cases e)
  | .inst _, .prim _ => isFalse (by intro e; cases e)
  | .inst _, .arr _ => isFalse (by intro e; cases e)
  | .inst _, .map _ => isFalse (by intro e; cases e)
/-- Decidable equality of lists of object-side values. -/
def Val.decEqList : (a b : List Val) → Decidable (a = b)
  | [], [] => isTrue rfl
  | [], _ :: _ => isFalse (by intro e; cases e)
  | _ :: _, [] => isFalse (by intro e; cases e)
  | x :: xs, y :: ys =>
    match Val.decEq x y, Val.decEqList xs ys with
    | isTrue h, isTrue h2 => isTrue (by rw [h, h2])
    | isFalse h, _ => isFalse (by intro e; cases e; exact h rfl)
    | _, isFalse h => isFalse (by intro e; cases e; exact h rfl)
/-- Decidable equality of object-side property lists. -/
def Val.decEqFields : (a b : List (String × Val)) → Decidable (a = b)
  | [], [] => isTrue rfl
  | [], _ :: _ => isFalse (by intro e; cases e)
  | _ :: _, [] => isFalse (by intro e; cases e)
  | (k, x) :: xs, (l, y) :: ys =>
    if hk : k = l then
      match Val.decEq x y, Val.decEqFields xs ys with
      | isTrue h, isTrue h2 => isTrue (by rw [hk, h, h2])
      | isFalse h, _ => isFalse (by intro e; cases e; exact h rfl)
      | _, isFalse h => isFalse (by intro e; cases e; exact h rfl)
    else isFalse (by intro e; cases e; exact hk rfl)
end

instance : DecidableEq Val := Val.decEq

/-- What the code can throw. -/
inductive Err where
  /-- `throw new Error(msg)` in `ottoman.js`. -/
  | thrown (msg : String)
  /-- A `TypeError` raised by the host (property of `null`, `new undefined`). -/
  | typeError (what : String)
  /-- The nesting of calls went beyond the fuel given (the host's stack overflow). -/
  | fuel
  deriving DecidableEq, Repr, Inhabited

deriving instance DecidableEq for Except

/-- JavaScript truthiness of a primitive. -/
def Prim.truthy : Prim → Bool
  | .undefined => false
  | .null => false
  | .bool b => b
  | .num n => n != 0
  | .str s => s != ""

/-- JavaScript truthiness of a document value: arrays and objects are truthy. -/
def Obx.truthy : Obx → Bool
  | .prim p => p.truthy
  | _ => true

/-- JavaScript truthiness of an object-side value. -/
def Val.truthy : Val → Bool
  | .prim p => p.truthy
  | _ => true

/-- The test `x instanceof Object` on a document value. -/
def Obx.isObject : Obx → Bool
  | .prim _ => false
  | _ => true

/-- The test `x instanceof Object` on an object-side value. -/
def Val.isObject : Val → Bool
  | .prim _ => false
  | _ => true

/-- The number of decimal digits of a natural number. -/
def digitCount (a : Nat) : Nat := (Nat.toDigits 10 a).length

/-- The number of binary digits of a natural number below `2 ^ fuel`. -/
def bitCount : Nat → Nat → Nat
  | 0, _ => 0
  | fuel + 1, a => if a = 0 then 0 else bitCount fuel (a / 2) + 1

/-- The JavaScript number nearest to a natural number: itself up to `2^53`, and above
that the nearest number with 53 significant bits, the even one of two. -/
def nearestNumber (a : Nat) : Nat :=
  if a < 2 ^ 53 then a
  else
    let e := bitCount (4 * digitCount a) a - 53
    let q := a / 2 ^ e
    let r := a % 2 ^ e
    let half := 2 ^ (e - 1)
    (if r > half ∨ (r = half ∧ q % 2 = 1) then q + 1 else q) * 2 ^ e

/-- The decimal numeral with the fewest significant digits that denotes the number `x`
(a numeral with `k` significant digits is tried for `k = 1, 2, ...`, below and above `x`;
of two that denote `x` the nearer one is taken, and of two equally near ones the one
whose last significant digit is even). -/
def shortest (x : Nat) : Nat → Nat → Nat
  | 0, _ => x
  | fuel + 1, k =>
    let j := digitCount x - k
    let lo := x / 10 ^ j * 10 ^ j
    let hi := lo + 10 ^ j
    let okLo := nearestNumber lo = x
    let okHi := nearestNumber hi = x
    if okLo ∧ okHi then
      (if x - lo < hi - x then lo
       else if hi - x < x - lo then hi
       else if (x / 10 ^ j) % 2 = 0 then lo else hi)
    else if okLo then lo
    else if okHi then hi
    else shortest x fuel (k + 1)

/-- Drop the zeros at the end of a list of digits. -/
def dropZeros (cs : List Char) : List Char :=
  (cs.reverse.dropWhile (fun c => c = '0')).reverse

/-- The string of a natural number, `Number::toString`: the significant digits of the
shortest numeral, written out with its zeros when it has at most 21 digits and in
exponent form otherwise. -/
def natToStr (a : Nat) : String :=
  if a < 2 ^ 53 then toString a
  else if 1024 < bitCount (4 * digitCount a + 4) (nearestNumber a) then "Infinity"
  else
    let v := shortest (nearestNumber a) 17 1
    let n := digitCount v
    if n ≤ 21 then toString v
    else
      match dropZeros (Nat.toDigits 10 v) with
      | [] => "0"
      | [d] => String.mk [d] ++ "e+" ++ toString (n - 1)
      | d :: ds => String.mk (d :: '.' :: ds) ++ "e+" ++ toString (n - 1)

/-- The string of a number (`ToString`): an integer stands for the JavaScript number
nearest to it. -/
def numToStr (n : Int) : String :=
  if n < 0 then "-" ++ natToStr n.natAbs else natToStr n.natAbs

/-- `ToString` of a primitive. -/
def Prim.toStr : Prim → String
  | .undefined => "undefined"
  | .null => "null"
  | .bool true => "true"
  | .bool false => "false"
  | .num n => numToStr n
  | .str s => s

mutual
/-- `ToString` of a document value: arrays join their elements with commas. -/
def Obx.toStr : Obx → String
  | .prim p => p.toStr
  | .arr xs => Obx.joinStr xs
  | .obj _ => "[object Object]"
/-- `Array.prototype.join(',')`: `null` and `undefined` print as nothing. -/
def Obx.joinStr : List Obx → String
  | [] => ""
  | [x] => Obx.elemStr x
  | x :: y :: rest => Obx.elemStr x ++ "," ++ Obx.joinStr (y :: rest)
/-- One element of a join. -/
def Obx.elemStr : Obx → String
  | .prim .undefined => ""
  | .prim .null => ""
  | .prim p => p.toStr
  | .arr xs => Obx.joinStr xs
  | .obj _ => "[object Object]"
end

mutual
/-- `ToString` of an object-side value. -/
def Val.toStr : Val → String
  | .prim p => p.toStr
  | .arr xs => Val.joinStr xs
  | .map _ => "[object Object]"
  | .inst _ => "[object Object]"
/-- `Array.prototype.join(',')` on object-side values. -/
def Val.joinStr : List Val → String
  | [] => ""
  | [x] => Val.elemStr x
  | x :: y :: rest => Val.elemStr x ++ "," ++ Val.joinStr (y :: rest)
/-- One element of a join. -/
def Val.elemStr : Val → String
  | .prim .undefined => ""
  | .prim .null => ""
  | .prim p => p.toStr
  | .arr xs => Val.joinStr xs
  | .map _ => "[object Object]"
  | .inst _ => "[object Object]"
end

/-! ## Property lists -/

/-- Own property `k` of a property list, `none` when there is none. -/
def lookupProp {α : Type} : List (String × α) → String → Option α
  | [], _ => none
  | (k, v) :: rest, x => if k = x then some v else lookupProp rest x

/-- The assignment `o[k] = v`: an existing property keeps its place, a new one goes last. -/
def setProp {α : Type} : List (String × α) → String → α → List (String × α)
  | [], k, v => [(k, v)]
  | (k0, v0) :: rest, k, v => if k0 = k then (k0, v) :: rest else (k0, v0) :: setProp rest k v

/-- The array index a property name denotes, when it is one (`"0"`, `"1"`, ...). -/
def arrayIndex (k : String) : Option Nat :=
  match k.data with
  | [] => none
  | ['0'] => some 0
  | '0' :: _ => none
  | cs => if cs.all Char.isDigit then some (cs.foldl (fun n c => 10 * n + (c.toNat - 48)) 0)
          else none

/-- Lowering of the letters `A` to `Z`, the method `toLowerCase` of the hosts of the
examples, whose strings are made of ASCII characters. -/
def lowerAscii (s : String) : String := ⟨s.data.map Char.toLower⟩

/-- The read `obx[k]`: own properties of objects; `length` and the elements of arrays and
of strings; `undefined` otherwise. -/
def Obx.get : Obx → String → Obx
  | .obj kvs, k => (lookupProp kvs k).getD (.prim .undefined)
  | .arr xs, k =>
    if k = "length" then .prim (.num xs.length)
    else match arrayIndex k with
      | some n => xs.getD n (.prim .undefined)
      | none => .prim .undefined
  | .prim (.str s), k =>
    if k = "length" then .prim (.num s.length)
    else match arrayIndex k with
      | some n => if n < s.length then .prim (.str (String.singleton (s.data.getD n ' ')))
                  else .prim .undefined
      | none => .prim .undefined
  | .prim _, _ => .prim .undefined

/-! ## The host and the type registry -/

/-- One entry of a normalised schema (`normalizeSchema`). -/
structure Field where
  /-- The schema key, which is also the accessor defined on the prototype. -/
  key : String
  /-- The member `name`: the property of `$values` and of the document. -/
  name : String
  /-- The member `type`; `""` stands for a missing (falsy) type. -/
  type : String
  /-- The member `subtype`; `""` stands for a missing (falsy) subtype. -/
  subtype : String := ""
  /-- Whether `auto` is `'uuid'`. -/
  auto : Bool := false
  /-- The member `readonly`. -/
  readonly : Bool := false
  deriving DecidableEq, Repr, Inhabited

/-- The record `info` that `createModel` stores at `con.prototype.$`. -/
structure TypeInfo where
  /-- The member `name`. -/
  name : String
  /-- The schema, in enumeration order. -/
  schema : List Field
  /-- The discriminators (`descrims`), in enumeration order. -/
  descrims : List (String × Obx)
  /-- The member `embed`. -/
  embed : Bool
  /-- The identifier fields (`id`). -/
  id : List String
  /-- The required fields (`required`). -/
  required : List String
  /-- The bucket the type is stored in. -/
  bucket : String := "default"
  deriving Repr, Inhabited

/-- The host functions and the registry `typeList`, in enumeration order, which for
type names (identifiers) is registration order. -/
structure Env where
  /-- The registry `typeList`. -/
  typeList : List TypeInfo
  /-- The identifier the n-th call of `uuid.v4()` returns. -/
  uuid : Nat → String
  /-- The integer a string converts to (`ToNumber`), when it converts to one. -/
  toNumber : String → Option Int
  /-- The method `String.prototype.toLowerCase` of the host, which lowers every cased
  letter of the character set the host knows. -/
  toLowerCase : String → String := lowerAscii
  /-- Lowering maps every character to at least one character, so it empties no string. -/
  toLowerCase_ne : ∀ s : String, s ≠ "" → toLowerCase s ≠ "" := by
    intro s h hc
    apply h
    have h2 : (s.data.map Char.toLower) = [] := congrArg String.data hc
    exact String.ext (List.map_eq_nil_iff.1 h2)

/-- The lookup `typeList[typeName]`. -/
def Env.lookup (E : Env) (typeName : String) : Option TypeInfo :=
  E.typeList.find? (fun info => info.name = typeName)

/-- Loose equality `==` of primitives. -/
def Prim.looseEq (toNumber : String → Option Int) : Prim → Prim → Bool
  | .undefined, .undefined => true
  | .undefined, .null => true
  | .null, .undefined => true
  | .null, .null => true
  | .undefined, _ => false
  | .null, _ => false
  | _, .undefined => false
  | _, .null => false
  | .num a, .num b => a == b
  | .str a, .str b => a == b
  | .bool a, .bool b => a == b
  | .num a, .str b => toNumber b == some a
  | .str a, .num b => toNumber a == some b
  | .bool a, .num b => (if a then 1 else 0) == b
  | .num a, .bool b => a == (if b then 1 else 0)
  | .bool a, .str b => toNumber b == some (if a then 1 else 0)
  | .str a, .bool b => toNumber a == some (if b then 1 else 0)

/-- Loose equality `==` between a value read from a document and a discriminator value.
An array or object is compared with a primitive through its string form, and is never
equal to another array or object: the two are distinct objects. -/
def Obx.looseEq (toNumber : String → Option Int) : Obx → Obx → Bool
  | .prim p, .prim q => Prim.looseEq toNumber p q
  | .prim .undefined, _ => false
  | .prim .null, _ => false
  | _, .prim .undefined => false
  | _, .prim .null => false
  | .prim p, o => Prim.looseEq toNumber p (.str o.toStr)
  | o, .prim q => Prim.looseEq toNumber (.str o.toStr) q
  | _, _ => false

/-- The inner loop of `typeNameFromObx`: no discriminator differs (`!=`) from the
document's property of the same name. -/
def descrimsMatch (E : Env) (obx : Obx) (descrims : List (String × Obx)) : Bool :=
  descrims.all (fun jv => Obx.looseEq E.toNumber (obx.get jv.1) jv.2)

/-- The function `typeNameFromObx`: the name of the first type of the registry whose
discriminators all match, `none` for `null`. -/
def typeNameFromObx (E : Env) (obx : Obx) : Option String :=
  (E.typeList.find? (fun info => descrimsMatch E obx info.descrims)).map (·.name)

/-- The function `isOttoObx`. -/
def isOttoObx (E : Env) (obx : Obx) : Bool :=
  obx.isObject && (match typeNameFromObx E obx with
    | some n => n != ""
    | none => false)

/-- The function `isRefObx`. -/
def isRefObx (obx : Obx) : Bool :=
  obx.isObject && (obx.get "$ref").truthy

/-! ## Model instances and the heap -/

/-- A model instance: the internal fields that `modelConstruct` defines, and the name
of the registered constructor it was built by (what `obj.$.name` reads). -/
structure Inst where
  /-- The name of the constructor: `obj.$.name`. -/
  type : String
  /-- The field `$key`. -/
  key : Obx
  /-- The field `$values`; `none` is `null`. -/
  values : Option (List (String × Val))
  /-- The field `$cas`. -/
  cas : Obx
  /-- The field `$loaded`. -/
  loaded : Bool
  /-- The field `$initial`. -/
  initial : Obx
  /-- The field `$cache`: the address of an object cache; `none` is `undefined`. -/
  cache : Option Nat
  deriving DecidableEq, Repr, Inhabited

/-- The mutable state the marshallers work on. -/
structure World where
  /-- The model instances, by address. -/
  heap : List Inst
  /-- The object caches, by address: each maps a key to an instance. -/
  caches : List (List (String × Nat))
  /-- How many identifiers `uuid.v4()` has handed out. -/
  uuids : Nat
  deriving DecidableEq, Repr, Inhabited

/-- Overwrite the instance at address `r`. -/
def World.setInst (w : World) (r : Nat) (i : Inst) : World :=
  { w with heap := w.heap.set r i }

/-- Allocate a new instance; its address is the old size of the heap. -/
def World.alloc (w : World) (i : Inst) : Nat × World :=
  (w.heap.length, { w with heap := w.heap ++ [i] })

/-- The names of the members that every plain object inherits from `Object.prototype`. -/
def objectPrototype : List String :=
  ["constructor", "__defineGetter__", "__defineSetter__", "hasOwnProperty",
   "__lookupGetter__", "__lookupSetter__", "isPrototypeOf", "propertyIsEnumerable",
   "toString", "valueOf", "__proto__", "toLocaleString"]

/-- What a read `objCache[k]` of an object cache finds. -/
inductive Cached where
  /-- The instance stored under `k`. -/
  | inst (r : Nat)
  /-- Nothing is stored under `k`, and `k` names a member inherited from
  `Object.prototype`: a function or object, which is truthy and has no property `$`. -/
  | member
  /-- The value `undefined`. -/
  | missing
  deriving DecidableEq, Repr, Inhabited

/-- The read `objCache[k]`; `none` is a `TypeError` (no such cache).  A cache is a plain
object: what is stored under `k` comes first, then what is inherited. -/
def World.cacheGet (w : World) (objCache : Option Nat) (k : String) : Option Cached :=
  match objCache with
  | none => none
  | some c => (w.caches[c]?).map (fun cache =>
      match lookupProp cache k with
      | some r => .inst r
      | none => if objectPrototype.contains k then .member else .missing)

/-- The assignment `objCache[k] = obj`; `none` is a `TypeError` (no such cache). -/
def World.cacheSet (w : World) (objCache : Option Nat) (k : String) (r : Nat) : Option World :=
  match objCache with
  | none => none
  | some c => (w.caches[c]?).map (fun cache => { w with caches := w.caches.set c (setProp cache k r) })

/-- The accessor `this[field]` that `registerField` defines for the schema key `field`;
a name that is no schema key reads as `undefined`. -/
def getField (E : Env) (w : World) (r : Nat) (field : String) : Except Err (Val × World) :=
  match w.heap[r]? with
  | none => .error (.typeError "no such instance")
  | some i =>
    match (E.lookup i.type).bind (fun info => info.schema.find? (fun f => f.key = field)) with
    | none => .ok (.prim .undefined, w)
    | some f =>
      match i.values with
      | none => .error (.typeError "cannot read a property of null")
      | some vals =>
        let cur := (lookupProp vals f.name).getD (.prim .undefined)
        if f.auto && !cur.truthy then
          let fresh : Val := .prim (.str (E.uuid w.uuids))
          .ok (fresh, { (w.setInst r { i with values := some (setProp vals f.name fresh) })
                          with uuids := w.uuids + 1 })
        else .ok (cur, w)

/-- The function `modelCheckRequired`. -/
def modelCheckRequired (E : Env) (r : Nat) : List String → World → Except Err World
  | [], w => .ok w
  | f :: rest, w =>
    match getField E w r f with
    | .error e => .error e
    | .ok (v, w1) =>
      if v.truthy then modelCheckRequired E r rest w1
      else .error (.thrown ("required field missing: " ++ f))

/-- The loop of `modelKey` that appends `'_' + this[id]` for every identifier field. -/
def modelKeyIds (E : Env) (r : Nat) : List String → World → String → Except Err (String × World)
  | [], w, key => .ok (key, w)
  | f :: rest, w, key =>
    match getField E w r f with
    | .error e => .error e
    | .ok (v, w1) => modelKeyIds E r rest w1 (key ++ "_" ++ v.toStr)

/-- The function `modelKey`, called on the instance at address `r`. -/
def modelKey (E : Env) (w : World) (r : Nat) : Except Err (Obx × World) :=
  match w.heap[r]? with
  | none => .error (.typeError "no such instance")
  | some i =>
    if i.key.truthy then .ok (i.key, w)
    else
      match E.lookup i.type with
      | none => .error (.typeError "no such type")
      | some info =>
        match modelCheckRequired E r info.required w with
        | .error e => .error e
        | .ok w1 =>
          match modelKeyIds E r info.id w1 info.name with
          | .error e => .error e
          | .ok (key, w2) =>
            match w2.heap[r]? with
            | none => .error (.typeError "no such instance")
            | some i2 =>
              let k : Obx := .prim (.str (E.toLowerCase key))
              .ok (k, w2.setInst r { i2 with key := k })

/-! ## Encoding: `objToObx` -/

/-- The names `CORETYPES`. -/
def CORETYPES : List String := ["string", "integer", "number", "boolean"]

/-- What an encoder returns: the document, the state and the reference list `objRefs`. -/
abbrev EncRes := Except Err (Obx × World × List Nat)

/-- The type of `objToObx`: state, `objRefs`, then `obj, typeName, subtypeNames, depth`. -/
abbrev EncFn := World → List Nat → Val → String → List String → Nat → EncRes

/-- The list `subtypes` built from a field. -/
def Field.subtypes (f : Field) : List String :=
  if f.subtype = "" then [] else [f.subtype]

/-- The default `['Mixed']` for missing or empty `subtypeNames`. -/
def defaultSubtypes (subtypeNames : List String) : List String :=
  if subtypeNames.isEmpty then ["Mixed"] else subtypeNames

/-- An array built by the assignments `out[i] = x` for the defined `x` only: holes read
as `undefined`, and the length ends at the last defined element. -/
def trimUndefined {α : Type} (isUndefined : α → Bool) : List α → List α
  | [] => []
  | x :: xs =>
    match trimUndefined isUndefined xs with
    | [] => if isUndefined x then [] else [x]
    | ys => x :: ys

/-- The test `x === undefined` on a document value. -/
def Obx.isUndefined : Obx → Bool
  | .prim .undefined => true
  | _ => false

/-- The test `x === undefined` on an object-side value. -/
def Val.isUndefined : Val → Bool
  | .prim .undefined => true
  | _ => false

/-- The number of rounds of `for (i = 0; i < obj.length; ++i)`. -/
def loopLength (E : Env) : Val → Nat
  | .arr xs => xs.length
  | .prim (.str s) => s.length
  | .map kvs =>
    match lookupProp kvs "length" with
    | some (.prim (.num n)) => n.toNat
    | some (.prim (.bool true)) => 1
    | some (.prim (.str s)) => ((E.toNumber s).getD 0).toNat
    | _ => 0
  | _ => 0

/-- The read `obj[i]` for an index `i`. -/
def Val.at : Val → Nat → Val
  | .arr xs, i => xs.getD i (.prim .undefined)
  | .prim (.str s), i =>
    if i < s.length then .prim (.str (String.singleton (s.data.getD i ' '))) else .prim .undefined
  | .map kvs, i => (lookupProp kvs (toString i)).getD (.prim .undefined)
  | _, _ => .prim .undefined

/-- The values `obj[0], ..., obj[obj.length - 1]` that the list loops visit. -/
def Val.elems (E : Env) (obj : Val) : List Val :=
  (List.range (loopLength E obj)).map (fun i => obj.at i)

/-- The own enumerable properties `for (i in obj)` visits, with their values.  An
instance has none: its internal fields are hidden and its accessors are inherited. -/
def Val.entries : Val → List (String × Val)
  | .map kvs => kvs
  | .arr xs => (List.range xs.length).map (fun i => (toString i, xs.getD i (.prim .undefined)))
  | .prim (.str s) =>
    (List.range s.length).map (fun i => (toString i, Val.prim (.str (String.singleton (s.data.getD i ' ')))))
  | _ => []

/-- The field loop of `objToObx_Otto`: every schema field is encoded at `depth + 1` and
stored under its name unless the result is `undefined`. -/
def encodeFields (rec : EncFn) (r : Nat) (depth : Nat) :
    List Field → World → List Nat → List (String × Obx) →
    Except Err (List (String × Obx) × World × List Nat)
  | [], w, objRefs, out => .ok (out, w, objRefs)
  | f :: fs, w, objRefs, out =>
    match (w.heap[r]?).bind (fun i => i.values) with
    | none => .error (.typeError "cannot read a property of null")
    | some vals =>
      match rec w objRefs ((lookupProp vals f.name).getD (.prim .undefined)) f.type f.subtypes (depth + 1) with
      | .error e => .error e
      | .ok (outObj, w1, refs1) =>
        encodeFields rec r depth fs w1 refs1 (if outObj.isUndefined then out else setProp out f.name outObj)

/-- The discriminator loop of `objToObx_Otto`: `out[i] = info.descrims[i]`. -/
def addDescrims (out : List (String × Obx)) (descrims : List (String × Obx)) : List (String × Obx) :=
  descrims.foldl (fun acc jv => setProp acc jv.1 jv.2) out

/-- The reference marker `{'$ref': [name, key]}`. -/
def refMarker (name : String) (key : Obx) : Obx :=
  .obj [("$ref", .arr [.prim (.str name), key])]

/-- The list `objRefs` after `if (objRefs.indexOf(obj) < 0) objRefs.push(obj)`. -/
def pushRef (objRefs : List Nat) (r : Nat) : List Nat :=
  if objRefs.contains r then objRefs else objRefs ++ [r]

/-- The function `objToObx_Otto`. -/
def objToObx_Otto (E : Env) (rec : EncFn) (w : World) (objRefs : List Nat) (obj : Val)
    (typeName : String) (depth : Nat) : EncRes :=
  match E.lookup typeName with
  | none => .error (.typeError "right-hand side of instanceof is not callable")
  | some info =>
    match obj with
    | .inst r =>
      match w.heap[r]? with
      | none => .error (.typeError "no such instance")
      | some i =>
        if i.type ≠ typeName then .error (.thrown ("expected object of type " ++ typeName))
        else if depth > 0 ∧ info.embed = false then
          let objRefs1 := pushRef objRefs r
          match modelKey E w r with
          | .error e => .error e
          | .ok (key, w1) => .ok (refMarker info.name key, w1, objRefs1)
        else
          match encodeFields rec r depth info.schema w objRefs [] with
          | .error e => .error e
          | .ok (out, w1, refs1) => .ok (.obj (addDescrims out info.descrims), w1, refs1)
    | _ => .error (.thrown ("expected object of type " ++ typeName))

/-- The loop of `objToObx_List` over the elements, keeping `undefined` results in place. -/
def encodeElems (rec : EncFn) (sub : String) (subs : List String) (depth : Nat) :
    List Val → World → List Nat → Except Err (List Obx × World × List Nat)
  | [], w, objRefs => .ok ([], w, objRefs)
  | x :: xs, w, objRefs =>
    match rec w objRefs x sub subs (depth + 1) with
    | .error e => .error e
    | .ok (o, w1, refs1) =>
      match encodeElems rec sub subs depth xs w1 refs1 with
      | .error e => .error e
      | .ok (os, w2, refs2) => .ok (o :: os, w2, refs2)

/-- The function `objToObx_List`. -/
def objToObx_List (E : Env) (rec : EncFn) (w : World) (objRefs : List Nat) (obj : Val)
    (subtypeNames : List String) (depth : Nat) : EncRes :=
  let subs := defaultSubtypes subtypeNames
  match encodeElems rec (subs.headD "Mixed") subs.tail depth (obj.elems E) w objRefs with
  | .error e => .error e
  | .ok (os, w1, refs1) => .ok (.arr (trimUndefined Obx.isUndefined os), w1, refs1)

/-- The loop of `objToObx_Map` over the own properties. -/
def encodeEntries (rec : EncFn) (sub : String) (subs : List String) (depth : Nat) :
    List (String × Val) → World → List Nat → List (String × Obx) →
    Except Err (List (String × Obx) × World × List Nat)
  | [], w, objRefs, out => .ok (out, w, objRefs)
  | (k, x) :: xs, w, objRefs, out =>
    match rec w objRefs x sub subs (depth + 1) with
    | .error e => .error e
    | .ok (o, w1, refs1) =>
      encodeEntries rec sub subs depth xs w1 refs1 (if o.isUndefined then out else setProp out k o)

/-- The function `objToObx_Map`. -/
def objToObx_Map (rec : EncFn) (w : World) (objRefs : List Nat) (obj : Val)
    (subtypeNames : List String) (depth : Nat) : EncRes :=
  let subs := defaultSubtypes subtypeNames
  match encodeEntries rec (subs.headD "Mixed") subs.tail depth obj.entries w objRefs [] with
  | .error e => .error e
  | .ok (out, w1, refs1) => .ok (.obj out, w1, refs1)

/-- The function `isOttoObj`: an instance of some registered constructor. -/
def isOttoObj (E : Env) (w : World) : Val → Bool
  | .inst r =>
    match w.heap[r]? with
    | some i => (E.lookup i.type).isSome
    | none => false
  | _ => false

/-- The name `obj.$.name` of an instance. -/
def typeNameOf (w : World) : Val → String
  | .inst r => ((w.heap[r]?).map (fun i => i.type)).getD ""
  | _ => ""

/-- The function `objToObx_Mixed`. -/
def objToObx_Mixed (E : Env) (rec : EncFn) (w : World) (objRefs : List Nat) (obj : Val)
    (depth : Nat) : EncRes :=
  if isOttoObj E w obj then objToObx_Otto E rec w objRefs obj (typeNameOf w obj) depth
  else match obj with
    | .arr _ => objToObx_List E rec w objRefs obj [] depth
    | .prim p => .ok (.prim p, w, objRefs)
    | _ => objToObx_Map rec w objRefs obj [] depth

/-- The function `objToObx`; the first argument bounds the nesting of calls. -/
def objToObx (E : Env) : Nat → EncFn
  | 0 => fun _ _ _ _ _ _ => .error .fuel
  | n + 1 => fun w objRefs obj typeName subtypeNames depth =>
    let typeName := if typeName = "" then "Mixed" else typeName
    match obj with
    | .prim .undefined => .ok (.prim .undefined, w, objRefs)
    | .prim .null => .ok (.prim .null, w, objRefs)
    | _ =>
      if (E.lookup typeName).isSome then
        objToObx_Otto E (objToObx E n) w objRefs obj typeName depth
      else if typeName = "List" then
        objToObx_List E (objToObx E n) w objRefs obj subtypeNames depth
      else if typeName = "Map" then
        objToObx_Map (objToObx E n) w objRefs obj subtypeNames depth
      else if typeName = "Mixed" then
        objToObx_Mixed E (objToObx E n) w objRefs obj depth
      else if CORETYPES.contains typeName then
        match obj with
        | .prim p => .ok (.prim p, w, objRefs)
        | _ => .error (.thrown "core type is an object")
      else .error (.thrown ("encountered unknown type " ++ typeName))

/-- The function `serialize`. -/
def serialize (E : Env) (fuel : Nat) (w : World) (obj : Val) : EncRes :=
  objToObx E fuel w [] obj (typeNameOf w obj) [] 0

/-! ## Decoding: `obxToObj` -/

/-- What a decoder returns: the value and the state. -/
abbrev DecRes := Except Err (Val × World)

/-- The type of `obxToObj`: state, then `obx, typeName, subtypeNames, depth, objCache,
thisKey`. -/
abbrev DecFn := World → Obx → String → List String → Nat → Option Nat → Obx → DecRes

/-- The assignment `obj.$values[name] = v` on the instance at address `r`. -/
def World.setValue (w : World) (r : Nat) (name : String) (v : Val) : Except Err World :=
  match w.heap[r]? with
  | none => .error (.typeError "no such instance")
  | some i =>
    match i.values with
    | none => .error (.typeError "cannot set a property of null")
    | some vals => .ok (w.setInst r { i with values := some (setProp vals name v) })

/-- The field loop of `obxToObj_Otto_Load`. -/
def decodeFields (rec : DecFn) (r : Nat) (obx : Obx) (depth : Nat) (objCache : Option Nat) :
    List Field → World → Except Err World
  | [], w => .ok w
  | f :: fs, w =>
    match rec w (obx.get f.name) f.type f.subtypes (depth + 1) objCache (.prim .null) with
    | .error e => .error e
    | .ok (newObj, w1) =>
      if newObj.isUndefined then decodeFields rec r obx depth objCache fs w1
      else
        match w1.setValue r f.name newObj with
        | .error e => .error e
        | .ok w2 => decodeFields rec r obx depth objCache fs w2

/-- The function `obxToObj_Otto_Load`, called on the instance at address `r`. -/
def obxToObj_Otto_Load (E : Env) (rec : DecFn) (w : World) (r : Nat) (obx : Obx) (depth : Nat)
    (objCache : Option Nat) : Except Err World :=
  match w.heap[r]? with
  | none => .error (.typeError "no such instance")
  | some i =>
    match E.lookup i.type with
    | none => .error (.typeError "no such type")
    | some info =>
      if !obx.isObject then .error (.thrown "expected value of type Object")
      else if typeNameFromObx E obx ≠ some info.name then .error (.thrown "data is wrong type")
      else
        let w1 := w.setInst r { i with values := some [], loaded := true, initial := obx }
        decodeFields rec r obx depth objCache info.schema w1

/-- The function `obxToObj_Otto`.  The argument `typeName` is a document value, because
`obxToObj_Mixed` passes the first element of the reference it found. -/
def obxToObj_Otto (E : Env) (rec : DecFn) (w : World) (obx : Obx) (typeName : Obx) (depth : Nat)
    (objCache : Option Nat) (thisKey : Obx) : DecRes :=
  let type := E.lookup typeName.toStr
  if isRefObx obx then
    let ref := obx.get "$ref"
    let refkey := ref.get "1"
    if ref.get "length" ≠ .prim (.num 2) then .error (.thrown "expected reference object")
    else if ref.get "0" ≠ typeName then .error (.thrown "data is wrong type")
    else
      match w.cacheGet objCache refkey.toStr with
      | none => .error (.typeError "cannot read a property of undefined")
      | some (.inst cached) =>
        match w.heap[cached]? with
        | none => .error (.typeError "no such instance")
        | some ci =>
          if Obx.prim (.str ci.type) ≠ ref.get "0" then
            .error (.thrown "object cached but later found as different type")
          else .ok (.inst cached, w)
      | some .member => .error (.typeError "cannot read property name of undefined")
      | some .missing =>
        match type with
        | none => .error (.typeError "type is not a constructor")
        | some info =>
          let (r, w1) := w.alloc
            { type := info.name, key := refkey, cas := .prim .null, cache := objCache,
              values := none, loaded := false, initial := .prim .null }
          match w1.cacheSet objCache refkey.toStr r with
          | none => .error (.typeError "cannot set a property of undefined")
          | some w2 => .ok (.inst r, w2)
  else
    if thisKey = .prim .undefined then
      .error (.thrown "internal: thisKey should be null or a string")
    else
      match type with
      | none => .error (.typeError "type is not a constructor")
      | some info =>
        let (r, w1) := w.alloc
          { type := info.name, key := thisKey, cas := .prim .null, cache := objCache,
            values := some [], loaded := true, initial := .prim .undefined }
        let cached : Option World :=
          if thisKey.truthy then w1.cacheSet objCache thisKey.toStr r else some w1
        match cached with
        | none => .error (.typeError "cannot set a property of undefined")
        | some w2 =>
          match obxToObj_Otto_Load E rec w2 r obx (depth + 1) objCache with
          | .error e => .error e
          | .ok w3 => .ok (.inst r, w3)

/-- The loop of `obxToObj_List` over the elements, keeping `undefined` results in place. -/
def decodeElems (rec : DecFn) (sub : String) (subs : List String) (depth : Nat)
    (objCache : Option Nat) : List Obx → World → Except Err (List Val × World)
  | [], w => .ok ([], w)
  | x :: xs, w =>
    match rec w x sub subs (depth + 1) objCache (.prim .null) with
    | .error e => .error e
    | .ok (v, w1) =>
      match decodeElems rec sub subs depth objCache xs w1 with
      | .error e => .error e
      | .ok (vs, w2) => .ok (v :: vs, w2)

/-- The function `obxToObj_List`. -/
def obxToObj_List (rec : DecFn) (w : World) (obx : Obx) (subtypeNames : List String)
    (depth : Nat) (objCache : Option Nat) : DecRes :=
  match obx with
  | .arr xs =>
    let subs := defaultSubtypes subtypeNames
    match decodeElems rec (subs.headD "Mixed") subs.tail depth objCache xs w with
    | .error e => .error e
    | .ok (vs, w1) => .ok (.arr (trimUndefined Val.isUndefined vs), w1)
  | _ => .error (.thrown "expected array")

/-- The own enumerable properties `for (i in obx)` visits on a document value. -/
def Obx.entries : Obx → List (String × Obx)
  | .obj kvs => kvs
  | .arr xs => (List.range xs.length).map (fun i => (toString i, xs.getD i (.prim .undefined)))
  | .prim _ => []

/-- The loop of `obxToObj_Map` over the own properties. -/
def decodeEntries (rec : DecFn) (sub : String) (subs : List String) (depth : Nat)
    (objCache : Option Nat) :
    List (String × Obx) → World → List (String × Val) → Except Err (List (String × Val) × World)
  | [], w, out => .ok (out, w)
  | (k, x) :: xs, w, out =>
    match rec w x sub subs (depth + 1) objCache (.prim .null) with
    | .error e => .error e
    | .ok (v, w1) =>
      decodeEntries rec sub subs depth objCache xs w1 (if v.isUndefined then out else setProp out k v)

/-- The function `obxToObj_Map`. -/
def obxToObj_Map (rec : DecFn) (w : World) (obx : Obx) (subtypeNames : List String)
    (depth : Nat) (objCache : Option Nat) : DecRes :=
  if !obx.isObject then .error (.thrown "expected object")
  else
    let subs := defaultSubtypes subtypeNames
    match decodeEntries rec (subs.headD "Mixed") subs.tail depth objCache obx.entries w [] with
    | .error e => .error e
    | .ok (out, w1) => .ok (.map out, w1)

/-- The function `obxToObj_Mixed`. -/
def obxToObj_Mixed (E : Env) (rec : DecFn) (w : World) (obx : Obx) (depth : Nat)
    (objCache : Option Nat) (thisKey : Obx) : DecRes :=
  if isRefObx obx then
    obxToObj_Otto E rec w obx ((obx.get "$ref").get "0") depth objCache thisKey
  else if isOttoObx E obx then
    obxToObj_Otto E rec w obx (.prim (.str ((typeNameFromObx E obx).getD ""))) depth objCache thisKey
  else match obx with
    | .arr _ => obxToObj_List rec w obx [] depth objCache
    | .obj _ => obxToObj_Map rec w obx [] depth objCache
    | .prim p => .ok (.prim p, w)

/-- The function `obxToObj`; the first argument bounds the nesting of calls. -/
def obxToObj (E : Env) : Nat → DecFn
  | 0 => fun _ _ _ _ _ _ _ => .error .fuel
  | n + 1 => fun w obx typeName subtypeNames depth objCache thisKey =>
    let typeName := if typeName = "" then "Mixed" else typeName
    match obx with
    | .prim .undefined => .ok (.prim .undefined, w)
    | .prim .null => .ok (.prim .null, w)
    | _ =>
      if (E.lookup typeName).isSome then
        obxToObj_Otto E (obxToObj E n) w obx (.prim (.str typeName)) depth objCache thisKey
      else if typeName = "List" then
        obxToObj_List (obxToObj E n) w obx subtypeNames depth objCache
      else if typeName = "Map" then
        obxToObj_Map (obxToObj E n) w obx subtypeNames depth objCache
      else if typeName = "Mixed" then
        obxToObj_Mixed E (obxToObj E n) w obx depth objCache thisKey
      else if CORETYPES.contains typeName then
        match obx with
        | .prim p => .ok (.prim p, w)
        | _ => .error (.thrown "core type is an object")
      else .error (.thrown ("encountered unknown type " ++ typeName))

/-! ## Saving -/

/-- The names of the properties of an object, each once. -/
def distinctKeys {α : Type} : List (String × α) → List String → List String
  | [], _ => []
  | (k, _) :: rest, seen =>
    if seen.contains k then distinctKeys rest seen else k :: distinctKeys rest (k :: seen)

mutual
/-- The comparison `_.isEqual` of underscore on documents: deep equality by value, where
two objects are equal when they have the same keys with equal values, in any order. -/
def isEqual : Obx → Obx → Bool
  | .prim p, .prim q => p == q
  | .arr xs, .arr ys => isEqualList xs ys
  | .obj xs, .obj ys =>
    (distinctKeys xs []).length == (distinctKeys ys []).length && isEqualFields [] xs ys
  | _, _ => false
/-- Arrays: the same length and equal elements. -/
def isEqualList : List Obx → List Obx → Bool
  | [], [] => true
  | x :: xs, y :: ys => isEqual x y && isEqualList xs ys
  | _, _ => false
/-- Every property of the first object, visited once, is a property of the second with an
equal value. -/
def isEqualFields : List String → List (String × Obx) → List (String × Obx) → Bool
  | _, [], _ => true
  | seen, (k, x) :: xs, ys =>
    if seen.contains k then isEqualFields seen xs ys
    else (match lookupProp ys k with
      | some y => isEqual x y
      | none => false) && isEqualFields (k :: seen) xs ys
end

/-- One call `bucket.set(key, doc, {cas: cas}, callback)`. -/
structure SetCall where
  /-- The bucket the call goes to. -/
  bucket : String
  /-- The first argument. -/
  key : Obx
  /-- The second argument. -/
  doc : Obx
  /-- The member `cas` of the third argument. -/
  cas : Obx
  deriving DecidableEq, Repr, Inhabited

/-- The state of one call of `save`. -/
structure SaveState where
  /-- The heap and caches. -/
  w : World
  /-- The array `objs`. -/
  objs : List Nat
  /-- The counter `saved`. -/
  saved : Nat
  /-- The calls of `bucket.set` so far, in order. -/
  sets : List SetCall
  /-- How often `callback(null)` has run. -/
  called : Nat
  deriving DecidableEq, Repr, Inhabited

/-- The inner function `__doneOne` of `save`. -/
def doneOne (hasCallback : Bool) (st : SaveState) : SaveState :=
  let saved := st.saved + 1
  { st with saved := saved,
            called := if saved = st.objs.length ∧ hasCallback = true then st.called + 1
                      else st.called }

/-- The body of the loop of `save`, for the element `x = objs[i]`; `root` is the
argument `obj` of `save`. -/
def saveRound (E : Env) (fuel : Nat) (root : Nat) (hasCallback : Bool) (st : SaveState)
    (x : Nat) : Except Err SaveState :=
  match st.w.heap[x]? with
  | none => .error (.typeError "no such instance")
  | some xi =>
    if !xi.loaded then .ok { st with saved := st.saved + 1 }
    else
      match modelKey E st.w x with
      | .error e => .error e
      | .ok (key, w1) =>
        match objToObx E fuel w1 st.objs (.inst x) (typeNameOf w1 (.inst x)) [] 0 with
        | .error e => .error e
        | .ok (doc, w2, objs2) =>
          match w2.heap[x]? with
          | none => .error (.typeError "no such instance")
          | some xi2 =>
            if isEqual xi2.initial doc then
              .ok (doneOne hasCallback { st with w := w2, objs := objs2 })
            else
              let w3 := w2.setInst x { xi2 with initial := doc }
              match w3.heap[root]? with
              | none => .error (.typeError "no such instance")
              | some ri =>
                match E.lookup ri.type with
                | none => .error (.typeError "no such type")
                | some rinfo =>
                  .ok { st with w := w3, objs := objs2,
                                sets := st.sets ++ [{ bucket := rinfo.bucket, key := key,
                                                      doc := doc, cas := ri.cas }] }

/-- The loop `for (var i = 0; i < objs.length; ++i)` of `save`, from index `i` on.  The
first argument bounds the number of rounds, `fuel` the nesting of the encoder. -/
def saveLoop (E : Env) (fuel : Nat) (root : Nat) (hasCallback : Bool) :
    Nat → Nat → SaveState → Except Err SaveState
  | 0, _, _ => .error .fuel
  | n + 1, i, st =>
    match st.objs[i]? with
    | none => .ok st
    | some x =>
      match saveRound E fuel root hasCallback st x with
      | .error e => .error e
      | .ok st1 => saveLoop E fuel root hasCallback n (i + 1) st1

/-- The function `save`, up to the return of the call: the writes it issued are in
`sets`; their completions run `doneOne` later. -/
def save (E : Env) (fuel : Nat) (w : World) (obj : Nat) (hasCallback : Bool) :
    Except Err SaveState :=
  saveLoop E fuel obj hasCallback fuel 0
    { w := w, objs := [obj], saved := 0, sets := [], called := 0 }

/-! ## Loading -/

/-- A callback handed to `_load`: the one the caller of `load` passed, or the closure of
a loop, which shares a counter with the other closures of that loop. -/
inductive Cont where
  | user
  | join (j : Nat)
  deriving DecidableEq, Repr, Inhabited

/-- Which loop made a counter: `_loadRefs`, the array branch or the object branch. -/
inductive JoinKind where
  | refs
  | arr
  | map
  deriving DecidableEq, Repr, Inhabited

/-- The variables a loop shares with its callbacks. -/
structure Join where
  /-- Which loop. -/
  kind : JoinKind
  /-- The counter `loaded` or `needsLoad`. -/
  count : Int
  /-- The bound `refs.length` or `obj.length`. -/
  total : Nat
  /-- The callback of the enclosing call. -/
  parent : Cont
  deriving DecidableEq, Repr, Inhabited

/-- A call `bucket.get(key, {}, callback)` that has not been answered yet. -/
structure Pending where
  /-- The instance being fetched. -/
  obj : Nat
  /-- The key asked for. -/
  key : Obx
  /-- The bucket asked. -/
  bucket : String
  /-- The variable `depthLeft` of the call of `_load`. -/
  depthLeft : Int
  /-- The variable `callback` of the call of `_load`. -/
  callback : Cont
  deriving DecidableEq, Repr, Inhabited

/-- The state of one call of `load`. -/
structure LoadState where
  /-- The heap and caches. -/
  w : World
  /-- The counters of the loops started so far. -/
  joins : List Join
  /-- The calls of `bucket.get` not answered yet, in the order they were issued. -/
  pending : List Pending
  /-- Every call of `bucket.get` so far: bucket and key. -/
  gets : List (String × Obx)
  /-- The arguments with which the caller's callback has run so far. -/
  called : List Obx
  /-- How often `console.warn` has run. -/
  warned : Nat
  deriving DecidableEq, Repr, Inhabited

/-- The state in which `load` starts. -/
def LoadState.init (w : World) : LoadState :=
  { w := w, joins := [], pending := [], gets := [], called := [], warned := 0 }

/-- Running a callback with the argument `err`. -/
def invoke : Nat → LoadState → Cont → Obx → Except Err LoadState
  | 0, _, _, _ => .error .fuel
  | _ + 1, st, .user, err => .ok { st with called := st.called ++ [err] }
  | n + 1, st, .join j, err =>
    match st.joins[j]? with
    | none => .error (.typeError "no such closure")
    | some jn =>
      match jn.kind with
      | .refs =>
        let st1 := { st with joins := st.joins.set j { jn with count := jn.count + 1 } }
        if jn.count + 1 ≥ jn.total then invoke n st1 jn.parent (.prim .null) else .ok st1
      | .arr =>
        let st1 := { st with joins := st.joins.set j { jn with count := jn.count + 1 } }
        if jn.count + 1 = jn.total then invoke n st1 jn.parent err else .ok st1
      | .map =>
        let st1 := { st with joins := st.joins.set j { jn with count := jn.count - 1 } }
        if jn.count - 1 = 0 then invoke n st1 jn.parent err else .ok st1

/-- The type of `_load`: state, then `obj, depthLeft, callback`. -/
abbrev LoadFn := LoadState → Val → Int → Cont → Except Err LoadState

/-- A loop that calls `_load` on every value of a list with the same callback. -/
def loadEach (rec : LoadFn) (depthLeft : Int) (callback : Cont) :
    List Val → LoadState → Except Err LoadState
  | [], st => .ok st
  | x :: xs, st =>
    match rec st x depthLeft callback with
    | .error e => .error e
    | .ok st1 => loadEach rec depthLeft callback xs st1

/-- The loop of the object branch of `_load`: `needsLoad++`, then `_load`. -/
def loadEntries (rec : LoadFn) (depthLeft : Int) (j : Nat) :
    List (String × Val) → LoadState → Except Err LoadState
  | [], st => .ok st
  | (_, x) :: xs, st =>
    match st.joins[j]? with
    | none => .error (.typeError "no such closure")
    | some jn =>
      match rec { st with joins := st.joins.set j { jn with count := jn.count + 1 } }
              x depthLeft (.join j) with
      | .error e => .error e
      | .ok st1 => loadEntries rec depthLeft j xs st1

/-- The function `_loadRefs`, called on the instance at address `r`. -/
def _loadRefs (E : Env) (fuel : Nat) (rec : LoadFn) (st : LoadState) (r : Nat) (depthLeft : Int)
    (callback : Cont) : Except Err LoadState :=
  match objToObx E fuel st.w [] (.inst r) (typeNameOf st.w (.inst r)) [] 0 with
  | .error e => .error e
  | .ok (_, w1, refs) =>
    if refs.length = 0 then invoke fuel { st with w := w1 } callback (.prim .null)
    else
      let j := st.joins.length
      loadEach rec (depthLeft - 1) (.join j) (refs.map Val.inst)
        { st with w := w1,
                  joins := st.joins ++ [{ kind := .refs, count := 0, total := refs.length,
                                          parent := callback }] }

/-- The function `_load`, up to the point where the call returns: the calls of
`bucket.get` it issued wait in `pending`.  The first argument bounds the nesting. -/
def _load (E : Env) : Nat → LoadFn
  | 0 => fun _ _ _ _ => .error .fuel
  | n + 1 => fun st obj depthLeft callback =>
    if depthLeft = 0 then invoke (n + 1) st callback (.prim .null)
    else if isOttoObj E st.w obj then
      match obj with
      | .inst r =>
        match st.w.heap[r]? with
        | none => .error (.typeError "no such instance")
        | some i =>
          if i.loaded then _loadRefs E (n + 1) (_load E n) st r depthLeft callback
          else
            match modelKey E st.w r, E.lookup i.type with
            | .ok (key, w1), some info =>
              .ok { st with w := w1,
                            pending := st.pending ++ [{ obj := r, key := key, bucket := info.bucket,
                                                        depthLeft := depthLeft, callback := callback }],
                            gets := st.gets ++ [(info.bucket, key)] }
            | .error e, _ => .error e
            | _, none => .error (.typeError "no such type")
      | _ => .error (.typeError "no such instance")
    else
      match obj with
      | .arr xs =>
        loadEach (_load E n) depthLeft (.join st.joins.length) xs
          { st with joins := st.joins ++ [{ kind := .arr, count := 0, total := xs.length,
                                            parent := callback }] }
      | .prim _ => .ok { st with warned := st.warned + 1 }
      | _ =>
        loadEntries (_load E n) depthLeft st.joins.length obj.entries
          { st with joins := st.joins ++ [{ kind := .map, count := 0, total := 0,
                                            parent := callback }] }

/-- The callback that `_load` passes to `bucket.get`, run for the pending call at
position `idx` with what the store answered: an error, or a document and its token. -/
def getDone (E : Env) (fuel : Nat) (st : LoadState) (idx : Nat) (answer : Except Obx (Obx × Obx)) :
    Except Err LoadState :=
  match st.pending[idx]? with
  | none => .error (.typeError "no such call")
  | some p =>
    match answer with
    | .error _ => .error (.typeError "cannot read property value of undefined")
    | .ok (value, cas) =>
      match st.w.heap[p.obj]? with
      | none => .error (.typeError "no such instance")
      | some i =>
        match obxToObj_Otto_Load E (obxToObj E fuel) st.w p.obj value 0 i.cache with
        | .error e => .error e
        | .ok w1 =>
          match w1.heap[p.obj]? with
          | none => .error (.typeError "no such instance")
          | some i1 =>
            _loadRefs E fuel (_load E fuel)
              { st with w := w1.setInst p.obj { i1 with cas := cas },
                        pending := st.pending.eraseIdx idx }
              p.obj p.depthLeft p.callback

/-- The function `load`; `depth` is `options.depth`, `none` when it is missing. -/
def load (E : Env) (fuel : Nat) (w : World) (obj : Val) (depth : Option Int) :
    Except Err LoadState :=
  let depth : Int :=
    match depth with
    | none => 1
    | some d => if d = 0 ∨ d < 1 then 1 else d
  _load E fuel (LoadState.init w) obj depth .user

/-! ## The words of the specification -/

/-- The specification's `resolveByShape`, in its words: the first registered descriptor
whose full discriminator set matches the document's corresponding fields by value
equality, and no match if none does. -/
def specResolveByShape (E : Env) (obx : Obx) : Option String :=
  (E.typeList.find? (fun info => info.descrims.all (fun jv => obx.get jv.1 = jv.2))).map (·.name)

/-- A document matches a type when each discriminator is loosely equal (`==`) to the
document's property of the same name. -/
def Matches (E : Env) (obx : Obx) (info : TypeInfo) : Prop :=
  ∀ jv ∈ info.descrims, Obx.looseEq E.toNumber (obx.get jv.1) jv.2 = true

/-! ## A small registry for the examples -/

/-- The type of the specification's scenario, `Person{name, best: Person}` with
`embed = false`, as `createModel('Person', {name: 'string', best: 'Person'}, {})` registers
it: the identifier `_id` is added, automatic, read-only and required. -/
def personInfo : TypeInfo :=
  { name := "Person",
    schema := [{ key := "name", name := "name", type := "string" },
               { key := "best", name := "best", type := "Person" },
               { key := "_id", name := "_id", type := "string", auto := true, readonly := true }],
    descrims := [("_type", .prim (.str "Person"))],
    embed := false,
    id := ["_id"],
    required := ["_id"] }

/-- A host with `Person` registered; the n-th identifier is `u0`, `u1`, ... -/
def demoEnv : Env :=
  { typeList := [personInfo],
    uuid := fun n => "u" ++ toString n,
    toNumber := fun _ => none }

/-- An instance as `modelConstruct` leaves it, with the given values. -/
def newInst (type : String) (values : List (String × Val)) : Inst :=
  { type := type, key := .prim .null, values := some values, cas := .prim .null,
    loaded := true, initial := .prim .undefined, cache := none }

/-- The scenario of the specification: `a` at address 0 and `b` at address 1, both
`Person`, with `a.best = b`. -/
def scenarioWorld : World :=
  { heap := [newInst "Person" [("name", .prim (.str "Ann")), ("best", .inst 1)],
             newInst "Person" [("name", .prim (.str "Bob"))]],
    caches := [],
    uuids := 0 }

/-- A type whose identifier is a declared, required field:
`createModel('Account', {email: {type: 'string', readonly: true}}, {id: 'email'})`. -/
def accountInfo : TypeInfo :=
  { name := "Account",
    schema := [{ key := "email", name := "email", type := "string", readonly := true }],
    descrims := [("_type", .prim (.str "Account"))],
    embed := false,
    id := ["email"],
    required := ["email"] }

/-- A host with `Account` registered. -/
def accountEnv : Env :=
  { typeList := [accountInfo], uuid := fun n => "u" ++ toString n, toNumber := fun _ => none }

/-- One `Account` whose `email` has not been set. -/
def accountWorld : World :=
  { heap := [newInst "Account" []], caches := [], uuids := 0 }

/-- The scenario after `modelKey` has run on `b`: `b` has its identifier and its key. -/
def scenarioWorldKeyed : World :=
  { heap := [newInst "Person" [("name", .prim (.str "Ann")), ("best", .inst 1)],
             { newInst "Person" [("name", .prim (.str "Bob")), ("_id", .prim (.str "u0"))] with
               key := .prim (.str "person_u0") }],
    caches := [],
    uuids := 1 }

/-- The encodings the field loop of `objToObx_Otto` computes, in schema order: for every
declared field its name and what the recursive call returned for the value the instance
held at that moment. -/
def fieldResults (rec : EncFn) (r : Nat) (depth : Nat) :
    List Field → World → List Nat → Except Err (List (String × Obx) × World × List Nat)
  | [], w, objRefs => .ok ([], w, objRefs)
  | f :: fs, w, objRefs =>
    match (w.heap[r]?).bind (fun i => i.values) with
    | none => .error (.typeError "cannot read a property of null")
    | some vals =>
      match rec w objRefs ((lookupProp vals f.name).getD (.prim .undefined)) f.type f.subtypes (depth + 1) with
      | .error e => .error e
      | .ok (outObj, w1, refs1) =>
        match fieldResults rec r depth fs w1 refs1 with
        | .error e => .error e
        | .ok (res, w2, refs2) => .ok ((f.name, outObj) :: res, w2, refs2)

/-- The last encoding recorded for `name` that is not `undefined`. -/
def lastDefined : List (String × Obx) → String → Option Obx
  | [], _ => none
  | (n, o) :: rest, name =>
    match lastDefined rest name with
    | some e => some e
    | none => if n = name ∧ o.isUndefined = false then some o else none

/-- The assignments `out[name] = outObj` of the field loop, for the defined results. -/
def storeAll (out : List (String × Obx)) (res : List (String × Obx)) : List (String × Obx) :=
  res.foldl (fun acc ne => if ne.2.isUndefined then acc else setProp acc ne.1 ne.2) out

/-- The placeholder `obxToObj_Otto` builds for a reference it has not met: type and key
are known, nothing is loaded. -/
def placeholder (type : String) (key : Obx) (objCache : Option Nat) : Inst :=
  { type := type, key := key, cas := .prim .null, cache := objCache,
    values := none, loaded := false, initial := .prim .null }

/-- A state with one empty object cache and no instance. -/
def emptyCacheWorld : World := { heap := [], caches := [[]], uuids := 0 }

/-! ## Well-formed registries and the steps of a state -/

/-- A registry as `createModel` builds it: type names are identifiers, so not empty. -/
def Env.WF (E : Env) : Prop :=
  ∀ info ∈ E.typeList, info.name ≠ ""

/-- An instance that no encoding changes: its key is set, or its type is `embed`. -/
def Frozen (E : Env) (i : Inst) : Prop :=
  i.key.truthy = true ∨ ∃ info, E.lookup i.type = some info ∧ info.embed = true

/-- What one instance may become while documents are encoded and saved: only `$initial`
changes, and for an instance that is not frozen also `$values` and `$key`. -/
def InstEvolves (E : Env) (i j : Inst) : Prop :=
  j.type = i.type ∧ j.cas = i.cas ∧ j.loaded = i.loaded ∧ j.cache = i.cache ∧
  (Frozen E i → j.key = i.key ∧ j.values = i.values)

/-- The state `w` comes from `u` by steps that change instances as `InstEvolves` allows
and leave the caches alone. -/
def Evolves (E : Env) (u w : World) : Prop :=
  w.caches = u.caches ∧ w.heap.length = u.heap.length ∧
  ∀ (r : Nat) (i : Inst), u.heap[r]? = some i → ∃ j, w.heap[r]? = some j ∧ InstEvolves E i j

/-- The same, and no `$initial` changes. -/
def EvolvesI (E : Env) (u w : World) : Prop :=
  Evolves E u w ∧
  ∀ (r : Nat) (i j : Inst), u.heap[r]? = some i → w.heap[r]? = some j → j.initial = i.initial

/-- The state `w` differs from `u` at most in `$values` and `$key` of the instance at
address `r`. -/
def Touches (r : Nat) (u w : World) : Prop :=
  w.caches = u.caches ∧ w.heap.length = u.heap.length ∧
  (∀ r2 : Nat, r2 ≠ r → w.heap[r2]? = u.heap[r2]?) ∧
  ∀ i : Inst, u.heap[r]? = some i → ∃ j, w.heap[r]? = some j ∧
    j.type = i.type ∧ j.cas = i.cas ∧ j.loaded = i.loaded ∧ j.cache = i.cache ∧
    j.initial = i.initial

/-- The instance at address `y` has its key. -/
def Keyed (w : World) (y : Nat) : Prop :=
  ∃ i, w.heap[y]? = some i ∧ i.key.truthy = true

/-- What one encoding does to the state and to `objRefs`: the state evolves without a
change of `$initial`; `objRefs` grows at its end, stays free of duplicates, and what was
added has its key. -/
def EncOK (E : Env) (w : World) (refs : List Nat) (w1 : World) (refs1 : List Nat) : Prop :=
  EvolvesI E w w1 ∧ (∃ ext, refs1 = refs ++ ext) ∧ (refs.Nodup → refs1.Nodup) ∧
  ∀ y ∈ refs1, y ∈ refs ∨ Keyed w1 y

/-- An encoder all of whose successful calls are as `EncOK` says. -/
def EncSound (E : Env) (rec : EncFn) : Prop :=
  ∀ w refs v t s d doc w1 refs1, rec w refs v t s d = .ok (doc, w1, refs1) →
    EncOK E w refs w1 refs1

/-- An encoder whose successful calls can be repeated in any later state: a call that
succeeded, on a root that was frozen when it was made at depth 0, gives in every state
the result state evolves into the same document and the same `objRefs`, and changes
nothing. -/
def EncStable (E : Env) (rec : EncFn) : Prop :=
  ∀ u refs v t s d doc u1 refs1 w,
    rec u refs v t s d = .ok (doc, u1, refs1) →
    (d = 0 → ∀ r i, v = .inst r → u.heap[r]? = some i → Frozen E i) →
    Evolves E u1 w →
    rec w refs v t s d = .ok (doc, w, refs1)

/-- The scenario with concurrency tokens: `a` was loaded with token 11, `b` with token 22. -/
def casWorld : World :=
  { heap := [{ newInst "Person" [("name", .prim (.str "Ann")), ("best", .inst 1)] with
               key := .prim (.str "person_a"), cas := .prim (.num 11) },
             { newInst "Person" [("name", .prim (.str "Bob"))] with
               key := .prim (.str "person_b"), cas := .prim (.num 22) }],
    caches := [],
    uuids := 0 }

/-- A host without types: for it an instance is frozen exactly when its key is set. -/
def noTypes : Env := { typeList := [], uuid := fun _ => "", toNumber := fun _ => none }

/-- The invariant of the loop of `save`: `objs` has no duplicates, and every element
after the first has its key. -/
def SaveInv (st : SaveState) : Prop :=
  st.objs.Nodup ∧ ∀ (j y : Nat), st.objs[j]? = some y → 1 ≤ j → Keyed st.w y

/-- The writes issued so far, before round `i`: each carries the token of `root`, and
each is for a loaded element of `objs` that the loop has passed, with the key and the
snapshot that element now has. -/
def SetsOK (root i : Nat) (st : SaveState) : Prop :=
  ∀ c ∈ st.sets,
    (∃ ri, st.w.heap[root]? = some ri ∧ c.cas = ri.cas) ∧
    ∃ x xi, x ∈ st.objs.take i ∧ st.w.heap[x]? = some xi ∧ xi.loaded = true ∧
      xi.key = c.key ∧ xi.initial = c.doc ∧ xi.key.truthy = true

/-- The document `save` writes for `a` in `casWorld`. -/
def casDocA : Obx :=
  .obj [("name", .prim (.str "Ann")), ("best", refMarker "Person" (.prim (.str "person_b"))),
        ("_type", .prim (.str "Person"))]

/-- The document `save` writes for `b` in `casWorld`. -/
def casDocB : Obx :=
  .obj [("name", .prim (.str "Bob")), ("_type", .prim (.str "Person"))]

/-- The state `casWorld` after the first round of `save(a)`. -/
def casWorld1 : World :=
  { heap := [{ newInst "Person" [("name", .prim (.str "Ann")), ("best", .inst 1)] with
               key := .prim (.str "person_a"), cas := .prim (.num 11), initial := casDocA },
             { newInst "Person" [("name", .prim (.str "Bob"))] with
               key := .prim (.str "person_b"), cas := .prim (.num 22) }],
    caches := [], uuids := 0 }

/-- The state `casWorld` after `save(a)`. -/
def casWorld2 : World :=
  { heap := [{ newInst "Person" [("name", .prim (.str "Ann")), ("best", .inst 1)] with
               key := .prim (.str "person_a"), cas := .prim (.num 11), initial := casDocA },
             { newInst "Person" [("name", .prim (.str "Bob"))] with
               key := .prim (.str "person_b"), cas := .prim (.num 22), initial := casDocB }],
    caches := [], uuids := 0 }

/-- The write `save(a)` issues for `a`. -/
def casSetA : SetCall :=
  { bucket := "default", key := .prim (.str "person_a"), doc := casDocA, cas := .prim (.num 11) }

/-- The write `save(a)` issues for `b`: it carries the token of `a`. -/
def casSetB : SetCall :=
  { bucket := "default", key := .prim (.str "person_b"), doc := casDocB, cas := .prim (.num 11) }

/-- The state `w` has every instance of `u` as it was, and perhaps more instances. -/
def KeepsOld (u w : World) : Prop :=
  u.heap.length ≤ w.heap.length ∧ ∀ r : Nat, r < u.heap.length → w.heap[r]? = u.heap[r]?

/-- A decoder whose successful calls leave every instance that existed as it was: they
only add instances. -/
def DecSound (rec : DecFn) : Prop :=
  ∀ w obx t s d c k v w1, rec w obx t s d c k = .ok (v, w1) → KeepsOld w w1

/-- The state `w` comes from `u` by loading the instance at address `r`: instances may
have been added, the other instances that existed are as they were, and the instance at
`r` has kept its type, key, token and cache. -/
def LoadsAt (r : Nat) (u w : World) : Prop :=
  u.heap.length ≤ w.heap.length ∧
  (∀ r2 : Nat, r2 ≠ r → r2 < u.heap.length → w.heap[r2]? = u.heap[r2]?) ∧
  ∀ i : Inst, u.heap[r]? = some i → ∃ j, w.heap[r]? = some j ∧
    j.type = i.type ∧ j.key = i.key ∧ j.cas = i.cas ∧ j.cache = i.cache ∧
    j.loaded = i.loaded ∧ j.initial = i.initial

/-- A state with the placeholder for `person_1` in its cache, as the decoder leaves it. -/
def unloadedWorld : World :=
  { heap := [placeholder "Person" (.prim (.str "person_1")) (some 0)],
    caches := [[("person_1", 0)]], uuids := 0 }

/-- A loader whose successful calls change the state only as `modelKey` and the encoder
do: tokens, loaded flags, types and caches stay, and so do instances with a key. -/
def LoadSound (rec : LoadFn) : Prop :=
  ∀ st obj d cont st1, rec st obj d cont = .ok st1 → Evolves noTypes st.w st1.w

/-- The state after `load(p, callback)` on the placeholder of `unloadedWorld`: one
`bucket.get` is waiting for its answer. -/
def loadPending : LoadState :=
  { w := unloadedWorld, joins := [],
    pending := [{ obj := 0, key := .prim (.str "person_1"), bucket := "default", depthLeft := 1,
                  callback := .user }],
    gets := [("default", .prim (.str "person_1"))], called := [], warned := 0 }

/-- The document the store holds under `person_1`. -/
def bobDoc : Obx := .obj [("name", .prim (.str "Bob")), ("_type", .prim (.str "Person"))]

/-- The state after the store answered with `bobDoc` and the token 7. -/
def loadAnswered : LoadState :=
  { w := { heap := [{ type := "Person", key := .prim (.str "person_1"),
                      values := some [("name", .prim (.str "Bob"))], cas := .prim (.num 7),
                      loaded := true, initial := bobDoc, cache := some 0 }],
           caches := [[("person_1", 0)]], uuids := 0 },
    joins := [], pending := [], gets := [("default", .prim (.str "person_1"))],
    called := [.prim .null], warned := 0 }

/-! ## Object graphs as trees

The round trip is stated through the tree an object graph unfolds to: a model instance
becomes a node with its type name and the values of its declared fields. -/

/-- An object graph unfolded into a tree. -/
inductive Deep where
  | prim (p : Prim)
  | arr (xs : List Deep)
  | map (kvs : List (String × Deep))
  | inst (type : String) (fields : List (String × Deep))
  deriving Repr, Inhabited

/-- Unfold every value of a list. -/
def reifyList (rec : Val → Option Deep) : List Val → Option (List Deep)
  | [] => some []
  | x :: xs =>
    match rec x with
    | none => none
    | some d =>
      match reifyList rec xs with
      | none => none
      | some ds => some (d :: ds)

/-- Unfold every value of a property list. -/
def reifyEntries (rec : Val → Option Deep) : List (String × Val) → Option (List (String × Deep))
  | [] => some []
  | (k, x) :: xs =>
    match rec x with
    | none => none
    | some d =>
      match reifyEntries rec xs with
      | none => none
      | some ds => some ((k, d) :: ds)

/-- Unfold the value of every declared field, read from `$values` by the field's name. -/
def reifyFields (rec : Val → Option Deep) (vals : List (String × Val)) :
    List Field → Option (List (String × Deep))
  | [] => some []
  | f :: fs =>
    match rec ((lookupProp vals f.name).getD (.prim .undefined)) with
    | none => none
    | some d =>
      match reifyFields rec vals fs with
      | none => none
      | some ds => some ((f.name, d) :: ds)

/-- The tree a value unfolds to in a state, when it is a finite tree of the given height
at most and every instance in it lives at an address from `k` on.  A cyclic graph
unfolds to nothing, whatever the height. -/
def reifyAbove (E : Env) (k : Nat) : Nat → World → Val → Option Deep
  | 0, _, _ => none
  | _ + 1, _, .prim p => some (.prim p)
  | n + 1, w, .arr xs => (reifyList (reifyAbove E k n w) xs).map .arr
  | n + 1, w, .map kvs => (reifyEntries (reifyAbove E k n w) kvs).map .map
  | n + 1, w, .inst r =>
    if r < k then none
    else
      match w.heap[r]? with
      | none => none
      | some i =>
        match E.lookup i.type with
        | none => none
        | some info =>
          match i.values with
          | none => none
          | some vals => (reifyFields (reifyAbove E k n w) vals info.schema).map (.inst i.type)

/-- The tree a value unfolds to in a state. -/
def reify (E : Env) (n : Nat) (w : World) (v : Val) : Option Deep := reifyAbove E 0 n w v

/-- The type of the encoder of trees: tree, `typeName`, `subtypeNames`, `depth`. -/
abbrev PureEnc := Deep → String → List String → Nat → Option Obx

/-- The elements of a list, encoded; none of the results may be `undefined`. -/
def pureElems (rec : PureEnc) (sub : String) (subs : List String) (depth : Nat) :
    List Deep → Option (List Obx)
  | [] => some []
  | x :: xs =>
    match rec x sub subs (depth + 1) with
    | none => none
    | some o =>
      if o.isUndefined then none
      else
        match pureElems rec sub subs depth xs with
        | none => none
        | some os => some (o :: os)

/-- The properties of a map, encoded; none of the results may be `undefined`. -/
def pureEntries (rec : PureEnc) (sub : String) (subs : List String) (depth : Nat) :
    List (String × Deep) → Option (List (String × Obx))
  | [] => some []
  | (k, x) :: xs =>
    match rec x sub subs (depth + 1) with
    | none => none
    | some o =>
      if o.isUndefined then none
      else
        match pureEntries rec sub subs depth xs with
        | none => none
        | some os => some ((k, o) :: os)

/-- The declared fields of an instance node, encoded in schema order: the name of each
field and its encoding, which may be `undefined`. -/
def pureFields (rec : PureEnc) (depth : Nat) :
    List Field → List (String × Deep) → Option (List (String × Obx))
  | [], [] => some []
  | f :: fs, (name, x) :: xs =>
    if name = f.name then
      match rec x f.type f.subtypes (depth + 1) with
      | none => none
      | some o =>
        match pureFields rec depth fs xs with
        | none => none
        | some os => some ((name, o) :: os)
    else none
  | _, _ => none

/-- The encoding of an instance node that is inlined and decodes back: the node has the
type asked for, is at depth 0 or of an `embed` type, and its document is no reference,
resolves to its type by its discriminators, and gives every declared field back as it was
encoded. -/
def pureOtto (E : Env) (rec : PureEnc) (D : Deep) (typeName : String) (depth : Nat) : Option Obx :=
  match E.lookup typeName with
  | none => none
  | some info =>
    match D with
    | .inst type fields =>
      if type = typeName ∧ typeName ≠ "" ∧ (depth = 0 ∨ info.embed = true) then
        match pureFields rec depth info.schema fields with
        | none => none
        | some res =>
          let doc : Obx := .obj (addDescrims (storeAll [] res) info.descrims)
          if isRefObx doc = false ∧ typeNameFromObx E doc = some typeName ∧
              res.all (fun ne => doc.get ne.1 = ne.2) then some doc
          else none
      else none
    | _ => none

/-- The encoding of a list node. -/
def pureList (rec : PureEnc) (D : Deep) (subtypeNames : List String) (depth : Nat) : Option Obx :=
  match D with
  | .arr xs =>
    let subs := defaultSubtypes subtypeNames
    (pureElems rec (subs.headD "Mixed") subs.tail depth xs).map .arr
  | _ => none

/-- The encoding of a map node, whose keys are distinct. -/
def pureMap (rec : PureEnc) (D : Deep) (subtypeNames : List String) (depth : Nat) : Option Obx :=
  match D with
  | .map kvs =>
    if (kvs.map Prod.fst).Nodup then
      let subs := defaultSubtypes subtypeNames
      (pureEntries rec (subs.headD "Mixed") subs.tail depth kvs).map .obj
    else none
  | _ => none

/-- The encoding of a node held under the polymorphic type: a list or a map must not look
like a reference or like a registered type, or it would decode as one. -/
def pureMixed (E : Env) (rec : PureEnc) (D : Deep) (depth : Nat) : Option Obx :=
  match D with
  | .inst type _ => pureOtto E rec D type depth
  | .arr _ =>
    match pureList rec D [] depth with
    | none => none
    | some doc => if isOttoObx E doc then none else some doc
  | .map _ =>
    match pureMap rec D [] depth with
    | none => none
    | some doc => if isRefObx doc || isOttoObx E doc then none else some doc
  | .prim p => some (.prim p)

/-- The document of a tree under a declared type, when the tree conforms to the type and
its document decodes back to it: what `objToObx` computes for a graph without references
to other documents, with the conditions under which `obxToObj` inverts it. -/
def encodeDeep (E : Env) : Nat → PureEnc
  | 0 => fun _ _ _ _ => none
  | n + 1 => fun D typeName subtypeNames depth =>
    let typeName := if typeName = "" then "Mixed" else typeName
    match D with
    | .prim .undefined => some (.prim .undefined)
    | .prim .null => some (.prim .null)
    | _ =>
      if (E.lookup typeName).isSome then pureOtto E (encodeDeep E n) D typeName depth
      else if typeName = "List" then pureList (encodeDeep E n) D subtypeNames depth
      else if typeName = "Map" then pureMap (encodeDeep E n) D subtypeNames depth
      else if typeName = "Mixed" then pureMixed E (encodeDeep E n) D depth
      else if CORETYPES.contains typeName then
        match D with
        | .prim p => some (.prim p)
        | _ => none
      else none

/-! ## Predicates for the round trip -/

/-- The encoder agrees with the encoder of trees on a value that unfolds to a tree. -/
def EncAgrees (w : World) (rec : EncFn) (prec : PureEnc) (rf : Val → Option Deep) : Prop :=
  ∀ v D t s d doc refs, rf v = some D → prec D t s d = some doc →
    rec w refs v t s d = .ok (doc, w, refs)

/-- At nesting bound `n`, decoding the document of a tree that some graph unfolds to
succeeds with a value made of new instances only that unfolds to the same tree, and
that is `undefined` exactly when the document is. -/
def DecInverts (E : Env) (n : Nat) : Prop :=
  ∀ k w v D t s d doc, reifyAbove E k n w v = some D → encodeDeep E n D t s d = some doc →
    ∀ (w0 : World) (c : Option Nat) (dd : Nat), ∃ v2 w1,
      obxToObj E n w0 doc t s dd c (.prim .null) = .ok (v2, w1) ∧
      reifyAbove E w0.heap.length n w1 v2 = some D ∧ v2.isUndefined = doc.isUndefined

/-- The values of an instance unfold to what the source graph holds under the same
names. -/
def ValuesMatch (E : Env) (n k : Nat) (w : World) (vals0 : List (String × Val)) (r : Nat)
    (w0 : World) (vals : List (String × Val)) : Prop :=
  ∀ name v, lookupProp vals name = some v → ∃ D,
    reifyAbove E k n w ((lookupProp vals0 name).getD (.prim .undefined)) = some D ∧
    reifyAbove E (r + 1) n w0 v = some D

/-- The instance `obxToObj_Otto` creates for a document that is no reference. -/
def blankInst (type : String) (key : Obx) (objCache : Option Nat) : Inst :=
  { type := type, key := key, cas := .prim .null, cache := objCache,
    values := some [], loaded := true, initial := .prim .undefined }

/-! ## Registries and graphs for the round trip -/

/-- The type `createModel('Cover', {colour: 'string'}, {embed: true})` registers. -/
def coverInfo : TypeInfo :=
  { name := "Cover",
    schema := [{ key := "colour", name := "colour", type := "string" },
               { key := "_id", name := "_id", type := "string", auto := true, readonly := true }],
    descrims := [("_type", .prim (.str "Cover"))],
    embed := true,
    id := ["_id"],
    required := ["_id"] }

/-- The type `createModel('Book', {title: 'string', tags: {type: 'List', subtype:
'string'}, cover: 'Cover'}, {})` registers. -/
def bookInfo : TypeInfo :=
  { name := "Book",
    schema := [{ key := "title", name := "title", type := "string" },
               { key := "tags", name := "tags", type := "List", subtype := "string" },
               { key := "cover", name := "cover", type := "Cover" },
               { key := "_id", name := "_id", type := "string", auto := true, readonly := true }],
    descrims := [("_type", .prim (.str "Book"))],
    embed := false,
    id := ["_id"],
    required := ["_id"] }

/-- A host with `Cover` and `Book` registered, in this order. -/
def shelfEnv : Env :=
  { typeList := [coverInfo, bookInfo], uuid := fun n => "u" ++ toString n,
    toNumber := fun _ => none }

/-- A book at address 0 that holds a list and the embedded cover at address 1. -/
def shelfWorld : World :=
  { heap := [newInst "Book" [("title", .prim (.str "Dune")),
               ("tags", .arr [.prim (.str "sf"), .prim (.str "classic")]),
               ("cover", .inst 1)],
             newInst "Cover" [("colour", .prim (.str "red"))]],
    caches := [],
    uuids := 0 }

/-- The tree the book unfolds to. -/
def shelfTree : Deep :=
  .inst "Book" [("title", .prim (.str "Dune")),
    ("tags", .arr [.prim (.str "sf"), .prim (.str "classic")]),
    ("cover", .inst "Cover" [("colour", .prim (.str "red")), ("_id", .prim .undefined)]),
    ("_id", .prim .undefined)]

/-- The document of the book. -/
def shelfDoc : Obx :=
  .obj [("title", .prim (.str "Dune")),
    ("tags", .arr [.prim (.str "sf"), .prim (.str "classic")]),
    ("cover", .obj [("colour", .prim (.str "red")), ("_type", .prim (.str "Cover"))]),
    ("_type", .prim (.str "Book"))]

/-- The type `createModel('Animal', {name: 'string'}, {descriminators: {kind: 'pet'}})`
registers. -/
def animalInfo : TypeInfo :=
  { name := "Animal",
    schema := [{ key := "name", name := "name", type := "string" },
               { key := "_id", name := "_id", type := "string", auto := true, readonly := true }],
    descrims := [("kind", .prim (.str "pet"))],
    embed := false,
    id := ["_id"],
    required := ["_id"] }

/-- The type `createModel('Dog', {name: 'string'}, {descriminators: {kind: 'pet',
breed: 'dog'}})` registers. -/
def dogInfo : TypeInfo :=
  { name := "Dog",
    schema := [{ key := "name", name := "name", type := "string" },
               { key := "_id", name := "_id", type := "string", auto := true, readonly := true }],
    descrims := [("kind", .prim (.str "pet")), ("breed", .prim (.str "dog"))],
    embed := false,
    id := ["_id"],
    required := ["_id"] }

/-- A host with `Animal` and then `Dog` registered: every document of a `Dog` also has
the discriminators of `Animal`. -/
def petEnv : Env :=
  { typeList := [animalInfo, dogInfo], uuid := fun n => "u" ++ toString n,
    toNumber := fun _ => none }

/-- One `Dog` whose only value is a string. -/
def petWorld : World :=
  { heap := [newInst "Dog" [("name", .prim (.str "Rex"))]], caches := [], uuids := 0 }

/-- The document of the dog. -/
def petDoc : Obx :=
  .obj [("name", .prim (.str "Rex")), ("kind", .prim (.str "pet")),
    ("breed", .prim (.str "dog"))]

/-! ## C12: lists -/

/-- Every element of a sequence decodes without error, one after the other, each in the
state the one before left: the values `vs` and the last state. -/
inductive DecodesAll (rec : DecFn) (sub : String) (subs : List String) (depth : Nat)
    (c : Option Nat) : List Obx → World → List Val → World → Prop where
  | nil (w : World) : DecodesAll rec sub subs depth c [] w [] w
  | cons (x : Obx) (xs : List Obx) (w : World) (v : Val) (w1 : World) (vs : List Val)
      (w2 : World) :
      rec w x sub subs (depth + 1) c (.prim .null) = .ok (v, w1) →
      DecodesAll rec sub subs depth c xs w1 vs w2 →
      DecodesAll rec sub subs depth c (x :: xs) w (v :: vs) w2

/-! ## C11: the polymorphic type -/

mutual
/-- A document value read as an object-side value: the same primitives, arrays and
objects. -/
def Obx.toVal : Obx → Val
  | .prim p => .prim p
  | .arr xs => .arr (Obx.toValList xs)
  | .obj kvs => .map (Obx.toValFields kvs)
/-- The elements of an array, read as object-side values. -/
def Obx.toValList : List Obx → List Val
  | [] => []
  | x :: xs => Obx.toVal x :: Obx.toValList xs
/-- The properties of an object, read as object-side values. -/
def Obx.toValFields : List (String × Obx) → List (String × Val)
  | [] => []
  | (k, x) :: kvs => (k, Obx.toVal x) :: Obx.toValFields kvs
end

/-- Plain data of nesting below `n`: primitives, and arrays and objects of plain data
that hold no `undefined`, are no reference marker and match no registered type; the
keys of an object are distinct. -/
def plainObx (E : Env) : Nat → Obx → Bool
  | 0, _ => false
  | _ + 1, .prim _ => true
  | n + 1, .arr xs =>
    !isOttoObx E (.arr xs) && xs.all (fun x => !x.isUndefined && plainObx E n x)
  | n + 1, .obj kvs =>
    !isRefObx (.obj kvs) && !isOttoObx E (.obj kvs) &&
      decide ((kvs.map Prod.fst).Nodup) &&
      kvs.all (fun kx => !kx.2.isUndefined && plainObx E n kx.2)

/-- A decoder that returns plain data of nesting below `n` as it is, whatever the state,
under the polymorphic type. -/
def DecPlain (E : Env) (rec : DecFn) (n : Nat) : Prop :=
  ∀ (w : World) (x : Obx) (d : Nat) (c : Option Nat) (k : Obx), plainObx E n x = true →
    rec w x "Mixed" [] d c k = .ok (x.toVal, w)

/-- A host whose only type has no discriminator:
`createModel('Any', {}, {descriminators: {}})`. -/
def anyInfo : TypeInfo :=
  { name := "Any",
    schema := [{ key := "_id", name := "_id", type := "string", auto := true, readonly := true }],
    descrims := [],
    embed := false,
    id := ["_id"],
    required := ["_id"] }

/-- A host with `Any` registered. -/
def anyEnv : Env :=
  { typeList := [anyInfo], uuid := fun n => "u" ++ toString n, toNumber := fun _ => none }

/-! ## C13: errors of the reference branch -/

/-- The reference branch of `obxToObj_Otto`, with the state in which it returns or
throws: the checks and the cache lookup come before the only writes, which create the
placeholder and store it in the cache. -/
def obxToObj_Otto_ref (E : Env) (w : World) (obx : Obx) (typeName : Obx)
    (objCache : Option Nat) : Except Err Val × World :=
  let ref := obx.get "$ref"
  let refkey := ref.get "1"
  if ref.get "length" ≠ .prim (.num 2) then (.error (.thrown "expected reference object"), w)
  else if ref.get "0" ≠ typeName then (.error (.thrown "data is wrong type"), w)
  else
    match w.cacheGet objCache refkey.toStr with
    | none => (.error (.typeError "cannot read a property of undefined"), w)
    | some (.inst cached) =>
      match w.heap[cached]? with
      | none => (.error (.typeError "no such instance"), w)
      | some ci =>
        if Obx.prim (.str ci.type) ≠ ref.get "0" then
          (.error (.thrown "object cached but later found as different type"), w)
        else (.ok (.inst cached), w)
    | some .member => (.error (.typeError "cannot read property name of undefined"), w)
    | some .missing =>
      match E.lookup typeName.toStr with
      | none => (.error (.typeError "type is not a constructor"), w)
      | some info =>
        let (r, w1) := w.alloc
          { type := info.name, key := refkey, cas := .prim .null, cache := objCache,
            values := none, loaded := false, initial := .prim .null }
        match w1.cacheSet objCache refkey.toStr r with
        | none => (.error (.typeError "cannot set a property of undefined"), w1)
        | some w2 => (.ok (.inst r), w2)

/-- The result of a call as `Except` has it: the state is kept for a return only. -/
def dropState (r : Except Err Val × World) : DecRes :=
  match r with
  | (.ok v, w) => .ok (v, w)
  | (.error e, _) => .error e

/-- A state whose cache holds the placeholder of a `Person` under `person_1` and, under
`x_1`, an instance whose type name is `Other`. -/
def mixedCacheWorld : World :=
  { heap := [placeholder "Person" (.prim (.str "person_1")) (some 0),
             placeholder "Other" (.prim (.str "x_1")) (some 0)],
    caches := [[("person_1", 0), ("x_1", 1)]], uuids := 0 }

/-! ## C15: the persistence key -/

/-- The fields of a list are read one after the other through their accessors, each in the
state the one before left: the values read and the last state. -/
inductive ReadsAll (E : Env) (r : Nat) : List String → World → List Val → World → Prop where
  | nil (w : World) : ReadsAll E r [] w [] w
  | cons (f : String) (fs : List String) (w : World) (v : Val) (w1 : World) (vs : List Val)
      (w2 : World) :
      getField E w r f = .ok (v, w1) → ReadsAll E r fs w1 vs w2 →
      ReadsAll E r (f :: fs) w (v :: vs) w2

/-- The function `modelCheckRequired` with the state in which it returns or throws, and
the error if it throws. -/
def modelCheckRequiredT (E : Env) (r : Nat) : List String → World → Option Err × World
  | [], w => (none, w)
  | f :: rest, w =>
    match getField E w r f with
    | .error e => (some e, w)
    | .ok (v, w1) =>
      if v.truthy then modelCheckRequiredT E r rest w1
      else (some (.thrown ("required field missing: " ++ f)), w1)

/-- The loop of `modelKey` over the identifier fields, with the state in which it ends. -/
def modelKeyIdsT (E : Env) (r : Nat) : List String → World → String → Except Err String × World
  | [], w, key => (.ok key, w)
  | f :: rest, w, key =>
    match getField E w r f with
    | .error e => (.error e, w)
    | .ok (v, w1) => modelKeyIdsT E r rest w1 (key ++ "_" ++ v.toStr)

/-- The function `modelKey` with the state in which it returns or throws. -/
def modelKeyT (E : Env) (w : World) (r : Nat) : Except Err Obx × World :=
  match w.heap[r]? with
  | none => (.error (.typeError "no such instance"), w)
  | some i =>
    if i.key.truthy then (.ok i.key, w)
    else
      match E.lookup i.type with
      | none => (.error (.typeError "no such type"), w)
      | some info =>
        match modelCheckRequiredT E r info.required w with
        | (some e, w1) => (.error e, w1)
        | (none, w1) =>
          match modelKeyIdsT E r info.id w1 info.name with
          | (.error e, w2) => (.error e, w2)
          | (.ok key, w2) =>
            match w2.heap[r]? with
            | none => (.error (.typeError "no such instance"), w2)
            | some i2 =>
              let k : Obx := .prim (.str (E.toLowerCase key))
              (.ok k, w2.setInst r { i2 with key := k })

/-- The key `modelKey` builds from the name of the type and the values read from the
identifier fields. -/
def keyOf (E : Env) (name : String) (ids : List Val) : Obx :=
  .prim (.str (E.toLowerCase (ids.foldl (fun key v => key ++ "_" ++ v.toStr) name)))

/-! ## C16: the snapshot and a failed write -/

/-- The callback `function(){ __doneOne(); }` that `save` passes to `bucket.set`, run
with what the store answered: it has no parameters, so the answer, an error or a
result, is not looked at. -/
def setDone (hasCallback : Bool) (st : SaveState) (_answer : Except Obx Obx) : SaveState :=
  doneOne hasCallback st

/-- The state in which `save(a)` returns in the scenario with tokens: two writes are
issued and not answered yet. -/
def casSaved : SaveState :=
  { w := casWorld2, objs := [0, 1], saved := 0, sets := [casSetA, casSetB], called := 0 }

/-! ## C17, C18, C20: completion of load and save -/

/-- Two loaded `Person`s without references. -/
def twoWorld : World :=
  { heap := [newInst "Person" [("name", .prim (.str "Ann"))],
             newInst "Person" [("name", .prim (.str "Bob"))]],
    caches := [], uuids := 0 }

/-- The callback `function(err, result)` that `_load` passes to `bucket.get`, run for the
pending call at position `idx` with the two arguments the store passes: `err` is not
looked at, and `result.value` and `result.cas` are read. -/
def getCallback (E : Env) (fuel : Nat) (st : LoadState) (idx : Nat) (_err : Obx) (result : Obx) :
    Except Err LoadState :=
  match result with
  | .prim .undefined => getDone E fuel st idx (.error _err)
  | .prim .null => .error (.typeError "cannot read property value of null")
  | _ => getDone E fuel st idx (.ok (result.get "value", result.get "cas"))

/-! ## C21: the key of findById -/

/-- The key `findModelById` builds: the name of the type, then `'_' + arguments[i]` for
every index `i` of the identifier list, lowercased.  The list `args` holds the
arguments before the callback; the theorems take as many as there are identifier
fields, so that no index reaches the callback. -/
def findKey (E : Env) (info : TypeInfo) (args : List Val) : Obx :=
  .prim (.str (E.toLowerCase ((List.range info.id.length).foldl
    (fun key i => key ++ "_" ++ (args.getD i (.prim .undefined)).toStr) info.name)))

/-- The function `findModelById`, up to its return: the bucket and the key of the call
`info.bucket.get(key, {}, callback)` it issues. -/
def findModelById (E : Env) (info : TypeInfo) (args : List Val) : String × Obx :=
  (info.bucket, findKey E info args)

/-- What the callback of `findModelById` hands to the caller: `callback(err)` or
`callback(null, obj)`. -/
inductive FindAnswer where
  | failed (err : Obx)
  | found (obj : Val)
  deriving DecidableEq, Repr

/-- The callback that `findModelById` passes to `bucket.get`, for the key it asked for:
an error is handed on; otherwise `result.value` is decoded under the type, with a new
cache and the key, and the name of the type of the result is checked. -/
def findDone (E : Env) (fuel : Nat) (w : World) (info : TypeInfo) (key : Obx)
    (err result : Obx) : Except Err (FindAnswer × World) :=
  if err.truthy then .ok (.failed err, w)
  else
    match result with
    | .prim .undefined => .error (.typeError "cannot read property value of undefined")
    | .prim .null => .error (.typeError "cannot read property value of null")
    | _ =>
      match obxToObj E fuel { w with caches := w.caches ++ [[]] } (result.get "value")
          info.name [] 0 (some w.caches.length) key with
      | .error e => .error e
      | .ok (obj, w2) =>
        match obj with
        | .inst r =>
          match w2.heap[r]? with
          | none => .error (.typeError "no such instance")
          | some i =>
            if i.type ≠ info.name then .error (.thrown (i.type ++ " is not a " ++ info.name))
            else .ok (.found (.inst r), w2)
        | _ => .error (.typeError "cannot read property name of undefined")

/-- The state after the callback of `findById('1', callback)` on `Person` has decoded a
document that is the reference marker `['Person', 'person_2']`. -/
def foundMarkerWorld : World :=
  { heap := [placeholder "Person" (.prim (.str "person_2")) (some 1)],
    caches := [[], [("person_2", 0)]], uuids := 0 }

/-! ## C19: the depth budget -/

/-- The state changes a call of the loader makes by itself: key computations and
encodings of instances, one after another. -/
inductive Steps (E : Env) : World → World → Prop where
  | refl (w : World) : Steps E w w
  | key (w : World) (r : Nat) (key : Obx) (w1 w2 : World) :
      modelKey E w r = .ok (key, w1) → Steps E w1 w2 → Steps E w w2
  | enc (w : World) (m a : Nat) (doc : Obx) (w1 : World) (refs : List Nat) (w2 : World) :
      objToObx E m w [] (.inst a) (typeNameOf w (.inst a)) [] 0 = .ok (doc, w1, refs) →
      Steps E w1 w2 → Steps E w w2

/-- The instance `b` is `k` reference hops from the value `v`, starting in the state
`w`: an instance is zero hops from itself; arrays and objects are passed through to
their elements; one hop leads from an instance to an instance that `objToObx` reports
as a reference of it, in the state that encoding leaves; and between the hops the state
may change by the loader's own key computations and encodings. -/
inductive Reach (E : Env) : World → Val → Nat → Nat → Prop where
  | here (w : World) (b : Nat) : Reach E w (.inst b) 0 b
  | elem (w : World) (xs : List Val) (x : Val) (k b : Nat) :
      x ∈ xs → Reach E w x k b → Reach E w (.arr xs) k b
  | entry (w : World) (v : Val) (key : String) (x : Val) (k b : Nat) :
      (key, x) ∈ v.entries → Reach E w x k b → Reach E w v k b
  | hop (w : World) (m a : Nat) (doc : Obx) (w1 : World) (refs : List Nat) (c k b : Nat) :
      objToObx E m w [] (.inst a) (typeNameOf w (.inst a)) [] 0 = .ok (doc, w1, refs) →
      c ∈ refs → Reach E w1 (.inst c) k b → Reach E w (.inst a) (k + 1) b
  | later (w w2 : World) (v : Val) (k b : Nat) :
      Steps E w w2 → Reach E w2 v k b → Reach E w v k b

/-- The calls of `bucket.get` in `new` are what was added to the state `st`, and each is
for an instance `k` hops from one of the values `vs`, for some `k` of at least `k0`, with
the budget `d - k` left, which is at least 1. -/
def IssuedFrom (E : Env) (st : LoadState) (vs : List Val) (k0 : Nat) (d : Int)
    (st1 : LoadState) (new : List Pending) : Prop :=
  st1.pending = st.pending ++ new ∧
  st1.gets = st.gets ++ new.map (fun p => (p.bucket, p.key)) ∧
  ∀ p ∈ new, ∃ v ∈ vs, ∃ k : Nat, k0 ≤ k ∧ Reach E st.w v k p.obj ∧ p.depthLeft = d - k ∧
    1 ≤ p.depthLeft

/-- What a call of the loader on `obj` with budget `d` does: the state changes by key
computations and encodings only, and every call of `bucket.get` it adds is for an
instance some `k` hops from `obj` and carries the budget `d - k`, which is at least 1. -/
def Issues (E : Env) (st : LoadState) (obj : Val) (d : Int) (st1 : LoadState) : Prop :=
  Steps E st.w st1.w ∧ ∃ new : List Pending, IssuedFrom E st [obj] 0 d st1 new

/-- A loader whose successful calls with a budget that is not negative are as `Issues`
says. -/
def LoadReach (E : Env) (rec : LoadFn) : Prop :=
  ∀ st obj d cb st1, 0 ≤ d → rec st obj d cb = .ok st1 → Issues E st obj d st1

/-- The states of one call `load(root, {depth: D}, callback)` that starts in the state
`w0`: the state in which `load` returns, and every state in which a callback of
`bucket.get` returns after the store answered one of the calls that were waiting. -/
inductive LoadRun (E : Env) (w0 : World) (root : Val) (D : Int) : LoadState → Prop where
  | start (fuel : Nat) (st : LoadState) :
      load E fuel w0 root (some D) = .ok st → LoadRun E w0 root D st
  | answer (fuel : Nat) (st : LoadState) (idx : Nat) (err result : Obx) (st1 : LoadState) :
      LoadRun E w0 root D st → getCallback E fuel st idx err result = .ok st1 →
      LoadRun E w0 root D st1

/-- The instance `b` is `k` reference hops from the root of a call of `load`, as far as
the call has come in the state `st`: by hops in the object graph `load` started with,
or, for an instance whose document the store has delivered, by hops that start at it in
the state in which its document was decoded and its token recorded. -/
inductive Within (E : Env) (w0 : World) (root : Val) (D : Int) : LoadState → Nat → Nat → Prop where
  | root (fuel : Nat) (st : LoadState) (k b : Nat) :
      load E fuel w0 root (some D) = .ok st → Reach E w0 root k b → Within E w0 root D st k b
  | keep (fuel : Nat) (st : LoadState) (idx : Nat) (err result : Obx) (st1 : LoadState)
      (k b : Nat) :
      Within E w0 root D st k b → getCallback E fuel st idx err result = .ok st1 →
      Within E w0 root D st1 k b
  | answer (fuel : Nat) (st : LoadState) (idx : Nat) (err result : Obx) (st1 : LoadState)
      (p : Pending) (i : Inst) (w1 : World) (i1 : Inst) (k k2 b : Nat) :
      Within E w0 root D st k p.obj → st.pending[idx]? = some p →
      st.w.heap[p.obj]? = some i →
      obxToObj_Otto_Load E (obxToObj E fuel) st.w p.obj (result.get "value") 0 i.cache = .ok w1 →
      w1.heap[p.obj]? = some i1 →
      getCallback E fuel st idx err result = .ok st1 →
      Reach E (w1.setInst p.obj { i1 with cas := result.get "cas" }) (.inst p.obj) k2 b →
      Within E w0 root D st1 (k + k2) b

/-- One answer of the store, in a state where every call that waits has a budget of at
least 1: the callback of `bucket.get` runs for one of the waiting calls and returns. -/
def LoadStep (E : Env) (st1 st : LoadState) : Prop :=
  (∀ p ∈ st.pending, 1 ≤ p.depthLeft) ∧
  ∃ (fuel idx : Nat) (err result : Obx), getCallback E fuel st idx err result = .ok st1

/-- The budgets of the calls of `bucket.get` that wait for their answer. -/
def budgets (st : LoadState) : Multiset Nat :=
  (st.pending.map (fun p => p.depthLeft.toNat) : List Nat)

mutual
/-- How deep arrays and objects are nested in a value; an instance counts as a leaf. -/
def Val.height : Val → Nat
  | .prim _ => 0
  | .arr xs => Val.heightList xs + 1
  | .map kvs => Val.heightFields kvs + 1
  | .inst _ => 0
/-- The largest height among the values of a list. -/
def Val.heightList : List Val → Nat
  | [] => 0
  | x :: xs => max (Val.height x) (Val.heightList xs)
/-- The largest height among the values of a property list. -/
def Val.heightFields : List (String × Val) → Nat
  | [] => 0
  | (_, x) :: xs => max (Val.height x) (Val.heightFields xs)
end

/-- The callback `cb` finishes after at most `c` loop closures have called the callback
of the call that made them: the chain of `parent` links from `cb` reaches the caller's
callback within `c` links. -/
inductive ChainLE (joins : List Join) : Cont → Nat → Prop where
  | user (c : Nat) : ChainLE joins .user c
  | join (j : Nat) (jn : Join) (c : Nat) :
      joins[j]? = some jn → ChainLE joins jn.parent c → ChainLE joins (.join j) (c + 1)

/-- The closures of `js` are still there in `js1`, with the callbacks they were made
with. -/
def JoinsExt (js js1 : List Join) : Prop :=
  ∀ (j : Nat) (jn : Join), js[j]? = some jn → ∃ jn1, js1[j]? = some jn1 ∧ jn1.parent = jn.parent

/-- A loader whose successful calls keep the closures made before. -/
def LoadExt (rec : LoadFn) : Prop :=
  ∀ st obj d cb st1, rec st obj d cb = .ok st1 → JoinsExt st.joins st1.joins

/-- The encoder needs a nesting of at most `F` calls to encode an instance of the
registry at depth 0. -/
def EncTotal (E : Env) (F : Nat) : Prop :=
  ∀ (m : Nat), F ≤ m → ∀ (w : World) (r : Nat),
    objToObx E m w [] (.inst r) (typeNameOf w (.inst r)) [] 0 ≠ .error .fuel

/-- The nesting of calls that is enough for a call of `_load`: what the encoder needs,
what the callback chain needs, and two for every hop and every level of arrays and
objects. -/
def loadFuel (F c : Nat) (d : Int) (obj : Val) : Nat :=
  F + c + 2 * (d.toNat + obj.height) + 1

/-- A registry in which every declared field has a core type or the type of a model that
is stored by reference: encoding an instance then nests two calls of `objToObx`. -/
def ShallowSchema (E : Env) : Prop :=
  ∀ info ∈ E.typeList, ∀ f ∈ info.schema,
    (∃ info2, E.lookup f.type = some info2 ∧ info2.embed = false ∧ f.type ≠ "") ∨
    (E.lookup f.type = none ∧ f.type ∈ CORETYPES)

/-- Two `Person`s that refer to each other: `a` at address 0 is loaded, and `b` at
address 1 is a placeholder whose document has not been fetched. -/
def cycWorld : World :=
  { heap := [{ newInst "Person" [("name", .prim (.str "Ann")), ("best", .inst 1)] with
               key := .prim (.str "person_a") },
             placeholder "Person" (.prim (.str "person_b")) (some 0)],
    caches := [[("person_a", 0), ("person_b", 1)]], uuids := 0 }

/-- The state in which `load(a, {depth: 2}, callback)` returns in `cycWorld`: the call
of `bucket.get` for `b` waits with the budget 1. -/
def cycPending : LoadState :=
  { w := cycWorld,
    joins := [{ kind := .refs, count := 0, total := 1, parent := .user }],
    pending := [{ obj := 1, key := .prim (.str "person_b"), bucket := "default", depthLeft := 1,
                  callback := .join 0 }],
    gets := [("default", .prim (.str "person_b"))], called := [], warned := 0 }

/-! ## C8: a document that does not decode, and a change after the load -/

/-- The first part of `obxToObj_Otto_Load`: the checks, and the assignments
`obj.$values`, `obj.$loaded = true` and `obj.$initial = obx` that precede the
loop over the schema. -/
def markLoaded (E : Env) (w : World) (r : Nat) (obx : Obx) : Except Err World :=
  match w.heap[r]? with
  | none => .error (.typeError "no such instance")
  | some i =>
    match E.lookup i.type with
    | none => .error (.typeError "no such type")
    | some info =>
      if !obx.isObject then .error (.thrown "expected value of type Object")
      else if typeNameFromObx E obx ≠ some info.name then .error (.thrown "data is wrong type")
      else .ok (w.setInst r { i with values := some [], loaded := true, initial := obx })

/-- A document of a `Person` whose `name` is an object, not a string. -/
def badDoc : Obx :=
  .obj [("name", .obj [("first", .prim (.str "Bob"))]), ("_type", .prim (.str "Person"))]

/-- The state `unloadedWorld` after the first part of `obxToObj_Otto_Load` has run on the
placeholder with `badDoc`. -/
def markedWorld : World :=
  { heap := [{ type := "Person", key := .prim (.str "person_1"), values := some [],
               cas := .prim .null, loaded := true, initial := badDoc, cache := some 0 }],
    caches := [[("person_1", 0)]], uuids := 0 }

/-- The state after the load of Bob, with his name changed to `Rob`. -/
def renamedWorld : World :=
  { heap := [{ type := "Person", key := .prim (.str "person_1"),
               values := some [("name", .prim (.str "Rob"))], cas := .prim (.num 7),
               loaded := true, initial := bobDoc, cache := some 0 }],
    caches := [[("person_1", 0)]], uuids := 0 }

/-- The document of Bob with the name `Rob`. -/
def robDoc : Obx := .obj [("name", .prim (.str "Rob")), ("_type", .prim (.str "Person"))]

/-! ## C14, C15: a model named like a core type, and hosts for the key -/

/-- A model registered under the name of a core type:
`createModel('string', schema, options)` with an empty schema and no options. -/
def stringInfo : TypeInfo :=
  { name := "string",
    schema := [{ key := "_id", name := "_id", type := "string", auto := true, readonly := true }],
    descrims := [("_type", .prim (.str "string"))],
    embed := false,
    id := ["_id"],
    required := ["_id"] }

/-- A host with the model `string` registered. -/
def stringEnv : Env :=
  { typeList := [stringInfo], uuid := fun n => "u" ++ toString n, toNumber := fun _ => none }

/-- Lowering of the letters `A` to `Z` and of the capital letters of Latin-1 (`À` to `Þ`):
the method `toLowerCase` of a host on strings of Latin-1 characters. -/
def lowerLatin (s : String) : String :=
  ⟨s.data.map (fun c =>
    if 192 ≤ c.toNat ∧ c.toNat ≤ 222 ∧ c.toNat ≠ 215 then Char.ofNat (c.toNat + 32)
    else c.toLower)⟩

/-- A host with `Account` registered that lowers Latin-1 letters. -/
def latinEnv : Env :=
  { typeList := [accountInfo], uuid := fun n => "u" ++ toString n, toNumber := fun _ => none,
    toLowerCase := lowerLatin,
    toLowerCase_ne := fun _ h hc =>
      h (String.ext (List.map_eq_nil_iff.1 (congrArg String.data hc))) }

/-- An `Account` whose identifier `email` is `ÉCOLE Zoë`. -/
def ecoleWorld : World :=
  { heap := [newInst "Account" [("email", .prim (.str "ÉCOLE Zoë"))]], caches := [],
    uuids := 0 }

/-- An `Account` whose identifier `email` is the number `10^21`. -/
def bigIdWorld : World :=
  { heap := [newInst "Account" [("email", .prim (.num (10 ^ 21)))]], caches := [], uuids := 0 }

/-! # Theorems -/

theorem find_first {α : Type} (p : α → Bool) (pre : List α) (x : α) (post : List α)
    (hpre : ∀ t ∈ pre, p t = false) (hx : p x = true) :
    (pre ++ x :: post).find? p = some x := by
  induction pre with
  | nil => simp [List.find?, hx]
  | cons a as ih =>
    have ha : p a = false := hpre a (List.mem_cons_self _ _)
    simp only [List.cons_append, List.find?, ha]
    exact ih (fun t ht => hpre t (List.mem_cons_of_mem _ ht))

theorem descrimsMatch_iff (E : Env) (obx : Obx) (info : TypeInfo) :
    descrimsMatch E obx info.descrims = true ↔ Matches E obx info := by
  simp [descrimsMatch, Matches, List.all_eq_true]

/-- C5 (as the code has it): `typeNameFromObx` returns the name of the first type of the
registry, in registration order, that the document matches, where a discriminator matches
when it is loosely equal (`==`) to the document's property; it returns `null` when the
document matches no registered type. -/
theorem typeNameFromObx_first_match (E : Env) (obx : Obx) :
    (∀ pre info post, E.typeList = pre ++ info :: post →
        (∀ t ∈ pre, ¬ Matches E obx t) → Matches E obx info →
        typeNameFromObx E obx = some info.name) ∧
    ((∀ t ∈ E.typeList, ¬ Matches E obx t) → typeNameFromObx E obx = none) := by
  constructor
  · intro pre info post hlist hpre hinfo
    unfold typeNameFromObx
    rw [hlist, find_first _ pre info post]
    · rfl
    · intro t ht
      have := hpre t ht
      rw [← descrimsMatch_iff] at this
      simpa using this
    · exact (descrimsMatch_iff E obx info).2 hinfo
  · intro hnone
    unfold typeNameFromObx
    have : E.typeList.find? (fun info => descrimsMatch E obx info.descrims) = none := by
      rw [List.find?_eq_none]
      intro t ht
      have := hnone t ht
      rw [← descrimsMatch_iff] at this
      simpa using this
    rw [this]; rfl

/-- C5, witness: the registry of the examples and a document tagged `Person`. -/
theorem typeNameFromObx_first_match_witness :
    typeNameFromObx demoEnv (.obj [("_type", .prim (.str "Person"))]) = some "Person" :=
  (typeNameFromObx_first_match demoEnv (.obj [("_type", .prim (.str "Person"))])).1
    [] personInfo [] rfl (by simp) (by unfold Matches; decide)

/-- C5, counterexample: the document `{_type: ['Person']}` has no property equal to the
discriminator `'Person'`, so by value equality no type matches; the code compares with
`!=`, under which the array equals the string, and answers `Person`. -/
theorem typeNameFromObx_loose_counterexample :
    specResolveByShape demoEnv (.obj [("_type", .arr [.prim (.str "Person")])]) = none ∧
    typeNameFromObx demoEnv (.obj [("_type", .arr [.prim (.str "Person")])]) = some "Person" := by
  decide

/-! ## Property lists -/

theorem lookupProp_setProp_self {α : Type} (l : List (String × α)) (k : String) (v : α) :
    lookupProp (setProp l k v) k = some v := by
  induction l with
  | nil => simp [setProp, lookupProp]
  | cons a as ih =>
    obtain ⟨k0, v0⟩ := a
    by_cases h : k0 = k
    · simp [setProp, lookupProp, h]
    · simp [setProp, lookupProp, h, ih]

theorem lookupProp_setProp_other {α : Type} (l : List (String × α)) (k x : String) (v : α)
    (h : k ≠ x) : lookupProp (setProp l k v) x = lookupProp l x := by
  induction l with
  | nil => simp [setProp, lookupProp, h]
  | cons a as ih =>
    obtain ⟨k0, v0⟩ := a
    by_cases h0 : k0 = k
    · subst h0
      simp [setProp, lookupProp, h]
    · by_cases h1 : k0 = x
      · subst h1
        simp [setProp, lookupProp, h0]
      · simp [setProp, lookupProp, h0, h1, ih]

theorem lookupProp_eq_none_iff {α : Type} (l : List (String × α)) (k : String) :
    lookupProp l k = none ↔ k ∉ l.map Prod.fst := by
  induction l with
  | nil => simp [lookupProp]
  | cons a as ih =>
    obtain ⟨k0, v0⟩ := a
    by_cases h : k0 = k
    · simp [lookupProp, h]
    · have h2 : ¬ k = k0 := fun e => h e.symm
      simp [lookupProp, h, h2, ih]

theorem lookupProp_of_mem_nodup {α : Type} (l : List (String × α)) (k : String) (v : α)
    (hnd : (l.map Prod.fst).Nodup) (hmem : (k, v) ∈ l) : lookupProp l k = some v := by
  induction l with
  | nil => simp at hmem
  | cons a as ih =>
    obtain ⟨k0, v0⟩ := a
    simp only [List.map_cons, List.nodup_cons] at hnd
    rcases List.mem_cons.1 hmem with h | h
    · cases h; simp [lookupProp]
    · have hk : k0 ≠ k := by
        intro e; subst e
        exact hnd.1 (List.mem_map_of_mem Prod.fst h)
      simp [lookupProp, hk, ih hnd.2 h]

theorem lookupProp_addDescrims_of_not_mem (ds out : List (String × Obx)) (k : String)
    (h : k ∉ ds.map Prod.fst) : lookupProp (addDescrims out ds) k = lookupProp out k := by
  unfold addDescrims
  induction ds generalizing out with
  | nil => rfl
  | cons a as ih =>
    simp only [List.map_cons, List.mem_cons, not_or] at h
    simp only [List.foldl_cons]
    rw [ih _ h.2, lookupProp_setProp_other _ _ _ _ (fun e => h.1 e.symm)]

theorem lookupProp_addDescrims_of_mem (ds out : List (String × Obx)) (k : String) (v : Obx)
    (hnd : (ds.map Prod.fst).Nodup) (hmem : (k, v) ∈ ds) :
    lookupProp (addDescrims out ds) k = some v := by
  unfold addDescrims
  induction ds generalizing out with
  | nil => simp at hmem
  | cons a as ih =>
    simp only [List.map_cons, List.nodup_cons] at hnd
    simp only [List.foldl_cons]
    rcases List.mem_cons.1 hmem with h | h
    · subst h
      have := lookupProp_addDescrims_of_not_mem as (setProp out k v) k hnd.1
      unfold addDescrims at this
      rw [this, lookupProp_setProp_self]
    · exact ih _ hnd.2 h

theorem pushRef_mem (objRefs : List Nat) (r : Nat) : r ∈ pushRef objRefs r := by
  unfold pushRef
  by_cases h : r ∈ objRefs
  · simp [h]
  · simp [h]

theorem pushRef_nodup (objRefs : List Nat) (r : Nat) (h : objRefs.Nodup) :
    (pushRef objRefs r).Nodup := by
  unfold pushRef
  by_cases hn : r ∈ objRefs
  · simp [hn, h]
  · have hc : objRefs.contains r = false := by simpa using hn
    rw [hc]
    simp only [Bool.false_eq_true, if_false]
    rw [List.nodup_append]
    refine ⟨h, by simp, ?_⟩
    intro a ha hb
    simp at hb
    subst hb
    exact hn ha

/-! ## Encoding a model instance -/

theorem lookup_name (E : Env) (typeName : String) (info : TypeInfo)
    (h : E.lookup typeName = some info) : info.name = typeName := by
  unfold Env.lookup at h
  have := List.find?_some h
  simpa using this

/-- C3 (as the code has it): for an instance `o` of a registered type, `objToObx_Otto`
at a depth above 0 and a type that is not `embed` first adds `o` to `objRefs` unless it
is there, and then returns the marker with the type name and the key `modelKey` gives;
when `modelKey` throws, the call throws.  After a marker `o` is in `objRefs`, and
`objRefs` has no duplicates if it had none.  At depth 0 or for an `embed` type the
instance is inlined: the result is the composite of the field loop with the
discriminators laid over it, so it carries every discriminator of the type. -/
theorem objToObx_Otto_reference (E : Env) (rec : EncFn) (w : World) (objRefs : List Nat)
    (r : Nat) (i : Inst) (info : TypeInfo) (depth : Nat)
    (hi : w.heap[r]? = some i) (hinfo : E.lookup i.type = some info) :
    (depth > 0 ∧ info.embed = false →
      (∀ key w1, modelKey E w r = .ok (key, w1) →
        objToObx_Otto E rec w objRefs (.inst r) i.type depth
          = .ok (refMarker i.type key, w1, pushRef objRefs r)) ∧
      (∀ e, modelKey E w r = .error e →
        objToObx_Otto E rec w objRefs (.inst r) i.type depth = .error e) ∧
      r ∈ pushRef objRefs r ∧ (objRefs.Nodup → (pushRef objRefs r).Nodup)) ∧
    (¬ (depth > 0 ∧ info.embed = false) →
      ∀ doc w1 refs1, objToObx_Otto E rec w objRefs (.inst r) i.type depth = .ok (doc, w1, refs1) →
        (∃ out, encodeFields rec r depth info.schema w objRefs [] = .ok (out, w1, refs1) ∧
          doc = .obj (addDescrims out info.descrims)) ∧
        ((info.descrims.map Prod.fst).Nodup → ∀ jv ∈ info.descrims, doc.get jv.1 = jv.2)) := by
  have hname := lookup_name E i.type info hinfo
  constructor
  · intro hd
    refine ⟨?_, ?_, pushRef_mem _ _, pushRef_nodup _ _⟩
    · intro key w1 hk
      simp [objToObx_Otto, hinfo, hi, hd, hk, hname]
    · intro e hk
      simp [objToObx_Otto, hinfo, hi, hd, hk]
  · intro hd doc w1 refs1 hres
    simp only [objToObx_Otto, hinfo, hi, ne_eq, not_true_eq_false, if_false, hd] at hres
    cases hf : encodeFields rec r depth info.schema w objRefs [] with
    | error e => rw [hf] at hres; cases hres
    | ok res =>
      obtain ⟨out, w2, refs2⟩ := res
      rw [hf] at hres
      simp only [Except.ok.injEq, Prod.mk.injEq] at hres
      obtain ⟨h1, h2, h3⟩ := hres
      subst h1 h2 h3
      refine ⟨⟨out, rfl, rfl⟩, ?_⟩
      intro hnd jv hjv
      simp [Obx.get, lookupProp_addDescrims_of_mem info.descrims out jv.1 jv.2 hnd hjv]

/-- C3, witness: the scenario of the specification.  Encoding `a` at depth 0 inlines
`name`, gives `best` the marker with the key of `b`, and leaves `[b]` in `objRefs`; and
the theorem at `b`, depth 1. -/
theorem objToObx_Otto_reference_witness :
    objToObx demoEnv 3 scenarioWorld [] (.inst 0) "Person" [] 0
        = .ok (.obj [("name", .prim (.str "Ann")),
                     ("best", refMarker "Person" (.prim (.str "person_u0"))),
                     ("_type", .prim (.str "Person"))], scenarioWorldKeyed, [1]) ∧
    objToObx_Otto demoEnv (objToObx demoEnv 2) scenarioWorld [1] (.inst 1) "Person" 1
        = .ok (refMarker "Person" (.prim (.str "person_u0")), scenarioWorldKeyed, [1]) :=
  ⟨by decide,
   ((objToObx_Otto_reference demoEnv (objToObx demoEnv 2) scenarioWorld [1] 1
      (newInst "Person" [("name", .prim (.str "Bob"))]) personInfo 1 rfl rfl).1
      ⟨by decide, rfl⟩).1 (.prim (.str "person_u0")) scenarioWorldKeyed (by decide)⟩

/-- C3, counterexample: an `Account` whose required identifier `email` is not set, met
at depth 1 with a type that is not `embed`: no marker comes back, the call throws. -/
theorem objToObx_Otto_reference_counterexample :
    (1 > 0 ∧ accountInfo.embed = false) ∧
    objToObx_Otto accountEnv (objToObx accountEnv 2) accountWorld [] (.inst 0) "Account" 1
      = .error (.thrown "required field missing: email") := by
  decide

theorem encodeFields_eq (rec : EncFn) (r depth : Nat) (fs : List Field) (w : World)
    (objRefs : List Nat) (out : List (String × Obx)) :
    encodeFields rec r depth fs w objRefs out =
      (fieldResults rec r depth fs w objRefs).map
        (fun res => (storeAll out res.1, res.2.1, res.2.2)) := by
  induction fs generalizing w objRefs out with
  | nil => rfl
  | cons f fs ih =>
    simp only [encodeFields, fieldResults]
    cases hv : (w.heap[r]?).bind (fun i => i.values) with
    | none => rfl
    | some vals =>
      simp only []
      cases hr : rec w objRefs ((lookupProp vals f.name).getD (.prim .undefined)) f.type
          f.subtypes (depth + 1) with
      | error e => rfl
      | ok res =>
        obtain ⟨o, w1, refs1⟩ := res
        simp only []
        rw [ih]
        cases hrest : fieldResults rec r depth fs w1 refs1 with
        | error e => rfl
        | ok res2 =>
          obtain ⟨rs, w2, refs2⟩ := res2
          simp [Except.map, storeAll]

theorem fieldResults_names (rec : EncFn) (r depth : Nat) (fs : List Field) (w : World)
    (objRefs : List Nat) (res : List (String × Obx)) (w1 : World) (refs1 : List Nat)
    (h : fieldResults rec r depth fs w objRefs = .ok (res, w1, refs1)) :
    res.map Prod.fst = fs.map (fun f => f.name) := by
  induction fs generalizing w objRefs res with
  | nil =>
    simp only [fieldResults, Except.ok.injEq, Prod.mk.injEq] at h
    rw [← h.1]; rfl
  | cons f fs ih =>
    simp only [fieldResults] at h
    cases hv : (w.heap[r]?).bind (fun i => i.values) with
    | none => rw [hv] at h; cases h
    | some vals =>
      rw [hv] at h
      simp only [] at h
      cases hr : rec w objRefs ((lookupProp vals f.name).getD (.prim .undefined)) f.type
          f.subtypes (depth + 1) with
      | error e => rw [hr] at h; cases h
      | ok res1 =>
        obtain ⟨o, wa, refsa⟩ := res1
        rw [hr] at h
        simp only [] at h
        cases hrest : fieldResults rec r depth fs wa refsa with
        | error e => rw [hrest] at h; cases h
        | ok res2 =>
          obtain ⟨rs, w2, refs2⟩ := res2
          rw [hrest] at h
          simp only [Except.ok.injEq, Prod.mk.injEq] at h
          obtain ⟨h1, h2, h3⟩ := h
          subst h1 h2 h3
          simp [ih wa refsa rs hrest]

theorem lookupProp_storeAll (res out : List (String × Obx)) (name : String) :
    lookupProp (storeAll out res) name =
      (match lastDefined res name with
        | some e => some e
        | none => lookupProp out name) := by
  unfold storeAll
  induction res generalizing out with
  | nil => simp [lastDefined]
  | cons a rest ih =>
    obtain ⟨n, o⟩ := a
    simp only [List.foldl_cons, lastDefined]
    rw [ih]
    cases hl : lastDefined rest name with
    | some e => rfl
    | none =>
      simp only []
      by_cases hu : o.isUndefined = true
      · simp [hu]
      · by_cases hn : n = name
        · subst hn
          simp [hu, lookupProp_setProp_self]
        · simp [hu, hn, lookupProp_setProp_other _ _ _ _ hn]

theorem lastDefined_of_nodup (res : List (String × Obx)) (name : String) (e : Obx)
    (hnd : (res.map Prod.fst).Nodup) (hmem : (name, e) ∈ res) :
    lastDefined res name = if e.isUndefined then none else some e := by
  have hnone : ∀ (l : List (String × Obx)), name ∉ l.map Prod.fst → lastDefined l name = none := by
    intro l hl
    induction l with
    | nil => rfl
    | cons a as ih =>
      obtain ⟨n, o⟩ := a
      simp only [List.map_cons, List.mem_cons, not_or] at hl
      have hne : ¬ n = name := fun e => hl.1 (Eq.symm e)
      simp [lastDefined, ih hl.2, hne]
  induction res with
  | nil => simp at hmem
  | cons a rest ih =>
    obtain ⟨n, o⟩ := a
    simp only [List.map_cons, List.nodup_cons] at hnd
    rcases List.mem_cons.1 hmem with h | h
    · cases h
      simp only [lastDefined, hnone rest hnd.1]
      by_cases hu : e.isUndefined = true
      · simp [hu]
      · simp [hu]
    · have hne : n ≠ name := by
        intro e2; subst e2
        exact hnd.1 (List.mem_map_of_mem Prod.fst h)
      simp only [lastDefined, ih hnd.2 h]
      by_cases hu : e.isUndefined = true
      · simp [hu, hne]
      · simp [hu]

theorem mem_keys_setProp {α : Type} (l : List (String × α)) (k x : String) (v : α)
    (h : x ∈ (setProp l k v).map Prod.fst) : x = k ∨ x ∈ l.map Prod.fst := by
  have := (lookupProp_eq_none_iff (setProp l k v) x).not.2 (by simpa using h)
  by_cases hk : k = x
  · exact Or.inl hk.symm
  · rw [lookupProp_setProp_other _ _ _ _ hk] at this
    right
    by_contra hc
    exact this ((lookupProp_eq_none_iff l x).2 hc)

theorem lastDefined_some (res : List (String × Obx)) (name : String) (e : Obx)
    (h : lastDefined res name = some e) : (name, e) ∈ res ∧ e.isUndefined = false := by
  induction res with
  | nil => simp [lastDefined] at h
  | cons a rest ih =>
    obtain ⟨n, o⟩ := a
    simp only [lastDefined] at h
    cases hl : lastDefined rest name with
    | some e2 =>
      rw [hl] at h
      simp only [Option.some.injEq] at h
      subst h
      exact ⟨List.mem_cons_of_mem _ (ih hl).1, (ih hl).2⟩
    | none =>
      rw [hl] at h
      simp only [] at h
      by_cases hc : n = name ∧ o.isUndefined = false
      · simp only [hc, and_self, if_true, Option.some.injEq] at h
        subst h
        rw [← hc.1]
        exact ⟨List.mem_cons_self _ _, hc.2⟩
      · simp [hc] at h

theorem mem_keys_addDescrims (ds out : List (String × Obx)) (x : String)
    (h : x ∈ (addDescrims out ds).map Prod.fst) :
    x ∈ ds.map Prod.fst ∨ x ∈ out.map Prod.fst := by
  by_cases hx : x ∈ ds.map Prod.fst
  · exact Or.inl hx
  · right
    have h1 := (lookupProp_eq_none_iff (addDescrims out ds) x).not.2 (by simpa using h)
    rw [lookupProp_addDescrims_of_not_mem ds out x hx] at h1
    by_contra hc
    exact h1 ((lookupProp_eq_none_iff out x).2 hc)

/-- C4: when `objToObx_Otto` inlines an instance (depth 0, or an `embed` type), the
composite it returns maps every discriminator key of the type to its discriminator value,
whatever a schema field of the same name holds; maps every other declared field name to
the encoding the recursive call gave for the value of that field, exactly when that
encoding is not `undefined`; and has no other keys. -/
theorem objToObx_Otto_inline (E : Env) (rec : EncFn) (w : World) (objRefs : List Nat)
    (r : Nat) (i : Inst) (info : TypeInfo) (depth : Nat)
    (hi : w.heap[r]? = some i) (hinfo : E.lookup i.type = some info)
    (hin : depth = 0 ∨ info.embed = true) (doc : Obx) (w1 : World) (refs1 : List Nat)
    (hres : objToObx_Otto E rec w objRefs (.inst r) i.type depth = .ok (doc, w1, refs1)) :
    ∃ out res, doc = .obj out ∧
      fieldResults rec r depth info.schema w objRefs = .ok (res, w1, refs1) ∧
      res.map Prod.fst = info.schema.map (fun f => f.name) ∧
      ((info.descrims.map Prod.fst).Nodup →
        ∀ jv ∈ info.descrims, lookupProp out jv.1 = some jv.2) ∧
      (∀ name, name ∉ info.descrims.map Prod.fst → lookupProp out name = lastDefined res name) ∧
      ((info.schema.map (fun f => f.name)).Nodup →
        ∀ ne ∈ res, ne.1 ∉ info.descrims.map Prod.fst →
          lookupProp out ne.1 = if ne.2.isUndefined then none else some ne.2) ∧
      (∀ name ∈ out.map Prod.fst,
        name ∈ info.descrims.map Prod.fst ∨ name ∈ info.schema.map (fun f => f.name)) := by
  have hd : ¬ (depth > 0 ∧ info.embed = false) := by
    rcases hin with h | h
    · omega
    · simp [h]
  simp only [objToObx_Otto, hinfo, hi, ne_eq, not_true_eq_false, if_false, hd] at hres
  rw [encodeFields_eq] at hres
  cases hf : fieldResults rec r depth info.schema w objRefs with
  | error e => rw [hf] at hres; cases hres
  | ok fr =>
    obtain ⟨res, w2, refs2⟩ := fr
    rw [hf] at hres
    simp only [Except.map, Except.ok.injEq, Prod.mk.injEq] at hres
    obtain ⟨h1, h2, h3⟩ := hres
    subst h1 h2 h3
    have hnames := fieldResults_names rec r depth info.schema w objRefs res w2 refs2 hf
    have hother : ∀ name, name ∉ info.descrims.map Prod.fst →
        lookupProp (addDescrims (storeAll [] res) info.descrims) name = lastDefined res name := by
      intro name hname
      rw [lookupProp_addDescrims_of_not_mem _ _ _ hname, lookupProp_storeAll]
      cases lastDefined res name <;> simp [lookupProp]
    refine ⟨_, res, rfl, rfl, hnames, ?_, hother, ?_, ?_⟩
    · intro hnd jv hjv
      exact lookupProp_addDescrims_of_mem info.descrims _ jv.1 jv.2 hnd hjv
    · intro hnd ne hne hnot
      rw [hother _ hnot]
      exact lastDefined_of_nodup res ne.1 ne.2 (by rw [hnames]; exact hnd) hne
    · intro name hname
      rcases mem_keys_addDescrims _ _ _ hname with h | h
      · exact Or.inl h
      · right
        rw [← hnames]
        have h1 := (lookupProp_eq_none_iff (storeAll [] res) name).not.2 (by simpa using h)
        rw [lookupProp_storeAll] at h1
        cases hl : lastDefined res name with
        | none => rw [hl] at h1; simp [lookupProp] at h1
        | some e => exact List.mem_map_of_mem Prod.fst (lastDefined_some res name e hl).1

/-- C4, witness: `a` of the scenario, inlined at depth 0. -/
theorem objToObx_Otto_inline_witness :
    ∃ out res,
      Obx.obj [("name", .prim (.str "Ann")),
               ("best", refMarker "Person" (.prim (.str "person_u0"))),
               ("_type", .prim (.str "Person"))] = .obj out ∧
      fieldResults (objToObx demoEnv 2) 0 0 personInfo.schema scenarioWorld []
        = .ok (res, scenarioWorldKeyed, [1]) ∧
      res.map Prod.fst = personInfo.schema.map (fun f => f.name) ∧
      ((personInfo.descrims.map Prod.fst).Nodup →
        ∀ jv ∈ personInfo.descrims, lookupProp out jv.1 = some jv.2) ∧
      (∀ name, name ∉ personInfo.descrims.map Prod.fst →
        lookupProp out name = lastDefined res name) ∧
      ((personInfo.schema.map (fun f => f.name)).Nodup →
        ∀ ne ∈ res, ne.1 ∉ personInfo.descrims.map Prod.fst →
          lookupProp out ne.1 = if ne.2.isUndefined then none else some ne.2) ∧
      (∀ name ∈ out.map Prod.fst,
        name ∈ personInfo.descrims.map Prod.fst ∨
          name ∈ personInfo.schema.map (fun f => f.name)) :=
  objToObx_Otto_inline demoEnv (objToObx demoEnv 2) scenarioWorld [] 0
    (newInst "Person" [("name", .prim (.str "Ann")), ("best", .inst 1)]) personInfo 0
    rfl rfl (Or.inl rfl) _ scenarioWorldKeyed [1] (by decide)

/-! ## Decoding a reference -/

theorem refMarker_isRef (T : String) (k : Obx) : isRefObx (refMarker T k) = true := by
  simp [isRefObx, refMarker, Obx.isObject, Obx.get, lookupProp, Obx.truthy]

theorem refMarker_ref (T : String) (k : Obx) :
    (refMarker T k).get "$ref" = .arr [.prim (.str T), k] := by
  simp [refMarker, Obx.get, lookupProp]

theorem pair_length (a b : Obx) : (Obx.arr [a, b]).get "length" = .prim (.num 2) := by
  simp [Obx.get]

theorem pair_first (a b : Obx) : (Obx.arr [a, b]).get "0" = a := by
  have h0 : arrayIndex "0" = some 0 := by decide
  have hl : ¬ ("0" = "length") := by decide
  simp [Obx.get, h0, hl]

theorem pair_second (a b : Obx) : (Obx.arr [a, b]).get "1" = b := by
  have h1 : arrayIndex "1" = some 1 := by decide
  have hl : ¬ ("1" = "length") := by decide
  simp [Obx.get, h1, hl]

theorem obxToObj_Otto_hit (E : Env) (rec : DecFn) (w : World) (c : Nat)
    (cache : List (String × Nat)) (T : String) (k : Obx) (depth : Nat) (thisKey : Obx)
    (r0 : Nat) (ci : Inst) (hc : w.caches[c]? = some cache)
    (hk : lookupProp cache k.toStr = some r0) (h0 : w.heap[r0]? = some ci) (hT : ci.type = T) :
    obxToObj_Otto E rec w (refMarker T k) (.prim (.str T)) depth (some c) thisKey
      = .ok (.inst r0, w) := by
  simp [obxToObj_Otto, refMarker_isRef, refMarker_ref, pair_length, pair_first, pair_second,
    World.cacheGet, hc, hk, h0, hT]

/-- C2 (as the code has it): decoding the marker `{'$ref': [T, k]}` with
`obxToObj_Otto` when the cache has nothing under `k` and `k` names no member inherited
from `Object.prototype` allocates a placeholder of type `T` with key `k`, no values and
`$loaded = false`, stores it in the cache under `k` and returns it, whatever the decoder
for fields is (no field is decoded); decoding the marker again against that cache
returns the same instance and changes nothing; and so does every decode of the marker
in a state whose cache holds an instance of type `T` under `k`.  When the cache has
nothing under `k` and `k` names an inherited member, the decode throws a `TypeError`. -/
theorem obxToObj_Otto_ref_shared (E : Env) (rec : DecFn) (w : World) (c : Nat)
    (cache : List (String × Nat)) (T : String) (info : TypeInfo) (k : Obx) (depth : Nat)
    (thisKey : Obx) (hc : w.caches[c]? = some cache) (hT : E.lookup T = some info) :
    (lookupProp cache k.toStr = none → k.toStr ∉ objectPrototype →
      ∃ w1, obxToObj_Otto E rec w (refMarker T k) (.prim (.str T)) depth (some c) thisKey
              = .ok (.inst w.heap.length, w1) ∧
        w1.heap = w.heap ++ [placeholder T k (some c)] ∧
        w1.caches = w.caches.set c (setProp cache k.toStr w.heap.length) ∧
        w1.uuids = w.uuids ∧
        ∀ rec2 depth2 thisKey2,
          obxToObj_Otto E rec2 w1 (refMarker T k) (.prim (.str T)) depth2 (some c) thisKey2
            = .ok (.inst w.heap.length, w1)) ∧
    (∀ r0 ci, lookupProp cache k.toStr = some r0 → w.heap[r0]? = some ci → ci.type = T →
      obxToObj_Otto E rec w (refMarker T k) (.prim (.str T)) depth (some c) thisKey
        = .ok (.inst r0, w)) ∧
    (lookupProp cache k.toStr = none → k.toStr ∈ objectPrototype →
      obxToObj_Otto E rec w (refMarker T k) (.prim (.str T)) depth (some c) thisKey
        = .error (.typeError "cannot read property name of undefined")) := by
  have hname := lookup_name E T info hT
  have hclt : c < w.caches.length := by
    rcases Nat.lt_or_ge c w.caches.length with h | h
    · exact h
    · rw [List.getElem?_eq_none h] at hc; cases hc
  refine ⟨?_, ?_, ?_⟩
  · intro hmiss hown
    refine ⟨{ heap := w.heap ++ [placeholder T k (some c)],
              caches := w.caches.set c (setProp cache k.toStr w.heap.length),
              uuids := w.uuids }, ?_, rfl, rfl, rfl, ?_⟩
    · have hs : (Obx.prim (.str T)).toStr = T := by simp [Obx.toStr, Prim.toStr]
      simp [obxToObj_Otto, refMarker_isRef, refMarker_ref, pair_length, pair_first, pair_second,
        World.cacheGet, World.cacheSet, World.alloc, hc, hmiss, hown, hT, hname, hs,
        placeholder]
    · intro rec2 depth2 thisKey2
      apply obxToObj_Otto_hit E rec2 _ c (setProp cache k.toStr w.heap.length) T k depth2
        thisKey2 w.heap.length (placeholder T k (some c))
      · simp [List.getElem?_set, hclt]
      · exact lookupProp_setProp_self _ _ _
      · simp
      · rfl
  · intro r0 ci hk h0 hTy
    exact obxToObj_Otto_hit E rec w c cache T k depth thisKey r0 ci hc hk h0 hTy
  · intro hmiss hmem
    simp [obxToObj_Otto, refMarker_isRef, refMarker_ref, pair_length, pair_first, pair_second,
      World.cacheGet, hc, hmiss, hmem]

/-- C2, witness: the marker for `Person` with key `person_1`, decoded twice against an
empty cache: a placeholder at address 0, and the same instance the second time; and a
list of two such markers decodes to two occurrences of one instance. -/
theorem obxToObj_Otto_ref_shared_witness :
    lookupProp ([] : List (String × Nat)) (Obx.prim (.str "person_1")).toStr = none ∧
    (Obx.prim (.str "person_1")).toStr ∉ objectPrototype ∧
    (∃ w1, obxToObj_Otto demoEnv (obxToObj demoEnv 0) emptyCacheWorld
                (refMarker "Person" (.prim (.str "person_1"))) (.prim (.str "Person")) 1 (some 0)
                (.prim .null) = .ok (.inst emptyCacheWorld.heap.length, w1) ∧
        w1.heap = emptyCacheWorld.heap ++ [placeholder "Person" (.prim (.str "person_1")) (some 0)] ∧
        w1.caches = emptyCacheWorld.caches.set 0
          (setProp [] (Obx.prim (.str "person_1")).toStr emptyCacheWorld.heap.length) ∧
        w1.uuids = emptyCacheWorld.uuids ∧
        ∀ rec2 depth2 thisKey2,
          obxToObj_Otto demoEnv rec2 w1 (refMarker "Person" (.prim (.str "person_1")))
              (.prim (.str "Person")) depth2 (some 0) thisKey2
            = .ok (.inst emptyCacheWorld.heap.length, w1)) ∧
    obxToObj demoEnv 2 emptyCacheWorld
        (.arr [refMarker "Person" (.prim (.str "person_1")),
               refMarker "Person" (.prim (.str "person_1"))]) "List" ["Person"] 0 (some 0)
        (.prim .null)
      = .ok (.arr [.inst 0, .inst 0],
             { heap := [placeholder "Person" (.prim (.str "person_1")) (some 0)],
               caches := [[("person_1", 0)]], uuids := 0 }) :=
  ⟨rfl, by decide,
   (obxToObj_Otto_ref_shared demoEnv (obxToObj demoEnv 0) emptyCacheWorld 0 [] "Person"
      personInfo (.prim (.str "person_1")) 1 (.prim .null) rfl rfl).1 rfl (by decide),
   by decide⟩

/-- C2 fails as stated: the marker `{'$ref': ['Person', 'constructor']}` decoded against
an empty cache is a cache miss, and no placeholder is created: the read
`objCache['constructor']` finds the function every plain object inherits, and
`cachedObj.$.name` throws a `TypeError`. -/
theorem obxToObj_Otto_ref_shared_counterexample :
    lookupProp ([] : List (String × Nat)) (Obx.prim (.str "constructor")).toStr = none ∧
    obxToObj_Otto demoEnv (obxToObj demoEnv 0) emptyCacheWorld
        (refMarker "Person" (.prim (.str "constructor"))) (.prim (.str "Person")) 1 (some 0)
        (.prim .null)
      = .error (.typeError "cannot read property name of undefined") :=
  ⟨rfl, by decide⟩

/-! ## How encoding changes the state -/

theorem instEvolves_refl (E : Env) (i : Inst) : InstEvolves E i i :=
  ⟨rfl, rfl, rfl, rfl, fun _ => ⟨rfl, rfl⟩⟩

theorem frozen_of_evolves (E : Env) (i j : Inst) (h : InstEvolves E i j) (hf : Frozen E i) :
    Frozen E j := by
  obtain ⟨ht, _, _, _, hk⟩ := h
  rcases hf with hf | hf
  · left; rw [(hk (Or.inl hf)).1]; exact hf
  · right; rw [ht]; exact hf

theorem instEvolves_trans (E : Env) (i j k : Inst) (h1 : InstEvolves E i j)
    (h2 : InstEvolves E j k) : InstEvolves E i k := by
  have hfz := frozen_of_evolves E i j h1
  obtain ⟨a1, a2, a3, a4, a5⟩ := h1
  obtain ⟨b1, b2, b3, b4, b5⟩ := h2
  refine ⟨b1.trans a1, b2.trans a2, b3.trans a3, b4.trans a4, ?_⟩
  intro hf
  exact ⟨(b5 (hfz hf)).1.trans (a5 hf).1, (b5 (hfz hf)).2.trans (a5 hf).2⟩

theorem evolves_refl (E : Env) (w : World) : Evolves E w w :=
  ⟨rfl, rfl, fun _ i h => ⟨i, h, instEvolves_refl E i⟩⟩

theorem evolves_trans (E : Env) (u v w : World) (h1 : Evolves E u v) (h2 : Evolves E v w) :
    Evolves E u w := by
  obtain ⟨a1, a2, a3⟩ := h1
  obtain ⟨b1, b2, b3⟩ := h2
  refine ⟨b1.trans a1, b2.trans a2, ?_⟩
  intro r i hi
  obtain ⟨j, hj, hij⟩ := a3 r i hi
  obtain ⟨k, hk, hjk⟩ := b3 r j hj
  exact ⟨k, hk, instEvolves_trans E i j k hij hjk⟩

theorem evolvesI_refl (E : Env) (w : World) : EvolvesI E w w :=
  ⟨evolves_refl E w, fun r i j hi hj => by rw [hi] at hj; cases hj; rfl⟩

theorem evolvesI_trans (E : Env) (u v w : World) (h1 : EvolvesI E u v) (h2 : EvolvesI E v w) :
    EvolvesI E u w := by
  refine ⟨evolves_trans E u v w h1.1 h2.1, ?_⟩
  intro r i k hi hk
  obtain ⟨j, hj, _⟩ := h1.1.2.2 r i hi
  rw [h2.2 r j k hj hk, h1.2 r i j hi hj]

/-- Overwriting one instance by one it may evolve into. -/
theorem evolvesI_setInst (E : Env) (w : World) (r : Nat) (i j : Inst)
    (hi : w.heap[r]? = some i) (hij : InstEvolves E i j) (hinit : j.initial = i.initial) :
    EvolvesI E w (w.setInst r j) := by
  have hr : r < w.heap.length := by
    rcases Nat.lt_or_ge r w.heap.length with h | h
    · exact h
    · rw [List.getElem?_eq_none h] at hi; cases hi
  refine ⟨⟨rfl, by simp [World.setInst], ?_⟩, ?_⟩
  · intro r2 i2 h2
    by_cases hrr : r = r2
    · subst hrr
      rw [hi] at h2; cases h2
      exact ⟨j, by simp [World.setInst, hr], hij⟩
    · exact ⟨i2, by simp [World.setInst, List.getElem?_set, hrr, h2], instEvolves_refl E i2⟩
  · intro r2 i2 j2 h2 hj2
    by_cases hrr : r = r2
    · subst hrr
      rw [hi] at h2; cases h2
      simp [World.setInst, hr] at hj2
      rw [← hj2]; exact hinit
    · simp [World.setInst, List.getElem?_set, hrr] at hj2
      rw [h2] at hj2; cases hj2; rfl

theorem evolvesI_uuids (E : Env) (u w : World) (n : Nat) (h : EvolvesI E u w) :
    EvolvesI E u { w with uuids := n } := h

theorem evolvesI_setValues (E : Env) (w : World) (r : Nat) (i : Inst)
    (vals : Option (List (String × Val))) (hi : w.heap[r]? = some i) (hnf : ¬ Frozen E i) :
    EvolvesI E w (w.setInst r { i with values := vals }) :=
  evolvesI_setInst E w r i { i with values := vals } hi
    ⟨rfl, rfl, rfl, rfl, fun hf => absurd hf hnf⟩ rfl

theorem getElem?_lt {α : Type} (l : List α) (r : Nat) (a : α) (h : l[r]? = some a) :
    r < l.length := by
  rcases Nat.lt_or_ge r l.length with h1 | h1
  · exact h1
  · rw [List.getElem?_eq_none h1] at h; cases h

theorem touches_refl (r : Nat) (w : World) : Touches r w w :=
  ⟨rfl, rfl, fun _ _ => rfl, fun i hi => ⟨i, hi, rfl, rfl, rfl, rfl, rfl⟩⟩

theorem touches_trans (r : Nat) (u v w : World) (h1 : Touches r u v) (h2 : Touches r v w) :
    Touches r u w := by
  obtain ⟨a1, a2, a3, a4⟩ := h1
  obtain ⟨b1, b2, b3, b4⟩ := h2
  refine ⟨b1.trans a1, b2.trans a2, fun r2 hr => (b3 r2 hr).trans (a3 r2 hr), ?_⟩
  intro i hi
  obtain ⟨j, hj, c1, c2, c3, c4, c5⟩ := a4 i hi
  obtain ⟨k, hk, d1, d2, d3, d4, d5⟩ := b4 j hj
  exact ⟨k, hk, d1.trans c1, d2.trans c2, d3.trans c3, d4.trans c4, d5.trans c5⟩

theorem touches_setInst (w : World) (r : Nat) (i j : Inst) (hi : w.heap[r]? = some i)
    (h1 : j.type = i.type) (h2 : j.cas = i.cas) (h3 : j.loaded = i.loaded)
    (h4 : j.cache = i.cache) (h5 : j.initial = i.initial) : Touches r w (w.setInst r j) := by
  have hr := getElem?_lt _ _ _ hi
  refine ⟨rfl, by simp [World.setInst], ?_, ?_⟩
  · intro r2 hr2
    simp [World.setInst, List.getElem?_set, Ne.symm hr2]
  · intro i2 hi2
    rw [hi] at hi2; cases hi2
    exact ⟨j, by simp [World.setInst, hr], h1, h2, h3, h4, h5⟩

theorem touches_uuids (r : Nat) (u w : World) (n : Nat) (h : Touches r u w) :
    Touches r u { w with uuids := n } := h

/-- Steps that touch an instance that is not frozen are steps of `EvolvesI`. -/
theorem evolvesI_of_touches (E : Env) (r : Nat) (u w : World) (h : Touches r u w)
    (hnf : ∀ i, u.heap[r]? = some i → ¬ Frozen E i) : EvolvesI E u w := by
  obtain ⟨a1, a2, a3, a4⟩ := h
  refine ⟨⟨a1, a2, ?_⟩, ?_⟩
  · intro r2 i hi
    by_cases hr : r2 = r
    · subst hr
      obtain ⟨j, hj, c1, c2, c3, c4, _⟩ := a4 i hi
      exact ⟨j, hj, c1, c2, c3, c4, fun hf => absurd hf (hnf i hi)⟩
    · exact ⟨i, by rw [a3 r2 hr]; exact hi, instEvolves_refl E i⟩
  · intro r2 i j hi hj
    by_cases hr : r2 = r
    · subst hr
      obtain ⟨j2, hj2, _, _, _, _, c5⟩ := a4 i hi
      rw [hj] at hj2; cases hj2; exact c5
    · rw [a3 r2 hr, hi] at hj; cases hj; rfl

theorem getField_touches (E : Env) (w : World) (r : Nat) (f : String) (v : Val) (w1 : World)
    (h : getField E w r f = .ok (v, w1)) : Touches r w w1 := by
  unfold getField at h
  cases hi : w.heap[r]? with
  | none => rw [hi] at h; cases h
  | some i =>
    rw [hi] at h
    simp only [] at h
    cases hf : (E.lookup i.type).bind (fun info => info.schema.find? (fun f1 => f1.key = f)) with
    | none =>
      rw [hf] at h
      simp only [Except.ok.injEq, Prod.mk.injEq] at h
      rw [← h.2]
      exact touches_refl r w
    | some fld =>
      rw [hf] at h
      simp only [] at h
      cases hv : i.values with
      | none => rw [hv] at h; cases h
      | some vals =>
        rw [hv] at h
        simp only [] at h
        by_cases hauto :
            (fld.auto && !((lookupProp vals fld.name).getD (.prim .undefined)).truthy) = true
        · rw [if_pos hauto] at h
          simp only [Except.ok.injEq, Prod.mk.injEq] at h
          rw [← h.2]
          apply touches_uuids
          exact touches_setInst w r i _ hi rfl rfl rfl rfl rfl
        · rw [if_neg hauto] at h
          simp only [Except.ok.injEq, Prod.mk.injEq] at h
          rw [← h.2]
          exact touches_refl r w

theorem modelCheckRequired_touches (E : Env) (r : Nat) (fs : List String) (w w1 : World)
    (h : modelCheckRequired E r fs w = .ok w1) : Touches r w w1 := by
  induction fs generalizing w with
  | nil =>
    simp only [modelCheckRequired, Except.ok.injEq] at h
    rw [← h]; exact touches_refl r w
  | cons f rest ih =>
    simp only [modelCheckRequired] at h
    cases hg : getField E w r f with
    | error e => rw [hg] at h; cases h
    | ok res =>
      obtain ⟨v, w2⟩ := res
      rw [hg] at h
      simp only [] at h
      by_cases hv : v.truthy = true
      · rw [if_pos hv] at h
        exact touches_trans r w w2 w1 (getField_touches E w r f v w2 hg) (ih w2 h)
      · rw [if_neg hv] at h; cases h

theorem modelKeyIds_touches (E : Env) (r : Nat) (fs : List String) (w w1 : World)
    (key key1 : String) (h : modelKeyIds E r fs w key = .ok (key1, w1)) :
    Touches r w w1 ∧ key.length ≤ key1.length := by
  induction fs generalizing w key with
  | nil =>
    simp only [modelKeyIds, Except.ok.injEq, Prod.mk.injEq] at h
    rw [← h.1, ← h.2]; exact ⟨touches_refl r w, le_refl _⟩
  | cons f rest ih =>
    simp only [modelKeyIds] at h
    cases hg : getField E w r f with
    | error e => rw [hg] at h; cases h
    | ok res =>
      obtain ⟨v, w2⟩ := res
      rw [hg] at h
      simp only [] at h
      obtain ⟨h1, h2⟩ := ih w2 _ h
      refine ⟨touches_trans r w w2 w1 (getField_touches E w r f v w2 hg) h1, ?_⟩
      have : key.length ≤ (key ++ "_" ++ v.toStr).length := by
        simp [String.length_append]; omega
      omega

theorem toLowerCase_pos (E : Env) (s : String) (h : 0 < s.length) :
    0 < (E.toLowerCase s).length := by
  have hne : s ≠ "" := by
    intro e; rw [e] at h; simp at h
  have h2 := E.toLowerCase_ne s hne
  rcases Nat.eq_zero_or_pos (E.toLowerCase s).length with h0 | h0
  · exact absurd (String.ext (List.length_eq_zero.1 h0)) h2
  · exact h0

theorem str_truthy_of_length (s : String) (h : 0 < s.length) :
    (Obx.prim (.str s)).truthy = true := by
  have : s ≠ "" := by
    intro e; rw [e] at h; simp at h
  simp [Obx.truthy, Prim.truthy, this]

theorem length_pos_of_ne_empty (s : String) (h : s ≠ "") : 0 < s.length := by
  rcases Nat.eq_zero_or_pos s.length with h0 | h0
  · have hd : s.data = [] := List.length_eq_zero.1 h0
    exact absurd (String.ext hd) h
  · exact h0

theorem lookup_mem (E : Env) (typeName : String) (info : TypeInfo)
    (h : E.lookup typeName = some info) : info ∈ E.typeList := by
  unfold Env.lookup at h
  exact List.mem_of_find?_eq_some h

/-- What `modelKey` does: with a key set it returns it and changes nothing; otherwise it
touches only its instance, stores the key it returns, and that key is truthy when the
type name is not empty. -/
theorem modelKey_spec (E : Env) (w : World) (r : Nat) (i : Inst) (k : Obx) (w1 : World)
    (hi : w.heap[r]? = some i) (h : modelKey E w r = .ok (k, w1)) :
    (i.key.truthy = true → k = i.key ∧ w1 = w) ∧
    Touches r w w1 ∧
    (∃ i1, w1.heap[r]? = some i1 ∧ i1.key = k) ∧
    (E.WF → k.truthy = true) := by
  unfold modelKey at h
  rw [hi] at h
  simp only [] at h
  by_cases hk : i.key.truthy = true
  · rw [if_pos hk] at h
    simp only [Except.ok.injEq, Prod.mk.injEq] at h
    rw [← h.1, ← h.2]
    exact ⟨fun _ => ⟨rfl, rfl⟩, touches_refl r w, ⟨i, hi, rfl⟩, fun _ => hk⟩
  · rw [if_neg hk] at h
    cases hl : E.lookup i.type with
    | none => rw [hl] at h; cases h
    | some info =>
      rw [hl] at h
      simp only [] at h
      cases hc : modelCheckRequired E r info.required w with
      | error e => rw [hc] at h; cases h
      | ok w2 =>
        rw [hc] at h
        simp only [] at h
        cases hids : modelKeyIds E r info.id w2 info.name with
        | error e => rw [hids] at h; cases h
        | ok res =>
          obtain ⟨key, w3⟩ := res
          rw [hids] at h
          simp only [] at h
          cases h3 : w3.heap[r]? with
          | none => rw [h3] at h; cases h
          | some i3 =>
            rw [h3] at h
            simp only [Except.ok.injEq, Prod.mk.injEq] at h
            obtain ⟨hk1, hw1⟩ := h
            have t1 := modelCheckRequired_touches E r info.required w w2 hc
            obtain ⟨t2, hlen⟩ := modelKeyIds_touches E r info.id w2 w3 info.name key hids
            have t3 : Touches r w3
                (w3.setInst r { i3 with key := Obx.prim (.str (E.toLowerCase key)) }) :=
              touches_setInst w3 r i3 _ h3 rfl rfl rfl rfl rfl
            have hr3 := getElem?_lt _ _ _ h3
            subst hw1
            refine ⟨fun ht => absurd ht hk, ?_, ?_, ?_⟩
            · exact touches_trans r w w2 _ t1 (touches_trans r w2 w3 _ t2 t3)
            · refine ⟨{ i3 with key := Obx.prim (.str (E.toLowerCase key)) }, ?_, hk1⟩
              simp [World.setInst, hr3]
            · intro hwf
              rw [← hk1]
              apply str_truthy_of_length
              apply toLowerCase_pos
              have := length_pos_of_ne_empty info.name (hwf info (lookup_mem E i.type info hl))
              omega

/-! ## The comparison of documents -/

theorem lookupProp_append_of_not_mem {α : Type} (pre rest : List (String × α)) (k : String)
    (h : k ∉ pre.map Prod.fst) : lookupProp (pre ++ rest) k = lookupProp rest k := by
  induction pre with
  | nil => rfl
  | cons a as ih =>
    obtain ⟨k0, v0⟩ := a
    simp only [List.map_cons, List.mem_cons, not_or] at h
    have hne : ¬ k0 = k := fun e => h.1 e.symm
    simp [lookupProp, hne, ih h.2]

mutual
theorem isEqual_refl : ∀ a : Obx, isEqual a a = true
  | .prim p => by simp [isEqual]
  | .arr xs => by
    rw [isEqual]
    exact isEqualList_refl xs
  | .obj kvs => by
    rw [isEqual]
    have := isEqualFields_refl kvs [] [] (by simp)
    simpa using this
theorem isEqualList_refl : ∀ xs : List Obx, isEqualList xs xs = true
  | [] => by simp [isEqualList]
  | x :: xs => by
    rw [isEqualList, isEqual_refl x, isEqualList_refl xs]
    rfl
theorem isEqualFields_refl : ∀ (xs pre : List (String × Obx)) (seen : List String),
    (∀ k ∈ pre.map Prod.fst, k ∈ seen) → isEqualFields seen xs (pre ++ xs) = true
  | [], _, _, _ => by simp [isEqualFields]
  | (k, x) :: xs, pre, seen, h => by
    rw [isEqualFields]
    have hnext : ∀ s2 : List String, (∀ k2 ∈ (pre ++ [(k, x)]).map Prod.fst, k2 ∈ s2) →
        isEqualFields s2 xs (pre ++ (k, x) :: xs) = true := by
      intro s2 h2
      have := isEqualFields_refl xs (pre ++ [(k, x)]) s2 h2
      simpa using this
    by_cases hs : seen.contains k = true
    · rw [if_pos hs]
      apply hnext
      intro k2 hk2
      simp only [List.map_append, List.map_cons, List.map_nil, List.mem_append,
        List.mem_singleton] at hk2
      rcases hk2 with h3 | h3
      · exact h k2 h3
      · rw [h3]; simpa using hs
    · rw [if_neg hs]
      have hk : k ∉ pre.map Prod.fst := by
        intro hmem
        exact hs (by simpa using h k hmem)
      rw [lookupProp_append_of_not_mem pre _ k hk]
      simp only [lookupProp, if_true]
      rw [isEqual_refl x]
      simp only [Bool.true_and]
      apply hnext
      intro k2 hk2
      simp only [List.map_append, List.map_cons, List.map_nil, List.mem_append,
        List.mem_singleton] at hk2
      rcases hk2 with h3 | h3
      · exact List.mem_cons_of_mem _ (h k2 h3)
      · rw [h3]; exact List.mem_cons_self _ _
end

/-! ## Every encoding evolves the state -/

theorem keyed_evolves (E : Env) (u w : World) (y : Nat) (h : Evolves E u w) (hy : Keyed u y) :
    Keyed w y := by
  obtain ⟨i, hi, hk⟩ := hy
  obtain ⟨j, hj, hij⟩ := h.2.2 y i hi
  exact ⟨j, hj, by rw [(hij.2.2.2.2 (Or.inl hk)).1]; exact hk⟩

theorem encOK_refl (E : Env) (w : World) (refs : List Nat) : EncOK E w refs w refs :=
  ⟨evolvesI_refl E w, ⟨[], by simp⟩, fun h => h, fun _ hy => Or.inl hy⟩

theorem encOK_trans (E : Env) (w w1 w2 : World) (refs refs1 refs2 : List Nat)
    (h1 : EncOK E w refs w1 refs1) (h2 : EncOK E w1 refs1 w2 refs2) :
    EncOK E w refs w2 refs2 := by
  obtain ⟨a1, ⟨e1, a2⟩, a3, a4⟩ := h1
  obtain ⟨b1, ⟨e2, b2⟩, b3, b4⟩ := h2
  refine ⟨evolvesI_trans E w w1 w2 a1 b1, ⟨e1 ++ e2, by rw [b2, a2, List.append_assoc]⟩,
    fun h => b3 (a3 h), ?_⟩
  intro y hy
  rcases b4 y hy with h | h
  · rcases a4 y h with h3 | h3
    · exact Or.inl h3
    · exact Or.inr (keyed_evolves E w1 w2 y b1.1 h3)
  · exact Or.inr h

theorem encodeFields_ok (E : Env) (rec : EncFn) (hrec : EncSound E rec) (r depth : Nat)
    (fs : List Field) (w : World) (refs : List Nat) (out out1 : List (String × Obx))
    (w1 : World) (refs1 : List Nat)
    (h : encodeFields rec r depth fs w refs out = .ok (out1, w1, refs1)) :
    EncOK E w refs w1 refs1 := by
  induction fs generalizing w refs out with
  | nil =>
    simp only [encodeFields, Except.ok.injEq, Prod.mk.injEq] at h
    obtain ⟨_, h2, h3⟩ := h
    subst h2 h3
    exact encOK_refl E w refs
  | cons f fs ih =>
    simp only [encodeFields] at h
    cases hv : (w.heap[r]?).bind (fun i => i.values) with
    | none => rw [hv] at h; cases h
    | some vals =>
      rw [hv] at h
      simp only [] at h
      cases hr : rec w refs ((lookupProp vals f.name).getD (.prim .undefined)) f.type
          f.subtypes (depth + 1) with
      | error e => rw [hr] at h; cases h
      | ok res =>
        obtain ⟨o, wa, refsa⟩ := res
        rw [hr] at h
        simp only [] at h
        exact encOK_trans E w wa w1 refs refsa refs1 (hrec _ _ _ _ _ _ _ _ _ hr) (ih wa refsa _ h)

theorem encodeElems_ok (E : Env) (rec : EncFn) (hrec : EncSound E rec) (sub : String)
    (subs : List String) (depth : Nat) (xs : List Val) (w : World) (refs : List Nat)
    (os : List Obx) (w1 : World) (refs1 : List Nat)
    (h : encodeElems rec sub subs depth xs w refs = .ok (os, w1, refs1)) :
    EncOK E w refs w1 refs1 := by
  induction xs generalizing w refs os with
  | nil =>
    simp only [encodeElems, Except.ok.injEq, Prod.mk.injEq] at h
    obtain ⟨_, h2, h3⟩ := h
    subst h2 h3
    exact encOK_refl E w refs
  | cons x xs ih =>
    simp only [encodeElems] at h
    cases hr : rec w refs x sub subs (depth + 1) with
    | error e => rw [hr] at h; cases h
    | ok res =>
      obtain ⟨o, wa, refsa⟩ := res
      rw [hr] at h
      simp only [] at h
      cases hrest : encodeElems rec sub subs depth xs wa refsa with
      | error e => rw [hrest] at h; cases h
      | ok res2 =>
        obtain ⟨os2, w2, refs2⟩ := res2
        rw [hrest] at h
        simp only [Except.ok.injEq, Prod.mk.injEq] at h
        obtain ⟨_, h2, h3⟩ := h
        subst h2 h3
        exact encOK_trans E w wa w2 refs refsa refs2 (hrec _ _ _ _ _ _ _ _ _ hr)
          (ih wa refsa os2 hrest)

theorem encodeEntries_ok (E : Env) (rec : EncFn) (hrec : EncSound E rec) (sub : String)
    (subs : List String) (depth : Nat) (xs : List (String × Val)) (w : World) (refs : List Nat)
    (out out1 : List (String × Obx)) (w1 : World) (refs1 : List Nat)
    (h : encodeEntries rec sub subs depth xs w refs out = .ok (out1, w1, refs1)) :
    EncOK E w refs w1 refs1 := by
  induction xs generalizing w refs out with
  | nil =>
    simp only [encodeEntries, Except.ok.injEq, Prod.mk.injEq] at h
    obtain ⟨_, h2, h3⟩ := h
    subst h2 h3
    exact encOK_refl E w refs
  | cons kx xs ih =>
    obtain ⟨k, x⟩ := kx
    simp only [encodeEntries] at h
    cases hr : rec w refs x sub subs (depth + 1) with
    | error e => rw [hr] at h; cases h
    | ok res =>
      obtain ⟨o, wa, refsa⟩ := res
      rw [hr] at h
      simp only [] at h
      exact encOK_trans E w wa w1 refs refsa refs1 (hrec _ _ _ _ _ _ _ _ _ hr) (ih wa refsa _ h)

theorem pushRef_ext (refs : List Nat) (r : Nat) : ∃ ext, pushRef refs r = refs ++ ext := by
  unfold pushRef
  by_cases h : refs.contains r = true
  · exact ⟨[], by rw [if_pos h]; simp⟩
  · exact ⟨[r], by rw [if_neg h]⟩

theorem mem_pushRef (refs : List Nat) (r y : Nat) (h : y ∈ pushRef refs r) : y ∈ refs ∨ y = r := by
  unfold pushRef at h
  by_cases hc : refs.contains r = true
  · rw [if_pos hc] at h; exact Or.inl h
  · rw [if_neg hc] at h
    simpa using h

theorem objToObx_Otto_ok (E : Env) (hE : E.WF) (rec : EncFn) (hrec : EncSound E rec)
    (w : World) (refs : List Nat) (obj : Val) (typeName : String) (depth : Nat)
    (doc : Obx) (w1 : World) (refs1 : List Nat)
    (h : objToObx_Otto E rec w refs obj typeName depth = .ok (doc, w1, refs1)) :
    EncOK E w refs w1 refs1 := by
  unfold objToObx_Otto at h
  cases hl : E.lookup typeName with
  | none => rw [hl] at h; cases h
  | some info =>
    rw [hl] at h
    simp only [] at h
    cases obj with
    | prim p => cases h
    | arr xs => cases h
    | map kvs => cases h
    | inst r =>
      simp only [] at h
      cases hi : w.heap[r]? with
      | none => rw [hi] at h; cases h
      | some i =>
        rw [hi] at h
        simp only [] at h
        by_cases ht : i.type ≠ typeName
        · rw [if_pos ht] at h; cases h
        · rw [if_neg ht] at h
          have hty : i.type = typeName := by simpa using ht
          by_cases hd : depth > 0 ∧ info.embed = false
          · rw [if_pos hd] at h
            cases hm : modelKey E w r with
            | error e => rw [hm] at h; cases h
            | ok res =>
              obtain ⟨k, wk⟩ := res
              rw [hm] at h
              simp only [Except.ok.injEq, Prod.mk.injEq] at h
              obtain ⟨_, h2, h3⟩ := h
              subst h2 h3
              obtain ⟨s1, s2, ⟨i1, hi1, hk1⟩, s4⟩ := modelKey_spec E w r i k wk hi hm
              have hev : EvolvesI E w wk := by
                by_cases hkt : i.key.truthy = true
                · rw [(s1 hkt).2]; exact evolvesI_refl E w
                · apply evolvesI_of_touches E r w wk s2
                  intro i2 hi2
                  rw [hi] at hi2; cases hi2
                  rintro (hf | ⟨info2, hf1, hf2⟩)
                  · exact hkt hf
                  · rw [hty, hl] at hf1; cases hf1
                    rw [hd.2] at hf2; cases hf2
              refine ⟨hev, pushRef_ext refs r, pushRef_nodup refs r, ?_⟩
              intro y hy
              rcases mem_pushRef refs r y hy with h5 | h5
              · exact Or.inl h5
              · subst h5
                exact Or.inr ⟨i1, hi1, by rw [hk1]; exact s4 hE⟩
          · rw [if_neg hd] at h
            cases hf : encodeFields rec r depth info.schema w refs [] with
            | error e => rw [hf] at h; cases h
            | ok res =>
              obtain ⟨out, wa, refsa⟩ := res
              rw [hf] at h
              simp only [Except.ok.injEq, Prod.mk.injEq] at h
              obtain ⟨_, h2, h3⟩ := h
              subst h2 h3
              exact encodeFields_ok E rec hrec r depth info.schema w refs [] out wa refsa hf

theorem objToObx_List_ok (E : Env) (rec : EncFn) (hrec : EncSound E rec)
    (w : World) (refs : List Nat) (obj : Val) (subs : List String) (depth : Nat)
    (doc : Obx) (w1 : World) (refs1 : List Nat)
    (h : objToObx_List E rec w refs obj subs depth = .ok (doc, w1, refs1)) :
    EncOK E w refs w1 refs1 := by
  unfold objToObx_List at h
  simp only [] at h
  cases he : encodeElems rec ((defaultSubtypes subs).headD "Mixed") (defaultSubtypes subs).tail
      depth (obj.elems E) w refs with
  | error e => rw [he] at h; cases h
  | ok res =>
    obtain ⟨os, wa, refsa⟩ := res
    rw [he] at h
    simp only [Except.ok.injEq, Prod.mk.injEq] at h
    obtain ⟨_, h2, h3⟩ := h
    subst h2 h3
    exact encodeElems_ok E rec hrec _ _ depth _ w refs os wa refsa he

theorem objToObx_Map_ok (E : Env) (rec : EncFn) (hrec : EncSound E rec)
    (w : World) (refs : List Nat) (obj : Val) (subs : List String) (depth : Nat)
    (doc : Obx) (w1 : World) (refs1 : List Nat)
    (h : objToObx_Map rec w refs obj subs depth = .ok (doc, w1, refs1)) :
    EncOK E w refs w1 refs1 := by
  unfold objToObx_Map at h
  simp only [] at h
  cases he : encodeEntries rec ((defaultSubtypes subs).headD "Mixed") (defaultSubtypes subs).tail
      depth obj.entries w refs [] with
  | error e => rw [he] at h; cases h
  | ok res =>
    obtain ⟨os, wa, refsa⟩ := res
    rw [he] at h
    simp only [Except.ok.injEq, Prod.mk.injEq] at h
    obtain ⟨_, h2, h3⟩ := h
    subst h2 h3
    exact encodeEntries_ok E rec hrec _ _ depth _ w refs [] os wa refsa he

theorem objToObx_Mixed_ok (E : Env) (hE : E.WF) (rec : EncFn) (hrec : EncSound E rec)
    (w : World) (refs : List Nat) (obj : Val) (depth : Nat)
    (doc : Obx) (w1 : World) (refs1 : List Nat)
    (h : objToObx_Mixed E rec w refs obj depth = .ok (doc, w1, refs1)) :
    EncOK E w refs w1 refs1 := by
  unfold objToObx_Mixed at h
  by_cases ho : isOttoObj E w obj = true
  · rw [if_pos ho] at h
    exact objToObx_Otto_ok E hE rec hrec w refs obj _ depth doc w1 refs1 h
  · rw [if_neg ho] at h
    cases obj with
    | prim p =>
      simp only [Except.ok.injEq, Prod.mk.injEq] at h
      obtain ⟨_, h2, h3⟩ := h
      subst h2 h3
      exact encOK_refl E w refs
    | arr xs => exact objToObx_List_ok E rec hrec w refs _ [] depth doc w1 refs1 h
    | map kvs => exact objToObx_Map_ok E rec hrec w refs _ [] depth doc w1 refs1 h
    | inst r => exact objToObx_Map_ok E rec hrec w refs _ [] depth doc w1 refs1 h

theorem encDispatch_ok (E : Env) (hE : E.WF) (rec : EncFn) (hrec : EncSound E rec)
    (w : World) (refs : List Nat) (v : Val) (tn : String) (s : List String) (d : Nat)
    (doc : Obx) (w1 : World) (refs1 : List Nat)
    (h : (if (E.lookup tn).isSome then objToObx_Otto E rec w refs v tn d
          else if tn = "List" then objToObx_List E rec w refs v s d
          else if tn = "Map" then objToObx_Map rec w refs v s d
          else if tn = "Mixed" then objToObx_Mixed E rec w refs v d
          else if CORETYPES.contains tn then
            match v with
            | .prim p => .ok (.prim p, w, refs)
            | _ => .error (.thrown "core type is an object")
          else .error (.thrown ("encountered unknown type " ++ tn))) = .ok (doc, w1, refs1)) :
    EncOK E w refs w1 refs1 := by
  split at h
  · exact objToObx_Otto_ok E hE rec hrec w refs v _ d doc w1 refs1 h
  · split at h
    · exact objToObx_List_ok E rec hrec w refs v s d doc w1 refs1 h
    · split at h
      · exact objToObx_Map_ok E rec hrec w refs v s d doc w1 refs1 h
      · split at h
        · exact objToObx_Mixed_ok E hE rec hrec w refs v d doc w1 refs1 h
        · split at h
          · split at h
            · simp only [Except.ok.injEq, Prod.mk.injEq] at h
              obtain ⟨_, h2, h3⟩ := h
              subst h2 h3
              exact encOK_refl E w refs
            · cases h
          · cases h

/-- Every successful call of `objToObx` is as `EncOK` says. -/
theorem objToObx_sound (E : Env) (hE : E.WF) (n : Nat) : EncSound E (objToObx E n) := by
  induction n with
  | zero =>
    intro w refs v t s d doc w1 refs1 h
    simp [objToObx] at h
  | succ n ih =>
    intro w refs v t s d doc w1 refs1 h
    simp only [objToObx] at h
    generalize (if t = "" then "Mixed" else t) = tn at h
    cases v with
    | prim p =>
      cases p with
      | undefined =>
        simp only [Except.ok.injEq, Prod.mk.injEq] at h
        obtain ⟨_, h2, h3⟩ := h
        subst h2 h3
        exact encOK_refl E w refs
      | null =>
        simp only [Except.ok.injEq, Prod.mk.injEq] at h
        obtain ⟨_, h2, h3⟩ := h
        subst h2 h3
        exact encOK_refl E w refs
      | bool b => exact encDispatch_ok E hE _ ih w refs _ tn s d doc w1 refs1 h
      | num m => exact encDispatch_ok E hE _ ih w refs _ tn s d doc w1 refs1 h
      | str m => exact encDispatch_ok E hE _ ih w refs _ tn s d doc w1 refs1 h
    | arr xs => exact encDispatch_ok E hE _ ih w refs _ tn s d doc w1 refs1 h
    | map kvs => exact encDispatch_ok E hE _ ih w refs _ tn s d doc w1 refs1 h
    | inst r => exact encDispatch_ok E hE _ ih w refs _ tn s d doc w1 refs1 h

/-! ## Encoding again in a later state -/

theorem encodeFields_stable (E : Env) (rec : EncFn) (hs : EncSound E rec)
    (hst : EncStable E rec) (r depth : Nat) (fs : List Field) (u : World) (refs : List Nat)
    (out out1 : List (String × Obx)) (u1 : World) (refs1 : List Nat) (w : World) (i : Inst)
    (hi : u.heap[r]? = some i) (hfz : Frozen E i)
    (h : encodeFields rec r depth fs u refs out = .ok (out1, u1, refs1))
    (hev : Evolves E u1 w) :
    encodeFields rec r depth fs w refs out = .ok (out1, w, refs1) := by
  induction fs generalizing u refs out i with
  | nil =>
    simp only [encodeFields, Except.ok.injEq, Prod.mk.injEq] at h
    obtain ⟨h1, _, h3⟩ := h
    subst h1 h3
    rfl
  | cons f fs ih =>
    simp only [encodeFields] at h ⊢
    have huw : Evolves E u w :=
      evolves_trans E u u1 w (encodeFields_ok E rec hs r depth (f :: fs) u refs out out1 u1 refs1
        (by simpa only [encodeFields] using h)).1.1 hev
    obtain ⟨j, hj, hij⟩ := huw.2.2 r i hi
    have hvals : (w.heap[r]?).bind (fun i => i.values) = (u.heap[r]?).bind (fun i => i.values) := by
      rw [hj, hi]
      simp only [Option.some_bind]
      exact (hij.2.2.2.2 hfz).2
    rw [hvals]
    cases hv : (u.heap[r]?).bind (fun i => i.values) with
    | none => rw [hv] at h; cases h
    | some vals =>
      rw [hv] at h
      simp only [] at h ⊢
      cases hr : rec u refs ((lookupProp vals f.name).getD (.prim .undefined)) f.type
          f.subtypes (depth + 1) with
      | error e => rw [hr] at h; cases h
      | ok res =>
        obtain ⟨o, ua, refsa⟩ := res
        rw [hr] at h
        simp only [] at h
        have h1 := hs _ _ _ _ _ _ _ _ _ hr
        have h2 := encodeFields_ok E rec hs r depth fs ua refsa _ out1 u1 refs1 h
        obtain ⟨ia, hia, hiia⟩ := h1.1.1.2.2 r i hi
        rw [hst u refs _ f.type f.subtypes (depth + 1) o ua refsa w hr
          (fun hd => absurd hd (Nat.succ_ne_zero depth))
          (evolves_trans E ua u1 w h2.1.1 hev)]
        simp only []
        exact ih ua refsa _ ia hia (frozen_of_evolves E i ia hiia hfz) h

theorem encodeElems_stable (E : Env) (rec : EncFn) (hs : EncSound E rec)
    (hst : EncStable E rec) (sub : String) (subs : List String) (depth : Nat) (xs : List Val)
    (u : World) (refs : List Nat) (os : List Obx) (u1 : World) (refs1 : List Nat) (w : World)
    (h : encodeElems rec sub subs depth xs u refs = .ok (os, u1, refs1))
    (hev : Evolves E u1 w) :
    encodeElems rec sub subs depth xs w refs = .ok (os, w, refs1) := by
  induction xs generalizing u refs os with
  | nil =>
    simp only [encodeElems, Except.ok.injEq, Prod.mk.injEq] at h
    obtain ⟨h1, _, h3⟩ := h
    subst h1 h3
    rfl
  | cons x xs ih =>
    simp only [encodeElems] at h ⊢
    cases hr : rec u refs x sub subs (depth + 1) with
    | error e => rw [hr] at h; cases h
    | ok res =>
      obtain ⟨o, ua, refsa⟩ := res
      rw [hr] at h
      simp only [] at h
      cases hrest : encodeElems rec sub subs depth xs ua refsa with
      | error e => rw [hrest] at h; cases h
      | ok res2 =>
        obtain ⟨os2, u2, refs2⟩ := res2
        rw [hrest] at h
        simp only [Except.ok.injEq, Prod.mk.injEq] at h
        obtain ⟨h1, h2, h3⟩ := h
        subst h1 h2 h3
        have h4 := encodeElems_ok E rec hs sub subs depth xs ua refsa os2 u2 refs2 hrest
        rw [hst u refs x sub subs (depth + 1) o ua refsa w hr
          (fun hd => absurd hd (Nat.succ_ne_zero depth))
          (evolves_trans E ua u2 w h4.1.1 hev)]
        simp only []
        rw [ih ua refsa os2 hrest]

theorem encodeEntries_stable (E : Env) (rec : EncFn) (hs : EncSound E rec)
    (hst : EncStable E rec) (sub : String) (subs : List String) (depth : Nat)
    (xs : List (String × Val)) (u : World) (refs : List Nat) (out out1 : List (String × Obx))
    (u1 : World) (refs1 : List Nat) (w : World)
    (h : encodeEntries rec sub subs depth xs u refs out = .ok (out1, u1, refs1))
    (hev : Evolves E u1 w) :
    encodeEntries rec sub subs depth xs w refs out = .ok (out1, w, refs1) := by
  induction xs generalizing u refs out with
  | nil =>
    simp only [encodeEntries, Except.ok.injEq, Prod.mk.injEq] at h
    obtain ⟨h1, _, h3⟩ := h
    subst h1 h3
    rfl
  | cons kx xs ih =>
    obtain ⟨k, x⟩ := kx
    simp only [encodeEntries] at h ⊢
    cases hr : rec u refs x sub subs (depth + 1) with
    | error e => rw [hr] at h; cases h
    | ok res =>
      obtain ⟨o, ua, refsa⟩ := res
      rw [hr] at h
      simp only [] at h
      have h4 := encodeEntries_ok E rec hs sub subs depth xs ua refsa _ out1 u1 refs1 h
      rw [hst u refs x sub subs (depth + 1) o ua refsa w hr
        (fun hd => absurd hd (Nat.succ_ne_zero depth))
        (evolves_trans E ua u1 w h4.1.1 hev)]
      simp only []
      exact ih ua refsa _ h

theorem isOttoObj_evolves (E : Env) (u w : World) (v : Val) (h : Evolves E u w) :
    isOttoObj E w v = isOttoObj E u v := by
  cases v with
  | prim p => rfl
  | arr xs => rfl
  | map kvs => rfl
  | inst r =>
    simp only [isOttoObj]
    cases hi : u.heap[r]? with
    | none =>
      have hlen : w.heap.length = u.heap.length := h.2.1
      have : w.heap[r]? = none := by
        rw [List.getElem?_eq_none_iff] at hi ⊢
        omega
      rw [this]
    | some i =>
      obtain ⟨j, hj, hij⟩ := h.2.2 r i hi
      rw [hj]
      simp only [hij.1]

theorem typeNameOf_evolves (E : Env) (u w : World) (v : Val) (h : Evolves E u w)
    (hv : isOttoObj E u v = true) : typeNameOf w v = typeNameOf u v := by
  cases v with
  | prim p => rfl
  | arr xs => rfl
  | map kvs => rfl
  | inst r =>
    simp only [typeNameOf]
    cases hi : u.heap[r]? with
    | none => simp [isOttoObj, hi] at hv
    | some i =>
      obtain ⟨j, hj, hij⟩ := h.2.2 r i hi
      rw [hj]
      simp [hij.1]

theorem modelKey_keyed (E : Env) (w : World) (r : Nat) (j : Inst) (hj : w.heap[r]? = some j)
    (hjt : j.key.truthy = true) : modelKey E w r = .ok (j.key, w) := by
  unfold modelKey
  rw [hj]
  simp only []
  rw [if_pos hjt]

theorem objToObx_Otto_stable (E : Env) (hE : E.WF) (rec : EncFn) (hs : EncSound E rec)
    (hst : EncStable E rec) (u : World) (refs : List Nat) (obj : Val) (typeName : String)
    (depth : Nat) (doc : Obx) (u1 : World) (refs1 : List Nat) (w : World)
    (h : objToObx_Otto E rec u refs obj typeName depth = .ok (doc, u1, refs1))
    (hroot : depth = 0 → ∀ r i, obj = .inst r → u.heap[r]? = some i → Frozen E i)
    (hev : Evolves E u1 w) :
    objToObx_Otto E rec w refs obj typeName depth = .ok (doc, w, refs1) := by
  have huw : Evolves E u w :=
    evolves_trans E u u1 w (objToObx_Otto_ok E hE rec hs u refs obj typeName depth doc u1 refs1 h).1.1
      hev
  unfold objToObx_Otto at h ⊢
  cases hl : E.lookup typeName with
  | none => rw [hl] at h; cases h
  | some info =>
    rw [hl] at h
    simp only [] at h ⊢
    cases obj with
    | prim p => cases h
    | arr xs => cases h
    | map kvs => cases h
    | inst r =>
      simp only [] at h ⊢
      cases hi : u.heap[r]? with
      | none => rw [hi] at h; cases h
      | some i =>
        rw [hi] at h
        simp only [] at h
        obtain ⟨j, hj, hij⟩ := huw.2.2 r i hi
        rw [hj]
        simp only []
        by_cases ht : i.type ≠ typeName
        · rw [if_pos ht] at h; cases h
        · rw [if_neg ht] at h
          have hty : i.type = typeName := by simpa using ht
          have htj : ¬ (j.type ≠ typeName) := by rw [hij.1]; exact ht
          rw [if_neg htj]
          by_cases hd : depth > 0 ∧ info.embed = false
          · rw [if_pos hd] at h ⊢
            cases hm : modelKey E u r with
            | error e => rw [hm] at h; cases h
            | ok res =>
              obtain ⟨k, uk⟩ := res
              rw [hm] at h
              simp only [Except.ok.injEq, Prod.mk.injEq] at h
              obtain ⟨h1, h2, h3⟩ := h
              subst h1 h2 h3
              obtain ⟨_, _, ⟨i1, hi1, hk1⟩, s4⟩ := modelKey_spec E u r i k uk hi hm
              obtain ⟨j2, hj2, hij2⟩ := hev.2.2 r i1 hi1
              rw [hj] at hj2; cases hj2
              have hkt : i1.key.truthy = true := by rw [hk1]; exact s4 hE
              have hjk : j.key = k := by rw [(hij2.2.2.2.2 (Or.inl hkt)).1, hk1]
              have hjt : j.key.truthy = true := by rw [hjk]; exact s4 hE
              rw [modelKey_keyed E w r j hj hjt, hjk]
          · rw [if_neg hd] at h ⊢
            have hfz : Frozen E i := by
              by_cases h0 : depth = 0
              · exact hroot h0 r i rfl hi
              · right
                refine ⟨info, by rw [hty]; exact hl, ?_⟩
                by_contra hne
                exact hd ⟨Nat.pos_of_ne_zero h0, by simpa using hne⟩
            cases hf : encodeFields rec r depth info.schema u refs [] with
            | error e => rw [hf] at h; cases h
            | ok res =>
              obtain ⟨out, ua, refsa⟩ := res
              rw [hf] at h
              simp only [Except.ok.injEq, Prod.mk.injEq] at h
              obtain ⟨h1, h2, h3⟩ := h
              subst h1 h2 h3
              rw [encodeFields_stable E rec hs hst r depth info.schema u refs [] out ua refsa w i hi
                hfz hf hev]

theorem objToObx_List_stable (E : Env) (rec : EncFn) (hs : EncSound E rec)
    (hst : EncStable E rec) (u : World) (refs : List Nat) (obj : Val) (subs : List String)
    (depth : Nat) (doc : Obx) (u1 : World) (refs1 : List Nat) (w : World)
    (h : objToObx_List E rec u refs obj subs depth = .ok (doc, u1, refs1))
    (hev : Evolves E u1 w) :
    objToObx_List E rec w refs obj subs depth = .ok (doc, w, refs1) := by
  unfold objToObx_List at h ⊢
  simp only [] at h ⊢
  cases he : encodeElems rec ((defaultSubtypes subs).headD "Mixed") (defaultSubtypes subs).tail
      depth (obj.elems E) u refs with
  | error e => rw [he] at h; cases h
  | ok res =>
    obtain ⟨os, ua, refsa⟩ := res
    rw [he] at h
    simp only [Except.ok.injEq, Prod.mk.injEq] at h
    obtain ⟨h1, h2, h3⟩ := h
    subst h1 h2 h3
    rw [encodeElems_stable E rec hs hst _ _ depth _ u refs os ua refsa w he hev]

theorem objToObx_Map_stable (E : Env) (rec : EncFn) (hs : EncSound E rec)
    (hst : EncStable E rec) (u : World) (refs : List Nat) (obj : Val) (subs : List String)
    (depth : Nat) (doc : Obx) (u1 : World) (refs1 : List Nat) (w : World)
    (h : objToObx_Map rec u refs obj subs depth = .ok (doc, u1, refs1))
    (hev : Evolves E u1 w) :
    objToObx_Map rec w refs obj subs depth = .ok (doc, w, refs1) := by
  unfold objToObx_Map at h ⊢
  simp only [] at h ⊢
  cases he : encodeEntries rec ((defaultSubtypes subs).headD "Mixed") (defaultSubtypes subs).tail
      depth obj.entries u refs [] with
  | error e => rw [he] at h; cases h
  | ok res =>
    obtain ⟨os, ua, refsa⟩ := res
    rw [he] at h
    simp only [Except.ok.injEq, Prod.mk.injEq] at h
    obtain ⟨h1, h2, h3⟩ := h
    subst h1 h2 h3
    rw [encodeEntries_stable E rec hs hst _ _ depth _ u refs [] os ua refsa w he hev]

theorem objToObx_Mixed_stable (E : Env) (hE : E.WF) (rec : EncFn) (hs : EncSound E rec)
    (hst : EncStable E rec) (u : World) (refs : List Nat) (obj : Val)
    (depth : Nat) (doc : Obx) (u1 : World) (refs1 : List Nat) (w : World)
    (h : objToObx_Mixed E rec u refs obj depth = .ok (doc, u1, refs1))
    (hroot : depth = 0 → ∀ r i, obj = .inst r → u.heap[r]? = some i → Frozen E i)
    (hev : Evolves E u1 w) :
    objToObx_Mixed E rec w refs obj depth = .ok (doc, w, refs1) := by
  have huw : Evolves E u w :=
    evolves_trans E u u1 w (objToObx_Mixed_ok E hE rec hs u refs obj depth doc u1 refs1 h).1.1 hev
  unfold objToObx_Mixed at h ⊢
  rw [isOttoObj_evolves E u w obj huw]
  by_cases ho : isOttoObj E u obj = true
  · rw [if_pos ho] at h ⊢
    rw [typeNameOf_evolves E u w obj huw ho]
    exact objToObx_Otto_stable E hE rec hs hst u refs obj _ depth doc u1 refs1 w h hroot hev
  · rw [if_neg ho] at h ⊢
    cases obj with
    | prim p =>
      simp only [Except.ok.injEq, Prod.mk.injEq] at h
      obtain ⟨h1, _, h3⟩ := h
      subst h1 h3
      rfl
    | arr xs => exact objToObx_List_stable E rec hs hst u refs _ [] depth doc u1 refs1 w h hev
    | map kvs => exact objToObx_Map_stable E rec hs hst u refs _ [] depth doc u1 refs1 w h hev
    | inst r => exact objToObx_Map_stable E rec hs hst u refs _ [] depth doc u1 refs1 w h hev

theorem encDispatch_stable (E : Env) (hE : E.WF) (rec : EncFn) (hs : EncSound E rec)
    (hst : EncStable E rec) (u : World) (refs : List Nat) (v : Val) (tn : String)
    (s : List String) (d : Nat) (doc : Obx) (u1 : World) (refs1 : List Nat) (w : World)
    (h : (if (E.lookup tn).isSome then objToObx_Otto E rec u refs v tn d
          else if tn = "List" then objToObx_List E rec u refs v s d
          else if tn = "Map" then objToObx_Map rec u refs v s d
          else if tn = "Mixed" then objToObx_Mixed E rec u refs v d
          else if CORETYPES.contains tn then
            match v with
            | .prim p => .ok (.prim p, u, refs)
            | _ => .error (.thrown "core type is an object")
          else .error (.thrown ("encountered unknown type " ++ tn))) = .ok (doc, u1, refs1))
    (hroot : d = 0 → ∀ r i, v = .inst r → u.heap[r]? = some i → Frozen E i)
    (hev : Evolves E u1 w) :
    (if (E.lookup tn).isSome then objToObx_Otto E rec w refs v tn d
          else if tn = "List" then objToObx_List E rec w refs v s d
          else if tn = "Map" then objToObx_Map rec w refs v s d
          else if tn = "Mixed" then objToObx_Mixed E rec w refs v d
          else if CORETYPES.contains tn then
            match v with
            | .prim p => .ok (.prim p, w, refs)
            | _ => .error (.thrown "core type is an object")
          else .error (.thrown ("encountered unknown type " ++ tn))) = .ok (doc, w, refs1) := by
  by_cases c1 : (E.lookup tn).isSome = true
  · rw [if_pos c1] at h ⊢
    exact objToObx_Otto_stable E hE rec hs hst u refs v tn d doc u1 refs1 w h hroot hev
  · rw [if_neg c1] at h ⊢
    by_cases c2 : tn = "List"
    · rw [if_pos c2] at h ⊢
      exact objToObx_List_stable E rec hs hst u refs v s d doc u1 refs1 w h hev
    · rw [if_neg c2] at h ⊢
      by_cases c3 : tn = "Map"
      · rw [if_pos c3] at h ⊢
        exact objToObx_Map_stable E rec hs hst u refs v s d doc u1 refs1 w h hev
      · rw [if_neg c3] at h ⊢
        by_cases c4 : tn = "Mixed"
        · rw [if_pos c4] at h ⊢
          exact objToObx_Mixed_stable E hE rec hs hst u refs v d doc u1 refs1 w h hroot hev
        · rw [if_neg c4] at h ⊢
          by_cases c5 : CORETYPES.contains tn = true
          · rw [if_pos c5] at h ⊢
            cases v with
            | prim p =>
              simp only [Except.ok.injEq, Prod.mk.injEq] at h
              obtain ⟨h1, _, h3⟩ := h
              subst h1 h3
              rfl
            | arr xs => cases h
            | map kvs => cases h
            | inst r => cases h
          · rw [if_neg c5] at h; cases h

/-- Every successful call of `objToObx` can be repeated in a later state. -/
theorem objToObx_stable (E : Env) (hE : E.WF) (n : Nat) : EncStable E (objToObx E n) := by
  induction n with
  | zero =>
    intro u refs v t s d doc u1 refs1 w h
    simp [objToObx] at h
  | succ n ih =>
    intro u refs v t s d doc u1 refs1 w h hroot hev
    simp only [objToObx] at h ⊢
    generalize (if t = "" then "Mixed" else t) = tn at h ⊢
    have hs := objToObx_sound E hE n
    cases v with
    | prim p =>
      cases p with
      | undefined =>
        simp only [Except.ok.injEq, Prod.mk.injEq] at h
        obtain ⟨h1, _, h3⟩ := h
        subst h1 h3
        rfl
      | null =>
        simp only [Except.ok.injEq, Prod.mk.injEq] at h
        obtain ⟨h1, _, h3⟩ := h
        subst h1 h3
        rfl
      | bool b => exact encDispatch_stable E hE _ hs ih u refs _ tn s d doc u1 refs1 w h hroot hev
      | num m => exact encDispatch_stable E hE _ hs ih u refs _ tn s d doc u1 refs1 w h hroot hev
      | str m => exact encDispatch_stable E hE _ hs ih u refs _ tn s d doc u1 refs1 w h hroot hev
    | arr xs => exact encDispatch_stable E hE _ hs ih u refs _ tn s d doc u1 refs1 w h hroot hev
    | map kvs => exact encDispatch_stable E hE _ hs ih u refs _ tn s d doc u1 refs1 w h hroot hev
    | inst r => exact encDispatch_stable E hE _ hs ih u refs _ tn s d doc u1 refs1 w h hroot hev

/-! ## Saving -/

theorem saveRound_cases (E : Env) (fuel root : Nat) (cb : Bool) (st st1 : SaveState) (x : Nat)
    (h : saveRound E fuel root cb st x = .ok st1) :
    ∃ xi, st.w.heap[x]? = some xi ∧
      ((xi.loaded = false ∧ st1 = { st with saved := st.saved + 1 }) ∨
       (xi.loaded = true ∧ ∃ key w1 doc w2 objs2 xi2,
          modelKey E st.w x = .ok (key, w1) ∧
          objToObx E fuel w1 st.objs (.inst x) (typeNameOf w1 (.inst x)) [] 0
            = .ok (doc, w2, objs2) ∧
          w2.heap[x]? = some xi2 ∧
          ((isEqual xi2.initial doc = true ∧
              st1 = doneOne cb { st with w := w2, objs := objs2 }) ∨
           (isEqual xi2.initial doc = false ∧ ∃ ri rinfo,
              (w2.setInst x { xi2 with initial := doc }).heap[root]? = some ri ∧
              E.lookup ri.type = some rinfo ∧
              st1 = { st with w := w2.setInst x { xi2 with initial := doc }, objs := objs2,
                              sets := st.sets ++ [{ bucket := rinfo.bucket, key := key,
                                                    doc := doc, cas := ri.cas }] })))) := by
  unfold saveRound at h
  cases hx : st.w.heap[x]? with
  | none => rw [hx] at h; cases h
  | some xi =>
    rw [hx] at h
    simp only [] at h
    refine ⟨xi, rfl, ?_⟩
    cases hl : xi.loaded with
    | false =>
      rw [hl] at h
      simp only [Bool.not_false, if_true, Except.ok.injEq] at h
      exact Or.inl ⟨rfl, h.symm⟩
    | true =>
      rw [hl] at h
      simp only [Bool.not_true, Bool.false_eq_true, if_false] at h
      right
      refine ⟨rfl, ?_⟩
      cases hm : modelKey E st.w x with
      | error e => rw [hm] at h; cases h
      | ok res =>
        obtain ⟨key, w1⟩ := res
        rw [hm] at h
        simp only [] at h
        cases he : objToObx E fuel w1 st.objs (.inst x) (typeNameOf w1 (.inst x)) [] 0 with
        | error e => rw [he] at h; cases h
        | ok res2 =>
          obtain ⟨doc, w2, objs2⟩ := res2
          rw [he] at h
          simp only [] at h
          cases hx2 : w2.heap[x]? with
          | none => rw [hx2] at h; cases h
          | some xi2 =>
            rw [hx2] at h
            simp only [] at h
            refine ⟨key, w1, doc, w2, objs2, xi2, rfl, he, hx2, ?_⟩
            cases hq : isEqual xi2.initial doc with
            | true =>
              rw [hq] at h
              simp only [if_true, Except.ok.injEq] at h
              exact Or.inl ⟨rfl, h.symm⟩
            | false =>
              rw [hq] at h
              simp only [Bool.false_eq_true, if_false] at h
              right
              refine ⟨rfl, ?_⟩
              cases hr : (w2.setInst x { xi2 with initial := doc }).heap[root]? with
              | none => rw [hr] at h; cases h
              | some ri =>
                rw [hr] at h
                simp only [] at h
                cases hri : E.lookup ri.type with
                | none => rw [hri] at h; cases h
                | some rinfo =>
                  rw [hri] at h
                  simp only [Except.ok.injEq] at h
                  exact ⟨ri, rinfo, rfl, hri, h.symm⟩

theorem frozen_noTypes (i : Inst) : Frozen noTypes i ↔ i.key.truthy = true := by
  constructor
  · rintro (h | ⟨info, h1, _⟩)
    · exact h
    · simp [noTypes, Env.lookup] at h1
  · exact Or.inl

theorem evolves_weaken (E : Env) (u w : World) (h : Evolves E u w) : Evolves noTypes u w := by
  refine ⟨h.1, h.2.1, ?_⟩
  intro r i hi
  obtain ⟨j, hj, h1, h2, h3, h4, h5⟩ := h.2.2 r i hi
  exact ⟨j, hj, h1, h2, h3, h4, fun hf => h5 (Or.inl ((frozen_noTypes i).1 hf))⟩

theorem modelKey_evolves (E : Env) (w : World) (r : Nat) (i : Inst) (k : Obx) (w1 : World)
    (hi : w.heap[r]? = some i) (h : modelKey E w r = .ok (k, w1)) : EvolvesI noTypes w w1 := by
  obtain ⟨s1, s2, _, _⟩ := modelKey_spec E w r i k w1 hi h
  by_cases hk : i.key.truthy = true
  · rw [(s1 hk).2]; exact evolvesI_refl noTypes w
  · apply evolvesI_of_touches noTypes r w w1 s2
    intro i2 hi2 hf
    rw [hi] at hi2; cases hi2
    exact hk ((frozen_noTypes i).1 hf)

theorem evolves_setInitial (E : Env) (w : World) (x : Nat) (xi : Inst) (d : Obx)
    (hx : w.heap[x]? = some xi) : Evolves E w (w.setInst x { xi with initial := d }) := by
  have hr := getElem?_lt _ _ _ hx
  refine ⟨rfl, by simp [World.setInst], ?_⟩
  intro r2 i2 h2
  by_cases hrr : x = r2
  · subst hrr
    rw [hx] at h2; cases h2
    refine ⟨{ xi with initial := d }, ?_, rfl, rfl, rfl, rfl, fun _ => ⟨rfl, rfl⟩⟩
    simp [World.setInst, hr]
  · exact ⟨i2, by simp [World.setInst, List.getElem?_set, hrr, h2], instEvolves_refl E i2⟩

theorem setInitial_other (w : World) (x y : Nat) (j : Inst) (hne : y ≠ x) :
    (w.setInst x j).heap[y]? = w.heap[y]? := by
  simp [World.setInst, List.getElem?_set, Ne.symm hne]

theorem keyed_or_new (refs refs1 ext : List Nat) (hext : refs1 = refs ++ ext) (hnd : refs1.Nodup)
    (j y : Nat) (hj : refs1[j]? = some y) (hmem : y ∈ refs) : refs[j]? = some y := by
  obtain ⟨j2, hj2, hy2⟩ := List.getElem_of_mem hmem
  have h1 : refs1[j2]? = some y := by
    rw [hext, List.getElem?_append_left hj2, List.getElem?_eq_getElem hj2, hy2]
  have hjlt := getElem?_lt _ _ _ hj
  have hj2lt := getElem?_lt _ _ _ h1
  have : j = j2 := by
    have e1 : refs1[j] = y := by
      rw [List.getElem?_eq_getElem hjlt] at hj; exact Option.some.inj hj
    have e2 : refs1[j2] = y := by
      rw [List.getElem?_eq_getElem hj2lt] at h1; exact Option.some.inj h1
    exact (List.Nodup.getElem_inj_iff hnd).1 (e1.trans e2.symm)
  rw [this, List.getElem?_eq_getElem hj2, hy2]

theorem mem_take_append_succ (l ext : List Nat) (i y : Nat) (h : y ∈ l.take i) :
    y ∈ (l ++ ext).take (i + 1) := by
  obtain ⟨k, hk, hy⟩ := List.getElem_of_mem h
  have hk2 : k < i ∧ k < l.length := by
    simpa [List.length_take] using hk
  rw [List.getElem_take] at hy
  rw [List.mem_iff_getElem]
  refine ⟨k, by simp [List.length_take]; omega, ?_⟩
  rw [List.getElem_take, List.getElem_append_left hk2.2]
  exact hy

theorem mem_take_of_getElem? (l ext : List Nat) (i x : Nat) (h : l[i]? = some x) :
    x ∈ (l ++ ext).take (i + 1) := by
  have hi := getElem?_lt _ _ _ h
  rw [List.mem_iff_getElem]
  refine ⟨i, by simp [List.length_take]; omega, ?_⟩
  rw [List.getElem_take, List.getElem_append_left hi]
  rw [List.getElem?_eq_getElem hi] at h
  exact Option.some.inj h

theorem ne_of_mem_take (l : List Nat) (i x y : Nat) (hnd : l.Nodup) (h : l[i]? = some x)
    (hy : y ∈ l.take i) : y ≠ x := by
  obtain ⟨k, hk, hyk⟩ := List.getElem_of_mem hy
  have hk2 : k < i ∧ k < l.length := by
    simpa [List.length_take] using hk
  rw [List.getElem_take] at hyk
  have hi := getElem?_lt _ _ _ h
  rw [List.getElem?_eq_getElem hi] at h
  have hx : l[i] = x := Option.some.inj h
  intro e
  have : k = i := (List.Nodup.getElem_inj_iff hnd).1 (by rw [hyk, hx, e])
  omega

theorem round_frame (E : Env) (hE : E.WF) (fuel root : Nat) (cb : Bool) (st st1 : SaveState)
    (i x : Nat) (hx : st.objs[i]? = some x) (hinv : SaveInv st)
    (h : saveRound E fuel root cb st x = .ok st1) :
    Evolves noTypes st.w st1.w ∧
    (Keyed st.w x → Evolves E st.w st1.w) ∧
    (∃ ext, st1.objs = st.objs ++ ext) ∧
    SaveInv st1 ∧
    (∀ y a b, y ≠ x → st.w.heap[y]? = some a → st1.w.heap[y]? = some b →
      b.initial = a.initial) ∧
    (SetsOK root i st → SetsOK root (i + 1) st1) := by
  obtain ⟨xi, hxi, hcase⟩ := saveRound_cases E fuel root cb st st1 x h
  rcases hcase with ⟨_, hst⟩ | ⟨hload, key, w1, doc, w2, objs2, xi2, hm, he, hx2, hsub⟩
  · subst hst
    refine ⟨evolves_refl _ _, fun _ => evolves_refl _ _, ⟨[], by simp⟩, hinv, ?_, ?_⟩
    · intro y a b _ ha hb
      rw [ha] at hb; cases hb; rfl
    · intro hs c hc
      obtain ⟨h1, x2, xi2, h2, h3⟩ := hs c hc
      refine ⟨h1, x2, xi2, ?_, h3⟩
      have := mem_take_append_succ st.objs [] i x2 h2
      simpa using this
  · have A1 := modelKey_evolves E st.w x xi key w1 hxi hm
    obtain ⟨s1, _, ⟨i1, hi1, hk1⟩, s4⟩ := modelKey_spec E st.w x xi key w1 hxi hm
    have A2 := objToObx_sound E hE fuel _ _ _ _ _ _ _ _ _ he
    obtain ⟨A2e, ⟨ext, hext⟩, A2n, A2k⟩ := A2
    have hkt : i1.key.truthy = true := by rw [hk1]; exact s4 hE
    -- the instance `x` after the encoding
    obtain ⟨j2, hj2, hij2⟩ := A2e.1.2.2 x i1 hi1
    rw [hx2] at hj2; cases hj2
    have hkey2 : xi2.key = key := by rw [(hij2.2.2.2.2 (Or.inl hkt)).1, hk1]
    have hload2 : xi2.loaded = true := by
      obtain ⟨j1, hj1, hij1⟩ := A1.1.2.2 x xi hxi
      rw [hi1] at hj1; cases hj1
      rw [hij2.2.2.1, hij1.2.2.1, hload]
    -- the final state of the round
    have hw : ∃ wF, st1.w = wF ∧ st1.objs = objs2 ∧ Evolves E w2 wF ∧
        (∀ y, y ≠ x → wF.heap[y]? = w2.heap[y]?) := by
      rcases hsub with ⟨_, hst⟩ | ⟨_, ri, rinfo, _, _, hst⟩
      · subst hst
        exact ⟨w2, rfl, rfl, evolves_refl E w2, fun _ _ => rfl⟩
      · subst hst
        exact ⟨_, rfl, rfl, evolves_setInitial E w2 x xi2 doc hx2,
          fun y hy => setInitial_other w2 x y _ hy⟩
    obtain ⟨wF, hwF, hobjs, hev2, hother⟩ := hw
    have hevA : Evolves noTypes st.w wF :=
      evolves_trans _ _ _ _ A1.1
        (evolves_trans _ _ _ _ (evolves_weaken E _ _ A2e.1) (evolves_weaken E _ _ hev2))
    have hinit : ∀ y a b, y ≠ x → st.w.heap[y]? = some a → wF.heap[y]? = some b →
        b.initial = a.initial := by
      intro y a b hy ha hb
      obtain ⟨a1, ha1, _⟩ := A1.1.2.2 y a ha
      obtain ⟨a2, ha2, _⟩ := A2e.1.2.2 y a1 ha1
      rw [hother y hy, ha2] at hb
      have hb2 : a2 = b := Option.some.inj hb
      rw [← hb2, A2e.2 y a1 a2 ha1 ha2, A1.2 y a a1 ha ha1]
    have hnd2 : objs2.Nodup := A2n hinv.1
    have hinv1 : SaveInv st1 := by
      rw [SaveInv, hobjs, hwF]
      refine ⟨hnd2, ?_⟩
      intro j y hj hj1
      rcases A2k y (List.getElem?_mem hj) with hmem | hkeyed
      · have := keyed_or_new st.objs objs2 ext hext hnd2 j y hj hmem
        exact keyed_evolves noTypes st.w wF y hevA (hinv.2 j y this hj1)
      · exact keyed_evolves E w2 wF y hev2 hkeyed
    refine ⟨hwF ▸ hevA, ?_, ⟨ext, by rw [hobjs, hext]⟩, hinv1, ?_, ?_⟩
    · intro hkx
      obtain ⟨xi0, hxi0, hk0⟩ := hkx
      rw [hxi] at hxi0; cases hxi0
      rw [hwF]
      have : w1 = st.w := (s1 hk0).2
      rw [this] at A2e
      exact evolves_trans E _ _ _ A2e.1 hev2
    · rw [hwF]; exact hinit
    · intro hs c hc
      have hold : ∀ c ∈ st.sets,
          (∃ ri, wF.heap[root]? = some ri ∧ c.cas = ri.cas) ∧
          ∃ x2 xi3, x2 ∈ objs2.take (i + 1) ∧ wF.heap[x2]? = some xi3 ∧ xi3.loaded = true ∧
            xi3.key = c.key ∧ xi3.initial = c.doc ∧ xi3.key.truthy = true := by
        intro c hc
        obtain ⟨⟨ri, hri, hcas⟩, x2, xi3, hx2m, hxi3, hl3, hk3, hin3, ht3⟩ := hs c hc
        obtain ⟨rj, hrj, hrij⟩ := hevA.2.2 root ri hri
        obtain ⟨xj, hxj, hxij⟩ := hevA.2.2 x2 xi3 hxi3
        refine ⟨⟨rj, hrj, by rw [hcas, hrij.2.1]⟩, x2, xj, ?_, hxj, ?_, ?_, ?_, ?_⟩
        · rw [hext]; exact mem_take_append_succ st.objs ext i x2 hx2m
        · rw [hxij.2.2.1, hl3]
        · rw [(hxij.2.2.2.2 ((frozen_noTypes xi3).2 ht3)).1, hk3]
        · rw [hinit x2 xi3 xj (ne_of_mem_take st.objs i x x2 hinv.1 hx hx2m) hxi3 hxj, hin3]
        · rw [(hxij.2.2.2.2 ((frozen_noTypes xi3).2 ht3)).1, ht3]
      rcases hsub with ⟨_, hst⟩ | ⟨_, ri, rinfo, hri, _, hst⟩
      · subst hst
        simp only [doneOne] at hc hwF hobjs ⊢
        subst hwF
        exact hold c hc
      · subst hst
        simp only [] at hc hwF hobjs ⊢
        subst hwF
        rcases List.mem_append.1 hc with hc1 | hc1
        · exact hold c hc1
        · simp only [List.mem_singleton] at hc1
          subst hc1
          refine ⟨⟨ri, hri, rfl⟩, x, { xi2 with initial := doc }, ?_, ?_, hload2, hkey2, rfl, ?_⟩
          · rw [hext]; exact mem_take_of_getElem? st.objs ext i x hx
          · simp [World.setInst, getElem?_lt _ _ _ hx2]
          · show xi2.key.truthy = true
            rw [hkey2]; exact s4 hE

theorem mem_drop_of_getElem? (l : List Nat) (i x : Nat) (h : l[i]? = some x) : x ∈ l.drop i := by
  apply List.getElem?_mem (n := 0)
  rw [List.getElem?_drop]
  simpa using h

theorem mem_drop_of_mem_drop_succ (l : List Nat) (i y : Nat) (h : y ∈ l.drop (i + 1)) :
    y ∈ l.drop i := by
  obtain ⟨k, hk⟩ := List.mem_iff_getElem?.1 h
  rw [List.getElem?_drop] at hk
  apply List.getElem?_mem (n := k + 1)
  rw [List.getElem?_drop]
  rw [← hk]
  congr 1
  omega

theorem loop_frame (E : Env) (hE : E.WF) (fuel root : Nat) (cb : Bool) (n : Nat) :
    ∀ (i : Nat) (st st1 : SaveState), SaveInv st →
      saveLoop E fuel root cb n i st = .ok st1 →
      Evolves noTypes st.w st1.w ∧
      (1 ≤ i → Evolves E st.w st1.w) ∧
      (∃ ext, st1.objs = st.objs ++ ext) ∧
      SaveInv st1 ∧
      (∀ y a b, y ∉ st1.objs.drop i → st.w.heap[y]? = some a → st1.w.heap[y]? = some b →
        b.initial = a.initial) ∧
      (SetsOK root i st → SetsOK root st1.objs.length st1) := by
  induction n with
  | zero =>
    intro i st st1 _ h
    simp [saveLoop] at h
  | succ n ih =>
    intro i st st1 hinv h
    simp only [saveLoop] at h
    cases hx : st.objs[i]? with
    | none =>
      rw [hx] at h
      simp only [Except.ok.injEq] at h
      subst h
      refine ⟨evolves_refl _ _, fun _ => evolves_refl _ _, ⟨[], by simp⟩, hinv, ?_, ?_⟩
      · intro y a b _ ha hb
        rw [ha] at hb; cases hb; rfl
      · intro hs c hc
        obtain ⟨h1, x2, xi2, h2, h3⟩ := hs c hc
        refine ⟨h1, x2, xi2, ?_, h3⟩
        rw [List.take_length]
        exact List.mem_of_mem_take h2
    | some x =>
      rw [hx] at h
      simp only [] at h
      cases hr : saveRound E fuel root cb st x with
      | error e => rw [hr] at h; cases h
      | ok st2 =>
        rw [hr] at h
        simp only [] at h
        obtain ⟨r1, r2, ⟨e1, r3⟩, r4, r5, r6⟩ := round_frame E hE fuel root cb st st2 i x hx hinv hr
        obtain ⟨l1, l2, ⟨e2, l3⟩, l4, l5, l6⟩ := ih (i + 1) st2 st1 r4 h
        have hx1 : st1.objs[i]? = some x := by
          rw [l3, r3, List.append_assoc, List.getElem?_append_left (getElem?_lt _ _ _ hx)]
          exact hx
        refine ⟨evolves_trans _ _ _ _ r1 l1, ?_, ⟨e1 ++ e2, by rw [l3, r3, List.append_assoc]⟩,
          l4, ?_, fun hs => l6 (r6 hs)⟩
        · intro hi
          exact evolves_trans E _ _ _ (r2 (hinv.2 i x hx hi)) (l2 (by omega))
        · intro y a b hy ha hb
          have hyx : y ≠ x := by
            intro e
            rw [e] at hy
            exact hy (mem_drop_of_getElem? st1.objs i x hx1)
          have hy1 : y ∉ st1.objs.drop (i + 1) :=
            fun hm => hy (mem_drop_of_mem_drop_succ st1.objs i y hm)
          obtain ⟨m, hm, _⟩ := r1.2.2 y a ha
          rw [l5 y m b hy1 hm hb, r5 y a m hyx ha hm]

theorem not_mem_drop_succ (l : List Nat) (i x : Nat) (hnd : l.Nodup) (h : l[i]? = some x) :
    x ∉ l.drop (i + 1) := by
  intro hm
  obtain ⟨k, hk⟩ := List.mem_iff_getElem?.1 hm
  rw [List.getElem?_drop] at hk
  have h1 := getElem?_lt _ _ _ h
  have h2 := getElem?_lt _ _ _ hk
  rw [List.getElem?_eq_getElem h1] at h
  rw [List.getElem?_eq_getElem h2] at hk
  have : i = i + 1 + k :=
    (List.Nodup.getElem_inj_iff hnd).1 ((Option.some.inj h).trans (Option.some.inj hk).symm)
  omega

theorem typeNameOf_evolves_inst (E : Env) (u w : World) (x : Nat) (i : Inst)
    (h : Evolves E u w) (hx : u.heap[x]? = some i) :
    typeNameOf w (.inst x) = typeNameOf u (.inst x) := by
  obtain ⟨j, hj, hij⟩ := h.2.2 x i hx
  simp [typeNameOf, hj, hx, hij.1]

theorem saveRound_skip (E : Env) (fuel root : Nat) (cb : Bool) (st : SaveState) (x : Nat)
    (xi : Inst) (hx : st.w.heap[x]? = some xi) (hl : xi.loaded = false) :
    saveRound E fuel root cb st x = .ok { st with saved := st.saved + 1 } := by
  unfold saveRound
  rw [hx]
  simp [hl]

theorem saveRound_same (E : Env) (fuel root : Nat) (cb : Bool) (st : SaveState) (x : Nat)
    (xi : Inst) (key doc : Obx) (objs2 : List Nat) (hx : st.w.heap[x]? = some xi)
    (hl : xi.loaded = true) (hm : modelKey E st.w x = .ok (key, st.w))
    (he : objToObx E fuel st.w st.objs (.inst x) (typeNameOf st.w (.inst x)) [] 0
      = .ok (doc, st.w, objs2))
    (hq : isEqual xi.initial doc = true) :
    saveRound E fuel root cb st x = .ok (doneOne cb { st with objs := objs2 }) := by
  unfold saveRound
  rw [hx]
  simp only [hl, Bool.not_true, Bool.false_eq_true, if_false, hm, he, hx, hq, if_true]

/-- Running the loop of `save` again in the state a first run ended in: every round
finds its document unchanged, no write is issued, and the state stays as it is. -/
theorem second_run (E : Env) (hE : E.WF) (fuel root : Nat) (cb : Bool) (n : Nat) :
    ∀ (i : Nat) (st st1 : SaveState), SaveInv st →
      saveLoop E fuel root cb n i st = .ok st1 →
      ∀ (saved2 : Nat) (sets2 : List SetCall) (called2 : Nat), ∃ saved3 called3,
        saveLoop E fuel root cb n i
            { w := st1.w, objs := st.objs, saved := saved2, sets := sets2, called := called2 }
          = .ok { w := st1.w, objs := st1.objs, saved := saved3, sets := sets2,
                  called := called3 } := by
  induction n with
  | zero =>
    intro i st st1 _ h
    simp [saveLoop] at h
  | succ n ih =>
    intro i st st1 hinv h saved2 sets2 called2
    have hfull := loop_frame E hE fuel root cb (n + 1) i st st1 hinv h
    simp only [saveLoop] at h ⊢
    cases hx : st.objs[i]? with
    | none =>
      rw [hx] at h
      simp only [Except.ok.injEq] at h
      subst h
      exact ⟨saved2, called2, rfl⟩
    | some x =>
      rw [hx] at h
      simp only [] at h ⊢
      cases hr : saveRound E fuel root cb st x with
      | error e => rw [hr] at h; cases h
      | ok st2 =>
        rw [hr] at h
        simp only [] at h
        obtain ⟨_, _, ⟨e1, r3⟩, r4, _, _⟩ := round_frame E hE fuel root cb st st2 i x hx hinv hr
        obtain ⟨l1, l2, ⟨e2, l3⟩, l4, l5, _⟩ := loop_frame E hE fuel root cb n (i + 1) st2 st1 r4 h
        have hx1 : st1.objs[i]? = some x := by
          rw [l3, r3, List.append_assoc, List.getElem?_append_left (getElem?_lt _ _ _ hx)]
          exact hx
        have hnotin : x ∉ st1.objs.drop (i + 1) := not_mem_drop_succ st1.objs i x l4.1 hx1
        obtain ⟨xi, hxi, hcase⟩ := saveRound_cases E fuel root cb st st2 x hr
        obtain ⟨xW, hxW, hxiW⟩ := hfull.1.2.2 x xi hxi
        rcases hcase with ⟨hl, hst⟩ | ⟨hload, key, w1, doc, w2, objs2, xi2, hm, he, hx2, hsub⟩
        · -- the element is not loaded
          have hlW : xW.loaded = false := by rw [hxiW.2.2.1, hl]
          rw [saveRound_skip E fuel root cb
            { w := st1.w, objs := st.objs, saved := saved2, sets := sets2, called := called2 }
            x xW hxW hlW]
          simp only []
          have := ih (i + 1) st2 st1 r4 h (saved2 + 1) sets2 called2
          rw [hst] at this
          exact this
        · obtain ⟨_, _, ⟨i1, hi1, hk1⟩, s4⟩ := modelKey_spec E st.w x xi key w1 hxi hm
          have hkt : i1.key.truthy = true := by rw [hk1]; exact s4 hE
          have A2 := objToObx_sound E hE fuel _ _ _ _ _ _ _ _ _ he
          -- the state after the round, and how `x` looks in it
          have hw : ∃ wF xF, st2.w = wF ∧ st2.objs = objs2 ∧ Evolves E w2 wF ∧
              wF.heap[x]? = some xF ∧ isEqual xF.initial doc = true := by
            rcases hsub with ⟨hq, hst⟩ | ⟨_, ri, rinfo, _, _, hst⟩
            · subst hst
              exact ⟨w2, xi2, rfl, rfl, evolves_refl E w2, hx2, hq⟩
            · subst hst
              refine ⟨_, { xi2 with initial := doc }, rfl, rfl,
                evolves_setInitial E w2 x xi2 doc hx2, ?_, isEqual_refl doc⟩
              simp [World.setInst, getElem?_lt _ _ _ hx2]
          obtain ⟨wF, xF, hwF, hobjs, hev2, hxF, hqF⟩ := hw
          have hevW : Evolves E w2 st1.w :=
            evolves_trans E _ _ _ hev2 (hwF ▸ l2 (by omega))
          have hev1W : Evolves E w1 st1.w := evolves_trans E _ _ _ A2.1.1 hevW
          -- `x` in the final state
          obtain ⟨xW2, hxW2, hi1W⟩ := hev1W.2.2 x i1 hi1
          rw [hxW] at hxW2; cases hxW2
          have hkW : xW.key = key := by rw [(hi1W.2.2.2.2 (Or.inl hkt)).1, hk1]
          have hktW : xW.key.truthy = true := by rw [hkW]; exact s4 hE
          have hlW : xW.loaded = true := by rw [hxiW.2.2.1, hload]
          have hinitW : xW.initial = xF.initial :=
            l5 x xF xW hnotin (hwF ▸ hxF) hxW
          have hmW : modelKey E st1.w x = .ok (key, st1.w) := by
            rw [modelKey_keyed E st1.w x xW hxW hktW, hkW]
          have heW : objToObx E fuel st1.w st.objs (.inst x) (typeNameOf st1.w (.inst x)) [] 0
              = .ok (doc, st1.w, objs2) := by
            rw [typeNameOf_evolves_inst E w1 st1.w x i1 hev1W hi1]
            apply objToObx_stable E hE fuel w1 st.objs _ _ [] 0 doc w2 objs2 st1.w he _ hevW
            intro _ r i2 hr2 hi2
            cases hr2
            rw [hi1] at hi2; cases hi2
            exact Or.inl hkt
          rw [saveRound_same E fuel root cb
            { w := st1.w, objs := st.objs, saved := saved2, sets := sets2, called := called2 }
            x xW key doc objs2 hxW hlW hmW heW (by rw [hinitW]; exact hqF)]
          simp only [doneOne]
          have := ih (i + 1) st2 st1 r4 h (saved2 + 1) sets2
            (if saved2 + 1 = objs2.length ∧ cb = true then called2 + 1 else called2)
          rw [hobjs] at this
          exact this

theorem save_frame (E : Env) (hE : E.WF) (fuel : Nat) (w : World) (root : Nat) (cb : Bool)
    (st1 : SaveState) (h : save E fuel w root cb = .ok st1) :
    Evolves noTypes w st1.w ∧ (∃ ext, st1.objs = root :: ext) ∧ SaveInv st1 ∧
    SetsOK root st1.objs.length st1 := by
  unfold save at h
  have hinv : SaveInv { w := w, objs := [root], saved := 0, sets := [], called := 0 } := by
    refine ⟨by simp, ?_⟩
    intro j y hj hj1
    have := getElem?_lt _ _ _ hj
    simp at this
    omega
  obtain ⟨l1, _, ⟨ext, l3⟩, l4, _, l6⟩ := loop_frame E hE fuel root cb fuel 0 _ st1 hinv h
  refine ⟨l1, ⟨ext, by simpa using l3⟩, l4, l6 ?_⟩
  intro c hc
  simp at hc

theorem demoEnv_wf : demoEnv.WF := by
  intro info hinfo
  simp only [demoEnv, List.mem_singleton] at hinfo
  subst hinfo
  decide

theorem casRoundA1 :
    modelKey demoEnv casWorld 0 = .ok (.prim (.str "person_a"), casWorld) := by decide

theorem casRoundA2 :
    objToObx demoEnv 4 casWorld [0] (.inst 0) (typeNameOf casWorld (.inst 0)) [] 0
      = .ok (casDocA, casWorld, [0, 1]) := by decide

theorem casRoundA :
    saveRound demoEnv 4 0 true
        { w := casWorld, objs := [0], saved := 0, sets := [], called := 0 } 0
      = .ok { w := casWorld1, objs := [0, 1], saved := 0, sets := [casSetA], called := 0 } := by
  unfold saveRound
  simp only [casRoundA1, casRoundA2]
  decide

theorem casRoundB1 :
    modelKey demoEnv casWorld1 1 = .ok (.prim (.str "person_b"), casWorld1) := by decide

theorem casRoundB2 :
    objToObx demoEnv 4 casWorld1 [0, 1] (.inst 1) (typeNameOf casWorld1 (.inst 1)) [] 0
      = .ok (casDocB, casWorld1, [0, 1]) := by decide

theorem casRoundB :
    saveRound demoEnv 4 0 true
        { w := casWorld1, objs := [0, 1], saved := 0, sets := [casSetA], called := 0 } 1
      = .ok { w := casWorld2, objs := [0, 1], saved := 0, sets := [casSetA, casSetB],
              called := 0 } := by
  unfold saveRound
  simp only [casRoundB1, casRoundB2]
  decide

/-- The call `save(a)` in `casWorld`, where `a` references the loaded `b`: two writes. -/
theorem casSave :
    save demoEnv 4 casWorld 0 true
      = .ok { w := casWorld2, objs := [0, 1], saved := 0, sets := [casSetA, casSetB],
              called := 0 } := by
  unfold save
  have h0 : ([0] : List Nat)[0]? = some 0 := rfl
  have h1 : ([0, 1] : List Nat)[1]? = some 1 := rfl
  have h2 : ([0, 1] : List Nat)[2]? = none := rfl
  simp only [saveLoop, h0, h1, h2, casRoundA, casRoundB, Nat.reduceAdd]

theorem saveLoop_sets_length (E : Env) (hE : E.WF) (fuel root : Nat) (cb : Bool) (n : Nat) :
    ∀ (i : Nat) (st st1 : SaveState), SaveInv st → st.sets.length ≤ i → i ≤ st.objs.length →
      saveLoop E fuel root cb n i st = .ok st1 → st1.sets.length ≤ st1.objs.length := by
  induction n with
  | zero =>
    intro i st st1 _ _ _ h
    simp [saveLoop] at h
  | succ n ih =>
    intro i st st1 hinv hs hi h
    simp only [saveLoop] at h
    cases hx : st.objs[i]? with
    | none =>
      rw [hx] at h
      simp only [Except.ok.injEq] at h
      subst h
      have : st.objs.length ≤ i := by
        rw [List.getElem?_eq_none_iff] at hx; exact hx
      omega
    | some x =>
      rw [hx] at h
      simp only [] at h
      cases hr : saveRound E fuel root cb st x with
      | error e => rw [hr] at h; cases h
      | ok st2 =>
        rw [hr] at h
        simp only [] at h
        obtain ⟨_, _, ⟨e1, r3⟩, r4, _, _⟩ := round_frame E hE fuel root cb st st2 i x hx hinv hr
        have hlt := getElem?_lt _ _ _ hx
        have hsets : st2.sets.length ≤ st.sets.length + 1 := by
          obtain ⟨xi, _, hcase⟩ := saveRound_cases E fuel root cb st st2 x hr
          rcases hcase with ⟨_, hst⟩ | ⟨_, key, w1, doc, w2, objs2, xi2, _, _, _, hsub⟩
          · subst hst; simp
          · rcases hsub with ⟨_, hst⟩ | ⟨_, ri, rinfo, _, _, hst⟩
            · subst hst; simp [doneOne]
            · subst hst; simp
        apply ih (i + 1) st2 st1 r4 (by omega) _ h
        rw [r3, List.length_append]
        omega

/-- C6: after a call `save(o)` that returned, a second call `save(o)` in the state the
first one left, with nothing changed in between, returns as well and issues no
`bucket.set` at all, leaving the state as it is; and the first call issued at most one
write for each element of its list `objs`, in which `o` occurs once. -/
theorem save_twice_no_write (E : Env) (hE : E.WF) (fuel : Nat) (w : World) (o : Nat) (cb : Bool)
    (st1 : SaveState) (h : save E fuel w o cb = .ok st1) :
    (∃ st2, save E fuel st1.w o cb = .ok st2 ∧ st2.sets = [] ∧ st2.w = st1.w) ∧
    st1.sets.length ≤ st1.objs.length ∧ st1.objs.Nodup := by
  have hinv : SaveInv { w := w, objs := [o], saved := 0, sets := [], called := 0 } := by
    refine ⟨by simp, ?_⟩
    intro j y hj hj1
    have := getElem?_lt _ _ _ hj
    simp at this
    omega
  obtain ⟨_, _, hinv1, _⟩ := save_frame E hE fuel w o cb st1 h
  refine ⟨?_, ?_, hinv1.1⟩
  · unfold save at h ⊢
    obtain ⟨saved3, called3, h2⟩ := second_run E hE fuel o cb fuel 0 _ st1 hinv h 0 [] 0
    exact ⟨_, h2, rfl, rfl⟩
  · unfold save at h
    exact saveLoop_sets_length E hE fuel o cb fuel 0 _ st1 hinv (by simp) (by simp) h

/-- C6, witness: `save(a)` in `casWorld` issues two writes; a second `save(a)` none. -/
theorem save_twice_no_write_witness :
    (∃ st2, save demoEnv 4 casWorld2 0 true = .ok st2 ∧ st2.sets = [] ∧ st2.w = casWorld2) ∧
    [casSetA, casSetB].length ≤ [0, 1].length ∧ [0, 1].Nodup :=
  save_twice_no_write demoEnv demoEnv_wf 4 casWorld 0 true
    { w := casWorld2, objs := [0, 1], saved := 0, sets := [casSetA, casSetB], called := 0 }
    casSave

/-- C7 (as the code has it): the loop of `save` runs over the whole list `objs`, which
starts with the object passed in and to which the encodings append the instances they
replace by a reference.  Every `bucket.set` that `save` issues is for a loaded element
of that list, and carries the key and the document (now the snapshot) of that element;
the appended elements have their keys. -/
theorem save_writes_elements_of_objs (E : Env) (hE : E.WF) (fuel : Nat) (w : World) (root : Nat)
    (cb : Bool) (st1 : SaveState) (h : save E fuel w root cb = .ok st1) :
    (∃ ext, st1.objs = root :: ext) ∧ st1.objs.Nodup ∧
    (∀ (j y : Nat), st1.objs[j]? = some y → 1 ≤ j → Keyed st1.w y) ∧
    ∀ c ∈ st1.sets, ∃ x xi, x ∈ st1.objs ∧ st1.w.heap[x]? = some xi ∧ xi.loaded = true ∧
      xi.key = c.key ∧ xi.initial = c.doc := by
  obtain ⟨_, hext, hinv, hsets⟩ := save_frame E hE fuel w root cb st1 h
  refine ⟨hext, hinv.1, hinv.2, ?_⟩
  intro c hc
  obtain ⟨_, x, xi, hx, hxi, hl, hk, hd, _⟩ := hsets c hc
  exact ⟨x, xi, List.mem_of_mem_take hx, hxi, hl, hk, hd⟩

/-- C7, witness: `save(a)` in `casWorld`. -/
theorem save_writes_elements_of_objs_witness :
    (∃ ext, [0, 1] = 0 :: ext) ∧ [0, 1].Nodup ∧
    (∀ (j y : Nat), [0, 1][j]? = some y → 1 ≤ j → Keyed casWorld2 y) ∧
    ∀ c ∈ [casSetA, casSetB], ∃ x xi, x ∈ [0, 1] ∧ casWorld2.heap[x]? = some xi ∧
      xi.loaded = true ∧ xi.key = c.key ∧ xi.initial = c.doc :=
  save_writes_elements_of_objs demoEnv demoEnv_wf 4 casWorld 0 true
    { w := casWorld2, objs := [0, 1], saved := 0, sets := [casSetA, casSetB], called := 0 }
    casSave

/-- C7, counterexample: `save(a)` where `a.best = b` and `b` is a loaded `Person` (not
`embed`).  The encoding of `a` appends `b` to `objs`, the loop goes on to `b`, and the
second `bucket.set` has the key and the document of `b`. -/
theorem save_writes_referenced_counterexample :
    (save demoEnv 4 casWorld 0 true).map
        (fun st => (st.objs, st.sets.map (fun c => (c.key, c.doc))))
      = .ok ([0, 1], [(.prim (.str "person_a"), casDocA), (.prim (.str "person_b"), casDocB)]) ∧
    (casWorld.heap[1]?).map (fun b => b.key) = some (.prim (.str "person_b")) := by
  rw [casSave]
  exact ⟨rfl, rfl⟩

/-- C9, the code at the failing input: `save(a)` where `a`, loaded with token 11,
references the loaded and changed `b`, whose token is 22.  The write for `b` carries
the token 11 of `a`. -/
theorem save_cas_of_root_at_failing_input :
    (save demoEnv 4 casWorld 0 true).map (fun st => st.sets.map (fun c => (c.key, c.cas)))
      = .ok [(.prim (.str "person_a"), .prim (.num 11)),
             (.prim (.str "person_b"), .prim (.num 11))] ∧
    (casWorld.heap[1]?).map (fun b => (b.key, b.cas))
      = some (.prim (.str "person_b"), .prim (.num 22)) := by
  rw [casSave]
  exact ⟨rfl, rfl⟩

/-- Every write of `save` carries the token the object passed in had at the call. -/
theorem save_cas_of_root (E : Env) (hE : E.WF) (fuel : Nat) (w : World) (root : Nat)
    (cb : Bool) (st1 : SaveState) (ri : Inst) (h : save E fuel w root cb = .ok st1)
    (hr : w.heap[root]? = some ri) : ∀ c ∈ st1.sets, c.cas = ri.cas := by
  obtain ⟨hev, _, _, hsets⟩ := save_frame E hE fuel w root cb st1 h
  intro c hc
  obtain ⟨⟨rj, hrj, hcas⟩, _⟩ := hsets c hc
  obtain ⟨rj2, hrj2, hij⟩ := hev.2.2 root ri hr
  rw [hrj] at hrj2; cases hrj2
  rw [hcas, hij.2.1]

/-! ## Loading -/

theorem loadsAt_refl (r : Nat) (w : World) : LoadsAt r w w :=
  ⟨le_refl _, fun _ _ _ => rfl, fun i hi => ⟨i, hi, rfl, rfl, rfl, rfl, rfl, rfl⟩⟩

theorem loadsAt_trans (r : Nat) (u v w : World) (h1 : LoadsAt r u v) (h2 : LoadsAt r v w) :
    LoadsAt r u w := by
  obtain ⟨a1, a2, a3⟩ := h1
  obtain ⟨b1, b2, b3⟩ := h2
  refine ⟨le_trans a1 b1, ?_, ?_⟩
  · intro r2 hne hlt
    rw [b2 r2 hne (by omega), a2 r2 hne hlt]
  · intro i hi
    obtain ⟨j, hj, c1, c2, c3, c4, c5, c6⟩ := a3 i hi
    obtain ⟨k, hk, d1, d2, d3, d4, d5, d6⟩ := b3 j hj
    exact ⟨k, hk, d1.trans c1, d2.trans c2, d3.trans c3, d4.trans c4, d5.trans c5, d6.trans c6⟩

theorem keepsOld_refl (w : World) : KeepsOld w w := ⟨le_refl _, fun _ _ => rfl⟩

theorem keepsOld_trans (u v w : World) (h1 : KeepsOld u v) (h2 : KeepsOld v w) :
    KeepsOld u w :=
  ⟨le_trans h1.1 h2.1, fun r hr => by rw [h2.2 r (by have := h1.1; omega), h1.2 r hr]⟩

theorem loadsAt_of_ext (r : Nat) (u w : World) (h : KeepsOld u w) : LoadsAt r u w := by
  obtain ⟨hlen, hold⟩ := h
  refine ⟨hlen, fun r2 _ hlt => hold r2 hlt, ?_⟩
  intro i hi
  refine ⟨i, ?_, rfl, rfl, rfl, rfl, rfl, rfl⟩
  rw [hold r (getElem?_lt _ _ _ hi)]
  exact hi

theorem loadsAt_setValue (w w1 : World) (r : Nat) (name : String) (v : Val)
    (h : w.setValue r name v = .ok w1) : LoadsAt r w w1 := by
  unfold World.setValue at h
  cases hi : w.heap[r]? with
  | none => rw [hi] at h; cases h
  | some i =>
    rw [hi] at h
    simp only [] at h
    cases hv : i.values with
    | none => rw [hv] at h; cases h
    | some vals =>
      rw [hv] at h
      simp only [Except.ok.injEq] at h
      subst h
      have hr := getElem?_lt _ _ _ hi
      refine ⟨by simp [World.setInst], ?_, ?_⟩
      · intro r2 hne _
        simp [World.setInst, List.getElem?_set, Ne.symm hne]
      · intro i2 hi2
        rw [hi] at hi2; cases hi2
        refine ⟨{ i with values := some (setProp vals name v) }, ?_, rfl, rfl, rfl, rfl, rfl, rfl⟩
        simp [World.setInst, hr]

theorem decodeFields_loadsAt (rec : DecFn) (hrec : DecSound rec) (r : Nat) (obx : Obx)
    (depth : Nat) (c : Option Nat) (fs : List Field) (w w1 : World)
    (h : decodeFields rec r obx depth c fs w = .ok w1) : LoadsAt r w w1 := by
  induction fs generalizing w with
  | nil =>
    simp only [decodeFields, Except.ok.injEq] at h
    subst h
    exact loadsAt_refl r w
  | cons f fs ih =>
    simp only [decodeFields] at h
    cases hr : rec w (obx.get f.name) f.type f.subtypes (depth + 1) c (.prim .null) with
    | error e => rw [hr] at h; cases h
    | ok res =>
      obtain ⟨v, wa⟩ := res
      rw [hr] at h
      simp only [] at h
      have h1 := loadsAt_of_ext r w wa (hrec _ _ _ _ _ _ _ _ _ hr)
      by_cases hu : v.isUndefined = true
      · rw [if_pos hu] at h
        exact loadsAt_trans r w wa w1 h1 (ih wa h)
      · rw [if_neg hu] at h
        cases hs : wa.setValue r f.name v with
        | error e => rw [hs] at h; cases h
        | ok wb =>
          rw [hs] at h
          simp only [] at h
          exact loadsAt_trans r w wa w1 h1
            (loadsAt_trans r wa wb w1 (loadsAt_setValue wa wb r f.name v hs) (ih wb h))

/-- What `obxToObj_Otto_Load` does to the state: the instance it is called on is marked
loaded, gets the document as its snapshot, and keeps type, key, token and cache; the
other instances that existed are as they were. -/
theorem obxToObj_Otto_Load_spec (E : Env) (rec : DecFn) (hrec : DecSound rec) (w w1 : World)
    (r : Nat) (obx : Obx) (depth : Nat) (c : Option Nat) (i : Inst) (hi : w.heap[r]? = some i)
    (h : obxToObj_Otto_Load E rec w r obx depth c = .ok w1) :
    w.heap.length ≤ w1.heap.length ∧
    (∀ r2 : Nat, r2 ≠ r → r2 < w.heap.length → w1.heap[r2]? = w.heap[r2]?) ∧
    ∃ j, w1.heap[r]? = some j ∧ j.type = i.type ∧ j.key = i.key ∧ j.cas = i.cas ∧
      j.cache = i.cache ∧ j.loaded = true ∧ j.initial = obx := by
  unfold obxToObj_Otto_Load at h
  rw [hi] at h
  simp only [] at h
  cases hl : E.lookup i.type with
  | none => rw [hl] at h; cases h
  | some info =>
    rw [hl] at h
    simp only [] at h
    split at h
    · cases h
    · split at h
      · cases h
      · have hr := getElem?_lt _ _ _ hi
        have h0 : LoadsAt r (w.setInst r { i with values := some [], loaded := true, initial := obx })
            w1 := decodeFields_loadsAt rec hrec r obx depth c info.schema _ w1 h
        obtain ⟨a1, a2, a3⟩ := h0
        have hlen : ∀ j : Inst, (w.setInst r j).heap.length = w.heap.length :=
          fun j => by simp [World.setInst]
        rw [hlen] at a1
        refine ⟨a1, ?_, ?_⟩
        · intro r2 hne hlt
          rw [a2 r2 hne (by rw [hlen]; exact hlt)]
          simp [World.setInst, List.getElem?_set, Ne.symm hne]
        · obtain ⟨j, hj, c1, c2, c3, c4, c5, c6⟩ :=
            a3 { i with values := some [], loaded := true, initial := obx }
              (by simp [World.setInst, hr])
          exact ⟨j, hj, c1, c2, c3, c4, c5, c6⟩

theorem keepsOld_alloc (w : World) (i : Inst) : KeepsOld w (w.alloc i).2 := by
  refine ⟨by simp [World.alloc], ?_⟩
  intro r hr
  simp [World.alloc, List.getElem?_append_left hr]

theorem keepsOld_cacheSet (w w1 : World) (c : Option Nat) (k : String) (r : Nat)
    (h : w.cacheSet c k r = some w1) : w1.heap = w.heap := by
  unfold World.cacheSet at h
  cases c with
  | none => cases h
  | some c =>
    simp only [] at h
    cases hc : w.caches[c]? with
    | none => rw [hc] at h; cases h
    | some cache =>
      rw [hc] at h
      simp only [Option.map_some', Option.some.injEq] at h
      rw [← h]

theorem decodeElems_keeps (rec : DecFn) (hrec : DecSound rec) (sub : String)
    (subs : List String) (depth : Nat) (c : Option Nat) (xs : List Obx) (w : World)
    (vs : List Val) (w1 : World)
    (h : decodeElems rec sub subs depth c xs w = .ok (vs, w1)) : KeepsOld w w1 := by
  induction xs generalizing w vs with
  | nil =>
    simp only [decodeElems, Except.ok.injEq, Prod.mk.injEq] at h
    rw [← h.2]; exact keepsOld_refl w
  | cons x xs ih =>
    simp only [decodeElems] at h
    cases hr : rec w x sub subs (depth + 1) c (.prim .null) with
    | error e => rw [hr] at h; cases h
    | ok res =>
      obtain ⟨v, wa⟩ := res
      rw [hr] at h
      simp only [] at h
      cases hrest : decodeElems rec sub subs depth c xs wa with
      | error e => rw [hrest] at h; cases h
      | ok res2 =>
        obtain ⟨vs2, w2⟩ := res2
        rw [hrest] at h
        simp only [Except.ok.injEq, Prod.mk.injEq] at h
        obtain ⟨_, h2⟩ := h
        subst h2
        exact keepsOld_trans w wa w2 (hrec _ _ _ _ _ _ _ _ _ hr) (ih wa vs2 hrest)

theorem decodeEntries_keeps (rec : DecFn) (hrec : DecSound rec) (sub : String)
    (subs : List String) (depth : Nat) (c : Option Nat) (xs : List (String × Obx)) (w : World)
    (out out1 : List (String × Val)) (w1 : World)
    (h : decodeEntries rec sub subs depth c xs w out = .ok (out1, w1)) : KeepsOld w w1 := by
  induction xs generalizing w out with
  | nil =>
    simp only [decodeEntries, Except.ok.injEq, Prod.mk.injEq] at h
    rw [← h.2]; exact keepsOld_refl w
  | cons kx xs ih =>
    obtain ⟨k, x⟩ := kx
    simp only [decodeEntries] at h
    cases hr : rec w x sub subs (depth + 1) c (.prim .null) with
    | error e => rw [hr] at h; cases h
    | ok res =>
      obtain ⟨v, wa⟩ := res
      rw [hr] at h
      simp only [] at h
      exact keepsOld_trans w wa w1 (hrec _ _ _ _ _ _ _ _ _ hr) (ih wa _ h)

theorem obxToObj_List_keeps (rec : DecFn) (hrec : DecSound rec) (w : World) (obx : Obx)
    (subs : List String) (depth : Nat) (c : Option Nat) (v : Val) (w1 : World)
    (h : obxToObj_List rec w obx subs depth c = .ok (v, w1)) : KeepsOld w w1 := by
  unfold obxToObj_List at h
  cases obx with
  | prim p => cases h
  | obj kvs => cases h
  | arr xs =>
    simp only [] at h
    cases he : decodeElems rec ((defaultSubtypes subs).headD "Mixed") (defaultSubtypes subs).tail
        depth c xs w with
    | error e => rw [he] at h; cases h
    | ok res =>
      obtain ⟨vs, wa⟩ := res
      rw [he] at h
      simp only [Except.ok.injEq, Prod.mk.injEq] at h
      rw [← h.2]
      exact decodeElems_keeps rec hrec _ _ depth c xs w vs wa he

theorem obxToObj_Map_keeps (rec : DecFn) (hrec : DecSound rec) (w : World) (obx : Obx)
    (subs : List String) (depth : Nat) (c : Option Nat) (v : Val) (w1 : World)
    (h : obxToObj_Map rec w obx subs depth c = .ok (v, w1)) : KeepsOld w w1 := by
  unfold obxToObj_Map at h
  split at h
  · cases h
  · simp only [] at h
    cases he : decodeEntries rec ((defaultSubtypes subs).headD "Mixed")
        (defaultSubtypes subs).tail depth c obx.entries w [] with
    | error e => rw [he] at h; cases h
    | ok res =>
      obtain ⟨out, wa⟩ := res
      rw [he] at h
      simp only [Except.ok.injEq, Prod.mk.injEq] at h
      rw [← h.2]
      exact decodeEntries_keeps rec hrec _ _ depth c _ w [] out wa he

theorem obxToObj_Otto_keeps (E : Env) (rec : DecFn) (hrec : DecSound rec) (w : World)
    (obx typeName : Obx) (depth : Nat) (c : Option Nat) (thisKey : Obx) (v : Val) (w1 : World)
    (h : obxToObj_Otto E rec w obx typeName depth c thisKey = .ok (v, w1)) : KeepsOld w w1 := by
  unfold obxToObj_Otto at h
  simp only [] at h
  split at h
  · -- a reference
    split at h
    · cases h
    · split at h
      · cases h
      · split at h
        · cases h
        · split at h
          · cases h
          · split at h
            · cases h
            · simp only [Except.ok.injEq, Prod.mk.injEq] at h
              rw [← h.2]; exact keepsOld_refl w
        · cases h
        · split at h
          · cases h
          · rename_i info _
            split at h
            · cases h
            · rename_i w2 hset
              simp only [Except.ok.injEq, Prod.mk.injEq] at h
              rw [← h.2]
              have hk := keepsOld_alloc w
                { type := info.name, key := (obx.get "$ref").get "1", cas := .prim .null,
                  cache := c, values := none, loaded := false, initial := .prim .null }
              have he := keepsOld_cacheSet _ _ _ _ _ hset
              exact ⟨by rw [he]; exact hk.1, fun r hr => by rw [he]; exact hk.2 r hr⟩
  · -- an embedded document
    split at h
    · cases h
    · split at h
      · cases h
      · rename_i info _
        have hk := keepsOld_alloc w
          { type := info.name, key := thisKey, cas := .prim .null, cache := c,
            values := some [], loaded := true, initial := .prim .undefined }
        split at h
        · cases h
        · rename_i w2 hset
          have hw2 : ∃ i0 : Inst, w2.heap = w.heap ++ [i0] := by
            by_cases ht : thisKey.truthy = true
            · rw [if_pos ht] at hset
              exact ⟨_, by rw [keepsOld_cacheSet _ _ _ _ _ hset]; rfl⟩
            · rw [if_neg ht] at hset
              simp only [Option.some.injEq] at hset
              exact ⟨_, by rw [← hset]; rfl⟩
          obtain ⟨i0, hw2⟩ := hw2
          split at h
          · cases h
          · rename_i w3 hload
            simp only [Except.ok.injEq, Prod.mk.injEq] at h
            rw [← h.2]
            have hnew : w2.heap[w.heap.length]? = some i0 := by
              rw [hw2]; simp
            obtain ⟨s1, s2, _⟩ := obxToObj_Otto_Load_spec E rec hrec w2 w3 w.heap.length obx
              (depth + 1) c _ hnew hload
            have hlen2 : w2.heap.length = w.heap.length + 1 := by rw [hw2]; simp
            refine ⟨by omega, ?_⟩
            intro r hr
            rw [s2 r (by omega) (by omega), hw2, List.getElem?_append_left hr]

theorem obxToObj_Mixed_keeps (E : Env) (rec : DecFn) (hrec : DecSound rec) (w : World)
    (obx : Obx) (depth : Nat) (c : Option Nat) (thisKey : Obx) (v : Val) (w1 : World)
    (h : obxToObj_Mixed E rec w obx depth c thisKey = .ok (v, w1)) : KeepsOld w w1 := by
  unfold obxToObj_Mixed at h
  split at h
  · exact obxToObj_Otto_keeps E rec hrec w obx _ depth c thisKey v w1 h
  · split at h
    · exact obxToObj_Otto_keeps E rec hrec w obx _ depth c thisKey v w1 h
    · cases obx with
      | arr xs => exact obxToObj_List_keeps rec hrec w _ [] depth c v w1 h
      | obj kvs => exact obxToObj_Map_keeps rec hrec w _ [] depth c v w1 h
      | prim p =>
        simp only [Except.ok.injEq, Prod.mk.injEq] at h
        rw [← h.2]; exact keepsOld_refl w

theorem decDispatch_keeps (E : Env) (rec : DecFn) (hrec : DecSound rec) (w : World) (obx : Obx)
    (tn : String) (s : List String) (d : Nat) (c : Option Nat) (k : Obx) (v : Val) (w1 : World)
    (h : (if (E.lookup tn).isSome then obxToObj_Otto E rec w obx (.prim (.str tn)) d c k
          else if tn = "List" then obxToObj_List rec w obx s d c
          else if tn = "Map" then obxToObj_Map rec w obx s d c
          else if tn = "Mixed" then obxToObj_Mixed E rec w obx d c k
          else if CORETYPES.contains tn then
            match obx with
            | .prim p => .ok (.prim p, w)
            | _ => .error (.thrown "core type is an object")
          else .error (.thrown ("encountered unknown type " ++ tn))) = .ok (v, w1)) :
    KeepsOld w w1 := by
  split at h
  · exact obxToObj_Otto_keeps E rec hrec w obx _ d c k v w1 h
  · split at h
    · exact obxToObj_List_keeps rec hrec w obx s d c v w1 h
    · split at h
      · exact obxToObj_Map_keeps rec hrec w obx s d c v w1 h
      · split at h
        · exact obxToObj_Mixed_keeps E rec hrec w obx d c k v w1 h
        · split at h
          · split at h
            · simp only [Except.ok.injEq, Prod.mk.injEq] at h
              rw [← h.2]; exact keepsOld_refl w
            · cases h
          · cases h

/-- Every successful call of `obxToObj` leaves the instances that existed as they were. -/
theorem obxToObj_sound (E : Env) (n : Nat) : DecSound (obxToObj E n) := by
  induction n with
  | zero =>
    intro w obx t s d c k v w1 h
    simp [obxToObj] at h
  | succ n ih =>
    intro w obx t s d c k v w1 h
    simp only [obxToObj] at h
    generalize (if t = "" then "Mixed" else t) = tn at h
    cases obx with
    | prim p =>
      cases p with
      | undefined =>
        simp only [Except.ok.injEq, Prod.mk.injEq] at h
        rw [← h.2]; exact keepsOld_refl w
      | null =>
        simp only [Except.ok.injEq, Prod.mk.injEq] at h
        rw [← h.2]; exact keepsOld_refl w
      | bool b => exact decDispatch_keeps E _ ih w _ tn s d c k v w1 h
      | num m => exact decDispatch_keeps E _ ih w _ tn s d c k v w1 h
      | str m => exact decDispatch_keeps E _ ih w _ tn s d c k v w1 h
    | arr xs => exact decDispatch_keeps E _ ih w _ tn s d c k v w1 h
    | obj kvs => exact decDispatch_keeps E _ ih w _ tn s d c k v w1 h

/-! ### The steps of `load` keep tokens and the loaded flags -/

theorem invoke_world (n : Nat) : ∀ (st : LoadState) (cont : Cont) (err : Obx) (st1 : LoadState),
    invoke n st cont err = .ok st1 →
      st1.w = st.w ∧ st1.gets = st.gets ∧ st1.pending = st.pending := by
  induction n with
  | zero =>
    intro st cont err st1 h
    simp [invoke] at h
  | succ n ih =>
    intro st cont err st1 h
    cases cont with
    | user =>
      simp only [invoke, Except.ok.injEq] at h
      subst h
      exact ⟨rfl, rfl, rfl⟩
    | join j =>
      simp only [invoke] at h
      cases hj : st.joins[j]? with
      | none => rw [hj] at h; cases h
      | some jn =>
        rw [hj] at h
        simp only [] at h
        cases hk : jn.kind with
        | refs =>
          rw [hk] at h
          simp only [] at h
          split at h
          · have h2 := ih _ _ _ _ h
            exact h2
          · simp only [Except.ok.injEq] at h
            subst h
            exact ⟨rfl, rfl, rfl⟩
        | arr =>
          rw [hk] at h
          simp only [] at h
          split at h
          · have h2 := ih _ _ _ _ h
            exact h2
          · simp only [Except.ok.injEq] at h
            subst h
            exact ⟨rfl, rfl, rfl⟩
        | map =>
          rw [hk] at h
          simp only [] at h
          split at h
          · have h2 := ih _ _ _ _ h
            exact h2
          · simp only [Except.ok.injEq] at h
            subst h
            exact ⟨rfl, rfl, rfl⟩

theorem loadEach_evolves (rec : LoadFn) (hrec : LoadSound rec) (d : Int) (cont : Cont)
    (xs : List Val) (st st1 : LoadState) (h : loadEach rec d cont xs st = .ok st1) :
    Evolves noTypes st.w st1.w := by
  induction xs generalizing st with
  | nil =>
    simp only [loadEach, Except.ok.injEq] at h
    subst h
    exact evolves_refl _ _
  | cons x xs ih =>
    simp only [loadEach] at h
    cases hr : rec st x d cont with
    | error e => rw [hr] at h; cases h
    | ok st2 =>
      rw [hr] at h
      simp only [] at h
      exact evolves_trans _ _ _ _ (hrec _ _ _ _ _ hr) (ih st2 h)

theorem loadEntries_evolves (rec : LoadFn) (hrec : LoadSound rec) (d : Int) (j : Nat)
    (xs : List (String × Val)) (st st1 : LoadState)
    (h : loadEntries rec d j xs st = .ok st1) : Evolves noTypes st.w st1.w := by
  induction xs generalizing st with
  | nil =>
    simp only [loadEntries, Except.ok.injEq] at h
    subst h
    exact evolves_refl _ _
  | cons kx xs ih =>
    obtain ⟨k, x⟩ := kx
    simp only [loadEntries] at h
    cases hj : st.joins[j]? with
    | none => rw [hj] at h; cases h
    | some jn =>
      rw [hj] at h
      simp only [] at h
      split at h
      · cases h
      · rename_i st2 hr
        have h1 := hrec _ _ _ _ _ hr
        exact evolves_trans _ _ _ _ h1 (ih st2 h)

theorem loadRefs_evolves (E : Env) (hE : E.WF) (fuel : Nat) (rec : LoadFn) (hrec : LoadSound rec)
    (st : LoadState) (r : Nat) (d : Int) (cont : Cont) (st1 : LoadState)
    (h : _loadRefs E fuel rec st r d cont = .ok st1) : Evolves noTypes st.w st1.w := by
  unfold _loadRefs at h
  cases he : objToObx E fuel st.w [] (.inst r) (typeNameOf st.w (.inst r)) [] 0 with
  | error e => rw [he] at h; cases h
  | ok res =>
    obtain ⟨doc, w1, refs⟩ := res
    rw [he] at h
    simp only [] at h
    have h1 := evolves_weaken E _ _ (objToObx_sound E hE fuel _ _ _ _ _ _ _ _ _ he).1.1
    split at h
    · have h2 := invoke_world fuel _ _ _ _ h
      rw [h2.1]
      exact h1
    · have h2 := loadEach_evolves rec hrec _ _ _ _ _ h
      exact evolves_trans _ _ _ _ h1 h2

/-- Every successful call of `_load` keeps tokens and loaded flags. -/
theorem load_sound (E : Env) (hE : E.WF) (n : Nat) : LoadSound (_load E n) := by
  induction n with
  | zero =>
    intro st obj d cont st1 h
    simp [_load] at h
  | succ n ih =>
    intro st obj d cont st1 h
    simp only [_load] at h
    split at h
    · have h2 := invoke_world (n + 1) _ _ _ _ h
      rw [h2.1]
      exact evolves_refl _ _
    · split at h
      · cases obj with
        | prim p => cases h
        | arr xs => cases h
        | map kvs => cases h
        | inst r =>
          simp only [] at h
          cases hi : st.w.heap[r]? with
          | none => rw [hi] at h; cases h
          | some i =>
            rw [hi] at h
            simp only [] at h
            split at h
            · exact loadRefs_evolves E hE (n + 1) _ ih st r d cont st1 h
            · cases hm : modelKey E st.w r with
              | error e => rw [hm] at h; simp at h
              | ok res =>
                obtain ⟨key, w1⟩ := res
                rw [hm] at h
                cases hl : E.lookup i.type with
                | none => rw [hl] at h; simp at h
                | some info =>
                  rw [hl] at h
                  simp only [Except.ok.injEq] at h
                  subst h
                  exact (modelKey_evolves E st.w r i key w1 hi hm).1
      · cases obj with
        | prim p =>
          simp only [Except.ok.injEq] at h
          subst h
          exact evolves_refl _ _
        | arr xs =>
          have h2 := loadEach_evolves _ ih _ _ _ _ _ h
          exact h2
        | map kvs =>
          have h2 := loadEntries_evolves _ ih _ _ _ _ _ h
          exact h2
        | inst r =>
          have h2 := loadEntries_evolves _ ih _ _ _ _ _ h
          exact h2

theorem loadStart : load demoEnv 2 unloadedWorld (.inst 0) none = .ok loadPending := by
  decide

theorem loadAnswer :
    getDone demoEnv 3 loadPending 0 (.ok (bobDoc, .prim (.num 7))) = .ok loadAnswered := by
  decide

theorem saveLoop_sets_ext (E : Env) (fuel root : Nat) (cb : Bool) (n : Nat) :
    ∀ (i : Nat) (st st1 : SaveState), saveLoop E fuel root cb n i st = .ok st1 →
      ∃ ext, st1.sets = st.sets ++ ext := by
  induction n with
  | zero =>
    intro i st st1 h
    simp [saveLoop] at h
  | succ n ih =>
    intro i st st1 h
    simp only [saveLoop] at h
    cases hx : st.objs[i]? with
    | none =>
      rw [hx] at h
      simp only [Except.ok.injEq] at h
      subst h
      exact ⟨[], by simp⟩
    | some x =>
      rw [hx] at h
      simp only [] at h
      cases hr : saveRound E fuel root cb st x with
      | error e => rw [hr] at h; cases h
      | ok st2 =>
        rw [hr] at h
        simp only [] at h
        obtain ⟨ext, he⟩ := ih _ _ _ h
        obtain ⟨xi, _, hc⟩ := saveRound_cases E fuel root cb st st2 x hr
        rcases hc with ⟨_, e⟩ | ⟨_, key, w1, doc, w2, objs2, xi2, _, _, _, hc2⟩
        · rw [e] at he
          exact ⟨ext, he⟩
        · rcases hc2 with ⟨_, e⟩ | ⟨_, ri, rinfo, _, _, e⟩
          · rw [e] at he
            exact ⟨ext, he⟩
          · rw [e] at he
            simp only [] at he
            exact ⟨_ :: ext, by rw [he, List.append_assoc]; rfl⟩

/-- When `save(o)` finds the document of the loaded `o` different from its snapshot, it
issues a write for the key of `o` with that document. -/
theorem save_writes_changed_root (E : Env) (fuel : Nat) (w : World) (o : Nat) (cb : Bool)
    (st1 : SaveState) (oi : Inst) (key : Obx) (w1 : World) (doc : Obx) (w2 : World)
    (objs2 : List Nat) (o2 : Inst)
    (ho : w.heap[o]? = some oi) (hl : oi.loaded = true)
    (hm : modelKey E w o = .ok (key, w1))
    (he : objToObx E fuel w1 [o] (.inst o) (typeNameOf w1 (.inst o)) [] 0 = .ok (doc, w2, objs2))
    (ho2 : w2.heap[o]? = some o2) (hq : isEqual o2.initial doc = false)
    (h : save E fuel w o cb = .ok st1) :
    ∃ s ∈ st1.sets, s.key = key ∧ s.doc = doc := by
  unfold save at h
  cases fuel with
  | zero => simp [saveLoop] at h
  | succ n =>
    simp only [saveLoop, List.getElem?_cons_zero] at h
    cases hr : saveRound E (n + 1) o cb
        { w := w, objs := [o], saved := 0, sets := [], called := 0 } o with
    | error e => rw [hr] at h; cases h
    | ok st2 =>
      rw [hr] at h
      simp only [] at h
      obtain ⟨ext, hext⟩ := saveLoop_sets_ext E (n + 1) o cb n _ _ _ h
      obtain ⟨xi, hxi, hc⟩ := saveRound_cases E (n + 1) o cb _ st2 o hr
      simp only [] at hxi
      rw [ho] at hxi
      cases hxi
      rcases hc with ⟨hf, _⟩ | ⟨_, key', w1', doc', w2', objs2', xi2, hm', he', hx2, hc2⟩
      · rw [hl] at hf; cases hf
      · simp only [] at hm' he'
        rw [hm] at hm'
        simp only [Except.ok.injEq, Prod.mk.injEq] at hm'
        obtain ⟨rfl, rfl⟩ := hm'
        rw [he] at he'
        simp only [Except.ok.injEq, Prod.mk.injEq] at he'
        obtain ⟨rfl, rfl, rfl⟩ := he'
        rw [ho2] at hx2
        cases hx2
        rcases hc2 with ⟨hq2, _⟩ | ⟨_, ri, rinfo, _, _, e⟩
        · rw [hq] at hq2; cases hq2
        · refine ⟨{ bucket := rinfo.bucket, key := key, doc := doc, cas := ri.cas }, ?_, rfl, rfl⟩
          rw [hext, e]
          simp

theorem renamedSave :
    save demoEnv 3 renamedWorld 0 true
      = .ok { w := renamedWorld.setInst 0
                { type := "Person", key := .prim (.str "person_1"),
                  values := some [("name", .prim (.str "Rob"))], cas := .prim (.num 7),
                  loaded := true, initial := robDoc, cache := some 0 },
              objs := [0], saved := 0,
              sets := [{ bucket := "default", key := .prim (.str "person_1"), doc := robDoc,
                         cas := .prim (.num 7) }],
              called := 0 } := by
  decide

/-- C8 (as the code has it): when the store answers the `bucket.get` that `_load` issued
for an unloaded instance `o` with a document and the token `c`, and the document decodes
and the callback runs to its end, then `o` is marked loaded and `$cas` of `o` is `c`; the
answer to a fetch of another instance changes neither; and when `o`, with that token, is
later passed to `save`, every `bucket.set` that call issues carries `c`, and when the
document `o` encodes to then differs from its snapshot, a `bucket.set` for the key of `o`
with that document is among them. -/
theorem load_records_token (E : Env) (hE : E.WF) (fuel : Nat) (st : LoadState) (idx : Nat)
    (p : Pending) (value cas : Obx) (st1 : LoadState) (hp : st.pending[idx]? = some p)
    (h : getDone E fuel st idx (.ok (value, cas)) = .ok st1) :
    (∃ o1, st1.w.heap[p.obj]? = some o1 ∧ o1.loaded = true ∧ o1.cas = cas) ∧
    (∀ (x : Nat) (xi : Inst), x ≠ p.obj → st.w.heap[x]? = some xi →
      ∃ xj, st1.w.heap[x]? = some xj ∧ xj.loaded = xi.loaded ∧ xj.cas = xi.cas) ∧
    (∀ (fuel2 : Nat) (w2 : World) (o2 : Inst) (cb : Bool) (st2 : SaveState),
      w2.heap[p.obj]? = some o2 → o2.cas = cas → save E fuel2 w2 p.obj cb = .ok st2 →
      ∀ c ∈ st2.sets, c.cas = cas) ∧
    (∀ (fuel2 : Nat) (w2 : World) (o2 : Inst) (cb : Bool) (st2 : SaveState) (key : Obx)
      (w3 : World) (doc : Obx) (w4 : World) (objs2 : List Nat) (o4 : Inst),
      w2.heap[p.obj]? = some o2 → o2.cas = cas → o2.loaded = true →
      modelKey E w2 p.obj = .ok (key, w3) →
      objToObx E fuel2 w3 [p.obj] (.inst p.obj) (typeNameOf w3 (.inst p.obj)) [] 0
        = .ok (doc, w4, objs2) →
      w4.heap[p.obj]? = some o4 → isEqual o4.initial doc = false →
      save E fuel2 w2 p.obj cb = .ok st2 →
      ∃ s ∈ st2.sets, s.key = key ∧ s.doc = doc ∧ s.cas = cas) := by
  have hsave : ∀ (fuel2 : Nat) (w2 : World) (o2 : Inst) (cb : Bool) (st2 : SaveState),
      w2.heap[p.obj]? = some o2 → o2.cas = cas → save E fuel2 w2 p.obj cb = .ok st2 →
      ∀ c ∈ st2.sets, c.cas = cas := by
    intro fuel2 w2 o2 cb st2 ho2 hcas hsave c hc
    rw [save_cas_of_root E hE fuel2 w2 p.obj cb st2 o2 hsave ho2 c hc, hcas]
  have hwrite : ∀ (fuel2 : Nat) (w2 : World) (o2 : Inst) (cb : Bool) (st2 : SaveState)
      (key : Obx) (w3 : World) (doc : Obx) (w4 : World) (objs2 : List Nat) (o4 : Inst),
      w2.heap[p.obj]? = some o2 → o2.cas = cas → o2.loaded = true →
      modelKey E w2 p.obj = .ok (key, w3) →
      objToObx E fuel2 w3 [p.obj] (.inst p.obj) (typeNameOf w3 (.inst p.obj)) [] 0
        = .ok (doc, w4, objs2) →
      w4.heap[p.obj]? = some o4 → isEqual o4.initial doc = false →
      save E fuel2 w2 p.obj cb = .ok st2 →
      ∃ s ∈ st2.sets, s.key = key ∧ s.doc = doc ∧ s.cas = cas := by
    intro fuel2 w2 o2 cb st2 key w3 doc w4 objs2 o4 ho2 hcas hl hm he ho4 hq hs
    obtain ⟨s, hs1, hs2, hs3⟩ :=
      save_writes_changed_root E fuel2 w2 p.obj cb st2 o2 key w3 doc w4 objs2 o4 ho2 hl hm he
        ho4 hq hs
    exact ⟨s, hs1, hs2, hs3, hsave fuel2 w2 o2 cb st2 ho2 hcas hs s hs1⟩
  unfold getDone at h
  rw [hp] at h
  simp only [] at h
  cases hi : st.w.heap[p.obj]? with
  | none => rw [hi] at h; cases h
  | some i =>
    rw [hi] at h
    simp only [] at h
    cases hd : obxToObj_Otto_Load E (obxToObj E fuel) st.w p.obj value 0 i.cache with
    | error e => rw [hd] at h; cases h
    | ok w1 =>
      rw [hd] at h
      simp only [] at h
      cases hi1 : w1.heap[p.obj]? with
      | none => rw [hi1] at h; cases h
      | some i1 =>
        rw [hi1] at h
        simp only [] at h
        obtain ⟨s1, s2, ⟨j, hj, _, _, _, _, hjl, _⟩⟩ :=
          obxToObj_Otto_Load_spec E _ (obxToObj_sound E fuel) st.w w1 p.obj value 0 i.cache i hi hd
        rw [hi1] at hj; cases hj
        have hev := loadRefs_evolves E hE fuel _ (load_sound E hE fuel) _ _ _ _ _ h
        simp only [] at hev
        have hlt := getElem?_lt _ _ _ hi1
        refine ⟨?_, ?_, hsave, hwrite⟩
        · obtain ⟨o1, ho1, hio⟩ := hev.2.2 p.obj { i1 with cas := cas }
            (by simp [World.setInst, hlt])
          exact ⟨o1, ho1, by rw [hio.2.2.1]; exact hjl, hio.2.1⟩
        · intro x xi hne hxi
          have hx1 : (w1.setInst p.obj { i1 with cas := cas }).heap[x]? = some xi := by
            rw [setInitial_other w1 p.obj x _ hne, s2 x hne (getElem?_lt _ _ _ hxi)]
            exact hxi
          obtain ⟨xj, hxj, hij⟩ := hev.2.2 x xi hx1
          exact ⟨xj, hxj, hij.2.2.1, hij.2.1⟩

/-- C8, witness: the placeholder for `person_1` is fetched, the store answers with the
document of Bob and the token 7; Bob is then renamed and saved, and the write for
`person_1` carries the token 7. -/
theorem load_records_token_witness :
    (∃ o1, loadAnswered.w.heap[0]? = some o1 ∧ o1.loaded = true ∧ o1.cas = .prim (.num 7)) ∧
    (∃ st2, save demoEnv 3 renamedWorld 0 true = .ok st2 ∧
      (∀ c ∈ st2.sets, c.cas = .prim (.num 7)) ∧
      ∃ s ∈ st2.sets, s.key = .prim (.str "person_1") ∧ s.doc = robDoc ∧
        s.cas = .prim (.num 7)) :=
  have h := load_records_token demoEnv demoEnv_wf 3 loadPending 0
    { obj := 0, key := .prim (.str "person_1"), bucket := "default", depthLeft := 1,
      callback := .user }
    bobDoc (.prim (.num 7)) loadAnswered rfl loadAnswer
  ⟨h.1, _, renamedSave,
   h.2.2.1 3 renamedWorld _ true _ rfl rfl renamedSave,
   h.2.2.2 3 renamedWorld _ true _ (.prim (.str "person_1")) renamedWorld robDoc renamedWorld
     [0] _ rfl rfl rfl (by decide) (by decide) rfl (by decide) renamedSave⟩

/-- C8 fails as stated: the store answers the `bucket.get` for the placeholder of
`person_1` with a document and the token 7, and the document is one of a `Person` whose
`name` is an object.  `obxToObj_Otto_Load` marks the placeholder loaded and then throws
in the loop over the schema, at the first field, whose decoding changes nothing before
it throws; the callback ends there, `$cas` is never assigned, and the instance is loaded
with the token `null`. -/
theorem load_records_token_counterexample :
    (loadPending.w.heap[0]?).map (fun o => (o.loaded, o.cas)) = some (false, .prim .null) ∧
    getCallback demoEnv 3 loadPending 0 (.prim .null)
        (.obj [("value", badDoc), ("cas", .prim (.num 7))])
      = .error (.thrown "core type is an object") ∧
    markLoaded demoEnv loadPending.w 0 badDoc = .ok markedWorld ∧
    obxToObj_Otto_Load demoEnv (obxToObj demoEnv 3) loadPending.w 0 badDoc 0 (some 0)
      = decodeFields (obxToObj demoEnv 3) 0 badDoc 0 (some 0) personInfo.schema markedWorld ∧
    obxToObj demoEnv 3 markedWorld (badDoc.get "name") "string" [] 1 (some 0) (.prim .null)
      = .error (.thrown "core type is an object") ∧
    (markedWorld.heap[0]?).map (fun o => (o.loaded, o.cas)) = some (true, .prim .null) := by
  refine ⟨by decide, by decide, by decide, by decide, by decide, by decide⟩

/-- C10 (as the code has it): the inner `_load` with `depthLeft = 0` issues no
`bucket.get` and runs its callback once, with `null`, whatever the root is, and changes
nothing else; the public `load` never passes 0: a depth of 0, like a missing depth,
becomes 1. -/
theorem load_depth_zero (E : Env) (n : Nat) (w : World) (obj : Val) :
    _load E (n + 1) (LoadState.init w) obj 0 .user
      = .ok { LoadState.init w with called := [.prim .null] } ∧
    load E n w obj (some 0) = load E n w obj (some 1) ∧
    load E n w obj none = load E n w obj (some 1) := by
  refine ⟨?_, rfl, rfl⟩
  simp [_load, invoke, LoadState.init]

/-- C10, counterexample: `load(p, {depth: 0}, callback)` on an unloaded placeholder
issues a `bucket.get` for its key and has not run the callback when it returns. -/
theorem load_depth_zero_counterexample :
    (load demoEnv 2 unloadedWorld (.inst 0) (some 0)).map (fun st => (st.gets, st.called))
      = .ok ([("default", .prim (.str "person_1"))], []) := by
  have h : load demoEnv 2 unloadedWorld (.inst 0) (some 0)
      = load demoEnv 2 unloadedWorld (.inst 0) none := rfl
  rw [h, loadStart]
  rfl

/-! ## C1: the round trip -/

/-! ## The encoder on graphs that are trees -/

theorem trimUndefined_id {α : Type} (p : α → Bool) (os : List α)
    (h : ∀ o ∈ os, p o = false) : trimUndefined p os = os := by
  induction os with
  | nil => rfl
  | cons o os ih =>
    have h1 := ih (fun x hx => h x (List.mem_cons_of_mem _ hx))
    simp only [trimUndefined, h1]
    cases os with
    | nil => simp [h o (List.mem_cons_self _ _)]
    | cons o2 os2 => rfl

theorem range_map_getD {α : Type} (xs : List α) (d : α) :
    (List.range xs.length).map (fun i => xs.getD i d) = xs := by
  apply List.ext_getElem
  · simp
  · intro n h1 h2
    simp [List.getD_eq_getElem?_getD, List.getElem?_eq_getElem h2]

theorem setProp_new {α : Type} (out : List (String × α)) (k : String) (v : α)
    (h : k ∉ out.map Prod.fst) : setProp out k v = out ++ [(k, v)] := by
  induction out with
  | nil => rfl
  | cons a as ih =>
    obtain ⟨k0, v0⟩ := a
    simp only [List.map_cons, List.mem_cons, not_or] at h
    have hne : ¬ k0 = k := fun e => h.1 e.symm
    simp [setProp, hne, ih h.2]

theorem encodeFields_agrees (w : World) (rec : EncFn) (prec : PureEnc) (rf : Val → Option Deep)
    (hA : EncAgrees w rec prec rf) (r depth : Nat) (i : Inst) (vals : List (String × Val))
    (hi : w.heap[r]? = some i) (hv : i.values = some vals) (fs : List Field) :
    ∀ (fields : List (String × Deep)) (res out : List (String × Obx)) (refs : List Nat),
      reifyFields rf vals fs = some fields → pureFields prec depth fs fields = some res →
      encodeFields rec r depth fs w refs out = .ok (storeAll out res, w, refs) := by
  induction fs with
  | nil =>
    intro fields res out refs h1 h2
    simp only [reifyFields, Option.some.injEq] at h1
    subst h1
    simp only [pureFields, Option.some.injEq] at h2
    subst h2
    rfl
  | cons f fs ih =>
    intro fields res out refs h1 h2
    simp only [reifyFields] at h1
    cases hr : rf ((lookupProp vals f.name).getD (.prim .undefined)) with
    | none => rw [hr] at h1; cases h1
    | some d0 =>
      rw [hr] at h1
      simp only [] at h1
      cases hrest : reifyFields rf vals fs with
      | none => rw [hrest] at h1; cases h1
      | some ds =>
        rw [hrest] at h1
        simp only [Option.some.injEq] at h1
        subst h1
        simp only [pureFields, if_true] at h2
        cases hp : prec d0 f.type f.subtypes (depth + 1) with
        | none => rw [hp] at h2; cases h2
        | some o =>
          rw [hp] at h2
          simp only [] at h2
          cases hpr : pureFields prec depth fs ds with
          | none => rw [hpr] at h2; cases h2
          | some os =>
            rw [hpr] at h2
            simp only [Option.some.injEq] at h2
            subst h2
            simp only [encodeFields, hi, Option.some_bind, hv]
            rw [hA _ _ _ _ _ _ refs hr hp]
            simp only []
            rw [ih ds os _ refs hrest hpr]
            simp [storeAll]

theorem encodeElems_agrees (w : World) (rec : EncFn) (prec : PureEnc) (rf : Val → Option Deep)
    (hA : EncAgrees w rec prec rf) (sub : String) (subs : List String) (depth : Nat)
    (xs : List Val) :
    ∀ (ds : List Deep) (os : List Obx) (refs : List Nat),
      reifyList rf xs = some ds → pureElems prec sub subs depth ds = some os →
      encodeElems rec sub subs depth xs w refs = .ok (os, w, refs) ∧
        ∀ o ∈ os, o.isUndefined = false := by
  induction xs with
  | nil =>
    intro ds os refs h1 h2
    simp only [reifyList, Option.some.injEq] at h1
    subst h1
    simp only [pureElems, Option.some.injEq] at h2
    subst h2
    exact ⟨rfl, by simp⟩
  | cons x xs ih =>
    intro ds os refs h1 h2
    simp only [reifyList] at h1
    cases hr : rf x with
    | none => rw [hr] at h1; cases h1
    | some d0 =>
      rw [hr] at h1
      simp only [] at h1
      cases hrest : reifyList rf xs with
      | none => rw [hrest] at h1; cases h1
      | some ds2 =>
        rw [hrest] at h1
        simp only [Option.some.injEq] at h1
        subst h1
        simp only [pureElems] at h2
        cases hp : prec d0 sub subs (depth + 1) with
        | none => rw [hp] at h2; cases h2
        | some o =>
          rw [hp] at h2
          simp only [] at h2
          by_cases hu : o.isUndefined = true
          · rw [if_pos hu] at h2; cases h2
          · rw [if_neg hu] at h2
            cases hpr : pureElems prec sub subs depth ds2 with
            | none => rw [hpr] at h2; cases h2
            | some os2 =>
              rw [hpr] at h2
              simp only [Option.some.injEq] at h2
              subst h2
              obtain ⟨e1, e2⟩ := ih ds2 os2 refs hrest hpr
              simp only [encodeElems]
              rw [hA _ _ _ _ _ _ refs hr hp]
              simp only []
              rw [e1]
              refine ⟨rfl, ?_⟩
              intro o2 ho2
              rcases List.mem_cons.1 ho2 with h3 | h3
              · rw [h3]; simpa using hu
              · exact e2 o2 h3

theorem reifyEntries_keys (rf : Val → Option Deep) (kvs : List (String × Val)) :
    ∀ ds, reifyEntries rf kvs = some ds → ds.map Prod.fst = kvs.map Prod.fst := by
  induction kvs with
  | nil =>
    intro ds h
    simp only [reifyEntries, Option.some.injEq] at h
    subst h; rfl
  | cons kx xs ih =>
    obtain ⟨k, x⟩ := kx
    intro ds h
    simp only [reifyEntries] at h
    cases hr : rf x with
    | none => rw [hr] at h; cases h
    | some d0 =>
      rw [hr] at h
      simp only [] at h
      cases hrest : reifyEntries rf xs with
      | none => rw [hrest] at h; cases h
      | some ds2 =>
        rw [hrest] at h
        simp only [Option.some.injEq] at h
        subst h
        simp [ih ds2 hrest]

theorem pureEntries_keys (prec : PureEnc) (sub : String) (subs : List String) (depth : Nat)
    (ds : List (String × Deep)) :
    ∀ os, pureEntries prec sub subs depth ds = some os → os.map Prod.fst = ds.map Prod.fst := by
  induction ds with
  | nil =>
    intro os h
    simp only [pureEntries, Option.some.injEq] at h
    subst h; rfl
  | cons kx xs ih =>
    obtain ⟨k, x⟩ := kx
    intro os h
    simp only [pureEntries] at h
    cases hp : prec x sub subs (depth + 1) with
    | none => rw [hp] at h; cases h
    | some o =>
      rw [hp] at h
      simp only [] at h
      by_cases hu : o.isUndefined = true
      · rw [if_pos hu] at h; cases h
      · rw [if_neg hu] at h
        cases hrest : pureEntries prec sub subs depth xs with
        | none => rw [hrest] at h; cases h
        | some os2 =>
          rw [hrest] at h
          simp only [Option.some.injEq] at h
          subst h
          simp [ih os2 hrest]

theorem encodeEntries_agrees (w : World) (rec : EncFn) (prec : PureEnc)
    (rf : Val → Option Deep) (hA : EncAgrees w rec prec rf) (sub : String)
    (subs : List String) (depth : Nat) (kvs : List (String × Val)) :
    ∀ (ds : List (String × Deep)) (os out : List (String × Obx)) (refs : List Nat),
      reifyEntries rf kvs = some ds → pureEntries prec sub subs depth ds = some os →
      (kvs.map Prod.fst).Nodup → (∀ k ∈ kvs.map Prod.fst, k ∉ out.map Prod.fst) →
      encodeEntries rec sub subs depth kvs w refs out = .ok (out ++ os, w, refs) := by
  induction kvs with
  | nil =>
    intro ds os out refs h1 h2 _ _
    simp only [reifyEntries, Option.some.injEq] at h1
    subst h1
    simp only [pureEntries, Option.some.injEq] at h2
    subst h2
    simp [encodeEntries]
  | cons kx xs ih =>
    obtain ⟨k, x⟩ := kx
    intro ds os out refs h1 h2 hnd hdis
    simp only [reifyEntries] at h1
    cases hr : rf x with
    | none => rw [hr] at h1; cases h1
    | some d0 =>
      rw [hr] at h1
      simp only [] at h1
      cases hrest : reifyEntries rf xs with
      | none => rw [hrest] at h1; cases h1
      | some ds2 =>
        rw [hrest] at h1
        simp only [Option.some.injEq] at h1
        subst h1
        simp only [pureEntries] at h2
        cases hp : prec d0 sub subs (depth + 1) with
        | none => rw [hp] at h2; cases h2
        | some o =>
          rw [hp] at h2
          simp only [] at h2
          by_cases hu : o.isUndefined = true
          · rw [if_pos hu] at h2; cases h2
          · rw [if_neg hu] at h2
            cases hpr : pureEntries prec sub subs depth ds2 with
            | none => rw [hpr] at h2; cases h2
            | some os2 =>
              rw [hpr] at h2
              simp only [Option.some.injEq] at h2
              subst h2
              simp only [List.map_cons, List.nodup_cons] at hnd
              simp only [encodeEntries]
              rw [hA _ _ _ _ _ _ refs hr hp]
              simp only [hu, Bool.false_eq_true, if_false]
              have hk : k ∉ out.map Prod.fst := hdis k (by simp)
              rw [setProp_new out k o hk]
              rw [ih ds2 os2 _ refs hrest hpr hnd.2]
              · simp
              · intro k2 hk2
                simp only [List.map_append, List.map_cons, List.map_nil, List.mem_append,
                  List.mem_singleton, not_or]
                refine ⟨hdis k2 (by simp [hk2]), ?_⟩
                intro e
                rw [e] at hk2
                exact hnd.1 hk2

theorem objToObx_Otto_agrees (E : Env) (w : World) (rec : EncFn) (prec : PureEnc)
    (rf : Val → Option Deep) (hA : EncAgrees w rec prec rf) (r : Nat) (i : Inst)
    (info0 : TypeInfo) (vals : List (String × Val)) (fields : List (String × Deep))
    (hi : w.heap[r]? = some i) (hl : E.lookup i.type = some info0) (hv : i.values = some vals)
    (hf : reifyFields rf vals info0.schema = some fields) (typeName : String) (depth : Nat)
    (doc : Obx) (refs : List Nat)
    (hp : pureOtto E prec (.inst i.type fields) typeName depth = some doc) :
    objToObx_Otto E rec w refs (.inst r) typeName depth = .ok (doc, w, refs) := by
  unfold pureOtto at hp
  cases hlt : E.lookup typeName with
  | none => rw [hlt] at hp; cases hp
  | some info =>
    rw [hlt] at hp
    simp only [] at hp
    by_cases hc : i.type = typeName ∧ typeName ≠ "" ∧ (depth = 0 ∨ info.embed = true)
    · rw [if_pos hc] at hp
      obtain ⟨hty, _, hde⟩ := hc
      have hinfo : info0 = info := by
        rw [hty, hlt] at hl
        exact (Option.some.inj hl).symm
      subst hinfo
      cases hpf : pureFields prec depth info0.schema fields with
      | none => rw [hpf] at hp; cases hp
      | some res =>
        rw [hpf] at hp
        simp only [] at hp
        split at hp
        · simp only [Option.some.injEq] at hp
          have hnot : ¬ (depth > 0 ∧ info0.embed = false) := by
            rintro ⟨h1, h2⟩
            rcases hde with h3 | h3
            · omega
            · rw [h3] at h2; cases h2
          simp only [objToObx_Otto, hlt, hi, hty, ne_eq, not_true_eq_false, if_false, hnot]
          rw [encodeFields_agrees w rec prec rf hA r depth i vals hi hv info0.schema fields res []
            refs hf hpf]
          simp only [hp]
        · cases hp
    · rw [if_neg hc] at hp; cases hp

theorem objToObx_List_agrees (E : Env) (w : World) (rec : EncFn) (prec : PureEnc)
    (rf : Val → Option Deep) (hA : EncAgrees w rec prec rf) (xs : List Val) (ds : List Deep)
    (hr : reifyList rf xs = some ds) (subtypeNames : List String) (depth : Nat) (doc : Obx)
    (refs : List Nat) (hp : pureList prec (.arr ds) subtypeNames depth = some doc) :
    objToObx_List E rec w refs (.arr xs) subtypeNames depth = .ok (doc, w, refs) := by
  simp only [pureList] at hp
  cases hpe : pureElems prec ((defaultSubtypes subtypeNames).headD "Mixed")
      (defaultSubtypes subtypeNames).tail depth ds with
  | none => rw [hpe] at hp; cases hp
  | some os =>
    rw [hpe] at hp
    simp only [Option.map_some', Option.some.injEq] at hp
    obtain ⟨e1, e2⟩ := encodeElems_agrees w rec prec rf hA _ _ depth xs ds os refs hr hpe
    have hel : (Val.arr xs).elems E = xs := by
      simp only [Val.elems, loopLength, Val.at]
      exact range_map_getD xs _
    simp only [objToObx_List, hel, e1, trimUndefined_id _ os e2, hp]

theorem objToObx_Map_agrees (w : World) (rec : EncFn) (prec : PureEnc)
    (rf : Val → Option Deep) (hA : EncAgrees w rec prec rf) (kvs : List (String × Val))
    (ds : List (String × Deep)) (hr : reifyEntries rf kvs = some ds)
    (subtypeNames : List String) (depth : Nat) (doc : Obx) (refs : List Nat)
    (hp : pureMap prec (.map ds) subtypeNames depth = some doc) :
    objToObx_Map rec w refs (.map kvs) subtypeNames depth = .ok (doc, w, refs) := by
  simp only [pureMap] at hp
  by_cases hnd : (ds.map Prod.fst).Nodup
  · rw [if_pos hnd] at hp
    cases hpe : pureEntries prec ((defaultSubtypes subtypeNames).headD "Mixed")
        (defaultSubtypes subtypeNames).tail depth ds with
    | none => rw [hpe] at hp; cases hp
    | some os =>
      rw [hpe] at hp
      simp only [Option.map_some', Option.some.injEq] at hp
      rw [reifyEntries_keys rf kvs ds hr] at hnd
      have e1 := encodeEntries_agrees w rec prec rf hA _ _ depth kvs ds os [] refs hr hpe hnd
        (by simp)
      simp only [objToObx_Map, Val.entries, e1, List.nil_append, hp]
  · rw [if_neg hnd] at hp; cases hp

theorem objToObx_agrees (E : Env) (k : Nat) (w : World) :
    ∀ n, EncAgrees w (objToObx E n) (encodeDeep E n) (reifyAbove E k n w) := by
  intro n
  induction n with
  | zero =>
    intro v D t s d doc refs h1 _
    simp [reifyAbove] at h1
  | succ n ih =>
    intro v D t s d doc refs h1 h2
    simp only [objToObx]
    simp only [encodeDeep] at h2
    generalize (if t = "" then "Mixed" else t) = tn at h2
    cases v with
    | prim p =>
      simp only [reifyAbove, Option.some.injEq] at h1
      subst h1
      cases p with
      | undefined => simp only [Option.some.injEq] at h2; simp [h2]
      | null => simp only [Option.some.injEq] at h2; simp [h2]
      | bool b =>
        simp only [pureOtto, pureList, pureMap, pureMixed] at h2
        simp only [objToObx_Mixed, isOttoObj, Bool.false_eq_true, if_false]
        by_cases c1 : (E.lookup tn).isSome = true
        · rw [if_pos c1] at h2
          cases hl : E.lookup tn with
          | none => rw [hl] at c1; cases c1
          | some info => rw [hl] at h2; cases h2
        · rw [if_neg c1] at h2 ⊢
          by_cases c2 : tn = "List"
          · rw [if_pos c2] at h2; cases h2
          · rw [if_neg c2] at h2 ⊢
            by_cases c3 : tn = "Map"
            · rw [if_pos c3] at h2; cases h2
            · rw [if_neg c3] at h2 ⊢
              by_cases c4 : tn = "Mixed"
              · rw [if_pos c4] at h2 ⊢
                simp only [Option.some.injEq] at h2
                rw [h2]
              · rw [if_neg c4] at h2 ⊢
                by_cases c5 : CORETYPES.contains tn = true
                · rw [if_pos c5] at h2 ⊢
                  simp only [Option.some.injEq] at h2
                  rw [h2]
                · rw [if_neg c5] at h2; cases h2
      | num z =>
        simp only [pureOtto, pureList, pureMap, pureMixed] at h2
        simp only [objToObx_Mixed, isOttoObj, Bool.false_eq_true, if_false]
        by_cases c1 : (E.lookup tn).isSome = true
        · rw [if_pos c1] at h2
          cases hl : E.lookup tn with
          | none => rw [hl] at c1; cases c1
          | some info => rw [hl] at h2; cases h2
        · rw [if_neg c1] at h2 ⊢
          by_cases c2 : tn = "List"
          · rw [if_pos c2] at h2; cases h2
          · rw [if_neg c2] at h2 ⊢
            by_cases c3 : tn = "Map"
            · rw [if_pos c3] at h2; cases h2
            · rw [if_neg c3] at h2 ⊢
              by_cases c4 : tn = "Mixed"
              · rw [if_pos c4] at h2 ⊢
                simp only [Option.some.injEq] at h2
                rw [h2]
              · rw [if_neg c4] at h2 ⊢
                by_cases c5 : CORETYPES.contains tn = true
                · rw [if_pos c5] at h2 ⊢
                  simp only [Option.some.injEq] at h2
                  rw [h2]
                · rw [if_neg c5] at h2; cases h2
      | str z =>
        simp only [pureOtto, pureList, pureMap, pureMixed] at h2
        simp only [objToObx_Mixed, isOttoObj, Bool.false_eq_true, if_false]
        by_cases c1 : (E.lookup tn).isSome = true
        · rw [if_pos c1] at h2
          cases hl : E.lookup tn with
          | none => rw [hl] at c1; cases c1
          | some info => rw [hl] at h2; cases h2
        · rw [if_neg c1] at h2 ⊢
          by_cases c2 : tn = "List"
          · rw [if_pos c2] at h2; cases h2
          · rw [if_neg c2] at h2 ⊢
            by_cases c3 : tn = "Map"
            · rw [if_pos c3] at h2; cases h2
            · rw [if_neg c3] at h2 ⊢
              by_cases c4 : tn = "Mixed"
              · rw [if_pos c4] at h2 ⊢
                simp only [Option.some.injEq] at h2
                rw [h2]
              · rw [if_neg c4] at h2 ⊢
                by_cases c5 : CORETYPES.contains tn = true
                · rw [if_pos c5] at h2 ⊢
                  simp only [Option.some.injEq] at h2
                  rw [h2]
                · rw [if_neg c5] at h2; cases h2
    | arr xs =>
      simp only [reifyAbove] at h1
      cases hr : reifyList (reifyAbove E k n w) xs with
      | none => rw [hr] at h1; cases h1
      | some ds =>
        rw [hr] at h1
        simp only [Option.map_some', Option.some.injEq] at h1
        subst h1
        simp only [] at h2
        by_cases c1 : (E.lookup tn).isSome = true
        · rw [if_pos c1] at h2
          simp only [pureOtto] at h2
          cases hl : E.lookup tn with
          | none => rw [hl] at c1; cases c1
          | some info => rw [hl] at h2; cases h2
        · rw [if_neg c1] at h2 ⊢
          by_cases c2 : tn = "List"
          · rw [if_pos c2] at h2 ⊢
            exact objToObx_List_agrees E w _ _ _ ih xs ds hr s d doc refs h2
          · rw [if_neg c2] at h2 ⊢
            by_cases c3 : tn = "Map"
            · rw [if_pos c3] at h2; simp [pureMap] at h2
            · rw [if_neg c3] at h2 ⊢
              by_cases c4 : tn = "Mixed"
              · rw [if_pos c4] at h2 ⊢
                simp only [pureMixed] at h2
                cases hpl : pureList (encodeDeep E n) (.arr ds) [] d with
                | none => rw [hpl] at h2; cases h2
                | some doc2 =>
                  rw [hpl] at h2
                  simp only [] at h2
                  split at h2
                  · cases h2
                  · simp only [Option.some.injEq] at h2
                    subst h2
                    simp only [objToObx_Mixed, isOttoObj, Bool.false_eq_true, if_false]
                    exact objToObx_List_agrees E w _ _ _ ih xs ds hr [] d doc2 refs hpl
              · rw [if_neg c4] at h2 ⊢
                by_cases c5 : CORETYPES.contains tn = true
                · rw [if_pos c5] at h2; cases h2
                · rw [if_neg c5] at h2; cases h2
    | map kvs =>
      simp only [reifyAbove] at h1
      cases hr : reifyEntries (reifyAbove E k n w) kvs with
      | none => rw [hr] at h1; cases h1
      | some ds =>
        rw [hr] at h1
        simp only [Option.map_some', Option.some.injEq] at h1
        subst h1
        simp only [] at h2
        by_cases c1 : (E.lookup tn).isSome = true
        · rw [if_pos c1] at h2
          simp only [pureOtto] at h2
          cases hl : E.lookup tn with
          | none => rw [hl] at c1; cases c1
          | some info => rw [hl] at h2; cases h2
        · rw [if_neg c1] at h2 ⊢
          by_cases c2 : tn = "List"
          · rw [if_pos c2] at h2; simp [pureList] at h2
          · rw [if_neg c2] at h2 ⊢
            by_cases c3 : tn = "Map"
            · rw [if_pos c3] at h2 ⊢
              exact objToObx_Map_agrees w _ _ _ ih kvs ds hr s d doc refs h2
            · rw [if_neg c3] at h2 ⊢
              by_cases c4 : tn = "Mixed"
              · rw [if_pos c4] at h2 ⊢
                simp only [pureMixed] at h2
                cases hpl : pureMap (encodeDeep E n) (.map ds) [] d with
                | none => rw [hpl] at h2; cases h2
                | some doc2 =>
                  rw [hpl] at h2
                  simp only [] at h2
                  split at h2
                  · cases h2
                  · simp only [Option.some.injEq] at h2
                    subst h2
                    simp only [objToObx_Mixed, isOttoObj, Bool.false_eq_true, if_false]
                    exact objToObx_Map_agrees w _ _ _ ih kvs ds hr [] d doc2 refs hpl
              · rw [if_neg c4] at h2 ⊢
                by_cases c5 : CORETYPES.contains tn = true
                · rw [if_pos c5] at h2; cases h2
                · rw [if_neg c5] at h2; cases h2
    | inst r =>
      simp only [reifyAbove] at h1
      by_cases hk : r < k
      · rw [if_pos hk] at h1; cases h1
      · rw [if_neg hk] at h1
        cases hi : w.heap[r]? with
        | none => rw [hi] at h1; cases h1
        | some i =>
          rw [hi] at h1
          simp only [] at h1
          cases hl : E.lookup i.type with
          | none => rw [hl] at h1; cases h1
          | some info0 =>
            rw [hl] at h1
            simp only [] at h1
            cases hv : i.values with
            | none => rw [hv] at h1; cases h1
            | some vals =>
              rw [hv] at h1
              simp only [] at h1
              cases hf : reifyFields (reifyAbove E k n w) vals info0.schema with
              | none => rw [hf] at h1; cases h1
              | some fields =>
                rw [hf] at h1
                simp only [Option.map_some', Option.some.injEq] at h1
                subst h1
                simp only [] at h2
                by_cases c1 : (E.lookup tn).isSome = true
                · rw [if_pos c1] at h2 ⊢
                  exact objToObx_Otto_agrees E w _ _ _ ih r i info0 vals fields hi hl hv hf tn d
                    doc refs h2
                · rw [if_neg c1] at h2 ⊢
                  by_cases c2 : tn = "List"
                  · rw [if_pos c2] at h2; simp [pureList] at h2
                  · rw [if_neg c2] at h2 ⊢
                    by_cases c3 : tn = "Map"
                    · rw [if_pos c3] at h2; simp [pureMap] at h2
                    · rw [if_neg c3] at h2 ⊢
                      by_cases c4 : tn = "Mixed"
                      · rw [if_pos c4] at h2 ⊢
                        simp only [pureMixed] at h2
                        have ho : isOttoObj E w (.inst r) = true := by
                          simp [isOttoObj, hi, hl]
                        have htn : typeNameOf w (.inst r) = i.type := by
                          simp [typeNameOf, hi]
                        simp only [objToObx_Mixed, ho, if_true, htn]
                        exact objToObx_Otto_agrees E w _ _ _ ih r i info0 vals fields hi hl hv
                          hf i.type d doc refs h2
                      · rw [if_neg c4] at h2 ⊢
                        by_cases c5 : CORETYPES.contains tn = true
                        · rw [if_pos c5] at h2; cases h2
                        · rw [if_neg c5] at h2; cases h2

/-! ## The tree of a value under changes of the state -/

theorem reifyList_mono (rf rg : Val → Option Deep) (xs : List Val)
    (h : ∀ v D, rf v = some D → rg v = some D) :
    ∀ ds, reifyList rf xs = some ds → reifyList rg xs = some ds := by
  induction xs with
  | nil => intro ds h1; exact h1
  | cons x xs ih =>
    intro ds h1
    simp only [reifyList] at h1 ⊢
    cases hr : rf x with
    | none => rw [hr] at h1; cases h1
    | some d0 =>
      rw [hr] at h1
      simp only [] at h1
      cases hrest : reifyList rf xs with
      | none => rw [hrest] at h1; cases h1
      | some ds2 =>
        rw [hrest] at h1
        rw [h x d0 hr, ih ds2 hrest]
        exact h1

theorem reifyEntries_mono (rf rg : Val → Option Deep) (kvs : List (String × Val))
    (h : ∀ v D, rf v = some D → rg v = some D) :
    ∀ ds, reifyEntries rf kvs = some ds → reifyEntries rg kvs = some ds := by
  induction kvs with
  | nil => intro ds h1; exact h1
  | cons kx xs ih =>
    obtain ⟨k, x⟩ := kx
    intro ds h1
    simp only [reifyEntries] at h1 ⊢
    cases hr : rf x with
    | none => rw [hr] at h1; cases h1
    | some d0 =>
      rw [hr] at h1
      simp only [] at h1
      cases hrest : reifyEntries rf xs with
      | none => rw [hrest] at h1; cases h1
      | some ds2 =>
        rw [hrest] at h1
        rw [h x d0 hr, ih ds2 hrest]
        exact h1

theorem reifyFields_mono (rf rg : Val → Option Deep) (vals : List (String × Val))
    (fs : List Field) (h : ∀ v D, rf v = some D → rg v = some D) :
    ∀ ds, reifyFields rf vals fs = some ds → reifyFields rg vals fs = some ds := by
  induction fs with
  | nil => intro ds h1; exact h1
  | cons f fs ih =>
    intro ds h1
    simp only [reifyFields] at h1 ⊢
    cases hr : rf ((lookupProp vals f.name).getD (.prim .undefined)) with
    | none => rw [hr] at h1; cases h1
    | some d0 =>
      rw [hr] at h1
      simp only [] at h1
      cases hrest : reifyFields rf vals fs with
      | none => rw [hrest] at h1; cases h1
      | some ds2 =>
        rw [hrest] at h1
        rw [h _ d0 hr, ih ds2 hrest]
        exact h1

/-- The tree of a value depends only on the instances at the addresses from `k` on; and
the bound `k` may be lowered. -/
theorem reifyAbove_frame (E : Env) (k k2 : Nat) (w w2 : World) (hk : k2 ≤ k)
    (hw : ∀ r : Nat, k ≤ r → r < w.heap.length → w2.heap[r]? = w.heap[r]?) :
    ∀ n v D, reifyAbove E k n w v = some D → reifyAbove E k2 n w2 v = some D := by
  intro n
  induction n with
  | zero => intro v D h; simp [reifyAbove] at h
  | succ n ih =>
    intro v D h
    cases v with
    | prim p => simpa [reifyAbove] using h
    | arr xs =>
      simp only [reifyAbove] at h ⊢
      cases hr : reifyList (reifyAbove E k n w) xs with
      | none => rw [hr] at h; cases h
      | some ds =>
        rw [hr] at h
        rw [reifyList_mono _ _ xs ih ds hr]
        exact h
    | map kvs =>
      simp only [reifyAbove] at h ⊢
      cases hr : reifyEntries (reifyAbove E k n w) kvs with
      | none => rw [hr] at h; cases h
      | some ds =>
        rw [hr] at h
        rw [reifyEntries_mono _ _ kvs ih ds hr]
        exact h
    | inst r =>
      simp only [reifyAbove] at h ⊢
      by_cases hrk : r < k
      · rw [if_pos hrk] at h; cases h
      · rw [if_neg hrk] at h
        have hrk2 : ¬ r < k2 := by omega
        rw [if_neg hrk2]
        cases hi : w.heap[r]? with
        | none => rw [hi] at h; cases h
        | some i =>
          rw [hi] at h
          have h2 : w2.heap[r]? = some i := by
            rw [hw r (by omega) (getElem?_lt _ _ _ hi)]
            exact hi
          rw [h2]
          simp only [] at h ⊢
          cases hl : E.lookup i.type with
          | none => rw [hl] at h; cases h
          | some info =>
            rw [hl] at h
            simp only [] at h ⊢
            cases hv : i.values with
            | none => rw [hv] at h; cases h
            | some vals =>
              rw [hv] at h
              simp only [] at h ⊢
              cases hf : reifyFields (reifyAbove E k n w) vals info.schema with
              | none => rw [hf] at h; cases h
              | some fields =>
                rw [hf] at h
                rw [reifyFields_mono _ _ vals info.schema ih fields hf]
                exact h

theorem reifyAbove_keepsOld (E : Env) (k k2 : Nat) (w w2 : World) (hk : k2 ≤ k)
    (hw : KeepsOld w w2) (n : Nat) (v : Val) (D : Deep)
    (h : reifyAbove E k n w v = some D) : reifyAbove E k2 n w2 v = some D :=
  reifyAbove_frame E k k2 w w2 hk (fun r _ hr => hw.2 r hr) n v D h

theorem reifyAbove_prim (E : Env) (k n : Nat) (w : World) (p : Prim) (D : Deep)
    (h : reifyAbove E k n w (.prim p) = some D) : D = .prim p := by
  cases n with
  | zero => simp [reifyAbove] at h
  | succ n => simp only [reifyAbove, Option.some.injEq] at h; exact h.symm

theorem isUndefined_eq (v : Val) (h : v.isUndefined = true) : v = .prim .undefined := by
  cases v with
  | prim p => cases p <;> simp [Val.isUndefined] at h ⊢
  | arr xs => simp [Val.isUndefined] at h
  | map kvs => simp [Val.isUndefined] at h
  | inst r => simp [Val.isUndefined] at h

/-! ## Decoding the document of a tree -/

theorem decodeElems_inverts (E : Env) (n : Nat) (hB : DecInverts E n) (k : Nat) (w : World)
    (sub : String) (subs : List String) (d : Nat) (xs : List Val) :
    ∀ (ds : List Deep) (os : List Obx),
      reifyList (reifyAbove E k n w) xs = some ds →
      pureElems (encodeDeep E n) sub subs d ds = some os →
      ∀ (w0 : World) (c : Option Nat) (dd : Nat), ∃ vs w1,
        decodeElems (obxToObj E n) sub subs dd c os w0 = .ok (vs, w1) ∧ KeepsOld w0 w1 ∧
        reifyList (reifyAbove E w0.heap.length n w1) vs = some ds ∧
        ∀ v ∈ vs, v.isUndefined = false := by
  induction xs with
  | nil =>
    intro ds os h1 h2 w0 c dd
    simp only [reifyList, Option.some.injEq] at h1
    subst h1
    simp only [pureElems, Option.some.injEq] at h2
    subst h2
    exact ⟨[], w0, rfl, keepsOld_refl _, rfl, by simp⟩
  | cons x xs ih =>
    intro ds os h1 h2 w0 c dd
    simp only [reifyList] at h1
    cases hr : reifyAbove E k n w x with
    | none => rw [hr] at h1; cases h1
    | some d0 =>
      rw [hr] at h1
      simp only [] at h1
      cases hrest : reifyList (reifyAbove E k n w) xs with
      | none => rw [hrest] at h1; cases h1
      | some ds2 =>
        rw [hrest] at h1
        simp only [Option.some.injEq] at h1
        subst h1
        simp only [pureElems] at h2
        cases hp : encodeDeep E n d0 sub subs (d + 1) with
        | none => rw [hp] at h2; cases h2
        | some o =>
          rw [hp] at h2
          simp only [] at h2
          by_cases hu : o.isUndefined = true
          · rw [if_pos hu] at h2; cases h2
          · rw [if_neg hu] at h2
            cases hpr : pureElems (encodeDeep E n) sub subs d ds2 with
            | none => rw [hpr] at h2; cases h2
            | some os2 =>
              rw [hpr] at h2
              simp only [Option.some.injEq] at h2
              subst h2
              obtain ⟨v2, wa, e1, e2, e3⟩ := hB k w x d0 sub subs (d + 1) o hr hp w0 c (dd + 1)
              have ka : KeepsOld w0 wa := obxToObj_sound E n _ _ _ _ _ _ _ _ _ e1
              obtain ⟨vs, w1, f1, f2, f3, f4⟩ := ih ds2 os2 hrest hpr wa c dd
              refine ⟨v2 :: vs, w1, ?_, keepsOld_trans _ _ _ ka f2, ?_, ?_⟩
              · simp only [decodeElems, e1, f1]
              · simp only [reifyList]
                rw [reifyAbove_keepsOld E _ _ wa w1 (le_refl _) f2 n v2 d0 e2]
                simp only []
                rw [reifyList_mono _ _ vs
                  (reifyAbove_frame E wa.heap.length w0.heap.length w1 w1 ka.1
                    (fun _ _ _ => rfl) n) ds2 f3]
              · intro v hv
                rcases List.mem_cons.1 hv with h3 | h3
                · rw [h3, e3]; simpa using hu
                · exact f4 v h3

theorem decodeEntries_inverts (E : Env) (n : Nat) (hB : DecInverts E n) (k : Nat) (w : World)
    (sub : String) (subs : List String) (d : Nat) (kvs : List (String × Val)) :
    ∀ (ds : List (String × Deep)) (os : List (String × Obx)),
      reifyEntries (reifyAbove E k n w) kvs = some ds →
      pureEntries (encodeDeep E n) sub subs d ds = some os →
      (os.map Prod.fst).Nodup →
      ∀ (w0 : World) (c : Option Nat) (dd : Nat) (out : List (String × Val)),
        (∀ k2 ∈ os.map Prod.fst, k2 ∉ out.map Prod.fst) →
        ∃ vs w1,
        decodeEntries (obxToObj E n) sub subs dd c os w0 out = .ok (out ++ vs, w1) ∧
        KeepsOld w0 w1 ∧
        reifyEntries (reifyAbove E w0.heap.length n w1) vs = some ds := by
  induction kvs with
  | nil =>
    intro ds os h1 h2 _ w0 c dd out _
    simp only [reifyEntries, Option.some.injEq] at h1
    subst h1
    simp only [pureEntries, Option.some.injEq] at h2
    subst h2
    exact ⟨[], w0, by simp [decodeEntries], keepsOld_refl _, rfl⟩
  | cons kx xs ih =>
    obtain ⟨key, x⟩ := kx
    intro ds os h1 h2 hnd w0 c dd out hdis
    simp only [reifyEntries] at h1
    cases hr : reifyAbove E k n w x with
    | none => rw [hr] at h1; cases h1
    | some d0 =>
      rw [hr] at h1
      simp only [] at h1
      cases hrest : reifyEntries (reifyAbove E k n w) xs with
      | none => rw [hrest] at h1; cases h1
      | some ds2 =>
        rw [hrest] at h1
        simp only [Option.some.injEq] at h1
        subst h1
        simp only [pureEntries] at h2
        cases hp : encodeDeep E n d0 sub subs (d + 1) with
        | none => rw [hp] at h2; cases h2
        | some o =>
          rw [hp] at h2
          simp only [] at h2
          by_cases hu : o.isUndefined = true
          · rw [if_pos hu] at h2; cases h2
          · rw [if_neg hu] at h2
            cases hpr : pureEntries (encodeDeep E n) sub subs d ds2 with
            | none => rw [hpr] at h2; cases h2
            | some os2 =>
              rw [hpr] at h2
              simp only [Option.some.injEq] at h2
              subst h2
              simp only [List.map_cons, List.nodup_cons] at hnd
              obtain ⟨v2, wa, e1, e2, e3⟩ := hB k w x d0 sub subs (d + 1) o hr hp w0 c (dd + 1)
              have ka : KeepsOld w0 wa := obxToObj_sound E n _ _ _ _ _ _ _ _ _ e1
              have hv2 : v2.isUndefined = false := by rw [e3]; simpa using hu
              have hk : key ∉ out.map Prod.fst := hdis key (by simp)
              obtain ⟨vs, w1, f1, f2, f3⟩ := ih ds2 os2 hrest hpr hnd.2 wa c dd
                (out ++ [(key, v2)]) (by
                  intro k2 hk2
                  simp only [List.map_append, List.map_cons, List.map_nil, List.mem_append,
                    List.mem_singleton, not_or]
                  refine ⟨hdis k2 (by simp [hk2]), ?_⟩
                  intro e
                  rw [e] at hk2
                  exact hnd.1 hk2)
              refine ⟨(key, v2) :: vs, w1, ?_, keepsOld_trans _ _ _ ka f2, ?_⟩
              · simp only [decodeEntries, e1, hv2, Bool.false_eq_true, if_false]
                rw [setProp_new out key v2 hk, f1]
                simp
              · simp only [reifyEntries]
                rw [reifyAbove_keepsOld E _ _ wa w1 (le_refl _) f2 n v2 d0 e2]
                simp only []
                rw [reifyEntries_mono _ _ vs
                  (reifyAbove_frame E wa.heap.length w0.heap.length w1 w1 ka.1
                    (fun _ _ _ => rfl) n) ds2 f3]

theorem setInst_get_self (w : World) (r : Nat) (i j : Inst) (h : w.heap[r]? = some i) :
    (w.setInst r j).heap[r]? = some j := by
  have hr := getElem?_lt _ _ _ h
  simp [World.setInst, hr]

theorem setInst_get_other (w : World) (r r2 : Nat) (j : Inst) (h : r2 ≠ r) :
    (w.setInst r j).heap[r2]? = w.heap[r2]? := by
  simp [World.setInst, List.getElem?_set, Ne.symm h]

theorem valuesMatch_frame (E : Env) (n k : Nat) (w : World) (vals0 : List (String × Val))
    (r : Nat) (w0 w1 : World) (vals : List (String × Val))
    (h : ValuesMatch E n k w vals0 r w0 vals)
    (hw : ∀ r2 : Nat, r + 1 ≤ r2 → r2 < w0.heap.length → w1.heap[r2]? = w0.heap[r2]?) :
    ValuesMatch E n k w vals0 r w1 vals := by
  intro name v hl
  obtain ⟨D, h1, h2⟩ := h name v hl
  exact ⟨D, h1, reifyAbove_frame E (r + 1) (r + 1) w0 w1 (le_refl _) hw n v D h2⟩

theorem decodeFields_inverts (E : Env) (n : Nat) (hB : DecInverts E n) (k : Nat) (w : World)
    (vals0 : List (String × Val)) (r : Nat) (doc : Obx) (d dd : Nat) (c : Option Nat)
    (fs : List Field) :
    ∀ (fields : List (String × Deep)) (res : List (String × Obx)),
      reifyFields (reifyAbove E k n w) vals0 fs = some fields →
      pureFields (encodeDeep E n) d fs fields = some res →
      (∀ ne ∈ res, doc.get ne.1 = ne.2) →
      ∀ (w0 : World) (j : Inst) (vals : List (String × Val)),
        w0.heap[r]? = some j → j.values = some vals →
        ValuesMatch E n k w vals0 r w0 vals →
        ∃ w1 j1 vals1, decodeFields (obxToObj E n) r doc dd c fs w0 = .ok w1 ∧
          w1.heap[r]? = some j1 ∧ j1.type = j.type ∧ j1.values = some vals1 ∧
          ValuesMatch E n k w vals0 r w1 vals1 ∧
          (∀ name, lookupProp vals name ≠ none → lookupProp vals1 name ≠ none) ∧
          (∀ f ∈ fs, lookupProp vals1 f.name = none →
            reifyAbove E k n w ((lookupProp vals0 f.name).getD (.prim .undefined)) =
              some (.prim .undefined)) := by
  induction fs with
  | nil =>
    intro fields res _ _ _ w0 j vals hi hv ha
    exact ⟨w0, j, vals, rfl, hi, rfl, hv, ha, fun _ h => h, by simp⟩
  | cons f fs ih =>
    intro fields res h1 h2 hget w0 j vals hi hv ha
    simp only [reifyFields] at h1
    cases hr : reifyAbove E k n w ((lookupProp vals0 f.name).getD (.prim .undefined)) with
    | none => rw [hr] at h1; cases h1
    | some x =>
      rw [hr] at h1
      simp only [] at h1
      cases hrest : reifyFields (reifyAbove E k n w) vals0 fs with
      | none => rw [hrest] at h1; cases h1
      | some ds =>
        rw [hrest] at h1
        simp only [Option.some.injEq] at h1
        subst h1
        simp only [pureFields, if_true] at h2
        cases hp : encodeDeep E n x f.type f.subtypes (d + 1) with
        | none => rw [hp] at h2; cases h2
        | some o =>
          rw [hp] at h2
          simp only [] at h2
          cases hpr : pureFields (encodeDeep E n) d fs ds with
          | none => rw [hpr] at h2; cases h2
          | some os =>
            rw [hpr] at h2
            simp only [Option.some.injEq] at h2
            subst h2
            have hg : doc.get f.name = o := hget (f.name, o) (List.mem_cons_self _ _)
            have hget2 : ∀ ne ∈ os, doc.get ne.1 = ne.2 :=
              fun ne hne => hget ne (List.mem_cons_of_mem _ hne)
            obtain ⟨v2, wa, e1, e2, e3⟩ :=
              hB k w _ x f.type f.subtypes (d + 1) o hr hp w0 c (dd + 1)
            have ka : KeepsOld w0 wa := obxToObj_sound E n _ _ _ _ _ _ _ _ _ e1
            have hrlt : r < w0.heap.length := getElem?_lt _ _ _ hi
            have hia : wa.heap[r]? = some j := by rw [ka.2 r hrlt]; exact hi
            have haa : ValuesMatch E n k w vals0 r wa vals :=
              valuesMatch_frame E n k w vals0 r w0 wa vals ha (fun r2 _ h5 => ka.2 r2 h5)
            by_cases hu : v2.isUndefined = true
            · obtain ⟨w1, j1, vals1, g1, g2, g3, g4, g5, g6, g7⟩ :=
                ih ds os hrest hpr hget2 wa j vals hia hv haa
              refine ⟨w1, j1, vals1, ?_, g2, g3, g4, g5, g6, ?_⟩
              · simp only [decodeFields, hg, e1, hu, if_true]
                exact g1
              · intro f2 hf2 hn
                rcases List.mem_cons.1 hf2 with h3 | h3
                · rw [h3, hr]
                  rw [isUndefined_eq v2 hu] at e2
                  rw [reifyAbove_prim E _ n wa _ x e2]
                · exact g7 f2 h3 hn
            · have hset : wa.setValue r f.name v2 =
                  .ok (wa.setInst r { j with values := some (setProp vals f.name v2) }) := by
                simp only [World.setValue, hia, hv]
              have hib : (wa.setInst r { j with values := some (setProp vals f.name v2) }).heap[r]?
                  = some { j with values := some (setProp vals f.name v2) } :=
                setInst_get_self wa r j _ hia
              have hab : ValuesMatch E n k w vals0 r
                  (wa.setInst r { j with values := some (setProp vals f.name v2) })
                  (setProp vals f.name v2) := by
                intro name v hl
                by_cases hn : f.name = name
                · subst hn
                  rw [lookupProp_setProp_self] at hl
                  cases hl
                  refine ⟨x, hr, ?_⟩
                  refine reifyAbove_frame E w0.heap.length (r + 1) wa _ (by omega) ?_ n _ x e2
                  intro r2 h4 _
                  exact setInst_get_other wa r r2 _ (by omega)
                · rw [lookupProp_setProp_other _ _ _ _ hn] at hl
                  obtain ⟨D, q1, q2⟩ := haa name v hl
                  refine ⟨D, q1, ?_⟩
                  refine reifyAbove_frame E (r + 1) (r + 1) wa _ (le_refl _) ?_ n v D q2
                  intro r2 h4 _
                  exact setInst_get_other wa r r2 _ (by omega)
              obtain ⟨w1, j1, vals1, g1, g2, g3, g4, g5, g6, g7⟩ :=
                ih ds os hrest hpr hget2 _ _ _ hib rfl hab
              have hmono : ∀ name, lookupProp vals name ≠ none →
                  lookupProp (setProp vals f.name v2) name ≠ none := by
                intro name hne
                by_cases hn : f.name = name
                · subst hn
                  rw [lookupProp_setProp_self]
                  simp
                · rw [lookupProp_setProp_other _ _ _ _ hn]
                  exact hne
              refine ⟨w1, j1, vals1, ?_, g2, g3, g4, g5, fun name hne => g6 name (hmono name hne),
                ?_⟩
              · simp only [decodeFields, hg, e1, hu, Bool.false_eq_true, if_false, hset]
                exact g1
              · intro f2 hf2 hn
                rcases List.mem_cons.1 hf2 with h3 | h3
                · exfalso
                  rw [h3] at hn
                  exact g6 f.name (by rw [lookupProp_setProp_self]; simp) hn
                · exact g7 f2 h3 hn

theorem reifyFields_pointwise (rf rg : Val → Option Deep) (vals0 vals1 : List (String × Val))
    (fs : List Field)
    (h : ∀ f ∈ fs, rg ((lookupProp vals1 f.name).getD (.prim .undefined)) =
      rf ((lookupProp vals0 f.name).getD (.prim .undefined))) :
    reifyFields rg vals1 fs = reifyFields rf vals0 fs := by
  induction fs with
  | nil => rfl
  | cons f fs ih =>
    simp only [reifyFields]
    rw [h f (List.mem_cons_self _ _), ih (fun f2 hf2 => h f2 (List.mem_cons_of_mem _ hf2))]

theorem reifyFields_some (rf : Val → Option Deep) (vals : List (String × Val))
    (fs : List Field) (fields : List (String × Deep)) (h : reifyFields rf vals fs = some fields) :
    ∀ f ∈ fs, ∃ D, rf ((lookupProp vals f.name).getD (.prim .undefined)) = some D := by
  induction fs generalizing fields with
  | nil => intro f hf; cases hf
  | cons f0 fs ih =>
    intro f hf
    simp only [reifyFields] at h
    cases hr : rf ((lookupProp vals f0.name).getD (.prim .undefined)) with
    | none => rw [hr] at h; cases h
    | some d0 =>
      rw [hr] at h
      simp only [] at h
      cases hrest : reifyFields rf vals fs with
      | none => rw [hrest] at h; cases h
      | some ds =>
        rcases List.mem_cons.1 hf with h3 | h3
        · rw [h3]; exact ⟨d0, hr⟩
        · exact ih ds hrest f h3

/-- Loading a fresh instance from the document of an instance tree: the instance then
unfolds to that tree. -/
theorem obxToObj_Otto_Load_inverts (E : Env) (n : Nat) (hB : DecInverts E n) (k : Nat)
    (w : World) (vals0 : List (String × Val)) (info : TypeInfo) (typeName : String)
    (hl : E.lookup typeName = some info) (fields : List (String × Deep))
    (res : List (String × Obx)) (d : Nat)
    (hf : reifyFields (reifyAbove E k n w) vals0 info.schema = some fields)
    (hpf : pureFields (encodeDeep E n) d info.schema fields = some res)
    (doc : Obx) (hdoc : doc = .obj (addDescrims (storeAll [] res) info.descrims))
    (hc2 : typeNameFromObx E doc = some typeName)
    (hc3 : ∀ ne ∈ res, doc.get ne.1 = ne.2)
    (w2 : World) (r : Nat) (j0 : Inst) (hj0 : w2.heap[r]? = some j0)
    (hty : j0.type = typeName) (dd : Nat) (c : Option Nat) :
    ∃ w4 j1, obxToObj_Otto_Load E (obxToObj E n) w2 r doc dd c = .ok w4 ∧
      w4.heap[r]? = some j1 ∧ j1.type = typeName ∧
      reifyAbove E r (n + 1) w4 (.inst r) = some (.inst typeName fields) := by
  have hname : info.name = typeName := lookup_name E typeName info hl
  have hobj : doc.isObject = true := by rw [hdoc]; rfl
  have hib := setInst_get_self w2 r j0
    { j0 with values := some [], loaded := true, initial := doc } hj0
  obtain ⟨w4, j1, vals1, g1, g2, g3, g4, g5, _, g7⟩ :=
    decodeFields_inverts E n hB k w vals0 r doc d dd c info.schema fields res hf hpf hc3
      _ _ [] hib rfl (by intro name v h; simp [lookupProp] at h)
  refine ⟨w4, j1, ?_, g2, ?_, ?_⟩
  · have hl2 : E.lookup j0.type = some info := by rw [hty]; exact hl
    have hc2b : typeNameFromObx E doc = some info.name := by rw [hname]; exact hc2
    simp only [obxToObj_Otto_Load, hj0, hl2, hobj, Bool.not_true, Bool.false_eq_true,
      if_false, hc2b, ne_eq, not_true_eq_false]
    exact g1
  · rw [g3]; exact hty
  · have hj1 : j1.type = typeName := by rw [g3]; exact hty
    simp only [reifyAbove, lt_irrefl, if_false, g2, hj1, hl, g4]
    rw [reifyFields_pointwise (reifyAbove E k n w) (reifyAbove E r n w4) vals0 vals1
      info.schema ?_, hf]
    · rfl
    · intro f hf2
      obtain ⟨D, hD⟩ := reifyFields_some _ _ _ _ hf f hf2
      cases hlk : lookupProp vals1 f.name with
      | some v =>
        obtain ⟨D2, q1, q2⟩ := g5 f.name v hlk
        rw [q1]
        simp only [Option.getD_some]
        exact reifyAbove_frame E (r + 1) r w4 w4 (by omega) (fun _ _ _ => rfl) n v D2 q2
      | none =>
        rw [g7 f hf2 hlk]
        simp only [Option.getD_none]
        cases n with
        | zero => simp [reifyAbove] at hD
        | succ m => simp [reifyAbove]

theorem obxToObj_Otto_inverts (E : Env) (n : Nat) (hB : DecInverts E n) (k : Nat)
    (w : World) (vals0 : List (String × Val)) (tname : String) (info0 : TypeInfo)
    (hl0 : E.lookup tname = some info0) (fields : List (String × Deep))
    (hf : reifyFields (reifyAbove E k n w) vals0 info0.schema = some fields)
    (typeName : String) (d : Nat) (doc : Obx)
    (hp : pureOtto E (encodeDeep E n) (.inst tname fields) typeName d = some doc)
    (w0 : World) (c : Option Nat) (dd : Nat) (thisKey : Obx)
    (hk1 : thisKey ≠ .prim .undefined)
    (hk2 : thisKey.truthy = true → ∃ ca, c = some ca ∧ ca < w0.caches.length) :
    ∃ w1 j, obxToObj_Otto E (obxToObj E n) w0 doc (.prim (.str typeName)) dd c thisKey =
        .ok (.inst w0.heap.length, w1) ∧
      w1.heap[w0.heap.length]? = some j ∧ j.type = typeName ∧
      reifyAbove E w0.heap.length (n + 1) w1 (.inst w0.heap.length) =
        some (.inst tname fields) := by
  unfold pureOtto at hp
  cases hlt : E.lookup typeName with
  | none => rw [hlt] at hp; cases hp
  | some info =>
    rw [hlt] at hp
    simp only [] at hp
    by_cases hc : tname = typeName ∧ typeName ≠ "" ∧ (d = 0 ∨ info.embed = true)
    · rw [if_pos hc] at hp
      obtain ⟨hty, _, _⟩ := hc
      subst hty
      have hinfo : info0 = info := by
        rw [hlt] at hl0
        exact (Option.some.inj hl0).symm
      subst hinfo
      cases hpf : pureFields (encodeDeep E n) d info0.schema fields with
      | none => rw [hpf] at hp; cases hp
      | some res =>
        rw [hpf] at hp
        simp only [] at hp
        split at hp
        · rename_i hchk
          simp only [Option.some.injEq] at hp
          obtain ⟨hc1, hc2, hc3⟩ := hchk
          rw [hp] at hc1 hc2 hc3
          have hc3b : ∀ ne ∈ res, doc.get ne.1 = ne.2 := by
            intro ne hne
            have := List.all_eq_true.1 hc3 ne hne
            simpa using this
          have hname : info0.name = tname := lookup_name E tname info0 hlt
          have hts : (Obx.prim (.str tname)).toStr = tname := by
            simp [Obx.toStr, Prim.toStr]
          by_cases ht : thisKey.truthy = true
          · obtain ⟨ca, hca, hcalt⟩ := hk2 ht
            subst hca
            have hcs : w0.caches[ca]? = some (w0.caches[ca]) := List.getElem?_eq_getElem hcalt
            obtain ⟨w4, j1, g1, g2, g3, g4⟩ :=
              obxToObj_Otto_Load_inverts E n hB k w vals0 info0 tname hlt fields res d hf hpf doc
                hp.symm hc2 hc3b
                (World.mk (w0.heap ++ [blankInst info0.name thisKey (some ca)])
                  (w0.caches.set ca (setProp (w0.caches[ca]) thisKey.toStr w0.heap.length))
                  w0.uuids)
                w0.heap.length (blankInst info0.name thisKey (some ca)) (by simp) hname (dd + 1)
                (some ca)
            simp only [blankInst] at g1
            refine ⟨w4, j1, ?_, g2, g3, g4⟩
            simp only [obxToObj_Otto, hc1, Bool.false_eq_true, if_false, hk1, hts, hlt,
              World.alloc, ht, if_true, World.cacheSet, hcs, Option.map_some']
            rw [g1]
          · obtain ⟨w4, j1, g1, g2, g3, g4⟩ :=
              obxToObj_Otto_Load_inverts E n hB k w vals0 info0 tname hlt fields res d hf hpf doc
                hp.symm hc2 hc3b
                (World.mk (w0.heap ++ [blankInst info0.name thisKey c]) w0.caches w0.uuids)
                w0.heap.length (blankInst info0.name thisKey c) (by simp) hname (dd + 1) c
            simp only [blankInst] at g1
            refine ⟨w4, j1, ?_, g2, g3, g4⟩
            simp only [obxToObj_Otto, hc1, Bool.false_eq_true, if_false, hk1, hts, hlt,
              World.alloc, ht]
            rw [g1]
        · cases hp
    · rw [if_neg hc] at hp; cases hp

theorem isRefObx_arr (xs : List Obx) : isRefObx (.arr xs) = false := by
  have h1 : ("$ref" = "length") = False := by decide
  have h2 : arrayIndex "$ref" = none := by decide
  simp [isRefObx, Obx.get, h2, Obx.truthy, Prim.truthy]

theorem pureOtto_checks (E : Env) (prec : PureEnc) (D : Deep) (typeName : String) (d : Nat)
    (doc : Obx) (h : pureOtto E prec D typeName d = some doc) :
    (∃ kvs, doc = .obj kvs) ∧ isRefObx doc = false ∧
      typeNameFromObx E doc = some typeName ∧ typeName ≠ "" := by
  unfold pureOtto at h
  cases hl : E.lookup typeName with
  | none => rw [hl] at h; cases h
  | some info =>
    rw [hl] at h
    cases D with
    | prim p => cases h
    | arr xs => cases h
    | map kvs => cases h
    | inst type fields =>
      simp only [] at h
      split at h
      · rename_i hc
        cases hpf : pureFields prec d info.schema fields with
        | none => rw [hpf] at h; cases h
        | some res =>
          rw [hpf] at h
          simp only [] at h
          split at h
          · rename_i hchk
            simp only [Option.some.injEq] at h
            rw [h] at hchk
            exact ⟨⟨_, h.symm⟩, hchk.1, hchk.2.1, hc.2.1⟩
          · cases h
      · cases h

theorem obxToObj_List_inverts (E : Env) (n : Nat) (hB : DecInverts E n) (k : Nat) (w : World)
    (xs : List Val) (ds : List Deep) (hr : reifyList (reifyAbove E k n w) xs = some ds)
    (s : List String) (d : Nat) (doc : Obx)
    (hp : pureList (encodeDeep E n) (.arr ds) s d = some doc)
    (w0 : World) (c : Option Nat) (dd : Nat) :
    ∃ v2 w1, obxToObj_List (obxToObj E n) w0 doc s dd c = .ok (v2, w1) ∧
      reifyAbove E w0.heap.length (n + 1) w1 v2 = some (.arr ds) ∧
      v2.isUndefined = false ∧ ∃ os, doc = .arr os := by
  simp only [pureList] at hp
  cases hpe : pureElems (encodeDeep E n) ((defaultSubtypes s).headD "Mixed")
      (defaultSubtypes s).tail d ds with
  | none => rw [hpe] at hp; cases hp
  | some os =>
    rw [hpe] at hp
    simp only [Option.map_some', Option.some.injEq] at hp
    subst hp
    obtain ⟨vs, w1, f1, _, f3, f4⟩ :=
      decodeElems_inverts E n hB k w _ _ d xs ds os hr hpe w0 c dd
    refine ⟨.arr vs, w1, ?_, ?_, rfl, os, rfl⟩
    · simp only [obxToObj_List, f1, trimUndefined_id _ vs f4]
    · simp only [reifyAbove, f3, Option.map_some']

theorem obxToObj_Map_inverts (E : Env) (n : Nat) (hB : DecInverts E n) (k : Nat) (w : World)
    (kvs : List (String × Val)) (ds : List (String × Deep))
    (hr : reifyEntries (reifyAbove E k n w) kvs = some ds)
    (s : List String) (d : Nat) (doc : Obx)
    (hp : pureMap (encodeDeep E n) (.map ds) s d = some doc)
    (w0 : World) (c : Option Nat) (dd : Nat) :
    ∃ v2 w1, obxToObj_Map (obxToObj E n) w0 doc s dd c = .ok (v2, w1) ∧
      reifyAbove E w0.heap.length (n + 1) w1 v2 = some (.map ds) ∧
      v2.isUndefined = false ∧ ∃ os, doc = .obj os := by
  simp only [pureMap] at hp
  by_cases hnd : (ds.map Prod.fst).Nodup
  · rw [if_pos hnd] at hp
    cases hpe : pureEntries (encodeDeep E n) ((defaultSubtypes s).headD "Mixed")
        (defaultSubtypes s).tail d ds with
    | none => rw [hpe] at hp; cases hp
    | some os =>
      rw [hpe] at hp
      simp only [Option.map_some', Option.some.injEq] at hp
      subst hp
      rw [← pureEntries_keys _ _ _ _ ds os hpe] at hnd
      obtain ⟨vs, w1, f1, _, f3⟩ :=
        decodeEntries_inverts E n hB k w _ _ d kvs ds os hr hpe hnd w0 c dd [] (by simp)
      refine ⟨.map vs, w1, ?_, ?_, rfl, os, rfl⟩
      · simp only [obxToObj_Map, Obx.isObject, Bool.not_true, Bool.false_eq_true, if_false,
          Obx.entries, f1, List.nil_append]
      · simp only [reifyAbove, f3, Option.map_some']
  · rw [if_neg hnd] at hp; cases hp

theorem obxToObj_inverts_prim (E : Env) (n : Nat) (p : Prim) (tn : String)
    (s : List String) (d : Nat) (doc : Obx)
    (h2 : (if (E.lookup tn).isSome then pureOtto E (encodeDeep E n) (.prim p) tn d
        else if tn = "List" then pureList (encodeDeep E n) (.prim p) s d
        else if tn = "Map" then pureMap (encodeDeep E n) (.prim p) s d
        else if tn = "Mixed" then pureMixed E (encodeDeep E n) (.prim p) d
        else if CORETYPES.contains tn then some (.prim p) else none) = some doc)
    (w0 : World) (c : Option Nat) (dd : Nat) :
    doc = .prim p ∧
    (if (E.lookup tn).isSome then
        obxToObj_Otto E (obxToObj E n) w0 (.prim p) (.prim (.str tn)) dd c (.prim .null)
      else if tn = "List" then obxToObj_List (obxToObj E n) w0 (.prim p) s dd c
      else if tn = "Map" then obxToObj_Map (obxToObj E n) w0 (.prim p) s dd c
      else if tn = "Mixed" then obxToObj_Mixed E (obxToObj E n) w0 (.prim p) dd c (.prim .null)
      else if CORETYPES.contains tn then (.ok (.prim p, w0) : DecRes)
      else .error (.thrown ("encountered unknown type " ++ tn))) = .ok (.prim p, w0) := by
  simp only [pureOtto, pureList, pureMap, pureMixed] at h2
  by_cases c1 : (E.lookup tn).isSome = true
  · rw [if_pos c1] at h2
    cases hl : E.lookup tn with
    | none => rw [hl] at c1; cases c1
    | some info => rw [hl] at h2; cases h2
  · rw [if_neg c1] at h2 ⊢
    by_cases c2 : tn = "List"
    · rw [if_pos c2] at h2; cases h2
    · rw [if_neg c2] at h2 ⊢
      by_cases c3 : tn = "Map"
      · rw [if_pos c3] at h2; cases h2
      · rw [if_neg c3] at h2 ⊢
        by_cases c4 : tn = "Mixed"
        · rw [if_pos c4] at h2 ⊢
          simp only [Option.some.injEq] at h2
          refine ⟨h2.symm, ?_⟩
          simp [obxToObj_Mixed, isRefObx, isOttoObx, Obx.isObject]
        · rw [if_neg c4] at h2 ⊢
          by_cases c5 : CORETYPES.contains tn = true
          · rw [if_pos c5] at h2 ⊢
            simp only [Option.some.injEq] at h2
            exact ⟨h2.symm, rfl⟩
          · rw [if_neg c5] at h2; cases h2

theorem obxToObj_inverts (E : Env) : ∀ n, DecInverts E n := by
  intro n
  induction n with
  | zero =>
    intro k w v D t s d doc h1 _
    simp [reifyAbove] at h1
  | succ n ih =>
    intro k w v D t s d doc h1 h2 w0 c dd
    simp only [obxToObj]
    simp only [encodeDeep] at h2
    generalize (if t = "" then "Mixed" else t) = tn at h2
    cases v with
    | prim p =>
      simp only [reifyAbove, Option.some.injEq] at h1
      subst h1
      cases p with
      | undefined =>
        simp only [Option.some.injEq] at h2
        subst h2
        exact ⟨_, _, rfl, rfl, rfl⟩
      | null =>
        simp only [Option.some.injEq] at h2
        subst h2
        exact ⟨_, _, rfl, rfl, rfl⟩
      | bool b =>
        obtain ⟨e1, e2⟩ := obxToObj_inverts_prim E n (.bool b) tn s d doc h2 w0 c dd
        subst e1
        exact ⟨_, _, e2, rfl, rfl⟩
      | num z =>
        obtain ⟨e1, e2⟩ := obxToObj_inverts_prim E n (.num z) tn s d doc h2 w0 c dd
        subst e1
        exact ⟨_, _, e2, rfl, rfl⟩
      | str z =>
        obtain ⟨e1, e2⟩ := obxToObj_inverts_prim E n (.str z) tn s d doc h2 w0 c dd
        subst e1
        exact ⟨_, _, e2, rfl, rfl⟩
    | arr xs =>
      simp only [reifyAbove] at h1
      cases hr : reifyList (reifyAbove E k n w) xs with
      | none => rw [hr] at h1; cases h1
      | some ds =>
        rw [hr] at h1
        simp only [Option.map_some', Option.some.injEq] at h1
        subst h1
        simp only [] at h2
        by_cases c1 : (E.lookup tn).isSome = true
        · rw [if_pos c1] at h2
          simp only [pureOtto] at h2
          cases hl : E.lookup tn with
          | none => rw [hl] at c1; cases c1
          | some info => rw [hl] at h2; cases h2
        · rw [if_neg c1] at h2
          by_cases c2 : tn = "List"
          · rw [if_pos c2] at h2
            obtain ⟨v2, w1, e1, e2, e3, os, e4⟩ :=
              obxToObj_List_inverts E n ih k w xs ds hr s d doc h2 w0 c dd
            subst e4
            refine ⟨v2, w1, ?_, e2, e3⟩
            simp only [if_neg c1, if_pos c2]
            exact e1
          · rw [if_neg c2] at h2
            by_cases c3 : tn = "Map"
            · rw [if_pos c3] at h2; simp [pureMap] at h2
            · rw [if_neg c3] at h2
              by_cases c4 : tn = "Mixed"
              · rw [if_pos c4] at h2
                simp only [pureMixed] at h2
                cases hpl : pureList (encodeDeep E n) (.arr ds) [] d with
                | none => rw [hpl] at h2; cases h2
                | some doc2 =>
                  rw [hpl] at h2
                  simp only [] at h2
                  split at h2
                  · cases h2
                  · rename_i hno
                    simp only [Option.some.injEq] at h2
                    subst h2
                    obtain ⟨v2, w1, e1, e2, e3, os, e4⟩ :=
                      obxToObj_List_inverts E n ih k w xs ds hr [] d doc2 hpl w0 c dd
                    subst e4
                    refine ⟨v2, w1, ?_, e2, e3⟩
                    simp only [if_neg c1, if_neg c2, if_neg c3, if_pos c4, obxToObj_Mixed,
                      isRefObx_arr, Bool.false_eq_true, if_false, hno]
                    exact e1
              · rw [if_neg c4] at h2
                by_cases c5 : CORETYPES.contains tn = true
                · rw [if_pos c5] at h2; cases h2
                · rw [if_neg c5] at h2; cases h2
    | map kvs =>
      simp only [reifyAbove] at h1
      cases hr : reifyEntries (reifyAbove E k n w) kvs with
      | none => rw [hr] at h1; cases h1
      | some ds =>
        rw [hr] at h1
        simp only [Option.map_some', Option.some.injEq] at h1
        subst h1
        simp only [] at h2
        by_cases c1 : (E.lookup tn).isSome = true
        · rw [if_pos c1] at h2
          simp only [pureOtto] at h2
          cases hl : E.lookup tn with
          | none => rw [hl] at c1; cases c1
          | some info => rw [hl] at h2; cases h2
        · rw [if_neg c1] at h2
          by_cases c2 : tn = "List"
          · rw [if_pos c2] at h2; simp [pureList] at h2
          · rw [if_neg c2] at h2
            by_cases c3 : tn = "Map"
            · rw [if_pos c3] at h2
              obtain ⟨v2, w1, e1, e2, e3, os, e4⟩ :=
                obxToObj_Map_inverts E n ih k w kvs ds hr s d doc h2 w0 c dd
              subst e4
              refine ⟨v2, w1, ?_, e2, e3⟩
              simp only [if_neg c1, if_neg c2, if_pos c3]
              exact e1
            · rw [if_neg c3] at h2
              by_cases c4 : tn = "Mixed"
              · rw [if_pos c4] at h2
                simp only [pureMixed] at h2
                cases hpl : pureMap (encodeDeep E n) (.map ds) [] d with
                | none => rw [hpl] at h2; cases h2
                | some doc2 =>
                  rw [hpl] at h2
                  simp only [] at h2
                  split at h2
                  · cases h2
                  · rename_i hno
                    simp only [Option.some.injEq] at h2
                    subst h2
                    obtain ⟨v2, w1, e1, e2, e3, os, e4⟩ :=
                      obxToObj_Map_inverts E n ih k w kvs ds hr [] d doc2 hpl w0 c dd
                    subst e4
                    simp only [Bool.or_eq_true, not_or, Bool.not_eq_true] at hno
                    refine ⟨v2, w1, ?_, e2, e3⟩
                    simp only [if_neg c1, if_neg c2, if_neg c3, if_pos c4, obxToObj_Mixed,
                      hno.1, hno.2, Bool.false_eq_true, if_false]
                    exact e1
              · rw [if_neg c4] at h2
                by_cases c5 : CORETYPES.contains tn = true
                · rw [if_pos c5] at h2; cases h2
                · rw [if_neg c5] at h2; cases h2
    | inst r =>
      simp only [reifyAbove] at h1
      by_cases hk : r < k
      · rw [if_pos hk] at h1; cases h1
      · rw [if_neg hk] at h1
        cases hi : w.heap[r]? with
        | none => rw [hi] at h1; cases h1
        | some i =>
          rw [hi] at h1
          simp only [] at h1
          cases hl : E.lookup i.type with
          | none => rw [hl] at h1; cases h1
          | some info0 =>
            rw [hl] at h1
            simp only [] at h1
            cases hv : i.values with
            | none => rw [hv] at h1; cases h1
            | some vals =>
              rw [hv] at h1
              simp only [] at h1
              cases hf : reifyFields (reifyAbove E k n w) vals info0.schema with
              | none => rw [hf] at h1; cases h1
              | some fields =>
                rw [hf] at h1
                simp only [Option.map_some', Option.some.injEq] at h1
                subst h1
                simp only [] at h2
                by_cases c1 : (E.lookup tn).isSome = true
                · rw [if_pos c1] at h2
                  obtain ⟨⟨kvs, hobj⟩, _, _, _⟩ := pureOtto_checks E _ _ tn d doc h2
                  obtain ⟨w1, j, e1, _, _, e4⟩ :=
                    obxToObj_Otto_inverts E n ih k w vals i.type info0 hl fields hf tn d doc h2
                      w0 c dd (.prim .null) (by simp) (by simp [Obx.truthy, Prim.truthy])
                  subst hobj
                  refine ⟨_, w1, ?_, e4, rfl⟩
                  simp only [if_pos c1]
                  exact e1
                · rw [if_neg c1] at h2
                  by_cases c2 : tn = "List"
                  · rw [if_pos c2] at h2; simp [pureList] at h2
                  · rw [if_neg c2] at h2
                    by_cases c3 : tn = "Map"
                    · rw [if_pos c3] at h2; simp [pureMap] at h2
                    · rw [if_neg c3] at h2
                      by_cases c4 : tn = "Mixed"
                      · rw [if_pos c4] at h2
                        simp only [pureMixed] at h2
                        obtain ⟨⟨kvs, hobj⟩, q1, q2, q3⟩ :=
                          pureOtto_checks E _ _ i.type d doc h2
                        obtain ⟨w1, j, e1, _, _, e4⟩ :=
                          obxToObj_Otto_inverts E n ih k w vals i.type info0 hl fields hf i.type
                            d doc h2 w0 c dd (.prim .null) (by simp)
                            (by simp [Obx.truthy, Prim.truthy])
                        have hotto : isOttoObx E doc = true := by
                          rw [hobj] at q2 ⊢
                          simp [isOttoObx, Obx.isObject, q2, q3]
                        subst hobj
                        refine ⟨_, w1, ?_, e4, rfl⟩
                        simp only [if_neg c1, if_neg c2, if_neg c3, if_pos c4, obxToObj_Mixed,
                          q1, Bool.false_eq_true, if_false, hotto, if_true, q2, Option.getD_some]
                        exact e1
                      · rw [if_neg c4] at h2
                        by_cases c5 : CORETYPES.contains tn = true
                        · rw [if_pos c5] at h2; cases h2
                        · rw [if_neg c5] at h2; cases h2

/-- C1 (as the code has it): let the instance `g` unfold to a tree `D` (so the graph is
acyclic), let `T` be a registered type with a name, and let `encodeDeep` give a document
for `D` under `T`: every instance of the tree has the declared type and is at depth 0
or of an `embed` type, its document is no reference, resolves by its discriminators to
its own type as the first match of the registry, and gives each declared field back;
lists and maps hold no `undefined`, map keys are distinct, and no list or map under
`Mixed` looks like a reference or a registered type.  Then `objToObx` at depth 0
returns that document and changes nothing; `obxToObj` under `T`, with a key that is
not `undefined` and a cache that exists when the key is truthy, succeeds with a new
instance of type `T` that unfolds to the same tree `D`, so its field values are those
of `g`; and encoding the new instance gives the same document again, discriminators
included. -/
theorem objToObx_obxToObj_roundtrip (E : Env) (n : Nat) (w : World) (g : Nat) (T : String)
    (D : Deep) (doc : Obx) (sink : List Nat) (w0 : World) (cache : Option Nat) (key : Obx)
    (hT : (E.lookup T).isSome = true) (hne : T ≠ "")
    (hg : reify E n w (.inst g) = some D)
    (hd : encodeDeep E n D T [] 0 = some doc)
    (hk1 : key ≠ .prim .undefined)
    (hk2 : key.truthy = true → ∃ ca, cache = some ca ∧ ca < w0.caches.length) :
    objToObx E n w sink (.inst g) T [] 0 = .ok (doc, w, sink) ∧
    ∃ r w1 j, obxToObj E n w0 doc T [] 0 cache key = .ok (.inst r, w1) ∧
      w1.heap[r]? = some j ∧ j.type = T ∧
      reify E n w1 (.inst r) = some D ∧
      objToObx E n w1 sink (.inst r) T [] 0 = .ok (doc, w1, sink) := by
  refine ⟨objToObx_agrees E 0 w n (.inst g) D T [] 0 doc sink hg hd, ?_⟩
  cases n with
  | zero => simp [reify, reifyAbove] at hg
  | succ m =>
    have hg0 := hg
    simp only [reify, reifyAbove, Nat.not_lt_zero, if_false] at hg
    cases hi : w.heap[g]? with
    | none => rw [hi] at hg; cases hg
    | some i =>
      rw [hi] at hg
      simp only [] at hg
      cases hl : E.lookup i.type with
      | none => rw [hl] at hg; cases hg
      | some info0 =>
        rw [hl] at hg
        simp only [] at hg
        cases hv : i.values with
        | none => rw [hv] at hg; cases hg
        | some vals =>
          rw [hv] at hg
          simp only [] at hg
          cases hf : reifyFields (reifyAbove E 0 m w) vals info0.schema with
          | none => rw [hf] at hg; cases hg
          | some fields =>
            rw [hf] at hg
            simp only [Option.map_some', Option.some.injEq] at hg
            subst hg
            have hd0 := hd
            simp only [encodeDeep, hne, if_false, hT, if_true] at hd
            obtain ⟨⟨kvs, hobj⟩, _, _, _⟩ := pureOtto_checks E _ _ T 0 doc hd
            obtain ⟨w1, j, e1, e2, e3, e4⟩ :=
              obxToObj_Otto_inverts E m (obxToObj_inverts E m) 0 w vals i.type info0 hl fields
                hf T 0 doc hd w0 cache 0 key hk1 hk2
            have hr : reify E (m + 1) w1 (.inst w0.heap.length) = some (.inst i.type fields) :=
              reifyAbove_frame E w0.heap.length 0 w1 w1 (Nat.zero_le _) (fun _ _ _ => rfl)
                (m + 1) _ _ e4
            refine ⟨w0.heap.length, w1, j, ?_, e2, e3, hr, ?_⟩
            · subst hobj
              simp only [obxToObj, hne, if_false, hT, if_true]
              exact e1
            · exact objToObx_agrees E 0 w1 (m + 1) _ _ T [] 0 doc sink hr hd0

/-- C1, witness: a book with a list of strings and an embedded cover goes through the
round trip. -/
theorem objToObx_obxToObj_roundtrip_witness :
    objToObx shelfEnv 3 shelfWorld [] (.inst 0) "Book" [] 0 = .ok (shelfDoc, shelfWorld, []) ∧
    ∃ r w1 j, obxToObj shelfEnv 3 emptyCacheWorld shelfDoc "Book" [] 0 (some 0)
        (.prim (.str "book_1")) = .ok (.inst r, w1) ∧
      w1.heap[r]? = some j ∧ j.type = "Book" ∧
      reify shelfEnv 3 w1 (.inst r) = some shelfTree ∧
      objToObx shelfEnv 3 w1 [] (.inst r) "Book" [] 0 = .ok (shelfDoc, w1, []) :=
  objToObx_obxToObj_roundtrip shelfEnv 3 shelfWorld 0 "Book" shelfTree shelfDoc []
    emptyCacheWorld (some 0) (.prim (.str "book_1")) (by decide) (by decide) (by rfl)
    (by decide) (by decide) (fun _ => ⟨0, rfl, by decide⟩)

/-- C1 fails as stated: with `Animal` registered before `Dog` and the discriminators of
`Animal` among those of `Dog`, a `Dog` whose only value is a string unfolds to a tree
and is encoded at depth 0, but decoding its document under `Dog` throws: the document
resolves to `Animal`, the first match. -/
theorem objToObx_obxToObj_roundtrip_counterexample :
    (petEnv.lookup "Dog").isSome = true ∧
    reify petEnv 2 petWorld (.inst 0) =
      some (.inst "Dog" [("name", .prim (.str "Rex")), ("_id", .prim .undefined)]) ∧
    objToObx petEnv 2 petWorld [] (.inst 0) "Dog" [] 0 = .ok (petDoc, petWorld, []) ∧
    typeNameFromObx petEnv petDoc = some "Animal" ∧
    obxToObj petEnv 2 emptyCacheWorld petDoc "Dog" [] 0 (some 0) (.prim (.str "dog_1")) =
      .error (.thrown "data is wrong type") := by
  refine ⟨by decide, by rfl, by decide, by decide, by decide⟩

/-! ## C14: core types -/

theorem coretypes_cases (t : String) (h : CORETYPES.contains t = true) :
    t = "string" ∨ t = "integer" ∨ t = "number" ∨ t = "boolean" := by
  simpa [CORETYPES] using h

/-- C14 (as the code has it): for a core type name `t` that no model type is registered
under, and a value that is neither `undefined` nor `null`, `obxToObj` and `objToObx`
both throw `core type is an object` when the value is an array, an object or (for the
encoder) a model instance, and return the value unchanged, with the state and the
reference list unchanged, when it is a primitive. -/
theorem core_type_scalar (E : Env) (n : Nat) (t : String) (w : World) (s : List String)
    (d : Nat) (x : Obx) (c : Option Nat) (k : Obx) (v : Val) (refs : List Nat)
    (ht : CORETYPES.contains t = true) (hreg : E.lookup t = none)
    (hx1 : x ≠ .prim .undefined) (hx2 : x ≠ .prim .null)
    (hv1 : v ≠ .prim .undefined) (hv2 : v ≠ .prim .null) :
    (x.isObject = true →
      obxToObj E (n + 1) w x t s d c k = .error (.thrown "core type is an object")) ∧
    (∀ p, x = .prim p → obxToObj E (n + 1) w x t s d c k = .ok (.prim p, w)) ∧
    (v.isObject = true →
      objToObx E (n + 1) w refs v t s d = .error (.thrown "core type is an object")) ∧
    (∀ p, v = .prim p → objToObx E (n + 1) w refs v t s d = .ok (.prim p, w, refs)) := by
  have hne : t ≠ "" := by
    rcases coretypes_cases t ht with h | h | h | h <;> rw [h] <;> decide
  have hl : t ≠ "List" := by
    rcases coretypes_cases t ht with h | h | h | h <;> rw [h] <;> decide
  have hm : t ≠ "Map" := by
    rcases coretypes_cases t ht with h | h | h | h <;> rw [h] <;> decide
  have hx : t ≠ "Mixed" := by
    rcases coretypes_cases t ht with h | h | h | h <;> rw [h] <;> decide
  have hmem : t ∈ CORETYPES := by simpa using ht
  refine ⟨?_, ?_, ?_, ?_⟩
  · intro hobj
    cases x with
    | prim p => cases hobj
    | arr xs => simp [obxToObj, hne, hreg, hl, hm, hx, hmem]
    | obj kvs => simp [obxToObj, hne, hreg, hl, hm, hx, hmem]
  · intro p hp
    subst hp
    cases p with
    | undefined => exact absurd rfl hx1
    | null => exact absurd rfl hx2
    | bool b => simp [obxToObj, hne, hreg, hl, hm, hx, hmem]
    | num z => simp [obxToObj, hne, hreg, hl, hm, hx, hmem]
    | str z => simp [obxToObj, hne, hreg, hl, hm, hx, hmem]
  · intro hobj
    cases v with
    | prim p => cases hobj
    | arr xs => simp [objToObx, hne, hreg, hl, hm, hx, hmem]
    | map kvs => simp [objToObx, hne, hreg, hl, hm, hx, hmem]
    | inst r => simp [objToObx, hne, hreg, hl, hm, hx, hmem]
  · intro p hp
    subst hp
    cases p with
    | undefined => exact absurd rfl hv1
    | null => exact absurd rfl hv2
    | bool b => simp [objToObx, hne, hreg, hl, hm, hx, hmem]
    | num z => simp [objToObx, hne, hreg, hl, hm, hx, hmem]
    | str z => simp [objToObx, hne, hreg, hl, hm, hx, hmem]

/-- C14, witness: under `integer`, an array is refused by the decoder and a number goes
through the encoder unchanged. -/
theorem core_type_scalar_witness :
    obxToObj demoEnv 1 emptyCacheWorld (.arr [.prim (.num 1)]) "integer" [] 0 (some 0)
        (.prim .null) = .error (.thrown "core type is an object") ∧
    objToObx demoEnv 1 emptyCacheWorld [] (.prim (.num 7)) "integer" [] 0 =
      .ok (.prim (.num 7), emptyCacheWorld, []) :=
  have h := core_type_scalar demoEnv 0 "integer" emptyCacheWorld [] 0 (.arr [.prim (.num 1)])
    (some 0) (.prim .null) (.prim (.num 7)) [] (by decide) (by rfl) (by decide) (by decide)
    (by decide) (by decide)
  ⟨h.1 rfl, h.2.2.2 _ rfl⟩

/-- C14 fails as stated: when a model is registered under the name `string`, the lookup
`typeList[typeName]` comes before the test for core types, and the number 5 under the
declared type `string` is not returned unchanged: the decoder throws
`expected value of type Object` and the encoder `expected object of type string`; and
for an array the decoder throws `data is wrong type`, not `core type is an object`. -/
theorem core_type_scalar_counterexample :
    CORETYPES.contains "string" = true ∧
    obxToObj stringEnv 2 emptyCacheWorld (.prim (.num 5)) "string" [] 0 (some 0) (.prim .null)
      = .error (.thrown "expected value of type Object") ∧
    objToObx stringEnv 2 emptyCacheWorld [] (.prim (.num 5)) "string" [] 0
      = .error (.thrown ("expected object of type " ++ "string")) ∧
    obxToObj stringEnv 2 emptyCacheWorld (.arr []) "string" [] 0 (some 0) (.prim .null)
      = .error (.thrown "data is wrong type") := by
  refine ⟨by decide, by decide, by decide, by decide⟩

/-! ## C12: lists -/

theorem decodeElems_of_decodesAll (rec : DecFn) (sub : String) (subs : List String)
    (depth : Nat) (c : Option Nat) (xs : List Obx) (w : World) (vs : List Val) (w1 : World)
    (h : DecodesAll rec sub subs depth c xs w vs w1) :
    decodeElems rec sub subs depth c xs w = .ok (vs, w1) ∧ vs.length = xs.length := by
  induction h with
  | nil w => exact ⟨rfl, rfl⟩
  | cons x xs w v wa vs w2 h1 _ ih =>
    simp only [decodeElems, h1, ih.1, List.length_cons, ih.2, and_self]

theorem trimUndefined_split {α : Type} (p : α → Bool) (vs : List α) :
    ∃ rest, vs = trimUndefined p vs ++ rest ∧ ∀ v ∈ rest, p v = true := by
  induction vs with
  | nil => exact ⟨[], rfl, by simp⟩
  | cons v vs ih =>
    obtain ⟨rest, h1, h2⟩ := ih
    simp only [trimUndefined]
    cases ht : trimUndefined p vs with
    | nil =>
      rw [ht] at h1
      simp only [List.nil_append] at h1
      by_cases hv : p v = true
      · refine ⟨v :: vs, by simp [hv], ?_⟩
        intro u hu
        rcases List.mem_cons.1 hu with h3 | h3
        · rw [h3]; exact hv
        · rw [h1] at h3; exact h2 u h3
      · refine ⟨vs, by simp [hv], ?_⟩
        intro u hu
        rw [h1] at hu; exact h2 u hu
    | cons y ys =>
      rw [ht] at h1
      exact ⟨rest, congrArg (fun l => v :: l) h1, h2⟩

theorem trimUndefined_last {α : Type} (p : α → Bool) (vs : List α)
    (h : ∀ l, vs.getLast? = some l → p l = false) : trimUndefined p vs = vs := by
  induction vs with
  | nil => rfl
  | cons v vs ih =>
    simp only [trimUndefined]
    cases vs with
    | nil =>
      have := h v (by simp)
      simp [trimUndefined, this]
    | cons y ys =>
      have h2 : ∀ l, (y :: ys).getLast? = some l → p l = false := by
        intro l hl
        exact h l (by simpa [List.getLast?_cons_cons] using hl)
      rw [ih h2]

theorem obxToObj_Otto_inst (E : Env) (rec : DecFn) (w : World) (x t : Obx) (d : Nat)
    (c : Option Nat) (k : Obx) (v : Val) (w1 : World)
    (h : obxToObj_Otto E rec w x t d c k = .ok (v, w1)) : v.isUndefined = false := by
  unfold obxToObj_Otto at h
  simp only [] at h
  split at h
  · split at h
    · cases h
    · split at h
      · cases h
      · split at h
        · cases h
        · split at h
          · cases h
          · split at h
            · cases h
            · simp only [Except.ok.injEq, Prod.mk.injEq] at h
              rw [← h.1]; rfl
        · cases h
        · split at h
          · cases h
          · split at h
            · cases h
            · simp only [Except.ok.injEq, Prod.mk.injEq] at h
              rw [← h.1]; rfl
  · split at h
    · cases h
    · split at h
      · cases h
      · split at h
        · cases h
        · split at h
          · cases h
          · simp only [Except.ok.injEq, Prod.mk.injEq] at h
            rw [← h.1]; rfl

theorem obxToObj_List_arr (rec : DecFn) (w : World) (x : Obx) (s : List String) (d : Nat)
    (c : Option Nat) (v : Val) (w1 : World)
    (h : obxToObj_List rec w x s d c = .ok (v, w1)) : v.isUndefined = false := by
  unfold obxToObj_List at h
  cases x with
  | arr xs =>
    simp only [] at h
    split at h
    · cases h
    · simp only [Except.ok.injEq, Prod.mk.injEq] at h
      rw [← h.1]; rfl
  | prim p => cases h
  | obj kvs => cases h

theorem obxToObj_Map_map (rec : DecFn) (w : World) (x : Obx) (s : List String) (d : Nat)
    (c : Option Nat) (v : Val) (w1 : World)
    (h : obxToObj_Map rec w x s d c = .ok (v, w1)) : v.isUndefined = false := by
  unfold obxToObj_Map at h
  split at h
  · cases h
  · simp only [] at h
    split at h
    · cases h
    · simp only [Except.ok.injEq, Prod.mk.injEq] at h
      rw [← h.1]; rfl

/-- The decoder returns `undefined` exactly for `undefined`. -/
theorem obxToObj_undefined_iff (E : Env) (n : Nat) (w : World) (x : Obx) (t : String)
    (s : List String) (d : Nat) (c : Option Nat) (k : Obx) (v : Val) (w1 : World)
    (h : obxToObj E n w x t s d c k = .ok (v, w1)) : v.isUndefined = x.isUndefined := by
  cases n with
  | zero => cases h
  | succ n =>
    simp only [obxToObj] at h
    generalize (if t = "" then "Mixed" else t) = tn at h
    have key : ∀ x2 : Obx, x2.isUndefined = false →
        (if (E.lookup tn).isSome = true then
            obxToObj_Otto E (obxToObj E n) w x2 (.prim (.str tn)) d c k
          else if tn = "List" then obxToObj_List (obxToObj E n) w x2 s d c
          else if tn = "Map" then obxToObj_Map (obxToObj E n) w x2 s d c
          else if tn = "Mixed" then obxToObj_Mixed E (obxToObj E n) w x2 d c k
          else if CORETYPES.contains tn = true then
            (match x2 with
              | .prim p => (.ok (.prim p, w) : DecRes)
              | _ => .error (.thrown "core type is an object"))
          else .error (.thrown ("encountered unknown type " ++ tn))) = .ok (v, w1) →
        v.isUndefined = false := by
      intro x2 hx2 h2
      split at h2
      · exact obxToObj_Otto_inst E _ w x2 _ d c k v w1 h2
      · split at h2
        · exact obxToObj_List_arr _ w x2 s d c v w1 h2
        · split at h2
          · exact obxToObj_Map_map _ w x2 s d c v w1 h2
          · split at h2
            · unfold obxToObj_Mixed at h2
              split at h2
              · exact obxToObj_Otto_inst E _ w x2 _ d c k v w1 h2
              · split at h2
                · exact obxToObj_Otto_inst E _ w x2 _ d c k v w1 h2
                · cases x2 with
                  | arr xs => exact obxToObj_List_arr _ w _ [] d c v w1 h2
                  | obj kvs => exact obxToObj_Map_map _ w _ [] d c v w1 h2
                  | prim p =>
                    simp only [Except.ok.injEq, Prod.mk.injEq] at h2
                    rw [← h2.1]
                    cases p <;> simp [Val.isUndefined, Obx.isUndefined] at hx2 ⊢
            · split at h2
              · cases x2 with
                | arr xs => cases h2
                | obj kvs => cases h2
                | prim p =>
                  simp only [Except.ok.injEq, Prod.mk.injEq] at h2
                  rw [← h2.1]
                  cases p <;> simp [Val.isUndefined, Obx.isUndefined] at hx2 ⊢
              · cases h2
    cases x with
    | prim p =>
      cases p with
      | undefined =>
        simp only [Except.ok.injEq, Prod.mk.injEq] at h
        rw [← h.1]; rfl
      | null =>
        simp only [Except.ok.injEq, Prod.mk.injEq] at h
        rw [← h.1]; rfl
      | bool b => exact key (.prim (.bool b)) rfl h
      | num z => exact key (.prim (.num z)) rfl h
      | str z => exact key (.prim (.str z)) rfl h
    | arr xs => exact key (.arr xs) rfl h
    | obj kvs => exact key (.obj kvs) rfl h

theorem decodesAll_last (E : Env) (n : Nat) (sub : String) (subs : List String) (depth : Nat)
    (c : Option Nat) (xs : List Obx) (w : World) (vs : List Val) (w1 : World)
    (h : DecodesAll (obxToObj E n) sub subs depth c xs w vs w1)
    (hl : ∀ l, xs.getLast? = some l → l.isUndefined = false) :
    ∀ l, vs.getLast? = some l → l.isUndefined = false := by
  induction h with
  | nil w => intro l h2; simp at h2
  | cons x xs w v wa vs w2 h1 h2 ih =>
    intro l h3
    cases h2 with
    | nil =>
      simp only [List.getLast?_singleton, Option.some.injEq] at h3
      rw [← h3, obxToObj_undefined_iff E n _ _ _ _ _ _ _ _ _ h1]
      exact hl x (by simp)
    | cons y ys wb u wc us wd h4 h5 =>
      have h6 := DecodesAll.cons y ys wa u wc us w2 h4 h5
      rw [List.getLast?_cons_cons] at h3
      refine ih ?_ l h3
      intro l2 hl2
      exact hl l2 (by rw [List.getLast?_cons_cons]; exact hl2)

/-- C12 (as the code has it): `obxToObj_List` throws `expected array` for a value that
is no array.  For an array whose elements all decode without error, one after the other
under the first subtype (`Mixed` when there is none) and the rest of the subtypes, it
returns the decoded values in order up to the last one that is not `undefined`: the
values it leaves out at the end are all `undefined`, and nothing is left out, so the
length is that of the input, when the last element of the input is not `undefined`. -/
theorem obxToObj_List_spec (E : Env) (n : Nat) (w : World) (x : Obx) (s : List String)
    (d : Nat) (c : Option Nat) :
    ((∀ xs, x ≠ .arr xs) →
      obxToObj_List (obxToObj E n) w x s d c = .error (.thrown "expected array")) ∧
    (∀ xs vs w1, x = .arr xs →
      DecodesAll (obxToObj E n) ((defaultSubtypes s).headD "Mixed") (defaultSubtypes s).tail
        d c xs w vs w1 →
      obxToObj_List (obxToObj E n) w x s d c
        = .ok (.arr (trimUndefined Val.isUndefined vs), w1) ∧
      vs.length = xs.length ∧
      (∃ rest, vs = trimUndefined Val.isUndefined vs ++ rest ∧
        ∀ v ∈ rest, v = .prim .undefined) ∧
      ((∀ l, xs.getLast? = some l → l ≠ .prim .undefined) →
        trimUndefined Val.isUndefined vs = vs)) := by
  constructor
  · intro hx
    cases x with
    | arr xs => exact absurd rfl (hx xs)
    | prim p => rfl
    | obj kvs => rfl
  · intro xs vs w1 hx h
    subst hx
    obtain ⟨e1, e2⟩ := decodeElems_of_decodesAll _ _ _ _ _ _ _ _ _ h
    refine ⟨?_, e2, ?_, ?_⟩
    · simp only [obxToObj_List, e1]
    · obtain ⟨rest, r1, r2⟩ := trimUndefined_split Val.isUndefined vs
      exact ⟨rest, r1, fun v hv => isUndefined_eq v (r2 v hv)⟩
    · intro hl
      apply trimUndefined_last
      apply decodesAll_last E n _ _ _ _ _ _ _ _ h
      intro l h2
      have := hl l h2
      cases l with
      | prim p => cases p <;> simp [Obx.isUndefined] at this ⊢
      | arr ys => rfl
      | obj kvs => rfl

/-- C12, witness: a list of a number and a string under no subtype. -/
theorem obxToObj_List_spec_witness :
    obxToObj_List (obxToObj demoEnv 1) emptyCacheWorld
        (.arr [.prim (.num 1), .prim (.str "a")]) [] 0 (some 0)
      = .ok (.arr (trimUndefined Val.isUndefined [.prim (.num 1), .prim (.str "a")]),
          emptyCacheWorld) ∧
    [Val.prim (.num 1), Val.prim (.str "a")].length
      = [Obx.prim (.num 1), Obx.prim (.str "a")].length ∧
    (∃ rest, [Val.prim (.num 1), Val.prim (.str "a")]
        = trimUndefined Val.isUndefined [.prim (.num 1), .prim (.str "a")] ++ rest ∧
      ∀ v ∈ rest, v = .prim .undefined) ∧
    ((∀ l, [Obx.prim (.num 1), Obx.prim (.str "a")].getLast? = some l → l ≠ .prim .undefined) →
      trimUndefined Val.isUndefined [Val.prim (.num 1), Val.prim (.str "a")]
        = [.prim (.num 1), .prim (.str "a")]) :=
  (obxToObj_List_spec demoEnv 1 emptyCacheWorld (.arr [.prim (.num 1), .prim (.str "a")]) []
    0 (some 0)).2 _ _ emptyCacheWorld rfl
    (DecodesAll.cons _ _ _ _ emptyCacheWorld _ _ (by decide)
      (DecodesAll.cons _ _ _ _ emptyCacheWorld _ _ (by decide) (DecodesAll.nil _)))

/-- C12 fails as stated: the array `[1, undefined]` has two elements, both decode
without error, and the result `[1]` has one. -/
theorem obxToObj_List_length_counterexample :
    DecodesAll (obxToObj demoEnv 1) "Mixed" [] 0 (some 0)
      [.prim (.num 1), .prim .undefined] emptyCacheWorld
      [.prim (.num 1), .prim .undefined] emptyCacheWorld ∧
    obxToObj_List (obxToObj demoEnv 1) emptyCacheWorld
        (.arr [.prim (.num 1), .prim .undefined]) [] 0 (some 0)
      = .ok (.arr [.prim (.num 1)], emptyCacheWorld) :=
  ⟨DecodesAll.cons _ _ _ _ emptyCacheWorld _ _ (by decide)
      (DecodesAll.cons _ _ _ _ emptyCacheWorld _ _ (by decide) (DecodesAll.nil _)),
    by decide⟩

/-! ## C11: the polymorphic type -/

theorem toValFields_keys (kvs : List (String × Obx)) :
    (Obx.toValFields kvs).map Prod.fst = kvs.map Prod.fst := by
  induction kvs with
  | nil => rfl
  | cons kx kvs ih =>
    obtain ⟨k, x⟩ := kx
    simp [Obx.toValFields, ih]

theorem toVal_isUndefined (x : Obx) : x.toVal.isUndefined = x.isUndefined := by
  cases x with
  | prim p => cases p <;> rfl
  | arr xs => rfl
  | obj kvs => rfl

theorem decodeElems_plain (E : Env) (rec : DecFn) (n : Nat) (hrec : DecPlain E rec n)
    (w : World) (d : Nat) (c : Option Nat) (xs : List Obx)
    (h : xs.all (fun x => !x.isUndefined && plainObx E n x) = true) :
    decodeElems rec "Mixed" [] d c xs w = .ok (Obx.toValList xs, w) ∧
    ∀ v ∈ Obx.toValList xs, v.isUndefined = false := by
  induction xs with
  | nil => exact ⟨rfl, by simp [Obx.toValList]⟩
  | cons x xs ih =>
    simp only [List.all_cons, Bool.and_eq_true, Bool.not_eq_true'] at h
    obtain ⟨⟨h1, h2⟩, h3⟩ := h
    obtain ⟨e1, e2⟩ := ih (by simpa using h3)
    refine ⟨?_, ?_⟩
    · simp only [decodeElems, hrec w x (d + 1) c _ h2, e1, Obx.toValList]
    · intro v hv
      simp only [Obx.toValList, List.mem_cons] at hv
      rcases hv with h4 | h4
      · rw [h4, toVal_isUndefined]; exact h1
      · exact e2 v h4

theorem decodeEntries_plain (E : Env) (rec : DecFn) (n : Nat) (hrec : DecPlain E rec n)
    (w : World) (d : Nat) (c : Option Nat) (kvs : List (String × Obx)) :
    ∀ (out : List (String × Val)),
      kvs.all (fun kx => !kx.2.isUndefined && plainObx E n kx.2) = true →
      (kvs.map Prod.fst).Nodup → (∀ k ∈ kvs.map Prod.fst, k ∉ out.map Prod.fst) →
      decodeEntries rec "Mixed" [] d c kvs w out = .ok (out ++ Obx.toValFields kvs, w) := by
  induction kvs with
  | nil => intro out _ _ _; simp [decodeEntries, Obx.toValFields]
  | cons kx kvs ih =>
    obtain ⟨k, x⟩ := kx
    intro out h hnd hdis
    simp only [List.all_cons, Bool.and_eq_true, Bool.not_eq_true'] at h
    obtain ⟨⟨h1, h2⟩, h3⟩ := h
    simp only [List.map_cons, List.nodup_cons] at hnd
    have hk : k ∉ out.map Prod.fst := hdis k (by simp)
    have hu : x.toVal.isUndefined = false := by rw [toVal_isUndefined]; exact h1
    simp only [decodeEntries, hrec w x (d + 1) c _ h2, hu, Bool.false_eq_true, if_false]
    rw [setProp_new out k x.toVal hk, ih (out ++ [(k, x.toVal)]) (by simpa using h3) hnd.2]
    · simp [Obx.toValFields]
    · intro k2 hk2
      simp only [List.map_append, List.map_cons, List.map_nil, List.mem_append,
        List.mem_singleton, not_or]
      refine ⟨hdis k2 (by simp [hk2]), ?_⟩
      intro e
      rw [e] at hk2
      exact hnd.1 hk2

/-- Plain data decodes to itself under the polymorphic type, in any state, and the state
stays as it was. -/
theorem obxToObj_plain (E : Env) (hreg : E.lookup "Mixed" = none) :
    ∀ n, DecPlain E (obxToObj E n) n := by
  intro n
  induction n with
  | zero => intro w x d c k h; simp [plainObx] at h
  | succ n ih =>
    intro w x d c k h
    have hm : ("Mixed" = "") = False := by decide
    have hl : ("Mixed" = "List") = False := by decide
    have hp : ("Mixed" = "Map") = False := by decide
    cases x with
    | prim p =>
      cases p <;>
        simp [obxToObj, hreg, obxToObj_Mixed, isRefObx, isOttoObx, Obx.isObject, Obx.toVal]
    | arr xs =>
      simp only [plainObx, Bool.and_eq_true, Bool.not_eq_true'] at h
      obtain ⟨e1, e2⟩ := decodeElems_plain E _ n ih w d c xs h.2
      simp only [obxToObj, hm, if_false, hreg, Option.isSome_none, Bool.false_eq_true, hl, hp,
        if_true, obxToObj_Mixed, isRefObx_arr, h.1, obxToObj_List, defaultSubtypes,
        List.isEmpty_nil, List.headD_cons, List.tail_cons, e1, trimUndefined_id _ _ e2,
        Obx.toVal]
    | obj kvs =>
      simp only [plainObx, Bool.and_eq_true, Bool.not_eq_true', decide_eq_true_eq] at h
      obtain ⟨⟨⟨h1, h2⟩, h3⟩, h4⟩ := h
      have e1 := decodeEntries_plain E _ n ih w d c kvs [] h4 h3 (by simp)
      simp only [obxToObj, hm, if_false, hreg, Option.isSome_none, Bool.false_eq_true, hl, hp,
        if_true, obxToObj_Mixed, h1, h2, obxToObj_Map, Obx.isObject, Bool.not_true,
        defaultSubtypes, List.isEmpty_nil, List.headD_cons, List.tail_cons, Obx.entries, e1,
        List.nil_append, Obx.toVal]

/-- C11 (as the code has it): when no model type is registered under the name `Mixed`,
`obxToObj` under `Mixed` or under no type name, on a value that is neither `undefined`
nor `null`, (a) decodes a reference marker as a reference to the type the marker names;
(b) decodes an array or object that is no marker and for which `typeNameFromObx` gives
a non-empty name `T` as the model type `T`; (c) otherwise decodes an array as a list, an
object as a map, and returns a primitive unchanged.  And (d) plain data, in which no
array or object at any level is a marker or matches a registered type, no `undefined`
is held and keys are distinct, decodes to itself without error: an object becomes the
map with the same keys. -/
theorem obxToObj_Mixed_dispatch (E : Env) (n : Nat) (w : World) (x : Obx) (t : String)
    (s : List String) (d : Nat) (c : Option Nat) (k : Obx)
    (ht : t = "" ∨ t = "Mixed") (hreg : E.lookup "Mixed" = none)
    (hx1 : x ≠ .prim .undefined) (hx2 : x ≠ .prim .null) :
    (isRefObx x = true →
      obxToObj E (n + 1) w x t s d c k =
        obxToObj_Otto E (obxToObj E n) w x ((x.get "$ref").get "0") d c k) ∧
    (∀ T, isRefObx x = false → x.isObject = true → typeNameFromObx E x = some T → T ≠ "" →
      obxToObj E (n + 1) w x t s d c k =
        obxToObj_Otto E (obxToObj E n) w x (.prim (.str T)) d c k) ∧
    (isRefObx x = false →
      (x.isObject = false ∨ typeNameFromObx E x = none ∨ typeNameFromObx E x = some "") →
      (∀ xs, x = .arr xs →
        obxToObj E (n + 1) w x t s d c k = obxToObj_List (obxToObj E n) w x [] d c) ∧
      (∀ kvs, x = .obj kvs →
        obxToObj E (n + 1) w x t s d c k = obxToObj_Map (obxToObj E n) w x [] d c) ∧
      (∀ p, x = .prim p → obxToObj E (n + 1) w x t s d c k = .ok (.prim p, w))) ∧
    (plainObx E (n + 1) x = true →
      obxToObj E (n + 1) w x t s d c k = .ok (x.toVal, w) ∧
      ∀ kvs, x = .obj kvs → ∃ out, x.toVal = .map out ∧ out.map Prod.fst = kvs.map Prod.fst) := by
  have hm : ("Mixed" = "List") = False := by decide
  have hp : ("Mixed" = "Map") = False := by decide
  have hmix : obxToObj E (n + 1) w x t s d c k =
      obxToObj_Mixed E (obxToObj E n) w x d c k := by
    have htn : (if t = "" then "Mixed" else t) = "Mixed" := by
      rcases ht with h | h
      · simp [h]
      · rw [h]; decide
    cases x with
    | prim p =>
      cases p with
      | undefined => exact absurd rfl hx1
      | null => exact absurd rfl hx2
      | bool b => simp only [obxToObj, htn, hreg, Option.isSome_none, Bool.false_eq_true,
          if_false, hm, hp, if_true]
      | num z => simp only [obxToObj, htn, hreg, Option.isSome_none, Bool.false_eq_true,
          if_false, hm, hp, if_true]
      | str z => simp only [obxToObj, htn, hreg, Option.isSome_none, Bool.false_eq_true,
          if_false, hm, hp, if_true]
    | arr xs => simp only [obxToObj, htn, hreg, Option.isSome_none, Bool.false_eq_true,
          if_false, hm, hp, if_true]
    | obj kvs => simp only [obxToObj, htn, hreg, Option.isSome_none, Bool.false_eq_true,
          if_false, hm, hp, if_true]
  refine ⟨?_, ?_, ?_, ?_⟩
  · intro h
    rw [hmix]
    simp only [obxToObj_Mixed, h, if_true]
  · intro T h1 h2 h3 h4
    rw [hmix]
    simp [obxToObj_Mixed, h1, isOttoObx, h2, h3, h4]
  · intro h1 h2
    rw [hmix]
    have ho : isOttoObx E x = false := by
      rcases h2 with h | h | h
      · simp [isOttoObx, h]
      · simp [isOttoObx, h]
      · simp [isOttoObx, h]
    refine ⟨?_, ?_, ?_⟩
    · intro xs hx
      subst hx
      simp only [obxToObj_Mixed, h1, ho, Bool.false_eq_true, if_false]
    · intro kvs hx
      subst hx
      simp only [obxToObj_Mixed, h1, ho, Bool.false_eq_true, if_false]
    · intro p hx
      subst hx
      simp only [obxToObj_Mixed, h1, ho, Bool.false_eq_true, if_false]
  · intro h
    refine ⟨?_, ?_⟩
    · rw [hmix]
      have h2 := obxToObj_plain E hreg (n + 1) w x d c k h
      have hm2 : ("Mixed" = "") = False := by decide
      cases x with
      | prim p =>
        cases p with
        | undefined => exact absurd rfl hx1
        | null => exact absurd rfl hx2
        | bool b =>
          simpa only [obxToObj, hm2, if_false, hreg, Option.isSome_none, Bool.false_eq_true, hm,
            hp, if_true] using h2
        | num z =>
          simpa only [obxToObj, hm2, if_false, hreg, Option.isSome_none, Bool.false_eq_true, hm,
            hp, if_true] using h2
        | str z =>
          simpa only [obxToObj, hm2, if_false, hreg, Option.isSome_none, Bool.false_eq_true, hm,
            hp, if_true] using h2
      | arr xs =>
        simpa only [obxToObj, hm2, if_false, hreg, Option.isSome_none, Bool.false_eq_true, hm,
          hp, if_true] using h2
      | obj kvs =>
        simpa only [obxToObj, hm2, if_false, hreg, Option.isSome_none, Bool.false_eq_true, hm,
          hp, if_true] using h2
    · intro kvs hk
      subst hk
      exact ⟨Obx.toValFields kvs, by simp [Obx.toVal], toValFields_keys kvs⟩

/-- C11, witness: in the registry with `Person`, the object `{a: 1, b: [true]}` is plain
data and decodes under `Mixed` to the map with the keys `a` and `b`. -/
theorem obxToObj_Mixed_dispatch_witness :
    obxToObj demoEnv 3 emptyCacheWorld
        (.obj [("a", .prim (.num 1)), ("b", .arr [.prim (.bool true)])]) "Mixed" [] 0
        (some 0) (.prim .null)
      = .ok ((Obx.obj [("a", .prim (.num 1)), ("b", .arr [.prim (.bool true)])]).toVal,
          emptyCacheWorld) ∧
    ∀ kvs, Obx.obj [("a", .prim (.num 1)), ("b", .arr [.prim (.bool true)])] = .obj kvs →
      ∃ out, (Obx.obj [("a", .prim (.num 1)), ("b", .arr [.prim (.bool true)])]).toVal
          = .map out ∧ out.map Prod.fst = kvs.map Prod.fst :=
  (obxToObj_Mixed_dispatch demoEnv 2 emptyCacheWorld
    (.obj [("a", .prim (.num 1)), ("b", .arr [.prim (.bool true)])]) "Mixed" [] 0 (some 0)
    (.prim .null) (Or.inr rfl) (by rfl) (by decide) (by decide)).2.2.2 (by decide)

/-- C11 fails as stated, in two ways.  An object without discriminator fields that is no
marker and matches no registered type can raise an error: the value of its property `a`
is a marker with one element.  And a string for which `typeNameFromObx` gives the
registered type `Any` is returned unchanged, where decoding it as the model type `Any`
throws. -/
theorem obxToObj_Mixed_counterexample :
    (isRefObx (.obj [("a", .obj [("$ref", .arr [.prim (.str "Person")])])]) = false ∧
     typeNameFromObx demoEnv (.obj [("a", .obj [("$ref", .arr [.prim (.str "Person")])])])
       = none ∧
     obxToObj demoEnv 3 emptyCacheWorld
         (.obj [("a", .obj [("$ref", .arr [.prim (.str "Person")])])]) "Mixed" [] 0 (some 0)
         (.prim .null)
       = .error (.thrown "expected reference object")) ∧
    (typeNameFromObx anyEnv (.prim (.str "abc")) = some "Any" ∧
     obxToObj anyEnv 2 emptyCacheWorld (.prim (.str "abc")) "Mixed" [] 0 (some 0) (.prim .null)
       = .ok (.prim (.str "abc"), emptyCacheWorld) ∧
     obxToObj_Otto anyEnv (obxToObj anyEnv 1) emptyCacheWorld (.prim (.str "abc"))
         (.prim (.str "Any")) 0 (some 0) (.prim .null)
       = .error (.thrown "expected value of type Object")) := by
  refine ⟨⟨by decide, by decide, by decide⟩, by decide, by decide, by decide⟩

/-! ## C13: errors of the reference branch -/

theorem obxToObj_Otto_ref_eq (E : Env) (rec : DecFn) (w : World) (obx typeName : Obx)
    (d : Nat) (c : Option Nat) (k : Obx) (h : isRefObx obx = true) :
    obxToObj_Otto E rec w obx typeName d c k
      = dropState (obxToObj_Otto_ref E w obx typeName c) := by
  unfold obxToObj_Otto obxToObj_Otto_ref
  simp only [h, if_true]
  by_cases c1 : (obx.get "$ref").get "length" ≠ .prim (.num 2)
  · rw [if_pos c1, if_pos c1]; rfl
  · rw [if_neg c1, if_neg c1]
    by_cases c2 : (obx.get "$ref").get "0" ≠ typeName
    · rw [if_pos c2, if_pos c2]; rfl
    · rw [if_neg c2, if_neg c2]
      cases hcg : w.cacheGet c ((obx.get "$ref").get "1").toStr with
      | none => rfl
      | some o =>
        cases o with
        | inst cached =>
          simp only []
          cases hh : w.heap[cached]? with
          | none => rfl
          | some ci =>
            simp only []
            by_cases c3 : Obx.prim (.str ci.type) ≠ (obx.get "$ref").get "0"
            · rw [if_pos c3, if_pos c3]; rfl
            · rw [if_neg c3, if_neg c3]; rfl
        | member => rfl
        | missing =>
          simp only []
          cases hl : E.lookup typeName.toStr with
          | none => rfl
          | some info =>
            simp only []
            split
            · rename_i hq
              simp only [hq, dropState]
            · rename_i w2 hq
              simp only [hq, dropState]

/-- C13 (as the code has it): let `T` be a registered type, `c` a cache whose entries are
instances, and `obx` an object whose `$ref` is the array `[t, k]`.  Then `obxToObj_Otto`
under `T` throws `data is wrong type` when `t` is not the string `T`; otherwise it throws
`object cached but later found as different type` when the cache holds under `k` an
instance whose type name is not `T`; otherwise, when the cache holds nothing under `k`
and `k` names a member inherited from `Object.prototype`, it throws a `TypeError`;
otherwise it returns an instance: the cached one when there is one, whose type then is
`T`, with the state unchanged, and else a new one.  So it throws exactly in the three
cases, and when it throws the state, and with it the cache, is as it was. -/
theorem obxToObj_Otto_ref_errors (E : Env) (rec : DecFn) (w : World) (c : Nat)
    (cache : List (String × Nat)) (T : String) (info : TypeInfo) (obx t k : Obx) (d : Nat)
    (thisKey : Obx)
    (hT : E.lookup T = some info) (hc : w.caches[c]? = some cache)
    (hwf : ∀ key r, lookupProp cache key = some r → ∃ i, w.heap[r]? = some i)
    (hobj : obx.isObject = true) (href : obx.get "$ref" = .arr [t, k]) :
    (t ≠ .prim (.str T) →
      obxToObj_Otto E rec w obx (.prim (.str T)) d (some c) thisKey
        = .error (.thrown "data is wrong type")) ∧
    (∀ r i, t = .prim (.str T) → lookupProp cache k.toStr = some r → w.heap[r]? = some i →
      i.type ≠ T →
      obxToObj_Otto E rec w obx (.prim (.str T)) d (some c) thisKey
        = .error (.thrown "object cached but later found as different type")) ∧
    (t = .prim (.str T) → lookupProp cache k.toStr = none → k.toStr ∈ objectPrototype →
      obxToObj_Otto E rec w obx (.prim (.str T)) d (some c) thisKey
        = .error (.typeError "cannot read property name of undefined")) ∧
    (∀ r i, t = .prim (.str T) → lookupProp cache k.toStr = some r → w.heap[r]? = some i →
      i.type = T →
      obxToObj_Otto E rec w obx (.prim (.str T)) d (some c) thisKey = .ok (.inst r, w)) ∧
    (t = .prim (.str T) → lookupProp cache k.toStr = none → k.toStr ∉ objectPrototype →
      ∃ w1, obxToObj_Otto E rec w obx (.prim (.str T)) d (some c) thisKey
        = .ok (.inst w.heap.length, w1)) ∧
    ((∃ e, obxToObj_Otto E rec w obx (.prim (.str T)) d (some c) thisKey = .error e) ↔
      (t ≠ .prim (.str T) ∨
        (∃ r i, lookupProp cache k.toStr = some r ∧ w.heap[r]? = some i ∧ i.type ≠ T) ∨
        (lookupProp cache k.toStr = none ∧ k.toStr ∈ objectPrototype))) ∧
    (∀ e, obxToObj_Otto E rec w obx (.prim (.str T)) d (some c) thisKey = .error e →
      (obxToObj_Otto_ref E w obx (.prim (.str T)) (some c)).1 = .error e ∧
      (obxToObj_Otto_ref E w obx (.prim (.str T)) (some c)).2 = w) := by
  have hisref : isRefObx obx = true := by
    simp [isRefObx, hobj, href, Obx.truthy]
  have hlen : (Obx.arr [t, k]).get "length" = .prim (.num 2) := by
    simp [Obx.get]
  have h0 : (Obx.arr [t, k]).get "0" = t := by
    have : arrayIndex "0" = some 0 := by decide
    have h2 : ("0" = "length") = False := by decide
    simp [Obx.get, this, h2]
  have h1 : (Obx.arr [t, k]).get "1" = k := by
    have : arrayIndex "1" = some 1 := by decide
    have h2 : ("1" = "length") = False := by decide
    simp [Obx.get, this, h2]
  have hts : (Obx.prim (.str T)).toStr = T := by simp [Obx.toStr, Prim.toStr]
  have hcgHit : ∀ r, lookupProp cache k.toStr = some r →
      w.cacheGet (some c) k.toStr = some (.inst r) := by
    intro r hl
    simp [World.cacheGet, hc, hl]
  have hcgMem : lookupProp cache k.toStr = none → k.toStr ∈ objectPrototype →
      w.cacheGet (some c) k.toStr = some .member := by
    intro hl hm
    simp [World.cacheGet, hc, hl, hm]
  have hcgMiss : lookupProp cache k.toStr = none → k.toStr ∉ objectPrototype →
      w.cacheGet (some c) k.toStr = some .missing := by
    intro hl hm
    simp [World.cacheGet, hc, hl, hm]
  have hw : t ≠ .prim (.str T) →
      obxToObj_Otto_ref E w obx (.prim (.str T)) (some c)
        = (.error (.thrown "data is wrong type"), w) := by
    intro hne
    simp only [obxToObj_Otto_ref, href, hlen, h0, ne_eq, not_true_eq_false, if_false, hne,
      not_false_eq_true, if_true]
  have hbad : ∀ r i, t = .prim (.str T) → lookupProp cache k.toStr = some r →
      w.heap[r]? = some i → i.type ≠ T →
      obxToObj_Otto_ref E w obx (.prim (.str T)) (some c)
        = (.error (.thrown "object cached but later found as different type"), w) := by
    intro r i ht hl hi hty
    subst ht
    have hne : Obx.prim (.str i.type) ≠ .prim (.str T) := by
      intro e
      injection e with e2
      injection e2 with e3
      exact hty e3
    simp only [obxToObj_Otto_ref, href, hlen, h0, h1, ne_eq, not_true_eq_false, if_false,
      hcgHit r hl, hi, hne, not_false_eq_true, if_true]
  have hmem : t = .prim (.str T) → lookupProp cache k.toStr = none →
      k.toStr ∈ objectPrototype →
      obxToObj_Otto_ref E w obx (.prim (.str T)) (some c)
        = (.error (.typeError "cannot read property name of undefined"), w) := by
    intro ht hl hm
    subst ht
    simp only [obxToObj_Otto_ref, href, hlen, h0, h1, ne_eq, not_true_eq_false, if_false,
      hcgMem hl hm]
  have hhit : ∀ r i, t = .prim (.str T) → lookupProp cache k.toStr = some r →
      w.heap[r]? = some i → i.type = T →
      obxToObj_Otto_ref E w obx (.prim (.str T)) (some c) = (.ok (.inst r), w) := by
    intro r i ht hl hi hty
    subst ht
    simp only [obxToObj_Otto_ref, href, hlen, h0, h1, ne_eq, not_true_eq_false, if_false,
      hcgHit r hl, hi, hty]
  have hmiss : t = .prim (.str T) → lookupProp cache k.toStr = none →
      k.toStr ∉ objectPrototype → ∃ w1,
      obxToObj_Otto_ref E w obx (.prim (.str T)) (some c) = (.ok (.inst w.heap.length), w1) := by
    intro ht hl hm
    subst ht
    refine ⟨World.mk (w.heap ++ [placeholder info.name k (some c)])
      (w.caches.set c (setProp cache k.toStr w.heap.length)) w.uuids, ?_⟩
    simp only [obxToObj_Otto_ref, href, hlen, h0, h1, ne_eq, not_true_eq_false, if_false,
      hcgMiss hl hm, hts, hT, World.alloc, World.cacheSet, hc, Option.map_some', placeholder]
  have heq := obxToObj_Otto_ref_eq E rec w obx (.prim (.str T)) d (some c) thisKey hisref
  refine ⟨?_, ?_, ?_, ?_, ?_, ?_, ?_⟩
  · intro hne
    rw [heq, hw hne]; rfl
  · intro r i ht hl hi hty
    rw [heq, hbad r i ht hl hi hty]; rfl
  · intro ht hl hm
    rw [heq, hmem ht hl hm]; rfl
  · intro r i ht hl hi hty
    rw [heq, hhit r i ht hl hi hty]; rfl
  · intro ht hl hm
    obtain ⟨w1, e⟩ := hmiss ht hl hm
    exact ⟨w1, by rw [heq, e]; rfl⟩
  · constructor
    · rintro ⟨e, he⟩
      by_cases ht : t = .prim (.str T)
      · right
        cases hl : lookupProp cache k.toStr with
        | none =>
          right
          refine ⟨rfl, ?_⟩
          by_contra hm
          obtain ⟨w1, e1⟩ := hmiss ht hl hm
          rw [heq, e1] at he
          cases he
        | some r =>
          left
          obtain ⟨i, hi⟩ := hwf _ r hl
          refine ⟨r, i, rfl, hi, ?_⟩
          intro hty
          rw [heq, hhit r i ht hl hi hty] at he
          cases he
      · exact Or.inl ht
    · rintro (hne | ⟨r, i, hl, hi, hty⟩ | ⟨hl, hm⟩)
      · exact ⟨_, by rw [heq, hw hne]; rfl⟩
      · by_cases ht : t = .prim (.str T)
        · exact ⟨_, by rw [heq, hbad r i ht hl hi hty]; rfl⟩
        · exact ⟨_, by rw [heq, hw ht]; rfl⟩
      · by_cases ht : t = .prim (.str T)
        · exact ⟨_, by rw [heq, hmem ht hl hm]; rfl⟩
        · exact ⟨_, by rw [heq, hw ht]; rfl⟩
  · intro e he
    by_cases ht : t = .prim (.str T)
    · cases hl : lookupProp cache k.toStr with
      | none =>
        by_cases hm : k.toStr ∈ objectPrototype
        · rw [heq, hmem ht hl hm] at he
          rw [hmem ht hl hm]
          simp only [dropState, Except.error.injEq] at he
          exact ⟨by rw [he], rfl⟩
        · obtain ⟨w1, e1⟩ := hmiss ht hl hm
          rw [heq, e1] at he
          cases he
      | some r =>
        obtain ⟨i, hi⟩ := hwf _ r hl
        by_cases hty : i.type = T
        · rw [heq, hhit r i ht hl hi hty] at he
          cases he
        · rw [heq, hbad r i ht hl hi hty] at he
          rw [hbad r i ht hl hi hty]
          simp only [dropState, Except.error.injEq] at he
          exact ⟨by rw [he], rfl⟩
    · rw [heq, hw ht] at he
      rw [hw ht]
      simp only [dropState, Except.error.injEq] at he
      exact ⟨by rw [he], rfl⟩

/-- C13, witness: under `Person`, the marker `['Person', 'x_1']` meets a cached instance
of another type. -/
theorem obxToObj_Otto_ref_errors_witness :
    obxToObj_Otto demoEnv (obxToObj demoEnv 1) mixedCacheWorld
        (refMarker "Person" (.prim (.str "x_1"))) (.prim (.str "Person")) 0 (some 0)
        (.prim .null)
      = .error (.thrown "object cached but later found as different type") ∧
    ((obxToObj_Otto_ref demoEnv mixedCacheWorld (refMarker "Person" (.prim (.str "x_1")))
        (.prim (.str "Person")) (some 0)).1
        = .error (.thrown "object cached but later found as different type") ∧
      (obxToObj_Otto_ref demoEnv mixedCacheWorld (refMarker "Person" (.prim (.str "x_1")))
        (.prim (.str "Person")) (some 0)).2 = mixedCacheWorld) :=
  have h := obxToObj_Otto_ref_errors demoEnv (obxToObj demoEnv 1) mixedCacheWorld 0
    [("person_1", 0), ("x_1", 1)] "Person" personInfo (refMarker "Person" (.prim (.str "x_1")))
    (.prim (.str "Person")) (.prim (.str "x_1")) 0 (.prim .null) (by rfl) (by rfl)
    (by
      intro key r hl
      simp only [lookupProp] at hl
      split at hl
      · cases hl; exact ⟨_, rfl⟩
      · split at hl
        · cases hl; exact ⟨_, rfl⟩
        · cases hl)
    (by rfl) (by rfl)
  have h2 := h.2.1 1 _ rfl (by decide) rfl (by decide)
  ⟨h2, h.2.2.2.2.2.2 _ h2⟩

/-- C13 fails as stated: under `Person`, the marker `['Person', 'toString']` has the type
asked for, and the cache holds nothing under `toString`, yet the decode throws: the read
`objCache['toString']` finds the function every plain object inherits, and
`cachedObj.$.name` throws a `TypeError`, which is neither of the two errors. -/
theorem obxToObj_Otto_ref_errors_counterexample :
    lookupProp [("person_1", 0), ("x_1", 1)] (Obx.prim (.str "toString")).toStr = none ∧
    obxToObj_Otto demoEnv (obxToObj demoEnv 1) mixedCacheWorld
        (refMarker "Person" (.prim (.str "toString"))) (.prim (.str "Person")) 0 (some 0)
        (.prim .null)
      = .error (.typeError "cannot read property name of undefined") :=
  ⟨by decide, by decide⟩

/-! ## C15: the persistence key -/

theorem modelCheckRequiredT_eq (E : Env) (r : Nat) (fs : List String) :
    ∀ w, modelCheckRequired E r fs w =
      (match modelCheckRequiredT E r fs w with
        | (some e, _) => .error e
        | (none, w1) => .ok w1) := by
  induction fs with
  | nil => intro w; rfl
  | cons f fs ih =>
    intro w
    simp only [modelCheckRequired, modelCheckRequiredT]
    cases hg : getField E w r f with
    | error e => rfl
    | ok vw =>
      obtain ⟨v, w1⟩ := vw
      simp only []
      by_cases hv : v.truthy = true
      · rw [if_pos hv, if_pos hv]; exact ih w1
      · rw [if_neg hv, if_neg hv]

theorem modelKeyIdsT_eq (E : Env) (r : Nat) (fs : List String) :
    ∀ w key, modelKeyIds E r fs w key =
      (match modelKeyIdsT E r fs w key with
        | (.error e, _) => .error e
        | (.ok k, w1) => .ok (k, w1)) := by
  induction fs with
  | nil => intro w key; rfl
  | cons f fs ih =>
    intro w key
    simp only [modelKeyIds, modelKeyIdsT]
    cases hg : getField E w r f with
    | error e => rfl
    | ok vw =>
      obtain ⟨v, w1⟩ := vw
      exact ih w1 _

/-- The function `modelKey` is `modelKeyT` without the state of a throw. -/
theorem modelKeyT_eq (E : Env) (w : World) (r : Nat) :
    modelKey E w r =
      (match modelKeyT E w r with
        | (.ok k, w1) => .ok (k, w1)
        | (.error e, _) => .error e) := by
  unfold modelKey modelKeyT
  cases hi : w.heap[r]? with
  | none => rfl
  | some i =>
    simp only []
    by_cases hk : i.key.truthy = true
    · rw [if_pos hk, if_pos hk]
    · rw [if_neg hk, if_neg hk]
      cases hl : E.lookup i.type with
      | none => rfl
      | some info =>
        simp only []
        rw [modelCheckRequiredT_eq]
        cases hc : modelCheckRequiredT E r info.required w with
        | mk oe w1 =>
          cases oe with
          | some e => rfl
          | none =>
            simp only []
            rw [modelKeyIdsT_eq]
            cases hm : modelKeyIdsT E r info.id w1 info.name with
            | mk res w2 =>
              cases res with
              | error e => rfl
              | ok key =>
                simp only []
                cases hi2 : w2.heap[r]? with
                | none => rfl
                | some i2 => rfl

theorem getField_key (E : Env) (w : World) (r : Nat) (f : String) (v : Val) (w1 : World)
    (i : Inst) (hi : w.heap[r]? = some i) (h : getField E w r f = .ok (v, w1)) :
    ∃ j, w1.heap[r]? = some j ∧ j.key = i.key ∧ j.type = i.type := by
  unfold getField at h
  rw [hi] at h
  simp only [] at h
  split at h
  · simp only [Except.ok.injEq, Prod.mk.injEq] at h
    rw [← h.2]; exact ⟨i, hi, rfl, rfl⟩
  · split at h
    · cases h
    · split at h
      · simp only [Except.ok.injEq, Prod.mk.injEq] at h
        rw [← h.2]
        exact ⟨_, setInst_get_self w r i _ hi, rfl, rfl⟩
      · simp only [Except.ok.injEq, Prod.mk.injEq] at h
        rw [← h.2]; exact ⟨i, hi, rfl, rfl⟩

theorem readsAll_key (E : Env) (r : Nat) (fs : List String) (w : World) (vs : List Val)
    (w1 : World) (h : ReadsAll E r fs w vs w1) :
    ∀ i, w.heap[r]? = some i → ∃ j, w1.heap[r]? = some j ∧ j.key = i.key ∧ j.type = i.type := by
  induction h with
  | nil w => intro i hi; exact ⟨i, hi, rfl, rfl⟩
  | cons f fs w v wa vs w2 h1 _ ih =>
    intro i hi
    obtain ⟨j, hj, k1, t1⟩ := getField_key E w r f v wa i hi h1
    obtain ⟨j2, hj2, k2, t2⟩ := ih j hj
    exact ⟨j2, hj2, by rw [k2, k1], by rw [t2, t1]⟩

theorem modelCheckRequiredT_ok (E : Env) (r : Nat) (fs : List String) (w : World)
    (vs : List Val) (w1 : World) (h : ReadsAll E r fs w vs w1)
    (ht : ∀ u ∈ vs, u.truthy = true) : modelCheckRequiredT E r fs w = (none, w1) := by
  induction h with
  | nil w => rfl
  | cons f fs w v wa vs w2 h1 _ ih =>
    have hv : v.truthy = true := ht v (List.mem_cons_self _ _)
    simp only [modelCheckRequiredT, h1, hv, if_true]
    exact ih (fun u hu => ht u (List.mem_cons_of_mem _ hu))

theorem modelCheckRequiredT_fail (E : Env) (r : Nat) (pre : List String) (f : String)
    (rest : List String) (w : World) (vs : List Val) (w1 : World) (v : Val) (w2 : World)
    (h : ReadsAll E r pre w vs w1) (ht : ∀ u ∈ vs, u.truthy = true)
    (hg : getField E w1 r f = .ok (v, w2)) (hv : v.truthy = false) :
    modelCheckRequiredT E r (pre ++ f :: rest) w
      = (some (.thrown ("required field missing: " ++ f)), w2) := by
  induction h with
  | nil w => simp only [List.nil_append, modelCheckRequiredT, hg, hv, Bool.false_eq_true, if_false]
  | cons f0 fs w v0 wa vs w3 h1 _ ih =>
    have hv0 : v0.truthy = true := ht v0 (List.mem_cons_self _ _)
    simp only [List.cons_append, modelCheckRequiredT, h1, hv0, if_true]
    exact ih (fun u hu => ht u (List.mem_cons_of_mem _ hu)) hg

theorem modelKeyIdsT_ok (E : Env) (r : Nat) (fs : List String) (w : World) (vs : List Val)
    (w1 : World) (h : ReadsAll E r fs w vs w1) :
    ∀ key, modelKeyIdsT E r fs w key
      = (.ok (vs.foldl (fun key v => key ++ "_" ++ v.toStr) key), w1) := by
  induction h with
  | nil w => intro key; rfl
  | cons f fs w v wa vs w2 h1 _ ih =>
    intro key
    simp only [modelKeyIdsT, h1, List.foldl_cons]
    exact ih _

theorem foldl_key_length (vs : List Val) :
    ∀ key : String,
      key.length ≤ (vs.foldl (fun key v => key ++ "_" ++ v.toStr) key).length := by
  induction vs with
  | nil => intro key; exact le_refl _
  | cons v vs ih =>
    intro key
    simp only [List.foldl_cons]
    refine le_trans ?_ (ih _)
    simp only [String.length_append]
    omega

theorem keyOf_truthy (E : Env) (name : String) (ids : List Val) (h : name ≠ "") :
    (keyOf E name ids).truthy = true := by
  unfold keyOf
  apply str_truthy_of_length
  apply toLowerCase_pos
  exact lt_of_lt_of_le (length_pos_of_ne_empty name h) (foldl_key_length ids name)

/-- C15 (as the code has it): for an instance of a registered type whose key is not set,
(a) when the accessors of the required fields read truthy values up to the field `f`,
and the accessor of `f` reads a falsy value, `modelKey` throws
`required field missing: f`, and the key is still unset in the state of the throw;
(b) when the accessors of all required fields read truthy values, `modelKey` returns
the lowercased type name followed by `_` and the value read from each identifier field,
in the order of the identifier list, and stores it as the key of the instance;
(c) when the type name is not empty that key is truthy, and in every state in which the
instance has it `modelKey` returns it again and changes nothing, whatever the values
of the fields are.  The accessor of an automatic field reads a fresh identifier, not a
missing value, when the field has none. -/
theorem modelKey_contract (E : Env) (w : World) (r : Nat) (i : Inst) (info : TypeInfo)
    (hi : w.heap[r]? = some i) (hk : i.key.truthy = false) (hl : E.lookup i.type = some info) :
    (∀ pre f rest vs w1 v w2, info.required = pre ++ f :: rest →
      ReadsAll E r pre w vs w1 → (∀ u ∈ vs, u.truthy = true) →
      getField E w1 r f = .ok (v, w2) → v.truthy = false →
      modelKey E w r = .error (.thrown ("required field missing: " ++ f)) ∧
      modelKeyT E w r = (.error (.thrown ("required field missing: " ++ f)), w2) ∧
      ∃ j, w2.heap[r]? = some j ∧ j.key = i.key) ∧
    (∀ vs w1 ids w2, ReadsAll E r info.required w vs w1 → (∀ u ∈ vs, u.truthy = true) →
      ReadsAll E r info.id w1 ids w2 →
      ∃ j, w2.heap[r]? = some j ∧
        modelKey E w r
          = .ok (keyOf E info.name ids, w2.setInst r { j with key := keyOf E info.name ids })) ∧
    (∀ ids w3 j, info.name ≠ "" → w3.heap[r]? = some j → j.key = keyOf E info.name ids →
      modelKey E w3 r = .ok (keyOf E info.name ids, w3)) := by
  refine ⟨?_, ?_, ?_⟩
  · intro pre f rest vs w1 v w2 hreq hra ht hg hv
    have hT : modelKeyT E w r = (.error (.thrown ("required field missing: " ++ f)), w2) := by
      simp only [modelKeyT, hi, hk, Bool.false_eq_true, if_false, hl, hreq,
        modelCheckRequiredT_fail E r pre f rest w vs w1 v w2 hra ht hg hv]
    refine ⟨?_, hT, ?_⟩
    · rw [modelKeyT_eq, hT]
    · obtain ⟨j1, hj1, k1, _⟩ := readsAll_key E r pre w vs w1 hra i hi
      obtain ⟨j2, hj2, k2, _⟩ := getField_key E w1 r f v w2 j1 hj1 hg
      exact ⟨j2, hj2, by rw [k2, k1]⟩
  · intro vs w1 ids w2 hra ht hid
    obtain ⟨j1, hj1, _, _⟩ := readsAll_key E r _ w vs w1 hra i hi
    obtain ⟨j2, hj2, _, _⟩ := readsAll_key E r _ w1 ids w2 hid j1 hj1
    refine ⟨j2, hj2, ?_⟩
    have hT : modelKeyT E w r
        = (.ok (keyOf E info.name ids), w2.setInst r { j2 with key := keyOf E info.name ids }) := by
      simp only [modelKeyT, hi, hk, Bool.false_eq_true, if_false, hl,
        modelCheckRequiredT_ok E r _ w vs w1 hra ht, modelKeyIdsT_ok E r _ w1 ids w2 hid, hj2,
        keyOf]
    rw [modelKeyT_eq, hT]
  · intro ids w3 j hne hj hjk
    have ht : j.key.truthy = true := by rw [hjk]; exact keyOf_truthy E info.name ids hne
    rw [modelKey_keyed E w3 r j hj ht, hjk]

/-- C15, witness: an `Account` whose required identifier `email` is not set; and the keys
of an `Account` whose identifier has letters outside `A` to `Z`, on a host that lowers
them, and of one whose identifier is the number `10^21`. -/
theorem modelKey_contract_witness :
    (modelKey accountEnv accountWorld 0
        = .error (.thrown ("required field missing: " ++ "email")) ∧
      modelKeyT accountEnv accountWorld 0
        = (.error (.thrown ("required field missing: " ++ "email")), accountWorld) ∧
      ∃ j, accountWorld.heap[0]? = some j ∧ j.key = (newInst "Account" []).key) ∧
    ((∃ j, ecoleWorld.heap[0]? = some j ∧
        modelKey latinEnv ecoleWorld 0
          = .ok (keyOf latinEnv "Account" [.prim (.str "ÉCOLE Zoë")],
                 ecoleWorld.setInst 0
                   { j with key := keyOf latinEnv "Account" [.prim (.str "ÉCOLE Zoë")] })) ∧
      keyOf latinEnv "Account" [.prim (.str "ÉCOLE Zoë")] = .prim (.str "account_école zoë")) ∧
    ((∃ j, bigIdWorld.heap[0]? = some j ∧
        modelKey accountEnv bigIdWorld 0
          = .ok (keyOf accountEnv "Account" [.prim (.num (10 ^ 21))],
                 bigIdWorld.setInst 0
                   { j with key := keyOf accountEnv "Account" [.prim (.num (10 ^ 21))] })) ∧
      keyOf accountEnv "Account" [.prim (.num (10 ^ 21))] = .prim (.str "account_1e+21")) :=
  ⟨(modelKey_contract accountEnv accountWorld 0 (newInst "Account" []) accountInfo rfl rfl rfl).1
      [] "email" [] [] accountWorld (.prim .undefined) accountWorld rfl (ReadsAll.nil _)
      (by simp) (by decide) rfl,
   ⟨(modelKey_contract latinEnv ecoleWorld 0 _ accountInfo rfl rfl rfl).2.1
      [.prim (.str "ÉCOLE Zoë")] ecoleWorld [.prim (.str "ÉCOLE Zoë")] ecoleWorld
      (ReadsAll.cons _ _ _ _ _ _ _ (by decide) (ReadsAll.nil _)) (by decide)
      (ReadsAll.cons _ _ _ _ _ _ _ (by decide) (ReadsAll.nil _)), by decide⟩,
   ⟨(modelKey_contract accountEnv bigIdWorld 0 _ accountInfo rfl rfl rfl).2.1
      [.prim (.num (10 ^ 21))] bigIdWorld [.prim (.num (10 ^ 21))] bigIdWorld
      (ReadsAll.cons _ _ _ _ _ _ _ (by decide) (ReadsAll.nil _)) (by decide)
      (ReadsAll.cons _ _ _ _ _ _ _ (by decide) (ReadsAll.nil _)), by decide⟩⟩

/-- C15 fails as stated: the identifier `_id` of a new `Person` has no value and its key
is not set, and `modelKey` does not throw: the accessor of the automatic field stores
a fresh identifier, and the key is built from it. -/
theorem modelKey_auto_counterexample :
    (∃ i, scenarioWorld.heap[1]? = some i ∧ i.key = .prim .null ∧
      (i.values.bind (fun vals => lookupProp vals "_id")) = none) ∧
    personInfo.id = ["_id"] ∧
    modelKey demoEnv scenarioWorld 1 = .ok (.prim (.str "person_u0"), scenarioWorldKeyed) := by
  refine ⟨⟨_, rfl, rfl, by decide⟩, rfl, by decide⟩

/-! ## C16: the snapshot and a failed write -/

theorem save_again_no_write (E : Env) (hE : E.WF) (fuel : Nat) (w : World) (o : Nat)
    (cb : Bool) (st1 : SaveState) (h : save E fuel w o cb = .ok st1) :
    ∃ st2, save E fuel st1.w o cb = .ok st2 ∧ st2.sets = [] ∧ st2.w = st1.w := by
  have hinv : SaveInv { w := w, objs := [o], saved := 0, sets := [], called := 0 } := by
    refine ⟨by simp, ?_⟩
    intro j y hj hj1
    have := getElem?_lt _ _ _ hj
    simp at this
    omega
  unfold save at h ⊢
  obtain ⟨saved3, called3, h2⟩ := second_run E hE fuel o cb fuel 0 _ st1 hinv h 0 [] 0
  exact ⟨_, h2, rfl, rfl⟩

/-- C16 (as the code has it): `save` stores the new document as the snapshot when it
issues the write, before the store answers.  After `save(o)` every write issued is for
an element of `objs` whose snapshot already is the document written; the callback of
`bucket.set` changes no instance, whether the store answered with an error or not; so
after a failed write a following `save(o)` of the unmodified object issues no write. -/
theorem save_snapshot_at_issue (E : Env) (hE : E.WF) (fuel : Nat) (w : World) (o : Nat)
    (cb : Bool) (st1 : SaveState) (answer : Except Obx Obx)
    (h : save E fuel w o cb = .ok st1) :
    (∀ c ∈ st1.sets, ∃ x xi, x ∈ st1.objs ∧ st1.w.heap[x]? = some xi ∧ xi.loaded = true ∧
      xi.key = c.key ∧ xi.initial = c.doc) ∧
    (setDone cb st1 answer).w = st1.w ∧
    ∃ st2, save E fuel (setDone cb st1 answer).w o cb = .ok st2 ∧ st2.sets = [] ∧
      st2.w = st1.w := by
  obtain ⟨_, _, _, hsets⟩ := save_frame E hE fuel w o cb st1 h
  refine ⟨?_, rfl, save_again_no_write E hE fuel w o cb st1 h⟩
  intro c hc
  obtain ⟨_, x, xi, hx, hxi, hload, hkey, hini, _⟩ := hsets c hc
  exact ⟨x, xi, List.mem_of_mem_take hx, hxi, hload, hkey, hini⟩

/-- C16, witness: `save(a)` in the scenario with tokens. -/
theorem save_snapshot_at_issue_witness :
    (∀ c ∈ ([casSetA, casSetB] : List SetCall), ∃ x xi, x ∈ [0, 1] ∧
      casWorld2.heap[x]? = some xi ∧ xi.loaded = true ∧ xi.key = c.key ∧
      xi.initial = c.doc) ∧
    (setDone true casSaved (.error (.prim (.str "conflict")))).w = casWorld2 ∧
    ∃ st2, save demoEnv 4 (setDone true casSaved (.error (.prim (.str "conflict")))).w 0 true
        = .ok st2 ∧ st2.sets = [] ∧ st2.w = casWorld2 :=
  save_snapshot_at_issue demoEnv demoEnv_wf 4 casWorld 0 true _
    (.error (.prim (.str "conflict"))) casSave

/-- C16 fails as stated: in the scenario with tokens the snapshot of `a` is `undefined`
before `save(a)`, its document differs, and a write is issued; when the store answers
that write with an error the snapshot of `a` is the new document, not what it was, and
a following `save(a)` issues no write. -/
theorem save_snapshot_counterexample :
    (∃ a, casWorld.heap[0]? = some a ∧ a.initial = .prim .undefined) ∧
    save demoEnv 4 casWorld 0 true
      = .ok casSaved ∧
    casSetA.doc = casDocA ∧ isEqual (.prim .undefined) casDocA = false ∧
    (∃ a, (setDone true casSaved
        (.error (.prim (.str "conflict")))).w.heap[0]? = some a ∧ a.initial = casDocA) ∧
    ∃ st2, save demoEnv 4 (setDone true casSaved (.error (.prim (.str "conflict")))).w 0 true
        = .ok st2 ∧ st2.sets = [] := by
  refine ⟨⟨_, rfl, rfl⟩, casSave, rfl, by decide, ⟨_, rfl, rfl⟩, ?_⟩
  obtain ⟨st2, h1, h2, _⟩ := save_again_no_write demoEnv demoEnv_wf 4 casWorld 0 true _ casSave
  exact ⟨st2, h1, h2⟩

/-! ## C17, C18, C20: completion of load and save -/

/-- C20, the code at the failing input: `save(p, callback)` on an unloaded placeholder
returns without a write and without having run the callback, and `saved` has been
counted up past the test that runs it, so nothing is left that could run it. -/
theorem save_unloaded_at_failing_input :
    save demoEnv 2 unloadedWorld 0 true
      = .ok { w := unloadedWorld, objs := [0], saved := 1, sets := [], called := 0 } := by
  decide

/-- C18, the code at the failing input: `load([], {depth: 1}, callback)` returns with no
`bucket.get` waiting and without having run the callback: the loop that would count the
elements never runs.  And for the object `{x: a, y: b}` of two loaded instances the
callback has run twice when `load` returns. -/
theorem load_container_at_failing_input :
    load demoEnv 2 emptyCacheWorld (.arr []) (some 1)
      = .ok { LoadState.init emptyCacheWorld with
              joins := [{ kind := .arr, count := 0, total := 0, parent := .user }] } ∧
    (∃ st, load demoEnv 4 twoWorld (.map [("x", .inst 0), ("y", .inst 1)]) (some 1) = .ok st ∧
      st.pending = [] ∧ st.called = [.prim .null, .prim .null]) := by
  refine ⟨by decide, ?_⟩
  have h : load demoEnv 4 twoWorld (.map [("x", .inst 0), ("y", .inst 1)]) (some 1)
      = .ok { w := twoWorld,
              joins := [{ kind := .map, count := 0, total := 0, parent := .user }],
              pending := [], gets := [], called := [.prim .null, .prim .null],
              warned := 0 } := by decide
  exact ⟨_, h, rfl, rfl⟩

/-- C17, the code at the failing input: `load(p, callback)` on the placeholder of
`unloadedWorld` has issued one `bucket.get` and not run the callback.  When the store
answers with an error, the callback of the get throws, whether the store passes no
result or a result without a value: the callback of `load` is not run, with or
without an error. -/
theorem load_get_error_at_failing_input :
    load demoEnv 2 unloadedWorld (.inst 0) (some 1) = .ok loadPending ∧
    loadPending.called = [] ∧
    getCallback demoEnv 3 loadPending 0 (.prim (.str "not found")) (.prim .undefined)
      = .error (.typeError "cannot read property value of undefined") ∧
    getCallback demoEnv 3 loadPending 0 (.prim (.str "not found")) (.obj [])
      = .error (.thrown "expected value of type Object") := by
  refine ⟨by decide, rfl, by decide, by decide⟩

/-! ## C21: the key of findById -/

theorem findKey_eq (E : Env) (info : TypeInfo) (args : List Val)
    (h : args.length = info.id.length) : findKey E info args = keyOf E info.name args := by
  unfold findKey keyOf
  rw [← h]
  have h1 : args.foldl (fun key v => key ++ "_" ++ v.toStr) info.name
      = ((List.range args.length).map (fun i => args.getD i (.prim .undefined))).foldl
          (fun key v => key ++ "_" ++ v.toStr) info.name := by
    rw [range_map_getD]
  rw [h1, List.foldl_map]

theorem obxToObj_registered (E : Env) (n : Nat) (w : World) (x : Obx) (T : String)
    (info : TypeInfo) (s : List String) (d : Nat) (c : Option Nat) (k : Obx)
    (hT : E.lookup T = some info) (hne : T ≠ "")
    (hx1 : x ≠ .prim .undefined) (hx2 : x ≠ .prim .null) :
    obxToObj E (n + 1) w x T s d c k
      = obxToObj_Otto E (obxToObj E n) w x (.prim (.str T)) d c k := by
  cases x with
  | prim p =>
    cases p with
    | undefined => exact absurd rfl hx1
    | null => exact absurd rfl hx2
    | bool b => simp [obxToObj, hne, hT]
    | num z => simp [obxToObj, hne, hT]
    | str z => simp [obxToObj, hne, hT]
  | arr xs => simp [obxToObj, hne, hT]
  | obj kvs => simp [obxToObj, hne, hT]

/-- What `obxToObj_Otto` returns for a document that is no reference marker: a new
instance of the type, with the key it was given. -/
theorem obxToObj_Otto_embedded (E : Env) (rec : DecFn) (hrec : DecSound rec) (w : World)
    (x : Obx) (T : String) (info : TypeInfo) (d : Nat) (c : Option Nat) (key : Obx) (v : Val)
    (w1 : World) (hT : E.lookup T = some info) (hx : isRefObx x = false)
    (h : obxToObj_Otto E rec w x (.prim (.str T)) d c key = .ok (v, w1)) :
    ∃ j, v = .inst w.heap.length ∧ w1.heap[w.heap.length]? = some j ∧ j.key = key ∧
      j.type = info.name := by
  have hts : (Obx.prim (.str T)).toStr = T := by simp [Obx.toStr, Prim.toStr]
  unfold obxToObj_Otto at h
  simp only [hx, Bool.false_eq_true, if_false, hts, hT] at h
  split at h
  · cases h
  · simp only [World.alloc] at h
    split at h
    · cases h
    · rename_i w2 hw2
      split at h
      · cases h
      · rename_i w3 hw3
        simp only [Except.ok.injEq, Prod.mk.injEq] at h
        have hheap : w2.heap = w.heap ++ [blankInst info.name key c] := by
          split at hw2
          · rw [keepsOld_cacheSet _ _ _ _ _ hw2]; rfl
          · simp only [Option.some.injEq] at hw2
            rw [← hw2]; rfl
        have hi : w2.heap[w.heap.length]? = some (blankInst info.name key c) := by
          rw [hheap]; simp
        obtain ⟨_, _, j, hj, hty, hkey, _⟩ :=
          obxToObj_Otto_Load_spec E rec hrec w2 w3 w.heap.length x (d + 1) c _ hi hw3
        rw [← h.1, ← h.2]
        exact ⟨j, rfl, hj, hkey, hty⟩

/-- C21 (as the code has it): for a registered type with a non-empty name and as many
arguments as identifier fields, (a) the key `findById` asks the store for is the key
`modelKey` computes for an instance of the type whose key is not set, whose required
fields read truthy values and whose identifier fields read the arguments; and (b) when
the document the store answers with is no reference marker, the instance `findById`
hands to the callback is a new instance of the type with exactly that key. -/
theorem findById_key_agreement (E : Env) (T : String) (info : TypeInfo) (args : List Val)
    (w : World) (r : Nat) (i : Inst) (vs : List Val) (w1 w2 : World)
    (hT : E.lookup T = some info) (hne : T ≠ "") (hlen : args.length = info.id.length)
    (hi : w.heap[r]? = some i) (hty : i.type = T) (hk : i.key.truthy = false)
    (hreq : ReadsAll E r info.required w vs w1) (htr : ∀ u ∈ vs, u.truthy = true)
    (hid : ReadsAll E r info.id w1 args w2) :
    (∃ w3, modelKey E w r = .ok ((findModelById E info args).2, w3)) ∧
    (∀ fuel w0 err result a w4,
      findDone E fuel w0 info (findModelById E info args).2 err result = .ok (.found a, w4) →
      isRefObx (result.get "value") = false →
      ∃ r2 j, a = .inst r2 ∧ w4.heap[r2]? = some j ∧ j.key = (findModelById E info args).2 ∧
        j.type = T) := by
  have hname : info.name = T := lookup_name E T info hT
  constructor
  · obtain ⟨j1, hj1, _, _⟩ := readsAll_key E r _ w vs w1 hreq i hi
    obtain ⟨j2, hj2, _, _⟩ := readsAll_key E r _ w1 args w2 hid j1 hj1
    refine ⟨w2.setInst r { j2 with key := keyOf E info.name args }, ?_⟩
    have hl : E.lookup i.type = some info := by rw [hty]; exact hT
    have hT2 : modelKeyT E w r
        = (.ok (keyOf E info.name args), w2.setInst r { j2 with key := keyOf E info.name args }) := by
      simp only [modelKeyT, hi, hk, Bool.false_eq_true, if_false, hl,
        modelCheckRequiredT_ok E r _ w vs w1 hreq htr, modelKeyIdsT_ok E r _ w1 args w2 hid, hj2,
        keyOf]
    rw [modelKeyT_eq, hT2]
    simp only [findModelById, findKey_eq E info args hlen]
  · intro fuel w0 err result a w4 h href
    simp only [findModelById] at h ⊢
    generalize findKey E info args = key at h ⊢
    unfold findDone at h
    split at h
    · cases h
    · split at h
      · cases h
      · cases h
      · split at h
        · cases h
        · rename_i obj w5 hdec
          cases fuel with
          | zero => cases hdec
          | succ n =>
            by_cases e1 : result.get "value" = .prim .undefined
            · rw [e1] at hdec
              simp only [obxToObj, Except.ok.injEq, Prod.mk.injEq] at hdec
              rw [← hdec.1] at h
              cases h
            · by_cases e2 : result.get "value" = .prim .null
              · rw [e2] at hdec
                simp only [obxToObj, Except.ok.injEq, Prod.mk.injEq] at hdec
                rw [← hdec.1] at h
                cases h
              · rw [hname] at hdec
                rw [obxToObj_registered E n _ _ T info [] 0 _ key hT hne e1 e2] at hdec
                obtain ⟨j, hv, hj, hkey, hjt⟩ :=
                  obxToObj_Otto_embedded E _ (obxToObj_sound E n) _ _ T info 0 _ key obj w5 hT
                    href hdec
                subst hv
                simp only [hj] at h
                split at h
                · cases h
                · simp only [Except.ok.injEq, Prod.mk.injEq, FindAnswer.found.injEq] at h
                  rw [← h.1, ← h.2]
                  exact ⟨_, j, rfl, hj, hkey, by rw [hjt, hname]⟩
/-- An `Account` whose identifier `email` is set. -/
def accountSetWorld : World :=
  { heap := [newInst "Account" [("email", .prim (.str "Ann@Example.org"))]], caches := [],
    uuids := 0 }

/-- C21, witness: an `Account` with the email `Ann@Example.org` and
`findById('Ann@Example.org', callback)` agree on the key `account_ann@example.org`. -/
theorem findById_key_agreement_witness :
    (∃ w3, modelKey accountEnv accountSetWorld 0
      = .ok ((findModelById accountEnv accountInfo [.prim (.str "Ann@Example.org")]).2, w3)) ∧
    (∀ fuel w0 err result a w4,
      findDone accountEnv fuel w0 accountInfo
          (findModelById accountEnv accountInfo [.prim (.str "Ann@Example.org")]).2 err result
        = .ok (.found a, w4) →
      isRefObx (result.get "value") = false →
      ∃ r2 j, a = .inst r2 ∧ w4.heap[r2]? = some j ∧
        j.key = (findModelById accountEnv accountInfo [.prim (.str "Ann@Example.org")]).2 ∧
        j.type = "Account") :=
  findById_key_agreement accountEnv "Account" accountInfo [.prim (.str "Ann@Example.org")]
    accountSetWorld 0 (newInst "Account" [("email", .prim (.str "Ann@Example.org"))])
    [.prim (.str "Ann@Example.org")] accountSetWorld accountSetWorld rfl (by decide) rfl rfl rfl
    rfl (ReadsAll.cons _ _ _ _ _ _ _ (by decide) (ReadsAll.nil _)) (by decide)
    (ReadsAll.cons _ _ _ _ _ _ _ (by decide) (ReadsAll.nil _))

/-- C21 fails as stated: `findById('1', callback)` on `Person` asks for the key
`person_1`; when the document stored under it is the reference marker
`['Person', 'person_2']`, the instance handed to the callback is a placeholder whose key
is `person_2`. -/
theorem findById_marker_counterexample :
    (findModelById demoEnv personInfo [.prim (.str "1")]).2 = .prim (.str "person_1") ∧
    findDone demoEnv 2 emptyCacheWorld personInfo (findModelById demoEnv personInfo [.prim (.str "1")]).2
        (.prim .null)
        (.obj [("value", refMarker "Person" (.prim (.str "person_2"))), ("cas", .prim (.num 5))])
      = .ok (.found (.inst 0), foundMarkerWorld) ∧
    (∃ j, foundMarkerWorld.heap[0]? = some j ∧ j.key = .prim (.str "person_2")) := by
  refine ⟨by decide, by decide, ⟨_, rfl, rfl⟩⟩

/-! ## C19: the depth budget -/

theorem steps_trans (E : Env) (u v w : World) (h1 : Steps E u v) (h2 : Steps E v w) :
    Steps E u w := by
  induction h1 with
  | refl _ => exact h2
  | key w0 r key w1 _ hm _ ih => exact Steps.key w0 r key w1 _ hm (ih h2)
  | enc w0 m a doc w1 refs _ he _ ih => exact Steps.enc w0 m a doc w1 refs _ he (ih h2)

theorem issuedFrom_none (E : Env) (st st1 : LoadState) (vs : List Val) (k0 : Nat) (d : Int)
    (hp : st1.pending = st.pending) (hg : st1.gets = st.gets) :
    IssuedFrom E st vs k0 d st1 [] :=
  ⟨by simp [hp], by simp [hg], by simp⟩

theorem loadEach_issues (E : Env) (rec : LoadFn) (hrec : LoadReach E rec)
    (d : Int) (hd : 0 ≤ d) (cb : Cont) (xs : List Val) :
    ∀ (st st1 : LoadState), loadEach rec d cb xs st = .ok st1 →
      Steps E st.w st1.w ∧ ∃ new : List Pending, IssuedFrom E st xs 0 d st1 new := by
  induction xs with
  | nil =>
    intro st st1 h
    simp only [loadEach, Except.ok.injEq] at h
    subst h
    exact ⟨Steps.refl _, [], issuedFrom_none E _ _ _ _ _ rfl rfl⟩
  | cons x xs ih =>
    intro st st1 h
    simp only [loadEach] at h
    cases hr : rec st x d cb with
    | error e => rw [hr] at h; cases h
    | ok st2 =>
      rw [hr] at h
      simp only [] at h
      obtain ⟨hev, new1, p1, g1, r1⟩ := hrec _ _ _ _ _ hd hr
      obtain ⟨hev2, new2, p2, g2, r2⟩ := ih st2 st1 h
      refine ⟨steps_trans E _ _ _ hev hev2, new1 ++ new2, ?_, ?_, ?_⟩
      · rw [p2, p1, List.append_assoc]
      · rw [g2, g1, List.map_append, List.append_assoc]
      · intro p hp
        rcases List.mem_append.1 hp with h1 | h1
        · obtain ⟨v, hv, k, q0, q1, q2, q3⟩ := r1 p h1
          simp only [List.mem_singleton] at hv
          subst hv
          exact ⟨v, List.mem_cons_self _ _, k, q0, q1, q2, q3⟩
        · obtain ⟨y, hy, k, q0, q1, q2, q3⟩ := r2 p h1
          exact ⟨y, List.mem_cons_of_mem _ hy, k, q0, Reach.later _ _ _ _ _ hev q1, q2, q3⟩

theorem loadEntries_issues (E : Env) (rec : LoadFn) (hrec : LoadReach E rec)
    (d : Int) (hd : 0 ≤ d) (j : Nat) (xs : List (String × Val)) :
    ∀ (st st1 : LoadState), loadEntries rec d j xs st = .ok st1 →
      Steps E st.w st1.w ∧
        ∃ new : List Pending, IssuedFrom E st (xs.map Prod.snd) 0 d st1 new := by
  induction xs with
  | nil =>
    intro st st1 h
    simp only [loadEntries, Except.ok.injEq] at h
    subst h
    exact ⟨Steps.refl _, [], issuedFrom_none E _ _ _ _ _ rfl rfl⟩
  | cons kx xs ih =>
    obtain ⟨key, x⟩ := kx
    intro st st1 h
    simp only [loadEntries] at h
    cases hj : st.joins[j]? with
    | none => rw [hj] at h; cases h
    | some jn =>
      rw [hj] at h
      simp only [] at h
      split at h
      · cases h
      · rename_i st2 hr
        obtain ⟨hev, new1, p1, g1, r1⟩ := hrec _ _ _ _ _ hd hr
        obtain ⟨hev2, new2, p2, g2, r2⟩ := ih st2 st1 h
        refine ⟨steps_trans E _ _ _ hev hev2, new1 ++ new2, ?_, ?_, ?_⟩
        · rw [p2, p1, List.append_assoc]
        · rw [g2, g1, List.map_append, List.append_assoc]
        · intro p hp
          rcases List.mem_append.1 hp with h1 | h1
          · obtain ⟨v, hv, k, q0, q1, q2, q3⟩ := r1 p h1
            simp only [List.mem_singleton] at hv
            subst hv
            exact ⟨v, by simp, k, q0, q1, q2, q3⟩
          · obtain ⟨y, hy, k, q0, q1, q2, q3⟩ := r2 p h1
            exact ⟨y, by simp only [List.map_cons]; exact List.mem_cons_of_mem _ hy, k, q0,
              Reach.later _ _ _ _ _ hev q1, q2, q3⟩

/-- The calls of `bucket.get` that `_loadRefs` issues with a budget of at least 1: each
is at least one hop from the instance, and has less than the budget left. -/
theorem loadRefs_issues (E : Env) (fuel : Nat) (rec : LoadFn) (hrec : LoadReach E rec)
    (st : LoadState) (r : Nat) (d : Int) (cb : Cont)
    (st1 : LoadState) (hd : 1 ≤ d)
    (h : _loadRefs E fuel rec st r d cb = .ok st1) :
    Steps E st.w st1.w ∧ ∃ new : List Pending, IssuedFrom E st [.inst r] 1 d st1 new := by
  unfold _loadRefs at h
  cases he : objToObx E fuel st.w [] (.inst r) (typeNameOf st.w (.inst r)) [] 0 with
  | error e => rw [he] at h; cases h
  | ok res =>
    obtain ⟨doc, w1, refs⟩ := res
    rw [he] at h
    simp only [] at h
    split at h
    · have h2 := invoke_world fuel _ _ _ _ h
      refine ⟨?_, [], issuedFrom_none E _ _ _ _ _ h2.2.2 h2.2.1⟩
      rw [h2.1]
      exact Steps.enc _ fuel r doc w1 refs _ he (Steps.refl _)
    · obtain ⟨hev, new, p1, g1, r1⟩ := loadEach_issues E rec hrec (d - 1) (by omega) _ _ _ _ h
      refine ⟨Steps.enc _ fuel r doc w1 refs _ he hev, new, p1, g1, ?_⟩
      intro p hp
      obtain ⟨x, hx, k, _, q1, q2, q3⟩ := r1 p hp
      obtain ⟨c, hc, hcx⟩ := List.mem_map.1 hx
      subst hcx
      refine ⟨.inst r, List.mem_singleton.2 rfl, k + 1, by omega,
        Reach.hop _ fuel r doc w1 refs c k _ he hc q1, ?_, q3⟩
      rw [q2]
      push_cast
      ring

/-- Every successful call of `_load` with a budget that is not negative issues its calls
of `bucket.get` within the budget. -/
theorem load_issues (E : Env) (n : Nat) : LoadReach E (_load E n) := by
  induction n with
  | zero =>
    intro st obj d cb st1 _ h
    simp [_load] at h
  | succ n ih =>
    intro st obj d cb st1 hd h
    simp only [_load] at h
    split at h
    · have h2 := invoke_world (n + 1) _ _ _ _ h
      refine ⟨?_, [], issuedFrom_none E _ _ _ _ _ h2.2.2 h2.2.1⟩
      rw [h2.1]
      exact Steps.refl _
    · rename_i hd0
      have hd1 : 1 ≤ d := by omega
      split at h
      · cases obj with
        | prim p => cases h
        | arr xs => cases h
        | map kvs => cases h
        | inst r =>
          simp only [] at h
          cases hi : st.w.heap[r]? with
          | none => rw [hi] at h; cases h
          | some i =>
            rw [hi] at h
            simp only [] at h
            split at h
            · obtain ⟨hev, new, p1, g1, r1⟩ :=
                loadRefs_issues E (n + 1) _ ih st r d cb st1 hd1 h
              refine ⟨hev, new, p1, g1, ?_⟩
              intro p hp
              obtain ⟨v, hv, k, _, q1, q2, q3⟩ := r1 p hp
              exact ⟨v, hv, k, Nat.zero_le _, q1, q2, q3⟩
            · cases hm : modelKey E st.w r with
              | error e => rw [hm] at h; simp at h
              | ok res =>
                obtain ⟨key, w1⟩ := res
                rw [hm] at h
                cases hl : E.lookup i.type with
                | none => rw [hl] at h; simp at h
                | some info =>
                  rw [hl] at h
                  simp only [Except.ok.injEq] at h
                  subst h
                  refine ⟨Steps.key _ r key w1 _ hm (Steps.refl _),
                    [{ obj := r, key := key, bucket := info.bucket, depthLeft := d,
                       callback := cb }], rfl, rfl, ?_⟩
                  intro p hp
                  simp only [List.mem_singleton] at hp
                  subst hp
                  exact ⟨.inst r, List.mem_singleton.2 rfl, 0, Nat.le_refl _,
                    Reach.here _ _, by simp, hd1⟩
      · cases obj with
        | prim p =>
          simp only [Except.ok.injEq] at h
          subst h
          exact ⟨Steps.refl _, [], issuedFrom_none E _ _ _ _ _ rfl rfl⟩
        | arr xs =>
          obtain ⟨hev, new, p1, g1, r1⟩ := loadEach_issues E _ ih d hd _ xs _ _ h
          refine ⟨hev, new, p1, g1, ?_⟩
          intro p hp
          obtain ⟨x, hx, k, q0, q1, q2, q3⟩ := r1 p hp
          exact ⟨_, List.mem_singleton.2 rfl, k, q0, Reach.elem _ _ x _ _ hx q1, q2, q3⟩
        | map kvs =>
          obtain ⟨hev, new, p1, g1, r1⟩ := loadEntries_issues E _ ih d hd _ _ _ _ h
          refine ⟨hev, new, p1, g1, ?_⟩
          intro p hp
          obtain ⟨x, hx, k, q0, q1, q2, q3⟩ := r1 p hp
          obtain ⟨kx, hkx, hx2⟩ := List.mem_map.1 hx
          subst hx2
          exact ⟨_, List.mem_singleton.2 rfl, k, q0,
            Reach.entry _ _ kx.1 kx.2 _ _ hkx q1, q2, q3⟩
        | inst r =>
          obtain ⟨hev, new, p1, g1, r1⟩ := loadEntries_issues E _ ih d hd _ _ _ _ h
          refine ⟨hev, new, p1, g1, ?_⟩
          intro p hp
          obtain ⟨x, hx, k, q0, q1, q2, q3⟩ := r1 p hp
          obtain ⟨kx, hkx, hx2⟩ := List.mem_map.1 hx
          subst hx2
          exact ⟨_, List.mem_singleton.2 rfl, k, q0,
            Reach.entry _ _ kx.1 kx.2 _ _ hkx q1, q2, q3⟩

theorem getCallback_getDone (E : Env) (fuel : Nat) (st : LoadState) (idx : Nat)
    (err result : Obx) (st1 : LoadState) (h : getCallback E fuel st idx err result = .ok st1) :
    getDone E fuel st idx (.ok (result.get "value", result.get "cas")) = .ok st1 := by
  unfold getCallback at h
  split at h
  · unfold getDone at h
    cases hp : st.pending[idx]? with
    | none => rw [hp] at h; cases h
    | some p => rw [hp] at h; cases h
  · cases h
  · exact h

/-- What one answer of the store does to the waiting calls: the answered call leaves, and
every call that is added is at least one hop from the answered instance, in the state its
document left, with less budget than the answered call had and at least 1. -/
theorem getCallback_issues (E : Env) (fuel : Nat) (st : LoadState) (idx : Nat)
    (err result : Obx) (st1 : LoadState) (h : getCallback E fuel st idx err result = .ok st1)
    (hb : ∀ p, st.pending[idx]? = some p → 1 ≤ p.depthLeft) :
    ∃ (p : Pending) (i : Inst) (w1 : World) (i1 : Inst) (new : List Pending),
      st.pending[idx]? = some p ∧ st.w.heap[p.obj]? = some i ∧
      obxToObj_Otto_Load E (obxToObj E fuel) st.w p.obj (result.get "value") 0 i.cache = .ok w1 ∧
      w1.heap[p.obj]? = some i1 ∧
      st1.pending = st.pending.eraseIdx idx ++ new ∧
      st1.gets = st.gets ++ new.map (fun q => (q.bucket, q.key)) ∧
      ∀ q ∈ new, ∃ k : Nat, 1 ≤ k ∧
        Reach E (w1.setInst p.obj { i1 with cas := result.get "cas" }) (.inst p.obj) k q.obj ∧
        q.depthLeft = p.depthLeft - k ∧ 1 ≤ q.depthLeft := by
  have h := getCallback_getDone E fuel st idx err result st1 h
  unfold getDone at h
  cases hp : st.pending[idx]? with
  | none => rw [hp] at h; cases h
  | some p =>
    rw [hp] at h
    simp only [] at h
    cases hi : st.w.heap[p.obj]? with
    | none => rw [hi] at h; cases h
    | some i =>
      rw [hi] at h
      simp only [] at h
      cases hd : obxToObj_Otto_Load E (obxToObj E fuel) st.w p.obj (result.get "value") 0 i.cache with
      | error e => rw [hd] at h; cases h
      | ok w1 =>
        rw [hd] at h
        simp only [] at h
        cases hi1 : w1.heap[p.obj]? with
        | none => rw [hi1] at h; cases h
        | some i1 =>
          rw [hi1] at h
          simp only [] at h
          obtain ⟨_, new, p1, g1, r1⟩ :=
            loadRefs_issues E fuel _ (load_issues E fuel) _ p.obj p.depthLeft p.callback st1
              (hb p hp) h
          refine ⟨p, i, w1, i1, new, rfl, hi, hd, hi1, p1, g1, ?_⟩
          intro q hq
          obtain ⟨v, hv, k, q0, q1, q2, q3⟩ := r1 q hq
          simp only [List.mem_singleton] at hv
          subst hv
          exact ⟨k, q0, q1, q2, q3⟩

theorem load_depth (E : Env) (fuel : Nat) (w0 : World) (root : Val) (D : Int) (hD : 1 ≤ D) :
    load E fuel w0 root (some D) = _load E fuel (LoadState.init w0) root D .user := by
  unfold load
  have h : ¬ (D = 0 ∨ D < 1) := by omega
  simp only [h, if_false]

/-- In every state of a call of `load` with the budget `D`, every call of `bucket.get`
that waits is for an instance some `k` hops from the root, and has the budget `D - k`,
which is at least 1. -/
theorem loadRun_budget (E : Env) (w0 : World) (root : Val) (D : Int) (hD : 1 ≤ D)
    (st : LoadState) (h : LoadRun E w0 root D st) :
    ∀ p ∈ st.pending, ∃ k : Nat, Within E w0 root D st k p.obj ∧ p.depthLeft = D - k ∧
      1 ≤ p.depthLeft := by
  induction h with
  | start fuel st hl =>
    have hl2 := hl
    rw [load_depth E fuel w0 root D hD] at hl2
    obtain ⟨_, new, p1, _, r1⟩ := load_issues E fuel _ _ _ _ _ (by omega) hl2
    intro p hp
    rw [p1] at hp
    simp only [LoadState.init, List.nil_append] at hp
    obtain ⟨v, hv, k, _, q1, q2, q3⟩ := r1 p hp
    simp only [List.mem_singleton] at hv
    subst hv
    exact ⟨k, Within.root fuel st k _ hl q1, q2, q3⟩
  | answer fuel st idx err result st1 _ hc ih =>
    obtain ⟨p, i, w1, i1, new, hp, hi, hd, hi1, p1, _, r1⟩ :=
      getCallback_issues E fuel st idx err result st1 hc
        (fun p hp => (ih p (List.getElem?_mem hp)).choose_spec.2.2)
    intro q hq
    rw [p1] at hq
    rcases List.mem_append.1 hq with h1 | h1
    · obtain ⟨k, q1, q2, q3⟩ := ih q (List.mem_of_mem_eraseIdx h1)
      exact ⟨k, Within.keep fuel st idx err result st1 k _ q1 hc, q2, q3⟩
    · obtain ⟨k0, a1, a2, a3⟩ := ih p (List.getElem?_mem hp)
      obtain ⟨k, _, q1, q2, q3⟩ := r1 q h1
      refine ⟨k0 + k, Within.answer fuel st idx err result st1 p i w1 i1 k0 k _ a1 hp hi hd hi1
        hc q1, ?_, q3⟩
      rw [q2, a2]
      push_cast
      ring

theorem perm_cons_eraseIdx {α : Type} (l : List α) : ∀ (idx : Nat) (p : α),
    l[idx]? = some p → List.Perm (p :: l.eraseIdx idx) l := by
  induction l with
  | nil => intro idx p h; simp at h
  | cons x xs ih =>
    intro idx p h
    cases idx with
    | zero =>
      simp only [List.getElem?_cons_zero, Option.some.injEq] at h
      subst h
      simp
    | succ n =>
      simp only [List.getElem?_cons_succ] at h
      simp only [List.eraseIdx_cons_succ]
      exact (List.Perm.swap x p _).trans ((ih n p h).cons x)

/-- Each answer of the store replaces one budget by smaller ones. -/
theorem loadStep_cutExpand (E : Env) (st1 st : LoadState) (h : LoadStep E st1 st) :
    Relation.CutExpand (fun a b : Nat => a < b) (budgets st1) (budgets st) := by
  obtain ⟨hb, fuel, idx, err, result, hc⟩ := h
  obtain ⟨p, i, w1, i1, new, hp, _, _, _, p1, _, r1⟩ :=
    getCallback_issues E fuel st idx err result st1 hc
      (fun p hp => hb p (List.getElem?_mem hp))
  refine ⟨((new.map (fun q => q.depthLeft.toNat) : List Nat) : Multiset Nat),
    p.depthLeft.toNat, ?_, ?_⟩
  · intro a ha
    simp only [Multiset.mem_coe, List.mem_map] at ha
    obtain ⟨q, hq, hqa⟩ := ha
    obtain ⟨k, q0, _, q2, q3⟩ := r1 q hq
    omega
  · unfold budgets
    rw [p1]
    have hperm := perm_cons_eraseIdx st.pending idx p hp
    have h2 : List.Perm
        ((st.pending.eraseIdx idx ++ new).map (fun p => p.depthLeft.toNat) ++ [p.depthLeft.toNat])
        (st.pending.map (fun p => p.depthLeft.toNat) ++ new.map (fun q => q.depthLeft.toNat)) := by
      have h3 := (hperm.map (fun p => p.depthLeft.toNat)).append_right
        (new.map (fun q => q.depthLeft.toNat))
      simp only [List.map_cons, List.cons_append] at h3
      refine List.Perm.trans ?_ h3
      simp only [List.map_append]
      exact List.perm_append_singleton _ _
    rw [← Multiset.coe_singleton, Multiset.coe_add, Multiset.coe_add]
    exact Multiset.coe_eq_coe.2 h2

/-- The answers of the store cannot go on for ever. -/
theorem loadStep_wf (E : Env) : WellFounded (LoadStep E) :=
  Subrelation.wf (fun {a b} h => loadStep_cutExpand E a b h)
    (InvImage.wf budgets (WellFounded.cutExpand Nat.lt_wfRel.wf))

theorem height_le_heightList (xs : List Val) : ∀ x ∈ xs, x.height ≤ Val.heightList xs := by
  induction xs with
  | nil => intro x hx; cases hx
  | cons y ys ih =>
    intro x hx
    simp only [Val.heightList]
    rcases List.mem_cons.1 hx with h | h
    · subst h; exact Nat.le_max_left _ _
    · exact Nat.le_trans (ih x h) (Nat.le_max_right _ _)

theorem height_le_heightFields (kvs : List (String × Val)) :
    ∀ kx ∈ kvs, kx.2.height ≤ Val.heightFields kvs := by
  induction kvs with
  | nil => intro x hx; cases hx
  | cons y ys ih =>
    obtain ⟨k, y⟩ := y
    intro x hx
    simp only [Val.heightFields]
    rcases List.mem_cons.1 hx with h | h
    · subst h; exact Nat.le_max_left _ _
    · exact Nat.le_trans (ih x h) (Nat.le_max_right _ _)

theorem joinsExt_refl (js : List Join) : JoinsExt js js :=
  fun _ jn h => ⟨jn, h, rfl⟩

theorem joinsExt_trans (a b c : List Join) (h1 : JoinsExt a b) (h2 : JoinsExt b c) :
    JoinsExt a c := by
  intro j jn h
  obtain ⟨jn1, q1, q2⟩ := h1 j jn h
  obtain ⟨jn2, q3, q4⟩ := h2 j jn1 q1
  exact ⟨jn2, q3, q4.trans q2⟩

theorem joinsExt_set (js : List Join) (j : Nat) (jn jn2 : Join) (h : js[j]? = some jn)
    (hp : jn2.parent = jn.parent) : JoinsExt js (js.set j jn2) := by
  intro k kn hk
  by_cases hjk : j = k
  · subst hjk
    rw [h] at hk
    cases hk
    have hlt := getElem?_lt _ _ _ h
    exact ⟨jn2, by simp [List.getElem?_set, hlt], hp⟩
  · exact ⟨kn, by rw [List.getElem?_set_ne hjk]; exact hk, rfl⟩

theorem joinsExt_append (js : List Join) (new : List Join) : JoinsExt js (js ++ new) := by
  intro k kn hk
  have hlt := getElem?_lt _ _ _ hk
  exact ⟨kn, by rw [List.getElem?_append_left hlt]; exact hk, rfl⟩

theorem chainLE_ext (js js1 : List Join) (cb : Cont) (c : Nat) (h : ChainLE js cb c)
    (he : JoinsExt js js1) : ChainLE js1 cb c := by
  induction h with
  | user c => exact ChainLE.user c
  | join j jn c hj _ ih =>
    obtain ⟨jn1, q1, q2⟩ := he j jn hj
    exact ChainLE.join j jn1 c q1 (by rw [q2]; exact ih)

theorem chainLE_new (js : List Join) (cb : Cont) (c : Nat) (jn : Join) (h : ChainLE js cb c)
    (hp : jn.parent = cb) : ChainLE (js ++ [jn]) (.join js.length) (c + 1) := by
  refine ChainLE.join js.length jn c (by simp) ?_
  rw [hp]
  exact chainLE_ext _ _ _ _ h (joinsExt_append js [jn])

theorem invoke_ext (n : Nat) : ∀ (st : LoadState) (cb : Cont) (err : Obx) (st1 : LoadState),
    invoke n st cb err = .ok st1 → JoinsExt st.joins st1.joins := by
  induction n with
  | zero =>
    intro st cb err st1 h
    simp [invoke] at h
  | succ n ih =>
    intro st cb err st1 h
    cases cb with
    | user =>
      simp only [invoke, Except.ok.injEq] at h
      subst h
      exact joinsExt_refl _
    | join j =>
      simp only [invoke] at h
      cases hj : st.joins[j]? with
      | none => rw [hj] at h; cases h
      | some jn =>
        rw [hj] at h
        simp only [] at h
        cases hk : jn.kind with
        | refs =>
          rw [hk] at h
          simp only [] at h
          split at h
          · refine joinsExt_trans _ _ _ ?_ (ih _ _ _ _ h)
            exact joinsExt_set _ j jn _ hj rfl
          · simp only [Except.ok.injEq] at h
            subst h
            exact joinsExt_set _ j jn _ hj rfl
        | arr =>
          rw [hk] at h
          simp only [] at h
          split at h
          · refine joinsExt_trans _ _ _ ?_ (ih _ _ _ _ h)
            exact joinsExt_set _ j jn _ hj rfl
          · simp only [Except.ok.injEq] at h
            subst h
            exact joinsExt_set _ j jn _ hj rfl
        | map =>
          rw [hk] at h
          simp only [] at h
          split at h
          · refine joinsExt_trans _ _ _ ?_ (ih _ _ _ _ h)
            exact joinsExt_set _ j jn _ hj rfl
          · simp only [Except.ok.injEq] at h
            subst h
            exact joinsExt_set _ j jn _ hj rfl

/-- A callback whose chain has at most `c` links runs to its end in a nesting of
`c + 1` calls. -/
theorem invoke_total (n : Nat) : ∀ (st : LoadState) (cb : Cont) (err : Obx) (c : Nat),
    ChainLE st.joins cb c → c + 1 ≤ n → invoke n st cb err ≠ .error .fuel := by
  induction n with
  | zero =>
    intro st cb err c _ hn
    omega
  | succ n ih =>
    intro st cb err c hc hn
    cases hc with
    | user c => simp [invoke]
    | join j jn c hj hpar =>
      simp only [invoke, hj]
      cases hk : jn.kind with
      | refs =>
        simp only []
        split
        · exact ih _ _ _ c (chainLE_ext _ _ _ _ hpar (joinsExt_set _ j jn _ hj rfl)) (by omega)
        · simp
      | arr =>
        simp only []
        split
        · exact ih _ _ _ c (chainLE_ext _ _ _ _ hpar (joinsExt_set _ j jn _ hj rfl)) (by omega)
        · simp
      | map =>
        simp only []
        split
        · exact ih _ _ _ c (chainLE_ext _ _ _ _ hpar (joinsExt_set _ j jn _ hj rfl)) (by omega)
        · simp

theorem loadEach_ext (rec : LoadFn) (hrec : LoadExt rec) (d : Int) (cb : Cont)
    (xs : List Val) : ∀ (st st1 : LoadState), loadEach rec d cb xs st = .ok st1 →
      JoinsExt st.joins st1.joins := by
  induction xs with
  | nil =>
    intro st st1 h
    simp only [loadEach, Except.ok.injEq] at h
    subst h
    exact joinsExt_refl _
  | cons x xs ih =>
    intro st st1 h
    simp only [loadEach] at h
    cases hr : rec st x d cb with
    | error e => rw [hr] at h; cases h
    | ok st2 =>
      rw [hr] at h
      simp only [] at h
      exact joinsExt_trans _ _ _ (hrec _ _ _ _ _ hr) (ih st2 st1 h)

theorem loadEntries_ext (rec : LoadFn) (hrec : LoadExt rec) (d : Int) (j : Nat)
    (xs : List (String × Val)) : ∀ (st st1 : LoadState),
      loadEntries rec d j xs st = .ok st1 → JoinsExt st.joins st1.joins := by
  induction xs with
  | nil =>
    intro st st1 h
    simp only [loadEntries, Except.ok.injEq] at h
    subst h
    exact joinsExt_refl _
  | cons kx xs ih =>
    obtain ⟨key, x⟩ := kx
    intro st st1 h
    simp only [loadEntries] at h
    cases hj : st.joins[j]? with
    | none => rw [hj] at h; cases h
    | some jn =>
      rw [hj] at h
      simp only [] at h
      split at h
      · cases h
      · rename_i st2 hr
        refine joinsExt_trans _ _ _ ?_ (joinsExt_trans _ _ _ (hrec _ _ _ _ _ hr) (ih st2 st1 h))
        exact joinsExt_set _ j jn _ hj rfl

theorem loadRefs_ext (E : Env) (fuel : Nat) (rec : LoadFn) (hrec : LoadExt rec)
    (st : LoadState) (r : Nat) (d : Int) (cb : Cont) (st1 : LoadState)
    (h : _loadRefs E fuel rec st r d cb = .ok st1) : JoinsExt st.joins st1.joins := by
  unfold _loadRefs at h
  cases he : objToObx E fuel st.w [] (.inst r) (typeNameOf st.w (.inst r)) [] 0 with
  | error e => rw [he] at h; cases h
  | ok res =>
    obtain ⟨doc, w1, refs⟩ := res
    rw [he] at h
    simp only [] at h
    split at h
    · have h2 := invoke_ext fuel _ _ _ _ h
      exact h2
    · have h2 := loadEach_ext rec hrec _ _ _ _ _ h
      exact joinsExt_trans _ _ _ (joinsExt_append _ _) h2

theorem load_ext (E : Env) (n : Nat) : LoadExt (_load E n) := by
  induction n with
  | zero =>
    intro st obj d cb st1 h
    simp [_load] at h
  | succ n ih =>
    intro st obj d cb st1 h
    simp only [_load] at h
    split at h
    · exact invoke_ext (n + 1) _ _ _ _ h
    · split at h
      · cases obj with
        | prim p => cases h
        | arr xs => cases h
        | map kvs => cases h
        | inst r =>
          simp only [] at h
          cases hi : st.w.heap[r]? with
          | none => rw [hi] at h; cases h
          | some i =>
            rw [hi] at h
            simp only [] at h
            split at h
            · exact loadRefs_ext E (n + 1) _ ih st r d cb st1 h
            · cases hm : modelKey E st.w r with
              | error e => rw [hm] at h; simp at h
              | ok res =>
                obtain ⟨key, w1⟩ := res
                rw [hm] at h
                cases hl : E.lookup i.type with
                | none => rw [hl] at h; simp at h
                | some info =>
                  rw [hl] at h
                  simp only [Except.ok.injEq] at h
                  subst h
                  exact joinsExt_refl _
      · cases obj with
        | prim p =>
          simp only [Except.ok.injEq] at h
          subst h
          exact joinsExt_refl _
        | arr xs =>
          exact joinsExt_trans _ _ _ (joinsExt_append _ _) (loadEach_ext _ ih _ _ _ _ _ h)
        | map kvs =>
          exact joinsExt_trans _ _ _ (joinsExt_append _ _) (loadEntries_ext _ ih _ _ _ _ _ h)
        | inst r =>
          exact joinsExt_trans _ _ _ (joinsExt_append _ _) (loadEntries_ext _ ih _ _ _ _ _ h)

theorem getField_not_fuel (E : Env) (w : World) (r : Nat) (f : String) :
    getField E w r f ≠ .error .fuel := by
  unfold getField
  repeat' split
  all_goals first | (simp; done) | (intro hx; dsimp only at hx; split at hx <;> cases hx)

theorem modelCheckRequired_not_fuel (E : Env) (r : Nat) (fs : List String) :
    ∀ w, modelCheckRequired E r fs w ≠ .error .fuel := by
  induction fs with
  | nil => intro w; simp [modelCheckRequired]
  | cons f fs ih =>
    intro w
    simp only [modelCheckRequired]
    cases hg : getField E w r f with
    | error e =>
      simp only []
      intro hc
      cases hc
      exact getField_not_fuel E w r f hg
    | ok res =>
      obtain ⟨v, w1⟩ := res
      simp only []
      split
      · exact ih w1
      · simp

theorem modelKeyIds_not_fuel (E : Env) (r : Nat) (fs : List String) :
    ∀ w key, modelKeyIds E r fs w key ≠ .error .fuel := by
  induction fs with
  | nil => intro w key; simp [modelKeyIds]
  | cons f fs ih =>
    intro w key
    simp only [modelKeyIds]
    cases hg : getField E w r f with
    | error e =>
      simp only []
      intro hc
      cases hc
      exact getField_not_fuel E w r f hg
    | ok res =>
      obtain ⟨v, w1⟩ := res
      simp only []
      exact ih w1 _

/-- The function `modelKey` makes no nested calls that could run out. -/
theorem modelKey_not_fuel (E : Env) (w : World) (r : Nat) : modelKey E w r ≠ .error .fuel := by
  unfold modelKey
  cases hi : w.heap[r]? with
  | none => simp
  | some i =>
    simp only []
    split
    · simp
    · cases hl : E.lookup i.type with
      | none => simp
      | some info =>
        simp only []
        cases hc : modelCheckRequired E r info.required w with
        | error e =>
          simp only []
          intro hx
          cases hx
          exact modelCheckRequired_not_fuel E r _ w hc
        | ok w1 =>
          simp only []
          cases hk : modelKeyIds E r info.id w1 info.name with
          | error e =>
            simp only []
            intro hx
            cases hx
            exact modelKeyIds_not_fuel E r _ w1 _ hk
          | ok res =>
            obtain ⟨key, w2⟩ := res
            simp only []
            cases hi2 : w2.heap[r]? with
            | none => simp
            | some i2 => simp

theorem loadEach_total (rec : LoadFn) (hext : LoadExt rec) (d : Int) (cb : Cont) (c : Nat)
    (xs : List Val)
    (hrec : ∀ st x, x ∈ xs → ChainLE st.joins cb c → rec st x d cb ≠ .error .fuel) :
    ∀ st, ChainLE st.joins cb c → loadEach rec d cb xs st ≠ .error .fuel := by
  induction xs with
  | nil => intro st _; simp [loadEach]
  | cons x xs ih =>
    intro st hc
    simp only [loadEach]
    cases hr : rec st x d cb with
    | error e =>
      simp only []
      intro hx
      cases hx
      exact hrec st x (List.mem_cons_self _ _) hc hr
    | ok st2 =>
      simp only []
      exact ih (fun st y hy hc2 => hrec st y (List.mem_cons_of_mem _ hy) hc2) st2
        (chainLE_ext _ _ _ _ hc (hext _ _ _ _ _ hr))

theorem loadEntries_total (rec : LoadFn) (hext : LoadExt rec) (d : Int) (j : Nat) (c : Nat)
    (xs : List (String × Val))
    (hrec : ∀ st kx, kx ∈ xs → ChainLE st.joins (.join j) c →
      rec st kx.2 d (.join j) ≠ .error .fuel) :
    ∀ st, ChainLE st.joins (.join j) c → loadEntries rec d j xs st ≠ .error .fuel := by
  induction xs with
  | nil => intro st _; simp [loadEntries]
  | cons kx xs ih =>
    obtain ⟨key, x⟩ := kx
    intro st hc
    simp only [loadEntries]
    cases hj : st.joins[j]? with
    | none => simp
    | some jn =>
      simp only []
      have hc1 : ChainLE (st.joins.set j { jn with count := jn.count + 1 }) (.join j) c :=
        chainLE_ext _ _ _ _ hc (joinsExt_set _ j jn _ hj rfl)
      split
      · rename_i e hr
        intro hx
        cases hx
        exact hrec _ (key, x) (List.mem_cons_self _ _) hc1 hr
      · rename_i st2 hr
        exact ih (fun st y hy hc2 => hrec st y (List.mem_cons_of_mem _ hy) hc2) st2
          (chainLE_ext _ _ _ _ hc1 (hext _ _ _ _ _ hr))

/-- With a budget of at least 1, `_loadRefs` with a loader that does not run out on the
references does not run out. -/
theorem loadRefs_total (E : Env) (F : Nat) (hF : EncTotal E F) (fuel : Nat) (rec : LoadFn)
    (hext : LoadExt rec) (st : LoadState) (r : Nat) (d : Int) (cb : Cont) (c : Nat)
    (hc : ChainLE st.joins cb c) (hfuel : F ≤ fuel) (hfuel2 : c + 1 ≤ fuel)
    (hrec : ∀ st2 x, ChainLE st2.joins (.join st.joins.length) (c + 1) →
      rec st2 (.inst x) (d - 1) (.join st.joins.length) ≠ .error .fuel) :
    _loadRefs E fuel rec st r d cb ≠ .error .fuel := by
  unfold _loadRefs
  cases he : objToObx E fuel st.w [] (.inst r) (typeNameOf st.w (.inst r)) [] 0 with
  | error e =>
    simp only []
    intro hx
    cases hx
    exact hF fuel hfuel st.w r he
  | ok res =>
    obtain ⟨doc, w1, refs⟩ := res
    simp only []
    split
    · exact invoke_total fuel _ _ _ c hc hfuel2
    · refine loadEach_total rec hext _ _ (c + 1) _ ?_ _ ?_
      · intro st2 x hx hc2
        obtain ⟨y, _, hy⟩ := List.mem_map.1 hx
        subst hy
        exact hrec st2 y hc2
      · exact chainLE_new _ _ _ _ hc rfl

/-- The recursion of `_load` ends: a call with a budget that is not negative does not
run out of nesting when `loadFuel` levels are allowed. -/
theorem load_total (E : Env) (F : Nat) (hF : EncTotal E F) (n : Nat) :
    ∀ (st : LoadState) (obj : Val) (d : Int) (cb : Cont) (c : Nat), 0 ≤ d →
      ChainLE st.joins cb c → loadFuel F c d obj ≤ n → _load E n st obj d cb ≠ .error .fuel := by
  induction n with
  | zero =>
    intro st obj d cb c _ _ hn
    unfold loadFuel at hn
    omega
  | succ n ih =>
    intro st obj d cb c hd hc hn
    unfold loadFuel at hn
    simp only [_load]
    split
    · exact invoke_total (n + 1) _ _ _ c hc (by omega)
    · rename_i hd0
      split
      · cases obj with
        | prim p => simp
        | arr xs => simp
        | map kvs => simp
        | inst r =>
          simp only []
          cases hi : st.w.heap[r]? with
          | none => simp
          | some i =>
            simp only []
            split
            · refine loadRefs_total E F hF (n + 1) _ (load_ext E n) st r d cb c hc (by omega)
                (by omega) ?_
              intro st2 x hc2
              refine ih st2 (.inst x) (d - 1) _ (c + 1) (by omega) hc2 ?_
              unfold loadFuel
              simp only [Val.height] at hn ⊢
              omega
            · have hmk := modelKey_not_fuel E st.w r
              cases hm : modelKey E st.w r with
              | error e =>
                simp only []
                intro hx
                cases hx
                exact hmk hm
              | ok res =>
                obtain ⟨key, w1⟩ := res
                cases hl : E.lookup i.type with
                | none => simp
                | some info => simp
      · cases obj with
        | prim p => simp
        | arr xs =>
          simp only []
          refine loadEach_total _ (load_ext E n) _ _ (c + 1) _ ?_ _ ?_
          · intro st2 x hx hc2
            refine ih st2 x d _ (c + 1) hd hc2 ?_
            have hh := height_le_heightList xs x hx
            unfold loadFuel
            simp only [Val.height] at hn
            omega
          · exact chainLE_new _ _ _ _ hc rfl
        | map kvs =>
          simp only []
          refine loadEntries_total _ (load_ext E n) _ _ (c + 1) _ ?_ _ ?_
          · intro st2 kx hx hc2
            refine ih st2 kx.2 d _ (c + 1) hd hc2 ?_
            have hh := height_le_heightFields kvs kx hx
            unfold loadFuel
            simp only [Val.height] at hn
            omega
          · exact chainLE_new _ _ _ _ hc rfl
        | inst r =>
          simp only []
          refine loadEntries_total _ (load_ext E n) _ _ (c + 1) _ ?_ _ ?_
          · intro st2 kx hx hc2
            simp [Val.entries] at hx
          · exact chainLE_new _ _ _ _ hc rfl

theorem objToObx_field_total (E : Env) (m : Nat) (w : World) (refs : List Nat) (v : Val)
    (t : String) (s : List String)
    (ht : (∃ info2, E.lookup t = some info2 ∧ info2.embed = false ∧ t ≠ "") ∨
      (E.lookup t = none ∧ t ∈ CORETYPES)) :
    objToObx E (m + 1) w refs v t s 1 ≠ .error .fuel := by
  have hne : t ≠ "" := by
    rcases ht with ⟨_, _, _, h⟩ | ⟨_, h⟩
    · exact h
    · intro h2
      rw [h2] at h
      simp [CORETYPES] at h
  simp only [objToObx, hne, if_false]
  split
  · simp
  · simp
  · rcases ht with ⟨info2, hl, hemb, _⟩ | ⟨hl, hc⟩
    · simp only [hl, Option.isSome_some, if_true, objToObx_Otto]
      cases v with
      | prim p => simp
      | arr xs => simp
      | map kvs => simp
      | inst r =>
        simp only []
        cases hi : w.heap[r]? with
        | none => simp
        | some i =>
          simp only []
          split
          · simp
          · simp only [hemb, and_true, Nat.lt_one_iff, gt_iff_lt, Nat.lt_irrefl, if_true,
              Nat.zero_lt_one]
            cases hm : modelKey E w r with
            | error e =>
              simp only []
              intro hx
              cases hx
              exact modelKey_not_fuel E w r hm
            | ok res => simp
    · have h1 : t ≠ "List" := by intro h2; rw [h2] at hc; simp [CORETYPES] at hc
      have h2 : t ≠ "Map" := by intro h2; rw [h2] at hc; simp [CORETYPES] at hc
      have h3 : t ≠ "Mixed" := by intro h2; rw [h2] at hc; simp [CORETYPES] at hc
      have h4 : CORETYPES.contains t = true := by simpa using hc
      simp only [hl, Option.isSome_none, h1, h2, h3, h4, if_false, if_true, Bool.false_eq_true]
      split <;> simp

theorem encodeFields_total (rec : EncFn) (r : Nat) (fs : List Field)
    (hrec : ∀ f ∈ fs, ∀ w refs v, rec w refs v f.type f.subtypes 1 ≠ .error .fuel) :
    ∀ w refs out, encodeFields rec r 0 fs w refs out ≠ .error .fuel := by
  induction fs with
  | nil => intro w refs out; simp [encodeFields]
  | cons f fs ih =>
    intro w refs out
    simp only [encodeFields]
    cases hv : (w.heap[r]?).bind (fun i => i.values) with
    | none => simp
    | some vals =>
      simp only []
      cases hr : rec w refs ((lookupProp vals f.name).getD (.prim .undefined)) f.type f.subtypes
          (0 + 1) with
      | error e =>
        simp only []
        intro hx
        cases hx
        exact hrec f (List.mem_cons_self _ _) _ _ _ hr
      | ok res =>
        obtain ⟨o, w1, refs1⟩ := res
        simp only []
        exact ih (fun g hg => hrec g (List.mem_cons_of_mem _ hg)) _ _ _

theorem objToObx_Otto_total (E : Env) (hE : ShallowSchema E) (m : Nat) (w : World)
    (refs : List Nat) (r : Nat) (t : String) :
    objToObx_Otto E (objToObx E (m + 1)) w refs (.inst r) t 0 ≠ .error .fuel := by
  unfold objToObx_Otto
  cases hl : E.lookup t with
  | none => simp
  | some info =>
    simp only []
    cases hi : w.heap[r]? with
    | none => simp
    | some i =>
      simp only []
      split
      · simp
      · simp only [Nat.lt_irrefl, gt_iff_lt, false_and, if_false]
        have hmem := lookup_mem E t info hl
        have hf := encodeFields_total (objToObx E (m + 1)) r info.schema
          (fun f hf w refs v => objToObx_field_total E m w refs v f.type f.subtypes
            (hE info hmem f hf)) w refs []
        cases he : encodeFields (objToObx E (m + 1)) r 0 info.schema w refs [] with
        | error e =>
          simp only []
          intro hx
          cases hx
          exact hf he
        | ok res => simp

theorem objToObx_Map_inst (rec : EncFn) (w : World) (refs : List Nat) (r : Nat)
    (s : List String) (d : Nat) : objToObx_Map rec w refs (.inst r) s d ≠ .error .fuel := by
  simp [objToObx_Map, Val.entries, encodeEntries]

theorem objToObx_List_inst (E : Env) (rec : EncFn) (w : World) (refs : List Nat) (r : Nat)
    (s : List String) (d : Nat) : objToObx_List E rec w refs (.inst r) s d ≠ .error .fuel := by
  simp [objToObx_List, Val.elems, loopLength, encodeElems]

/-- In a registry whose fields have core types or types stored by reference, the
encoding of an instance at depth 0 nests two calls. -/
theorem encTotal_of_shallow (E : Env) (hE : ShallowSchema E) : EncTotal E 2 := by
  intro m hm w r
  obtain ⟨k, rfl⟩ : ∃ k, m = k + 2 := ⟨m - 2, by omega⟩
  rw [objToObx]
  dsimp only
  generalize (if typeNameOf w (.inst r) = "" then "Mixed" else typeNameOf w (.inst r)) = T
  split
  · exact objToObx_Otto_total E hE k w [] r _
  · split
    · exact objToObx_List_inst E _ w [] r _ _
    · split
      · exact objToObx_Map_inst _ w [] r _ _
      · split
        · unfold objToObx_Mixed
          split
          · exact objToObx_Otto_total E hE k w [] r _
          · exact objToObx_Map_inst _ w [] r _ _
        · split <;> simp

theorem demoEnv_shallow : ShallowSchema demoEnv := by
  intro info hi f hf
  simp only [demoEnv, List.mem_singleton] at hi
  subst hi
  simp only [personInfo, List.mem_cons, List.mem_singleton, List.not_mem_nil, or_false] at hf
  rcases hf with h | h | h
  · subst h
    right
    exact ⟨rfl, by decide⟩
  · subst h
    left
    exact ⟨personInfo, rfl, rfl, by decide⟩
  · subst h
    right
    exact ⟨rfl, by decide⟩

theorem loadEach_budget (rec : LoadFn) (d : Int) (cb : Cont) (xs : List Val) :
    ∀ st, loadEach rec d cb xs st = loadEach (fun s o _ c => rec s o d c) d cb xs st := by
  induction xs with
  | nil => intro st; rfl
  | cons x xs ih =>
    intro st
    simp only [loadEach]
    cases hr : rec st x d cb with
    | error e => rfl
    | ok st2 => exact ih st2

theorem loadRefs_budget (E : Env) (fuel : Nat) (rec : LoadFn) (st : LoadState) (r : Nat)
    (d : Int) (cb : Cont) :
    _loadRefs E fuel rec st r d cb =
      _loadRefs E fuel (fun s o _ c => rec s o (d - 1) c) st r d cb := by
  unfold _loadRefs
  cases he : objToObx E fuel st.w [] (.inst r) (typeNameOf st.w (.inst r)) [] 0 with
  | error e => rfl
  | ok res =>
    obtain ⟨doc, w1, refs⟩ := res
    simp only []
    split
    · rfl
    · exact loadEach_budget rec (d - 1) _ _ _

theorem cycStart : load demoEnv 4 cycWorld (.inst 0) (some 2) = .ok cycPending := by
  decide

/-- C19: for every budget `D ≥ 1`, every root and every state `load` starts in, and
whatever the store answers: `_loadRefs` calls the loader with the budget lowered by
exactly one; the elements of an array or object are strictly lower values; every call of
`bucket.get` that a call of `_load` with budget `d ≥ 0` issues is for an instance some
`k` hops away and carries the budget `d - k ≥ 1`, so none is issued at budget 0; in every
state of a call of `load`, every waiting `bucket.get` is for an instance `k ≤ D` hops
from the root; the answers of the store cannot go on for ever; and a call of `_load`
returns within `loadFuel` nested calls when the encoder does. -/
theorem load_depth_limited (E : Env) (w0 : World) (root : Val) (D : Int) (hD : 1 ≤ D) :
    (∀ (fuel : Nat) (rec : LoadFn) (st : LoadState) (r : Nat) (d : Int) (cb : Cont),
      _loadRefs E fuel rec st r d cb =
        _loadRefs E fuel (fun s o _ c => rec s o (d - 1) c) st r d cb) ∧
    (∀ (xs : List Val), ∀ x ∈ xs, x.height < (Val.arr xs).height) ∧
    (∀ (kvs : List (String × Val)), ∀ kx ∈ kvs, kx.2.height < (Val.map kvs).height) ∧
    (∀ (n : Nat) (st : LoadState) (obj : Val) (d : Int) (cb : Cont) (st1 : LoadState),
      0 ≤ d → _load E n st obj d cb = .ok st1 → Issues E st obj d st1) ∧
    (∀ st, LoadRun E w0 root D st → ∀ p ∈ st.pending, ∃ k : Nat,
      Within E w0 root D st k p.obj ∧ p.depthLeft = D - k ∧ 1 ≤ p.depthLeft ∧ (k : Int) ≤ D) ∧
    WellFounded (fun st1 st : LoadState => LoadRun E w0 root D st ∧
      ∃ (fuel idx : Nat) (err result : Obx), getCallback E fuel st idx err result = .ok st1) ∧
    (∀ (F n : Nat) (st : LoadState) (obj : Val) (d : Int) (cb : Cont) (c : Nat),
      EncTotal E F → 0 ≤ d → ChainLE st.joins cb c → loadFuel F c d obj ≤ n →
      _load E n st obj d cb ≠ .error .fuel) := by
  refine ⟨loadRefs_budget E, ?_, ?_, fun n => load_issues E n, ?_, ?_, ?_⟩
  · intro xs x hx
    have h := height_le_heightList xs x hx
    simp only [Val.height]
    omega
  · intro kvs kx hx
    have h := height_le_heightFields kvs kx hx
    simp only [Val.height]
    omega
  · intro st hst p hp
    obtain ⟨k, q1, q2, q3⟩ := loadRun_budget E w0 root D hD st hst p hp
    exact ⟨k, q1, q2, q3, by omega⟩
  · refine Subrelation.wf ?_ (loadStep_wf E)
    intro st1 st h
    exact ⟨fun p hp => (loadRun_budget E w0 root D hD st h.1 p hp).choose_spec.2.2, h.2⟩
  · intro F n st obj d cb c hF hd hc hn
    exact load_total E F hF n st obj d cb c hd hc hn

/-- The theorem of C19 at the two `Person`s that refer to each other, with the
budget 2: the call for `b` waits one hop from the root with the budget 1, and `_load`
returns within 7 nested calls. -/
theorem load_depth_limited_witness :
    (1 : Int) ≤ 2 ∧ LoadRun demoEnv cycWorld (.inst 0) 2 cycPending ∧
    (∀ p ∈ cycPending.pending, ∃ k : Nat,
      Within demoEnv cycWorld (.inst 0) 2 cycPending k p.obj ∧ p.depthLeft = 2 - k ∧
      1 ≤ p.depthLeft ∧ (k : Int) ≤ 2) ∧
    _load demoEnv 7 (LoadState.init cycWorld) (.inst 0) 2 .user ≠ .error .fuel :=
  ⟨by decide, LoadRun.start 4 cycPending cycStart,
   (load_depth_limited demoEnv cycWorld (.inst 0) 2 (by decide)).2.2.2.2.1 cycPending
     (LoadRun.start 4 cycPending cycStart),
   (load_depth_limited demoEnv cycWorld (.inst 0) 2 (by decide)).2.2.2.2.2.2 2 7
     (LoadState.init cycWorld) (.inst 0) 2 .user 0 (encTotal_of_shallow demoEnv demoEnv_shallow)
     (by decide) (ChainLE.user 0) (by decide)⟩

end Ottoman
